import Mathlib

/-!
Verification of the core data structures of the `reservoir` distributed
weighted-reservoir-sampling library: the order-statistic B+ tree
(`reservoir/btree.hpp`) and the distributed selection protocols
(`reservoir/ams_select.hpp`, `reservoir/ams_select_multi.hpp`,
`reservoir/select_helpers.hpp`) together with the engine seeding logic
(`reservoir/reservoir.hpp`).

Keys are IEEE doubles in the source, used only through `operator<`; we model
them as integers (`Int`), which preserves the order-theoretic behaviour the
verified properties depend on (duplicates included).  The sentinel values
`std::numeric_limits<Key>::max()` / `::min()` used by the selection protocol
are modelled as the top and bottom elements of `WithBot (WithTop Int)`.

The B+ tree is modelled structurally: a node is either a leaf holding the
slot array of (key, payload) entries, or an inner node holding the separator
key array, the child array and the cached `subtree_size` field.  The doubly
linked list of leaves is not modelled separately: its contents equal the
in-order sequence of leaves, which is what the verified claims refer to.
The `level` field stored on C++ nodes equals the height of the node for
every well-formed tree and is modelled by the recursive `height` function.
-/

namespace Spec2Proof

/-- Tree key (models the C++ `double` sort key through its order). -/
abbrev Key := Int

/-- Opaque payload (the source uses a 32-bit integer id). -/
abbrev Payload := Int

/-- A leaf slot entry: (key, payload), cf. `value_type` of `btree_multimap`. -/
abbrev Entry := Key × Payload

/-- `key_of_value::get`: extract the key of an entry. -/
def entryKey (e : Entry) : Key := e.1

/-- A B+ tree node, cf. `struct LeafNode` / `struct InnerNode` in
`reservoir/btree.hpp`.  A leaf holds the used slots of its `slotdata` array;
an inner node holds the used `slotkey` entries, the used `childid` entries
and the cached `subtree_size` field. -/
inductive BNode where
  | leaf (slots : List Entry)
  | inner (keys : List Key) (children : List BNode) (subtreeSize : Nat)

/-- The contribution of a child node to its parent's `subtree_size`:
`child->slotuse` if the child is a leaf, else `child->subtree_size`
(cf. `sum_subtree_size` in btree.hpp, which switches on `inner->level == 1`;
for well-formed trees that test is equivalent to the child being a leaf). -/
def BNode.childSize : BNode → Nat
  | .leaf es => es.length
  | .inner _ _ s => s

/-- Sum of `childSize` over a child array, cf. `sum_subtree_size(inner)`. -/
def csSum (cs : List BNode) : Nat :=
  match cs with
  | [] => 0
  | c :: cs => c.childSize + csSum cs

mutual

/-- In-order flattening of a node: the sequence of (key, payload) entries as
iterated by the leaf chain. -/
def BNode.toList : BNode → List Entry
  | .leaf es => es
  | .inner _ cs _ => toListL cs

/-- In-order flattening of a child array. -/
def toListL : List BNode → List Entry
  | [] => []
  | c :: cs => c.toList ++ toListL cs

end

mutual

/-- The true number of entries below a node (what `verify_node` recomputes). -/
def BNode.count : BNode → Nat
  | .leaf es => es.length
  | .inner _ cs _ => countL cs

/-- The true number of entries below a child array. -/
def countL : List BNode → Nat
  | [] => 0
  | c :: cs => c.count + countL cs

end

mutual

/-- Height of a node; equals the `level` field of the C++ node for every
well-formed tree (leaves are level 0). -/
def BNode.height : BNode → Nat
  | .leaf _ => 0
  | .inner _ cs _ => heightL cs + 1

/-- Height of the first child of a child array. -/
def heightL : List BNode → Nat
  | [] => 0
  | c :: _ => c.height

end

/-- First key below a node (default 0; well-formed nodes are nonempty). -/
def BNode.firstKeyD (n : BNode) : Key := (n.toList.map entryKey).headD 0

/-- Last key below a node, i.e. the maximum key for sorted contents
(what `verify_node` returns through `*maxkey`). -/
def BNode.lastKeyD (n : BNode) : Key := ((n.toList.map entryKey).getLast?).getD 0

/-- `Chain'`-style sortedness test for a key list (non-decreasing). -/
def chainLeB : List Key → Bool
  | [] => true
  | [_] => true
  | a :: b :: rest => decide (a ≤ b) && chainLeB (b :: rest)

/-- Separator invariant of `verify_node`: the separator key at slot `i`
equals the maximum key of child `i`'s subtree, and the minimum key of child
`i+1` is at least that separator.  Also forces
`keys.length + 1 = children.length`. -/
def sepOK : List Key → List BNode → Bool
  | [], [_] => true
  | k :: ks, c :: c' :: cs =>
      (c.lastKeyD == k) && decide (k ≤ c'.firstKeyD) && sepOK ks (c' :: cs)
  | _, _ => false

/-- All children have equal height (the C++ stores a `level` field and
`verify_node` checks `subnode->level + 1 == inner->level` for every child). -/
def heightsEq : List BNode → Bool
  | [] => true
  | [_] => true
  | a :: b :: rest => (a.height == b.height) && heightsEq (b :: rest)

mutual

/-- Well-formedness of a node, combining the `verify_node` invariants the
verified claims depend on: leaves are nonempty and sorted; an inner node has
a nonempty child array, one more child than keys, the cached `subtree_size`
equal to the sum of its children's contributions, children of equal height,
and correct separator keys. -/
def BNode.wfB : BNode → Bool
  | .leaf es => !es.isEmpty && chainLeB (es.map entryKey)
  | .inner ks cs s =>
      !cs.isEmpty && (ks.length + 1 == cs.length) && (s == csSum cs)
        && heightsEq cs && sepOK ks cs && wfL cs

/-- Well-formedness of every node of a child array. -/
def wfL : List BNode → Bool
  | [] => true
  | c :: cs => c.wfB && wfL cs

end

mutual

/-- The cached-size invariant alone (the part of `verify_node` that checks
`inner->subtree_size == subtree_size`, i.e. the recomputed sum): every inner
node's `subtree_size` equals the sum over its children of `slotuse` for leaf
children and `subtree_size` for inner children. -/
def BNode.sizeOK : BNode → Bool
  | .leaf _ => true
  | .inner _ cs s => (s == csSum cs) && sizeOKL cs

/-- `sizeOK` for every node of a child array. -/
def sizeOKL : List BNode → Bool
  | [] => true
  | c :: cs => c.sizeOK && sizeOKL cs

end

/-- The B+ tree: an optional root node (`root_ == nullptr` iff empty).
The `head_leaf_` / `tail_leaf_` pointers are determined by the in-order
leaf sequence and are not modelled separately. -/
structure BTree where
  root : Option BNode

/-- `BTree::size()` (btree.hpp:1447-1455): 0 for a null root, `slotuse` of a
leaf root, the cached `subtree_size` of an inner root. -/
def BTree.size (t : BTree) : Nat :=
  match t.root with
  | none => 0
  | some (.leaf es) => es.length
  | some (.inner _ _ s) => s

/-- `BTree::empty()`. -/
def BTree.empty (t : BTree) : Bool := t.size == 0

/-- In-order contents of the tree. -/
def BTree.toList (t : BTree) : List Entry :=
  match t.root with
  | none => []
  | some n => n.toList

/-- True entry count of the tree. -/
def BTree.count (t : BTree) : Nat :=
  match t.root with
  | none => 0
  | some n => n.count

/-- Well-formedness of the tree. -/
def BTree.wf (t : BTree) : Bool :=
  match t.root with
  | none => true
  | some n => n.wfB

/-- Cached-size invariant of the tree (`subtree_size` fields only). -/
def BTree.sizeInv (t : BTree) : Bool :=
  match t.root with
  | none => true
  | some n => n.sizeOK

mutual

/-- The `find_rank` descent from a node down to a leaf slot
(btree.hpp:4247-4273).  Returns the entry at the reached (leaf, slot)
position; `none` models the out-of-bounds undefined behaviour. -/
def BNode.findRankGo : BNode → Nat → Option Entry
  | .leaf es, r => es.get? r
  | .inner _ cs _, r => findRankL cs r

/-- The `find_rank` descent loops (btree.hpp:4247-4268): walk the child
array, descending into the first child whose contribution exceeds the
remaining rank, subtracting the contributions of the skipped children.  At
`level > 1` the contribution read is the child's `subtree_size`, at
`level == 1` it is the child's `slotuse`; `childSize` is exactly that value.
Returns `none` if the loop runs past the last child (unreachable for
well-formed trees and in-range ranks; undefined behaviour in the C++). -/
def findRankL : List BNode → Nat → Option Entry
  | [], _ => none
  | c :: cs, r =>
      if r < c.childSize then c.findRankGo r
      else findRankL cs (r - c.childSize)

end

/-- `BTree::find_rank(rank)` (btree.hpp:4241-4274): returns `end()` (here
`none`) if `rank >= size()`, else descends to the leaf slot holding the
element of the given rank and returns it (the C++ returns the iterator to
that slot). -/
def BTree.findRank (t : BTree) (r : Nat) : Option Entry :=
  if t.size ≤ r then none
  else
    match t.root with
    | none => none
    | some n => n.findRankGo r

/-! ### Basic lemmas about the tree model -/

mutual

theorem BNode.count_toList : ∀ n : BNode, n.count = n.toList.length
  | .leaf es => rfl
  | .inner _ cs _ => by
      simp only [BNode.count, BNode.toList]
      exact countL_toListL cs

theorem countL_toListL : ∀ cs : List BNode, countL cs = (toListL cs).length
  | [] => rfl
  | c :: cs => by
      simp only [countL, toListL, List.length_append]
      rw [BNode.count_toList c, countL_toListL cs]

end

mutual

theorem BNode.childSize_count : ∀ n : BNode, n.sizeOK = true → n.childSize = n.count
  | .leaf _, _ => rfl
  | .inner _ cs s, h => by
      simp only [BNode.sizeOK, Bool.and_eq_true, beq_iff_eq] at h
      simp only [BNode.childSize, BNode.count, h.1]
      exact csSum_countL cs h.2

theorem csSum_countL : ∀ cs : List BNode, sizeOKL cs = true → csSum cs = countL cs
  | [], _ => rfl
  | c :: cs, h => by
      simp only [sizeOKL, Bool.and_eq_true] at h
      simp only [csSum, countL]
      rw [BNode.childSize_count c h.1, csSum_countL cs h.2]

end

theorem isEmpty_false_ne_nil {α : Type} {l : List α} (h : l.isEmpty = false) :
    l ≠ [] := by
  intro hl
  subst hl
  simp at h

/-- Decomposition of the well-formedness of an inner node. -/
theorem wfB_inner_parts {ks : List Key} {cs : List BNode} {s : Nat}
    (h : (BNode.inner ks cs s).wfB = true) :
    cs ≠ [] ∧ ks.length + 1 = cs.length ∧ s = csSum cs ∧
      heightsEq cs = true ∧ sepOK ks cs = true ∧ wfL cs = true := by
  simp only [BNode.wfB, Bool.and_eq_true, Bool.not_eq_true', beq_iff_eq] at h
  exact ⟨isEmpty_false_ne_nil h.1.1.1.1.1, h.1.1.1.1.2, h.1.1.1.2, h.1.1.2,
    h.1.2, h.2⟩

/-- Decomposition of the well-formedness of a cons child list. -/
theorem wfL_cons_parts {c : BNode} {cs : List BNode}
    (h : wfL (c :: cs) = true) : c.wfB = true ∧ wfL cs = true := by
  rw [wfL, Bool.and_eq_true] at h
  exact h

mutual

theorem BNode.wfB_sizeOK : ∀ n : BNode, n.wfB = true → n.sizeOK = true
  | .leaf _, _ => rfl
  | .inner ks cs s, h => by
      obtain ⟨-, -, hs, -, -, hw⟩ := wfB_inner_parts h
      simp only [BNode.sizeOK, Bool.and_eq_true, beq_iff_eq]
      exact ⟨hs, wfL_sizeOKL cs hw⟩

theorem wfL_sizeOKL : ∀ cs : List BNode, wfL cs = true → sizeOKL cs = true
  | [], _ => rfl
  | c :: cs, h => by
      obtain ⟨h1, h2⟩ := wfL_cons_parts h
      simp only [sizeOKL, Bool.and_eq_true]
      exact ⟨BNode.wfB_sizeOK c h1, wfL_sizeOKL cs h2⟩

end

mutual

theorem BNode.wfB_toList_ne_nil : ∀ n : BNode, n.wfB = true → n.toList ≠ []
  | .leaf es, h => by
      simp only [BNode.wfB, Bool.and_eq_true, Bool.not_eq_true'] at h
      simpa [BNode.toList] using isEmpty_false_ne_nil h.1
  | .inner ks cs s, h => by
      obtain ⟨hne, -, -, -, -, hw⟩ := wfB_inner_parts h
      simpa [BNode.toList] using toListL_ne_nil cs hne hw

theorem toListL_ne_nil :
    ∀ cs : List BNode, cs ≠ [] → wfL cs = true → toListL cs ≠ []
  | [], h, _ => absurd rfl h
  | c :: cs, _, h => by
      obtain ⟨h1, _⟩ := wfL_cons_parts h
      simp only [toListL]
      intro hcontra
      rcases List.append_eq_nil.mp hcontra with ⟨hc1, _⟩
      exact BNode.wfB_toList_ne_nil c h1 hc1

end

/-! ### `find_rank` returns the element at the requested in-order rank -/

mutual

theorem BNode.findRankGo_toList :
    ∀ n : BNode, n.sizeOK = true → ∀ r, n.findRankGo r = n.toList.get? r
  | .leaf _, _, _ => rfl
  | .inner _ cs _, h, r => by
      simp only [BNode.sizeOK, Bool.and_eq_true] at h
      simp only [BNode.findRankGo, BNode.toList]
      exact findRankL_toListL cs h.2 r

theorem findRankL_toListL :
    ∀ cs : List BNode, sizeOKL cs = true → ∀ r,
      findRankL cs r = (toListL cs).get? r
  | [], _, r => by simp [findRankL, toListL]
  | c :: cs, h, r => by
      simp only [sizeOKL, Bool.and_eq_true] at h
      have hcs : c.childSize = c.toList.length := by
        rw [BNode.childSize_count c h.1, BNode.count_toList]
      simp only [findRankL, toListL]
      by_cases hr : r < c.childSize
      · rw [if_pos hr, BNode.findRankGo_toList c h.1 r,
          List.get?_append (hcs ▸ hr)]
      · rw [if_neg hr, findRankL_toListL cs h.2 (r - c.childSize),
          List.get?_append_right (by omega : c.toList.length ≤ r), hcs]

end

/-! ### Well-formed trees have sorted contents -/

theorem chainLeB_chain' : ∀ l : List Key, chainLeB l = true → List.Chain' (· ≤ ·) l
  | [], _ => List.chain'_nil
  | [_], _ => List.chain'_singleton _
  | a :: b :: rest, h => by
      simp only [chainLeB, Bool.and_eq_true, decide_eq_true_eq] at h
      exact List.Chain'.cons h.1 (chainLeB_chain' (b :: rest) h.2)

theorem lastKeyD_getLast? (n : BNode) (hne : n.toList ≠ []) :
    (n.toList.map entryKey).getLast? = some n.lastKeyD := by
  have hne' : n.toList.map entryKey ≠ [] := by simpa using hne
  have h : (n.toList.map entryKey).getLast? =
      some ((n.toList.map entryKey).getLast hne') :=
    List.getLast?_eq_getLast _ hne'
  rw [h]
  simp [BNode.lastKeyD, h]

theorem firstKeyD_head? (n : BNode) (hne : n.toList ≠ []) :
    (n.toList.map entryKey).head? = some n.firstKeyD := by
  have hne' : n.toList.map entryKey ≠ [] := by simpa using hne
  rcases List.exists_cons_of_ne_nil hne' with ⟨a, l, hl⟩
  simp [BNode.firstKeyD, hl]

mutual

theorem BNode.wfB_chain :
    ∀ n : BNode, n.wfB = true → List.Chain' (· ≤ ·) (n.toList.map entryKey)
  | .leaf es, h => by
      simp only [BNode.wfB, Bool.and_eq_true] at h
      simpa [BNode.toList] using chainLeB_chain' _ h.2
  | .inner ks cs s, h => by
      simp only [BNode.wfB, Bool.and_eq_true] at h
      simpa [BNode.toList] using sepOK_chain ks cs h.1.2 h.2

theorem sepOK_chain :
    ∀ (ks : List Key) (cs : List BNode), sepOK ks cs = true → wfL cs = true →
      List.Chain' (· ≤ ·) ((toListL cs).map entryKey)
  | [], [c], _, hw => by
      obtain ⟨h1, -⟩ := wfL_cons_parts hw
      simpa [toListL] using BNode.wfB_chain c h1
  | k :: ks, c :: c' :: cs, hs, hw => by
      simp only [sepOK, Bool.and_eq_true, beq_iff_eq, decide_eq_true_eq] at hs
      obtain ⟨h1, hw'⟩ := wfL_cons_parts hw
      obtain ⟨h2, -⟩ := wfL_cons_parts hw'
      have hc := BNode.wfB_chain c h1
      have hrest := sepOK_chain ks (c' :: cs) hs.2 hw'
      have hcne := BNode.wfB_toList_ne_nil c h1
      have hc'ne := BNode.wfB_toList_ne_nil c' h2
      simp only [toListL, List.map_append]
      rw [List.chain'_append]
      refine ⟨hc, by simpa [toListL, List.map_append] using hrest, ?_⟩
      intro x hx y hy
      rw [lastKeyD_getLast? c hcne] at hx
      have hy' : y = c'.firstKeyD := by
        have hh : (List.map entryKey c'.toList ++
            List.map entryKey (toListL cs)).head? = some y := by
          simpa [toListL] using hy
        rw [List.head?_append_of_ne_nil (List.map entryKey c'.toList)
          (by simpa using hc'ne)] at hh
        rw [firstKeyD_head? c' hc'ne] at hh
        exact (Option.some_inj.mp hh).symm
      have hx' : x = c.lastKeyD := (Option.some_inj.mp hx.symm)
      rw [hx', hy']
      calc c.lastKeyD = k := hs.1.1
        _ ≤ c'.firstKeyD := hs.1.2
  | [], [], hs, _ => by simp [sepOK] at hs
  | [], _ :: _ :: _, hs, _ => by simp [sepOK] at hs
  | _ :: _, [], hs, _ => by simp [sepOK] at hs
  | _ :: _, [_], hs, _ => by simp [sepOK] at hs

end

theorem BTree.wf_sorted (t : BTree) (h : t.wf = true) :
    List.Sorted (· ≤ ·) (t.toList.map entryKey) := by
  rw [List.Sorted, ← List.chain'_iff_pairwise]
  cases ht : t.root with
  | none => simp [BTree.toList, ht]
  | some n =>
      simp only [BTree.wf, ht] at h
      simpa [BTree.toList, ht] using BNode.wfB_chain n h

theorem BTree.size_toList (t : BTree) (h : t.sizeInv = true) :
    t.size = t.toList.length := by
  cases ht : t.root with
  | none => simp [BTree.size, BTree.toList, ht]
  | some n =>
      simp only [BTree.sizeInv, ht] at h
      cases n with
      | leaf es => simp [BTree.size, BTree.toList, ht, BNode.toList]
      | inner ks cs s =>
          simp only [BNode.sizeOK, Bool.and_eq_true, beq_iff_eq] at h
          simp only [BTree.size, BTree.toList, ht, BNode.toList]
          rw [h.1, csSum_countL cs h.2, countL_toListL cs]

theorem BTree.wf_sizeInv (t : BTree) (h : t.wf = true) : t.sizeInv = true := by
  cases ht : t.root with
  | none => simp [BTree.sizeInv, ht]
  | some n =>
      simp only [BTree.wf, ht] at h
      simp only [BTree.sizeInv, ht]
      exact BNode.wfB_sizeOK n h

theorem BTree.findRank_toList (t : BTree) (h : t.sizeInv = true) (r : Nat) :
    t.findRank r = t.toList.get? r := by
  rw [BTree.findRank]
  by_cases hr : t.size ≤ r
  · rw [if_pos hr]
    have := BTree.size_toList t h
    rw [eq_comm, List.get?_eq_none]
    omega
  · rw [if_neg hr]
    cases ht : t.root with
    | none => simp [BTree.size, ht] at hr
    | some n =>
        simp only [BTree.sizeInv, ht] at h
        simp only [BTree.toList, ht]
        exact BNode.findRankGo_toList n h r

/-- C4: for every well-formed tree and every rank `r` with `0 ≤ r ≤ size`,
`find_rank(r)` returns an iterator whose key equals the `r`-th smallest key
in the tree's sorted order when `r < size` (the tree's contents are sorted,
and the returned entry is the one at index `r` of the in-order contents),
and returns `end()` (modelled as `none`) when `r = size`. -/
theorem C4_find_rank_correct (t : BTree) (r : Nat)
    (hwf : t.wf = true) (hr : r ≤ t.size) :
    List.Sorted (· ≤ ·) (t.toList.map entryKey) ∧
      (r < t.size → t.findRank r = t.toList.get? r ∧
        (t.toList.get? r).isSome = true) ∧
      (r = t.size → t.findRank r = none) := by
  have hsz := BTree.wf_sizeInv t hwf
  have hlen := BTree.size_toList t hsz
  refine ⟨BTree.wf_sorted t hwf, fun hlt => ?_, fun heq => ?_⟩
  · refine ⟨BTree.findRank_toList t hsz r, ?_⟩
    rw [List.get?_eq_get (by omega)]
    rfl
  · rw [BTree.findRank, if_pos (by omega)]

/-- Witness for C4 at a concrete two-level tree and rank 2. -/
theorem C4_find_rank_correct_witness :
    (BTree.mk (some (BNode.inner [2]
      [BNode.leaf [(1, 10), (2, 20)], BNode.leaf [(3, 30), (4, 40)]] 4))).wf
        = true ∧
    (2 : Nat) ≤ (BTree.mk (some (BNode.inner [2]
      [BNode.leaf [(1, 10), (2, 20)], BNode.leaf [(3, 30), (4, 40)]] 4))).size ∧
    (BTree.mk (some (BNode.inner [2]
      [BNode.leaf [(1, 10), (2, 20)], BNode.leaf [(3, 30), (4, 40)]] 4))).findRank
        2 = some (3, 30) := by
  refine ⟨by decide, by decide, ?_⟩
  have h := C4_find_rank_correct (BTree.mk (some (BNode.inner [2]
    [BNode.leaf [(1, 10), (2, 20)], BNode.leaf [(3, 30), (4, 40)]] 4))) 2
    (by decide) (by decide)
  have h2 := (h.2.1 (by decide)).1
  rw [h2]
  decide

/-! ### Split and join (btree.hpp:3356-3668, 3725-4200)

The node-capacity constants below are the values of `btree_default_traits`
for the reservoir's instantiation `btree_multimap<double, uint32_t>`
(key 8 bytes, value pair 16 bytes, pointers 8 bytes, 256-byte nodes):
16 slots per leaf and inner node, minimum occupancy 8. -/

/-- `leaf_slotmax` (btree.hpp:94, 188). -/
def leafSlotMax : Nat := 16

/-- `leaf_slotmin = leaf_slotmax / 2` (btree.hpp:197). -/
def leafSlotMin : Nat := 8

/-- `inner_slotmax` (btree.hpp:98, 192). -/
def innerSlotMax : Nat := 16

/-- `inner_slotmin = inner_slotmax / 2` (btree.hpp:202). -/
def innerSlotMin : Nat := 8

/-- The midpoint choice of the insert-path `split_inner_node`
(btree.hpp:2118-2131): `mid = slotuse / 2`, decremented when the insert
slot falls into the smaller left part of an uneven split. -/
def splitInnerMid (slotuse addslot : Nat) : Nat :=
  let mid := slotuse / 2
  if addslot ≤ mid ∧ slotuse - (mid + 1) < mid then mid - 1 else mid

/-- Result of `join_leaves` / `join_inner` (btree.hpp:3731): either the two
nodes were merged into one (`MERGED`), or two nodes remain — possibly
redistributed (`SPLITED`) or untouched (`NO_DIFF`), which all callers treat
identically — together with the separator key extracted for the parent. -/
inductive JoinRes where
  | merged (m : BNode)
  | two (l r : BNode) (sep : Key)

/-- `join_leaves` (btree.hpp:3736-3814): merge the right leaf into the left
if capacity permits; otherwise refill an underflowing side from the other
(the new separator is the last key of the resulting left leaf); otherwise
leave both unchanged with the caller's key as separator. -/
def joinLeaves (l r : List Entry) (key : Key) : JoinRes :=
  if l.length + r.length ≤ leafSlotMax then .merged (.leaf (l ++ r))
  else if l.length < leafSlotMin then
    let j := leafSlotMin - l.length
    .two (.leaf (l ++ r.take j)) (.leaf (r.drop j))
      (((l ++ r.take j).map entryKey).getLast?.getD 0)
  else if r.length < leafSlotMin then
    let j := leafSlotMin - r.length
    .two (.leaf (l.take (l.length - j))) (.leaf (l.drop (l.length - j) ++ r))
      (((l.take (l.length - j)).map entryKey).getLast?.getD 0)
  else .two (.leaf l) (.leaf r) key

/-- `join_inner` (btree.hpp:3819-3921) on the used key/child/subtree-size
data of the left and right inner nodes: merge (pulling the separator `key`
down, adding the cached subtree sizes) if capacity permits, else refill an
underflowing side, transferring the moved children's cached sizes
(`shift_subtree_size`) and extracting the key left over as the new
separator. -/
def joinInner (lk : List Key) (lcs : List BNode) (ls : Nat)
    (rk : List Key) (rcs : List BNode) (rs : Nat) (key : Key) : JoinRes :=
  if lk.length + rk.length + 1 ≤ innerSlotMax then
    .merged (.inner (lk ++ key :: rk) (lcs ++ rcs) (ls + rs))
  else if lk.length < innerSlotMin then
    let j := innerSlotMin - lk.length
    let moved := csSum (rcs.take j)
    .two (.inner (lk ++ key :: rk.take (j - 1)) (lcs ++ rcs.take j)
        (ls + moved))
      (.inner (rk.drop j) (rcs.drop j) (rs - moved))
      ((rk.take j).getLast?.getD 0)
  else if rk.length < innerSlotMin then
    let j := innerSlotMin - rk.length
    let keep := lk.length - j
    let moved := csSum (lcs.drop (keep + 1))
    .two (.inner (lk.take keep) (lcs.take (keep + 1)) (ls - moved))
      (.inner (lk.drop (keep + 1) ++ key :: rk) (lcs.drop (keep + 1) ++ rcs)
        (rs + moved))
      ((lk.get? keep).getD 0)
  else .two (.inner lk lcs ls) (.inner rk rcs rs) key

mutual

/-- `join_greater_descend` (btree.hpp:4136-4200), functionally: returns the
modified node together with an optional overflow (new sibling, separator)
to be inserted at the parent.  While the current node is higher than the
joined tree, descend into the last child, adding the joined tree's size to
the cached `subtree_size` on the way (the addition is overwritten by the
recomputation if the node is split by the returning overflow); at equal
levels, `join_inner` / `join_leaves` combines the nodes.  `none` models the
undefined behaviour on malformed input (wrong-kind casts, missing
children). -/
def joinGreaterDescend (key : Key) (other : BNode) :
    BNode → Option (BNode × Option (BNode × Key))
  | .leaf es =>
      match other with
      | .leaf os =>
          match joinLeaves es os key with
          | .merged m => some (m, none)
          | .two l r nk => some (l, some (r, nk))
      | .inner _ _ _ => none
  | .inner ks cs s =>
      if other.height < (BNode.inner ks cs s).height then
        match jgdLast key other cs with
        | none => none
        | some (cs', none) =>
            some (.inner ks cs' (s + other.childSize), none)
        | some (cs', some (nc, nk)) =>
            if ks.length = innerSlotMax then
              let mid := splitInnerMid ks.length ks.length
              some (.inner (ks.take mid) (cs'.take (mid + 1))
                  (csSum (cs'.take (mid + 1))),
                some (.inner (ks.drop (mid + 1) ++ [nk])
                    (cs'.drop (mid + 1) ++ [nc])
                    (csSum (cs'.drop (mid + 1)) + nc.childSize),
                  (ks.get? mid).getD 0))
            else
              some (.inner (ks ++ [nk]) (cs' ++ [nc])
                (s + other.childSize), none)
      else
        match other with
        | .inner ok ocs os =>
            match joinInner ks cs s ok ocs os key with
            | .merged m => some (m, none)
            | .two l r nk => some (l, some (r, nk))
        | .leaf _ => none

/-- Walk to the last child and apply `joinGreaterDescend` there, returning
the updated child array and the propagated overflow. -/
def jgdLast (key : Key) (other : BNode) :
    List BNode → Option (List BNode × Option (BNode × Key))
  | [] => none
  | [c] =>
      match joinGreaterDescend key other c with
      | none => none
      | some (c', r) => some ([c'], r)
  | c :: c2 :: cs =>
      match jgdLast key other (c2 :: cs) with
      | none => none
      | some (cs', r) => some (c :: cs', r)

end

/-- `join_less_descend` (btree.hpp:4040-4132), the mirror image: descend
into the first child; a returning overflow is prepended (the split of a
full node chooses the decremented midpoint because the insert slot 0 lies
in the left part, and the new child's size is added to the left part). -/
def joinLessDescend (key : Key) (other : BNode) :
    BNode → Option (BNode × Option (BNode × Key))
  | .leaf es =>
      match other with
      | .leaf os =>
          match joinLeaves os es key with
          | .merged m => some (m, none)
          | .two l r nk => some (l, some (r, nk))
      | .inner _ _ _ => none
  | .inner ks cs s =>
      if other.height < (BNode.inner ks cs s).height then
        match cs with
        | [] => none
        | c0 :: rest =>
            match joinLessDescend key other c0 with
            | none => none
            | some (c', none) =>
                some (.inner ks (c' :: rest) (s + other.childSize), none)
            | some (c', some (nc, nk)) =>
                if ks.length = innerSlotMax then
                  let mid := splitInnerMid ks.length 0
                  some (.inner (nk :: ks.take mid)
                      (c' :: nc :: rest.take mid)
                      (csSum (c' :: rest.take mid) + nc.childSize),
                    some (.inner (ks.drop (mid + 1)) (rest.drop mid)
                        (csSum (rest.drop mid)),
                      (ks.get? mid).getD 0))
                else
                  some (.inner (nk :: ks) (c' :: nc :: rest)
                    (s + other.childSize), none)
      else
        match other with
        | .inner ok ocs os =>
            match joinInner ok ocs os ks cs s key with
            | .merged m => some (m, none)
            | .two l r nk => some (l, some (r, nk))
        | .leaf _ => none

/-- `new_root` (btree.hpp:1209-1233): a fresh root over the old root and
the overflow sibling; its `subtree_size` sums the two children's
contributions. -/
def newRootN (l r : BNode) (k : Key) : BNode :=
  .inner [k] [l, r] (l.childSize + r.childSize)

/-- `join_greater` (btree.hpp:3699-3723) plus `join_greater_start`
(btree.hpp:3993-4036) on whole trees: an empty side short-circuits
(swap / no-op), otherwise the descend runs and a propagated overflow
creates a new root. -/
def joinGreaterT (t : BTree) (key : Key) (other : BTree) : Option BTree :=
  match t.root with
  | none => some other
  | some rt =>
      match other.root with
      | none => some t
      | some ot =>
          match joinGreaterDescend key ot rt with
          | none => none
          | some (n', none) => some ⟨some n'⟩
          | some (n', some (nc, nk)) => some ⟨some (newRootN n' nc nk)⟩

/-- `join_less` (btree.hpp:3671-3695) plus `join_less_start`
(btree.hpp:3925-3989) on whole trees: `t.join_less(key, other)` prepends
the smaller tree `other` to `t`. -/
def joinLessT (t : BTree) (key : Key) (other : BTree) : Option BTree :=
  match t.root with
  | none => some other
  | some rt =>
      match other.root with
      | none => some t
      | some ot =>
          match joinLessDescend key ot rt with
          | none => none
          | some (n', none) => some ⟨some n'⟩
          | some (n', some (nc, nk)) => some ⟨some (newRootN n' nc nk)⟩

/-- The public `join` (btree.hpp:3644-3666): empty sides short-circuit;
otherwise the taller side runs the corresponding one-sided join with the
last key of the left (smaller-keys) tree, which is `this`. -/
def BTree.join (t other : BTree) : Option BTree :=
  if t.empty = true then some other
  else if other.empty = true then some t
  else
    match (t.toList.map entryKey).getLast? with
    | none => none
    | some lastk =>
        match t.root, other.root with
        | some rt, some ro =>
            if ro.height ≤ rt.height then joinGreaterT t lastk other
            else joinLessT other lastk t
        | _, _ => none

/-- `find_upper` over plain tree keys (the linear-search form), as used by
`split_recursive` to choose the descent slot. -/
def findUpperP : List Key → Key → Nat
  | [], _ => 0
  | k :: ks, key => if k ≤ key then findUpperP ks key + 1 else 0

/-- Assembly of the strictly-left part of `split_inner_node`
(btree.hpp:3497-3560) from the walked prefix (keys and children before the
descent slot): empty for slot 0; a lone child collapses to the root of the
left part; otherwise an inner node whose `subtree_size` is recomputed.  The
second component is the extracted separator key `slotkey[slot-1]` (the
default `Key()` = 0 when the part is empty, matching the uninitialised
`TPairTreeKey`). -/
def assembleLeft : List Key → List BNode → BTree × Key
  | [], _ => (⟨none⟩, 0)
  | [k], [] => (⟨none⟩, k)
  | [k], c :: _ => (⟨some c⟩, k)
  | pk, pc => (⟨some (.inner pk.dropLast pc (csSum pc))⟩, pk.getLast?.getD 0)

/-- Assembly of the strictly-right part of `split_inner_node` from the
stop key (`slotkey[slot]`, the extracted separator) and the suffix keys and
children after the descent slot. -/
def assembleRight (k : Key) : List Key → List BNode → BTree × Key
  | [], [] => (⟨none⟩, k)
  | [], c :: _ => (⟨some c⟩, k)
  | sk, sc => (⟨some (.inner sk sc (csSum sc))⟩, k)

mutual

/-- `split_recursive` (btree.hpp:3461-3493): at a leaf, partition the slots
at the `find_upper` position; at an inner node, partition the node around
the descent slot, split the slot's child recursively, and join the child's
two halves onto the two partitioned sides (`join_greater` on the left,
`join_less` on the right). -/
def splitRecursive (key : Key) : BNode → Option (BTree × BTree)
  | .leaf es =>
      let slot := findUpperP (es.map entryKey) key
      some (if slot = 0 then ⟨none⟩ else ⟨some (.leaf (es.take slot))⟩,
        if slot = es.length then ⟨none⟩ else ⟨some (.leaf (es.drop slot))⟩)
  | .inner ks cs _ => splitRecGo key ks cs [] []

/-- The walk of `split_recursive` over an inner node's keys and children:
skip while the key is `≤` the split key (accumulating the prefix in
reverse), then split the child at the stop slot and join the halves onto
the assembled left and right parts. -/
def splitRecGo (key : Key) :
    List Key → List BNode → List Key → List BNode → Option (BTree × BTree)
  | [], [c], pk, pc =>
      match splitRecursive key c with
      | none => none
      | some (bl, br) =>
          let lp := assembleLeft pk.reverse pc.reverse
          match joinGreaterT lp.1 lp.2 bl with
          | none => none
          | some lt => some (lt, br)
  | [], [], _, _ => none
  | [], _ :: _ :: _, _, _ => none
  | _ :: _, [], _, _ => none
  | k :: ks, c :: cs, pk, pc =>
      if k ≤ key then splitRecGo key ks cs (k :: pk) (c :: pc)
      else
        match splitRecursive key c with
        | none => none
        | some (bl, br) =>
            let lp := assembleLeft pk.reverse pc.reverse
            let rp := assembleRight k ks cs
            match joinGreaterT lp.1 lp.2 bl with
            | none => none
            | some lt =>
                match joinLessT rp.1 rp.2 br with
                | none => none
                | some rt => some (lt, rt)

end

/-- The public `split` (btree.hpp:3356-3397), i.e. the spec's
`split_at_key`: an empty tree yields two empty trees (the out-parameters
keep their initial empty state), otherwise `split_recursive` partitions the
root. -/
def BTree.splitKey (t : BTree) (key : Key) : Option (BTree × BTree) :=
  match t.root with
  | none => some (⟨none⟩, ⟨none⟩)
  | some n => splitRecursive key n

/-! ### Shape and capacity invariants used by the split/join proofs

`shOK` is the part of the node invariant that the join/split machinery
preserves unconditionally and that its control flow depends on: nonempty
child arrays, the key/child count link, correct cached `subtree_size`
fields, and equal child heights.  (Sortedness and separator exactness are
properties of the original tree only and are not needed for the joins to
run.)  `capB` is the physical slot-capacity bound of the C++ node arrays
(`slotuse <= slotmax`), which holds for every real tree by construction. -/

mutual

/-- Shape invariant of a node (see section comment). -/
def BNode.shOK : BNode → Bool
  | .leaf _ => true
  | .inner ks cs s =>
      !cs.isEmpty && (ks.length + 1 == cs.length) && (s == csSum cs)
        && heightsEq cs && shOKL cs

/-- `shOK` for every node of a child array. -/
def shOKL : List BNode → Bool
  | [] => true
  | c :: cs => c.shOK && shOKL cs

end

/-- Shape invariant of a tree. -/
def BTree.shInv (t : BTree) : Bool :=
  match t.root with
  | none => true
  | some n => n.shOK

mutual

/-- Capacity bound of a node: used slots never exceed the physical slot
array size (`slotuse <= leaf_slotmax` / `inner_slotmax`). -/
def BNode.capB : BNode → Bool
  | .leaf es => decide (es.length ≤ leafSlotMax)
  | .inner ks cs _ => decide (ks.length ≤ innerSlotMax) && capL cs

/-- `capB` for every node of a child array. -/
def capL : List BNode → Bool
  | [] => true
  | c :: cs => c.capB && capL cs

end

/-- Capacity bound of a tree. -/
def BTree.cap (t : BTree) : Bool :=
  match t.root with
  | none => true
  | some n => n.capB

/-- The split predicate: entries whose key is at most the split key. -/
def keyLeB (key : Key) : Entry → Bool := fun e => decide (e.1 ≤ key)

theorem shOK_inner_parts {ks : List Key} {cs : List BNode} {s : Nat}
    (h : (BNode.inner ks cs s).shOK = true) :
    cs ≠ [] ∧ ks.length + 1 = cs.length ∧ s = csSum cs ∧
      heightsEq cs = true ∧ shOKL cs = true := by
  simp only [BNode.shOK, Bool.and_eq_true, Bool.not_eq_true', beq_iff_eq] at h
  exact ⟨isEmpty_false_ne_nil h.1.1.1.1, h.1.1.1.2, h.1.1.2, h.1.2, h.2⟩

theorem shOK_inner_of_parts {ks : List Key} {cs : List BNode} {s : Nat}
    (h1 : cs ≠ []) (h2 : ks.length + 1 = cs.length) (h3 : s = csSum cs)
    (h4 : heightsEq cs = true) (h5 : shOKL cs = true) :
    (BNode.inner ks cs s).shOK = true := by
  simp only [BNode.shOK, Bool.and_eq_true, Bool.not_eq_true', beq_iff_eq]
  exact ⟨⟨⟨⟨by simpa [List.isEmpty_iff] using h1, h2⟩, h3⟩, h4⟩, h5⟩

theorem shOKL_cons_parts {c : BNode} {cs : List BNode}
    (h : shOKL (c :: cs) = true) : c.shOK = true ∧ shOKL cs = true := by
  rw [shOKL, Bool.and_eq_true] at h
  exact h

theorem shOKL_append : ∀ A B : List BNode, shOKL (A ++ B) = (shOKL A && shOKL B)
  | [], B => by simp [shOKL]
  | c :: A, B => by
      show (c.shOK && shOKL (A ++ B)) = (c.shOK && shOKL A && shOKL B)
      rw [shOKL_append A B, Bool.and_assoc]

theorem wfL_append : ∀ A B : List BNode, wfL (A ++ B) = (wfL A && wfL B)
  | [], B => by simp [wfL]
  | c :: A, B => by
      show (c.wfB && wfL (A ++ B)) = (c.wfB && wfL A && wfL B)
      rw [wfL_append A B, Bool.and_assoc]

theorem capL_append : ∀ A B : List BNode, capL (A ++ B) = (capL A && capL B)
  | [], B => by simp [capL]
  | c :: A, B => by
      show (c.capB && capL (A ++ B)) = (c.capB && capL A && capL B)
      rw [capL_append A B, Bool.and_assoc]

theorem capL_cons_parts {c : BNode} {cs : List BNode}
    (h : capL (c :: cs) = true) : c.capB = true ∧ capL cs = true := by
  rw [capL, Bool.and_eq_true] at h
  exact h

mutual

theorem BNode.wfB_shOK : ∀ n : BNode, n.wfB = true → n.shOK = true
  | .leaf _, _ => rfl
  | .inner ks cs s, h => by
      obtain ⟨h1, h2, h3, h4, -, h6⟩ := wfB_inner_parts h
      exact shOK_inner_of_parts h1 h2 h3 h4 (wfL_shOKL cs h6)

theorem wfL_shOKL : ∀ cs : List BNode, wfL cs = true → shOKL cs = true
  | [], _ => rfl
  | c :: cs, h => by
      obtain ⟨h1, h2⟩ := wfL_cons_parts h
      simp only [shOKL, Bool.and_eq_true]
      exact ⟨BNode.wfB_shOK c h1, wfL_shOKL cs h2⟩

end

mutual

theorem BNode.shOK_sizeOK : ∀ n : BNode, n.shOK = true → n.sizeOK = true
  | .leaf _, _ => rfl
  | .inner ks cs s, h => by
      obtain ⟨-, -, h3, -, h5⟩ := shOK_inner_parts h
      simp only [BNode.sizeOK, Bool.and_eq_true, beq_iff_eq]
      exact ⟨h3, shOKL_sizeOKL cs h5⟩

theorem shOKL_sizeOKL : ∀ cs : List BNode, shOKL cs = true → sizeOKL cs = true
  | [], _ => rfl
  | c :: cs, h => by
      obtain ⟨h1, h2⟩ := shOKL_cons_parts h
      simp only [sizeOKL, Bool.and_eq_true]
      exact ⟨BNode.shOK_sizeOK c h1, shOKL_sizeOKL cs h2⟩

end

theorem BTree.shInv_sizeInv (t : BTree) (h : t.shInv = true) :
    t.sizeInv = true := by
  cases ht : t.root with
  | none => simp [BTree.sizeInv, ht]
  | some n =>
      simp only [BTree.shInv, ht] at h
      simp only [BTree.sizeInv, ht]
      exact BNode.shOK_sizeOK n h

theorem BTree.wf_shInv (t : BTree) (h : t.wf = true) : t.shInv = true := by
  cases ht : t.root with
  | none => simp [BTree.shInv, ht]
  | some n =>
      simp only [BTree.wf, ht] at h
      simp only [BTree.shInv, ht]
      exact BNode.wfB_shOK n h

theorem BNode.shOK_childSize (n : BNode) (h : n.shOK = true) :
    n.childSize = n.toList.length := by
  rw [BNode.childSize_count n (BNode.shOK_sizeOK n h), BNode.count_toList]

theorem csSum_append : ∀ A B : List BNode, csSum (A ++ B) = csSum A + csSum B
  | [], B => by simp [csSum]
  | c :: A, B => by
      show c.childSize + csSum (A ++ B) = c.childSize + csSum A + csSum B
      rw [csSum_append A B]
      omega

theorem toListL_append : ∀ A B : List BNode,
    toListL (A ++ B) = toListL A ++ toListL B
  | [], B => by simp [toListL]
  | c :: A, B => by
      show c.toList ++ toListL (A ++ B) = c.toList ++ toListL A ++ toListL B
      rw [toListL_append A B, List.append_assoc]

/-! ### Height bookkeeping helpers -/

theorem heightsEq_mem : ∀ cs : List BNode, heightsEq cs = true →
    ∀ c ∈ cs, c.height = heightL cs
  | [], _, c, hc => by cases hc
  | [a], _, c, hc => by
      rcases List.mem_singleton.mp hc with rfl
      rfl
  | a :: b :: rest, h, c, hc => by
      simp only [heightsEq, Bool.and_eq_true, beq_iff_eq] at h
      rcases List.mem_cons.mp hc with rfl | hc'
      · rfl
      · have := heightsEq_mem (b :: rest) h.2 c hc'
        simp only [heightL] at this ⊢
        rw [this, ← h.1]

theorem heightsEq_of_mem : ∀ (cs : List BNode) (n : Nat),
    (∀ c ∈ cs, c.height = n) → heightsEq cs = true
  | [], _, _ => rfl
  | [_], _, _ => rfl
  | a :: b :: rest, n, h => by
      simp only [heightsEq, Bool.and_eq_true, beq_iff_eq]
      refine ⟨?_, heightsEq_of_mem (b :: rest) n ?_⟩
      · rw [h a (List.mem_cons_self a _), h b (List.mem_cons_of_mem a
          (List.mem_cons_self b _))]
      · intro c hc
        exact h c (List.mem_cons_of_mem a hc)

theorem heightL_of_mem (cs : List BNode) (n : Nat) (hne : cs ≠ [])
    (h : ∀ c ∈ cs, c.height = n) : heightL cs = n := by
  cases cs with
  | nil => exact absurd rfl hne
  | cons c cs => exact h c (List.mem_cons_self c cs)

theorem heightL_append_of_ne_nil (A B : List BNode) (hne : A ≠ []) :
    heightL (A ++ B) = heightL A := by
  cases A with
  | nil => exact absurd rfl hne
  | cons c A => rfl

/-! ### takeWhile / dropWhile composition helpers -/

theorem takeWhile_append_all {α : Type} (p : α → Bool) :
    ∀ A B : List α, (∀ a ∈ A, p a = true) →
      (A ++ B).takeWhile p = A ++ B.takeWhile p
  | [], B, _ => rfl
  | a :: A, B, h => by
      have hpa := h a (List.mem_cons_self a A)
      simp only [List.cons_append, List.takeWhile_cons, hpa, if_true]
      rw [takeWhile_append_all p A B (fun x hx => h x (List.mem_cons_of_mem a hx))]

theorem dropWhile_append_all {α : Type} (p : α → Bool) :
    ∀ A B : List α, (∀ a ∈ A, p a = true) →
      (A ++ B).dropWhile p = B.dropWhile p
  | [], B, _ => rfl
  | a :: A, B, h => by
      have hpa := h a (List.mem_cons_self a A)
      simp only [List.cons_append, List.dropWhile_cons, hpa, if_true]
      exact dropWhile_append_all p A B (fun x hx => h x (List.mem_cons_of_mem a hx))

theorem takeWhile_append_stop {α : Type} (p : α → Bool) :
    ∀ A B : List α, (∃ a ∈ A, p a = false) →
      (A ++ B).takeWhile p = A.takeWhile p
  | [], _, h => by simp at h
  | a :: A, B, h => by
      cases hpa : p a with
      | false => simp [List.takeWhile_cons, hpa]
      | true =>
          have : ∃ x ∈ A, p x = false := by
            rcases h with ⟨x, hx, hpx⟩
            rcases List.mem_cons.mp hx with rfl | hx'
            · rw [hpa] at hpx; cases hpx
            · exact ⟨x, hx', hpx⟩
          simp only [List.cons_append, List.takeWhile_cons, hpa, if_true]
          rw [takeWhile_append_stop p A B this]

theorem dropWhile_append_stop {α : Type} (p : α → Bool) :
    ∀ A B : List α, (∃ a ∈ A, p a = false) →
      (A ++ B).dropWhile p = A.dropWhile p ++ B
  | [], _, h => by simp at h
  | a :: A, B, h => by
      cases hpa : p a with
      | false => simp [List.dropWhile_cons, hpa]
      | true =>
          have : ∃ x ∈ A, p x = false := by
            rcases h with ⟨x, hx, hpx⟩
            rcases List.mem_cons.mp hx with rfl | hx'
            · rw [hpa] at hpx; cases hpx
            · exact ⟨x, hx', hpx⟩
          simp only [List.cons_append, List.dropWhile_cons, hpa, if_true]
          exact dropWhile_append_stop p A B this

/-! ### Order facts about well-formed nodes -/

theorem chain_le_getLast : ∀ l : List Key, List.Chain' (· ≤ ·) l →
    ∀ b, l.getLast? = some b → ∀ a ∈ l, a ≤ b
  | [], _, b, hb => by simp at hb
  | [x], _, b, hb => by
      have hxb : x = b := by simpa using hb
      intro a ha
      rcases List.mem_singleton.mp ha with rfl
      exact le_of_eq hxb
  | x :: y :: rest, hc, b, hb => by
      rw [List.chain'_cons] at hc
      have hb' : (y :: rest).getLast? = some b := by
        simpa [List.getLast?_cons_cons] using hb
      intro a ha
      rcases List.mem_cons.mp ha with rfl | ha'
      · exact le_trans hc.1
          (chain_le_getLast (y :: rest) hc.2 b hb' y (List.mem_cons_self y rest))
      · exact chain_le_getLast (y :: rest) hc.2 b hb' a ha'

theorem getLast?_map' {α β : Type} (f : α → β) :
    ∀ l : List α, (l.map f).getLast? = (l.getLast?).map f
  | [] => rfl
  | [a] => rfl
  | a :: b :: l => by
      rw [List.map_cons, List.map_cons, List.getLast?_cons_cons,
        List.getLast?_cons_cons, ← List.map_cons]
      exact getLast?_map' f (b :: l)

theorem wfB_le_lastKeyD (n : BNode) (h : n.wfB = true) :
    ∀ e ∈ n.toList, e.1 ≤ n.lastKeyD := by
  intro e he
  have hc := BNode.wfB_chain n h
  have hne := BNode.wfB_toList_ne_nil n h
  exact chain_le_getLast _ hc _ (lastKeyD_getLast? n hne) e.1
    (List.mem_map_of_mem entryKey he)

theorem wfB_lastKey_mem (n : BNode) (h : n.wfB = true) :
    ∃ e ∈ n.toList, e.1 = n.lastKeyD := by
  have hne := BNode.wfB_toList_ne_nil n h
  have hsome : n.toList.getLast? = some (n.toList.getLast hne) :=
    List.getLast?_eq_getLast _ hne
  refine ⟨n.toList.getLast hne, List.getLast_mem hne, ?_⟩
  have hmap := lastKeyD_getLast? n hne
  rw [getLast?_map' entryKey n.toList, hsome] at hmap
  exact Option.some_inj.mp hmap

theorem sorted_dropWhile_gt (key : Key) :
    ∀ l : List Entry, List.Pairwise (· ≤ ·) (l.map entryKey) →
      ∀ e ∈ l.dropWhile (keyLeB key), key < e.1
  | [], _, e, he => by simp at he
  | a :: l, hp, e, he => by
      rw [List.map_cons, List.pairwise_cons] at hp
      cases hpa : keyLeB key a with
      | true =>
          rw [List.dropWhile_cons, hpa, if_pos rfl] at he
          exact sorted_dropWhile_gt key l hp.2 e he
      | false =>
          rw [List.dropWhile_cons, hpa] at he
          simp only [if_false, Bool.false_eq_true] at he
          have hka : key < a.1 := by
            have h' : decide (a.1 ≤ key) = false := hpa
            exact not_le.mp (of_decide_eq_false h')
          rcases List.mem_cons.mp he with rfl | he'
          · exact hka
          · exact lt_of_lt_of_le hka
              (hp.1 e.1 (List.mem_map_of_mem entryKey he'))

/-! ### `find_upper` as a takeWhile length -/

theorem findUpperP_len (key : Key) : ∀ es : List Entry,
    findUpperP (es.map entryKey) key = (es.takeWhile (keyLeB key)).length
  | [] => rfl
  | e :: es => by
      by_cases h : e.1 ≤ key
      · simp only [List.map_cons, findUpperP, entryKey, if_pos h,
          List.takeWhile_cons, keyLeB, decide_eq_true h, if_true,
          List.length_cons]
        rw [findUpperP_len key es]
      · simp only [List.map_cons, findUpperP, entryKey, if_neg h,
          List.takeWhile_cons, keyLeB, decide_eq_false h, if_false]
        rfl

/-! ### Walking separator invariants along a prefix -/

theorem sepOK_cons_parts {k : Key} {ks : List Key} {cs : List BNode}
    (h : sepOK (k :: ks) cs = true) :
    ∃ c c' cs', cs = c :: c' :: cs' ∧ c.lastKeyD = k ∧ k ≤ c'.firstKeyD ∧
      sepOK ks (c' :: cs') = true := by
  match cs with
  | [] => simp [sepOK] at h
  | [c] => simp [sepOK] at h
  | c :: c' :: cs' =>
      simp only [sepOK, Bool.and_eq_true, beq_iff_eq, decide_eq_true_eq] at h
      exact ⟨c, c', cs', rfl, h.1.1, h.1.2, h.2⟩

theorem sepOK_skip : ∀ (P : List Key) (C : List BNode), P.length = C.length →
    ∀ ks cs, sepOK (P ++ ks) (C ++ cs) = true → sepOK ks cs = true
  | [], [], _, ks, cs, h => by simpa using h
  | [], _ :: _, hlen, _, _, _ => by simp at hlen
  | _ :: _, [], hlen, _, _, _ => by simp at hlen
  | p :: P, c :: C, hlen, ks, cs, h => by
      rcases sepOK_cons_parts (by simpa using h) with
        ⟨c0, c1, cs0, heq, -, -, hrest⟩
      have h2 : C ++ cs = c1 :: cs0 := (List.cons.injEq _ _ _ _ ▸ heq).2
      rw [← h2] at hrest
      exact sepOK_skip P C (by simpa using hlen) ks cs hrest

theorem sepOK_prefix_bound (key : Key) :
    ∀ (P : List Key) (C : List BNode), P.length = C.length →
      ∀ ks cs, sepOK (P ++ ks) (C ++ cs) = true → wfL C = true →
        (∀ k ∈ P, k ≤ key) → ∀ e ∈ toListL C, e.1 ≤ key
  | [], [], _, _, _, _, _, _ => by
      intro e he
      simp [toListL] at he
  | [], _ :: _, hlen, _, _, _, _, _ => by simp at hlen
  | _ :: _, [], hlen, _, _, _, _, _ => by simp at hlen
  | p :: P, c :: C, hlen, ks, cs, hsep, hw, hub => by
      obtain ⟨h1, hw'⟩ := wfL_cons_parts hw
      rcases sepOK_cons_parts (by simpa using hsep) with
        ⟨c0, c1, cs0, heq, hlast, -, hrest⟩
      have hc0 : c = c0 := (List.cons.injEq _ _ _ _ ▸ heq).1
      have h2 : C ++ cs = c1 :: cs0 := (List.cons.injEq _ _ _ _ ▸ heq).2
      rw [← h2] at hrest
      intro e he
      simp only [toListL] at he
      rcases List.mem_append.mp he with he' | he'
      · calc e.1 ≤ c.lastKeyD := wfB_le_lastKeyD c h1 e he'
          _ = p := by rw [hc0]; exact hlast
          _ ≤ key := hub p (List.mem_cons_self p P)
      · exact sepOK_prefix_bound key P C (by simpa using hlen) ks cs hrest hw'
          (fun k hk => hub k (List.mem_cons_of_mem p hk)) e he'

/-! ### Behaviour of the node-level joins -/

theorem jL_spec (l r : List Entry) (key : Key) :
    (∃ m, joinLeaves l r key = .merged m ∧ m.shOK = true ∧ m.height = 0 ∧
      m.toList = l ++ r ∧ m.childSize = l.length + r.length) ∨
    (∃ a b nk, joinLeaves l r key = .two a b nk ∧ a.shOK = true ∧
      b.shOK = true ∧ a.height = 0 ∧ b.height = 0 ∧
      a.toList ++ b.toList = l ++ r ∧
      a.childSize + b.childSize = l.length + r.length) := by
  have htd : ∀ j : Nat, (r.take j).length + (r.drop j).length = r.length := by
    intro j
    rw [← List.length_append, List.take_append_drop]
  have htd' : ∀ j : Nat, (l.take j).length + (l.drop j).length = l.length := by
    intro j
    rw [← List.length_append, List.take_append_drop]
  rw [joinLeaves]
  by_cases h1 : l.length + r.length ≤ leafSlotMax
  · rw [if_pos h1]
    exact Or.inl ⟨_, rfl, rfl, rfl, rfl, by
      simp [BNode.childSize, List.length_append]⟩
  · rw [if_neg h1]
    by_cases h2 : l.length < leafSlotMin
    · rw [if_pos h2]
      refine Or.inr ⟨_, _, _, rfl, rfl, rfl, rfl, rfl, ?_, ?_⟩
      · show (l ++ List.take _ r) ++ List.drop _ r = l ++ r
        rw [List.append_assoc, List.take_append_drop]
      · show (l ++ List.take _ r).length + (List.drop _ r).length
          = l.length + r.length
        rw [List.length_append]
        rw [← htd (leafSlotMin - l.length)]
        omega
    · rw [if_neg h2]
      by_cases h3 : r.length < leafSlotMin
      · rw [if_pos h3]
        refine Or.inr ⟨_, _, _, rfl, rfl, rfl, rfl, rfl, ?_, ?_⟩
        · show List.take _ l ++ (List.drop _ l ++ r) = l ++ r
          rw [← List.append_assoc, List.take_append_drop]
        · show (List.take _ l).length + (List.drop _ l ++ r).length
            = l.length + r.length
          simp only [List.length_append, List.length_take, List.length_drop]
          omega
      · rw [if_neg h3]
        exact Or.inr ⟨_, _, _, rfl, rfl, rfl, rfl, rfl, rfl, rfl⟩

theorem jI_spec (lk : List Key) (lcs : List BNode) (ls : Nat)
    (rk : List Key) (rcs : List BNode) (rs : Nat) (key : Key)
    (hL : (BNode.inner lk lcs ls).shOK = true)
    (hR : (BNode.inner rk rcs rs).shOK = true)
    (hh : heightL lcs = heightL rcs) :
    (∃ m, joinInner lk lcs ls rk rcs rs key = .merged m ∧ m.shOK = true ∧
      m.height = heightL lcs + 1 ∧
      m.toList = toListL lcs ++ toListL rcs ∧ m.childSize = ls + rs) ∨
    (∃ a b nk, joinInner lk lcs ls rk rcs rs key = .two a b nk ∧
      a.shOK = true ∧ b.shOK = true ∧
      a.height = heightL lcs + 1 ∧ b.height = heightL lcs + 1 ∧
      a.toList ++ b.toList = toListL lcs ++ toListL rcs ∧
      a.childSize + b.childSize = ls + rs) := by
  obtain ⟨hl1, hl2, hl3, hl4, hl5⟩ := shOK_inner_parts hL
  obtain ⟨hr1, hr2, hr3, hr4, hr5⟩ := shOK_inner_parts hR
  have hlm := heightsEq_mem lcs hl4
  have hrm := heightsEq_mem rcs hr4
  have h16 : innerSlotMax = 16 := rfl
  have h8 : innerSlotMin = 8 := rfl
  rw [joinInner]
  by_cases hm : lk.length + rk.length + 1 ≤ innerSlotMax
  · rw [if_pos hm]
    refine Or.inl ⟨_, rfl, ?_, ?_, ?_, rfl⟩
    · refine shOK_inner_of_parts (by simp [hl1]) ?_ ?_ ?_ ?_
      · simp only [List.length_append, List.length_cons]
        omega
      · rw [csSum_append, hl3, hr3]
      · refine heightsEq_of_mem _ (heightL lcs) ?_
        intro c hc
        rcases List.mem_append.mp hc with hc' | hc'
        · exact hlm c hc'
        · rw [hrm c hc', hh]
      · rw [shOKL_append, hl5, hr5]
        rfl
    · show heightL (lcs ++ rcs) + 1 = heightL lcs + 1
      rw [heightL_append_of_ne_nil lcs rcs hl1]
    · show toListL (lcs ++ rcs) = toListL lcs ++ toListL rcs
      exact toListL_append lcs rcs
  · rw [if_neg hm]
    by_cases hlu : lk.length < innerSlotMin
    · rw [if_pos hlu]
      have hj1 : 1 ≤ innerSlotMin - lk.length := by omega
      have hjr : innerSlotMin - lk.length + 1 ≤ rk.length := by omega
      have hjrc : innerSlotMin - lk.length < rcs.length := by omega
      have hcsr : csSum (rcs.take (innerSlotMin - lk.length))
          + csSum (rcs.drop (innerSlotMin - lk.length)) = rs := by
        rw [← csSum_append, List.take_append_drop, hr3]
      have hso : shOKL (rcs.take (innerSlotMin - lk.length)) = true ∧
          shOKL (rcs.drop (innerSlotMin - lk.length)) = true := by
        have := hr5
        rw [← List.take_append_drop (innerSlotMin - lk.length) rcs,
          shOKL_append, Bool.and_eq_true] at this
        exact this
      refine Or.inr ⟨_, _, _, rfl, ?_, ?_, ?_, ?_, ?_, ?_⟩
      · refine shOK_inner_of_parts (by simp [hl1]) ?_ ?_ ?_ ?_
        · simp only [List.length_append, List.length_cons, List.length_take]
          omega
        · rw [csSum_append]
          rw [hl3]
        · refine heightsEq_of_mem _ (heightL lcs) ?_
          intro c hc
          rcases List.mem_append.mp hc with hc' | hc'
          · exact hlm c hc'
          · rw [hrm c (List.mem_of_mem_take hc'), hh]
        · rw [shOKL_append, hl5, hso.1]
          rfl
      · refine shOK_inner_of_parts ?_ ?_ ?_ ?_ ?_
        · intro hcontra
          have : rcs.length - (innerSlotMin - lk.length) = 0 := by
            rw [← List.length_drop, hcontra]
            rfl
          omega
        · simp only [List.length_drop]
          omega
        · omega
        · refine heightsEq_of_mem _ (heightL rcs) ?_
          intro c hc
          exact hrm c (List.mem_of_mem_drop hc)
        · exact hso.2
      · show heightL (lcs ++ _) + 1 = heightL lcs + 1
        rw [heightL_append_of_ne_nil lcs _ hl1]
      · show heightL (rcs.drop (innerSlotMin - lk.length)) + 1
          = heightL lcs + 1
        have hne : rcs.drop (innerSlotMin - lk.length) ≠ [] := by
          intro hcontra
          have : rcs.length - (innerSlotMin - lk.length) = 0 := by
            rw [← List.length_drop, hcontra]
            rfl
          omega
        rw [heightL_of_mem _ (heightL rcs) hne
          (fun c hc => hrm c (List.mem_of_mem_drop hc)), hh]
      · show toListL (lcs ++ rcs.take _) ++ toListL (rcs.drop _)
          = toListL lcs ++ toListL rcs
        rw [toListL_append, List.append_assoc, ← toListL_append,
          List.take_append_drop]
      · show ls + csSum (rcs.take _) + (rs - csSum (rcs.take _)) = ls + rs
        omega
    · rw [if_neg hlu]
      by_cases hru : rk.length < innerSlotMin
      · rw [if_pos hru]
        have hj1 : 1 ≤ innerSlotMin - rk.length := by omega
        have hkeep : innerSlotMin ≤ lk.length - (innerSlotMin - rk.length) := by
          omega
        have hkl : lk.length - (innerSlotMin - rk.length) + 1 ≤ lcs.length := by
          omega
        have hcsl : csSum (lcs.take (lk.length - (innerSlotMin - rk.length) + 1))
            + csSum (lcs.drop (lk.length - (innerSlotMin - rk.length) + 1))
            = ls := by
          rw [← csSum_append, List.take_append_drop, hl3]
        have hso : shOKL (lcs.take (lk.length - (innerSlotMin - rk.length) + 1))
              = true ∧
            shOKL (lcs.drop (lk.length - (innerSlotMin - rk.length) + 1))
              = true := by
          have := hl5
          rw [← List.take_append_drop
            (lk.length - (innerSlotMin - rk.length) + 1) lcs,
            shOKL_append, Bool.and_eq_true] at this
          exact this
        have hdne : lcs.drop (lk.length - (innerSlotMin - rk.length) + 1)
            ≠ [] := by
          intro hcontra
          have : lcs.length
              - (lk.length - (innerSlotMin - rk.length) + 1) = 0 := by
            rw [← List.length_drop, hcontra]
            rfl
          omega
        have htne : lcs.take (lk.length - (innerSlotMin - rk.length) + 1)
            ≠ [] := by
          intro hcontra
          have := congrArg List.length hcontra
          simp only [List.length_take, List.length_nil] at this
          omega
        refine Or.inr ⟨_, _, _, rfl, ?_, ?_, ?_, ?_, ?_, ?_⟩
        · refine shOK_inner_of_parts htne ?_ ?_ ?_ ?_
          · simp only [List.length_take]
            omega
          · omega
          · refine heightsEq_of_mem _ (heightL lcs) ?_
            intro c hc
            exact hlm c (List.mem_of_mem_take hc)
          · exact hso.1
        · refine shOK_inner_of_parts ?_ ?_ ?_ ?_ ?_
          · intro hcontra
            rcases List.append_eq_nil.mp hcontra with ⟨h', -⟩
            exact hdne h'
          · simp only [List.length_append, List.length_cons, List.length_drop]
            omega
          · rw [csSum_append]
            omega
          · refine heightsEq_of_mem _ (heightL lcs) ?_
            intro c hc
            rcases List.mem_append.mp hc with hc' | hc'
            · exact hlm c (List.mem_of_mem_drop hc')
            · rw [hrm c hc', hh]
          · rw [shOKL_append, hso.2, hr5]
            rfl
        · show heightL (lcs.take _) + 1 = heightL lcs + 1
          rw [heightL_of_mem _ (heightL lcs) htne
            (fun c hc => hlm c (List.mem_of_mem_take hc))]
        · show heightL (lcs.drop _ ++ _) + 1 = heightL lcs + 1
          rw [heightL_append_of_ne_nil _ _ hdne,
            heightL_of_mem _ (heightL lcs) hdne
              (fun c hc => hlm c (List.mem_of_mem_drop hc))]
        · show toListL (lcs.take _) ++ (toListL (lcs.drop _ ++ rcs))
            = toListL lcs ++ toListL rcs
          rw [toListL_append, ← List.append_assoc, ← toListL_append,
            List.take_append_drop]
        · show ls - csSum (lcs.drop _) + (rs + csSum (lcs.drop _)) = ls + rs
          omega
      · rw [if_neg hru]
        refine Or.inr ⟨_, _, _, rfl, hL, hR, rfl, ?_, rfl, rfl⟩
        show heightL rcs + 1 = heightL lcs + 1
        rw [hh]

/-! ### Behaviour of the one-sided join descents -/

theorem toListL_singleton (c : BNode) : toListL [c] = c.toList := by
  simp [toListL]

theorem csSum_singleton (c : BNode) : csSum [c] = c.childSize := by
  simp [csSum]

theorem mem_dropLast_mem {c : BNode} {cs : List BNode}
    (h : c ∈ cs.dropLast) : c ∈ cs :=
  (List.dropLast_sublist cs).subset h

theorem last_decomp (cs : List BNode) (hne : cs ≠ []) :
    toListL cs = toListL cs.dropLast ++ (cs.getLast hne).toList ∧
      csSum cs = csSum cs.dropLast + (cs.getLast hne).childSize ∧
      cs.dropLast.length + 1 = cs.length := by
  have hdec := List.dropLast_append_getLast hne
  refine ⟨?_, ?_, ?_⟩
  · conv_lhs => rw [← hdec]
    rw [toListL_append, toListL_singleton]
  · conv_lhs => rw [← hdec]
    rw [csSum_append, csSum_singleton]
  · have := congrArg List.length hdec
    simpa using this

/-- Contract of `joinGreaterDescend`: the returned node (plus the optional
overflow sibling) carries the concatenated contents and sizes, keeps the
height and the shape invariant. -/
def JGDOut (other n : BNode) (res : BNode × Option (BNode × Key)) : Prop :=
  res.1.shOK = true ∧ res.1.height = n.height ∧
  (match res.2 with
   | none => res.1.toList = n.toList ++ other.toList ∧
       res.1.childSize = n.childSize + other.childSize
   | some (nc, _) => res.1.toList ++ nc.toList = n.toList ++ other.toList ∧
       nc.shOK = true ∧ nc.height = n.height ∧
       res.1.childSize + nc.childSize = n.childSize + other.childSize)

/-- An overflow can only escape a node that is a leaf, a full inner node,
or the node at which the joined tree's level was reached. -/
def JGDOrigin (other n : BNode) (res : BNode × Option (BNode × Key)) : Prop :=
  ∀ nc nk, res.2 = some (nc, nk) →
    (match n with
     | .leaf _ => True
     | .inner ks _ _ => ks.length = innerSlotMax) ∨ other.height = n.height

/-- Contract of `joinLessDescend` (contents prepended instead). -/
def JLDOut (other n : BNode) (res : BNode × Option (BNode × Key)) : Prop :=
  res.1.shOK = true ∧ res.1.height = n.height ∧
  (match res.2 with
   | none => res.1.toList = other.toList ++ n.toList ∧
       res.1.childSize = n.childSize + other.childSize
   | some (nc, _) => res.1.toList ++ nc.toList = other.toList ++ n.toList ∧
       nc.shOK = true ∧ nc.height = n.height ∧
       res.1.childSize + nc.childSize = n.childSize + other.childSize)

/-- Definitional unfolding of `joinGreaterDescend` at a leaf. -/
theorem jgd_leaf_eq (key : Key) (other : BNode) (es : List Entry) :
    joinGreaterDescend key other (.leaf es)
      = (match other with
         | .leaf os =>
             (match joinLeaves es os key with
              | .merged m => some (m, none)
              | .two l r nk => some (l, some (r, nk)))
         | .inner _ _ _ => none) := rfl

/-- Definitional unfolding of `joinGreaterDescend` at an inner node. -/
theorem jgd_inner_eq (key : Key) (other : BNode) (ks : List Key)
    (cs : List BNode) (s : Nat) :
    joinGreaterDescend key other (.inner ks cs s)
      = (if other.height < (BNode.inner ks cs s).height then
          match jgdLast key other cs with
          | none => none
          | some (cs', none) =>
              some (.inner ks cs' (s + other.childSize), none)
          | some (cs', some (nc, nk)) =>
              if ks.length = innerSlotMax then
                let mid := splitInnerMid ks.length ks.length
                some (.inner (ks.take mid) (cs'.take (mid + 1))
                    (csSum (cs'.take (mid + 1))),
                  some (.inner (ks.drop (mid + 1) ++ [nk])
                      (cs'.drop (mid + 1) ++ [nc])
                      (csSum (cs'.drop (mid + 1)) + nc.childSize),
                    (ks.get? mid).getD 0))
              else
                some (.inner (ks ++ [nk]) (cs' ++ [nc])
                  (s + other.childSize), none)
        else
          match other with
          | .inner ok ocs os =>
              (match joinInner ks cs s ok ocs os key with
               | .merged m => some (m, none)
               | .two l r nk => some (l, some (r, nk)))
          | .leaf _ => none) := rfl

mutual

theorem jgd_spec (key : Key) (other : BNode) :
    ∀ n : BNode, n.shOK = true → other.shOK = true →
      other.height ≤ n.height →
      ∃ res, joinGreaterDescend key other n = some res ∧
        JGDOut other n res ∧ JGDOrigin other n res
  | .leaf es, hn, ho, hh => by
      cases other with
      | inner ok ocs os => simp [BNode.height] at hh
      | leaf os =>
          rcases jL_spec es os key with ⟨m, heq, hsh, hht, htl, hcs⟩ |
            ⟨a, b, nk, heq, hsa, hsb, hha, hhb, htl, hcs⟩
          · refine ⟨(m, none), by
              rw [jgd_leaf_eq]
              show (match joinLeaves es os key with
                    | JoinRes.merged m => some (m, (none : Option (BNode × Key)))
                    | JoinRes.two l r nk => some (l, some (r, nk))) = _
              rw [heq], ⟨hsh, hht, ?_, ?_⟩, ?_⟩
            · exact htl
            · exact hcs
            · intro nc nk h
              simp at h
          · refine ⟨(a, some (b, nk)), by
              rw [jgd_leaf_eq]
              show (match joinLeaves es os key with
                    | JoinRes.merged m => some (m, (none : Option (BNode × Key)))
                    | JoinRes.two l r nk => some (l, some (r, nk))) = _
              rw [heq],
              ⟨hsa, hha, htl, hsb, hhb, hcs⟩, ?_⟩
            intro nc nk h
            exact Or.inl trivial
  | .inner ks cs s, hn, ho, hh => by
      obtain ⟨hne, hl2, hl3, hl4, hl5⟩ := shOK_inner_parts hn
      have hlm := heightsEq_mem cs hl4
      obtain ⟨hdecT, hdecS, hdecL⟩ := last_decomp cs hne
      have hLmem := List.getLast_mem hne
      have hLh : (cs.getLast hne).height = heightL cs := hlm _ hLmem
      have hdlm : ∀ c ∈ cs.dropLast, c.height = heightL cs := by
        intro c hc
        exact hlm c (mem_dropLast_mem hc)
      have h5d : shOKL cs.dropLast = true := by
        have h0 := hl5
        rw [← List.dropLast_append_getLast hne, shOKL_append,
          Bool.and_eq_true] at h0
        exact h0.1
      by_cases hlt : other.height < (BNode.inner ks cs s).height
      · have hh' : other.height ≤ (cs.getLast hne).height := by
          rw [hLh]
          simp only [BNode.height] at hlt
          omega
        rcases jgdLast_spec key other cs hl5 ho hne hh' with ⟨c', ov, heqL, hout⟩
        cases ov with
        | none =>
            obtain ⟨hc's0, hc'h0, htl0, hcsz0⟩ := hout
            have hc's : c'.shOK = true := hc's0
            have hc'h : c'.height = heightL cs := by
              rw [← hLh]
              exact hc'h0
            have htl : c'.toList = (cs.getLast hne).toList ++ other.toList :=
              htl0
            have hcsz : c'.childSize
                = (cs.getLast hne).childSize + other.childSize := hcsz0
            have hmem' : ∀ c ∈ cs.dropLast ++ [c'], c.height = heightL cs := by
              intro c hc
              rcases List.mem_append.mp hc with hc' | hc'
              · exact hdlm c hc'
              · rcases List.mem_singleton.mp hc' with rfl
                exact hc'h
            rw [jgd_inner_eq, if_pos hlt]
            simp only [heqL]
            refine ⟨_, rfl, ⟨?_, ?_, ?_, ?_⟩, ?_⟩
            · refine shOK_inner_of_parts (by simp) ?_ ?_ ?_ ?_
              · simp only [List.length_append, List.length_cons,
                  List.length_nil]
                omega
              · rw [csSum_append, csSum_singleton, hcsz, hl3, hdecS]
                omega
              · exact heightsEq_of_mem _ (heightL cs) hmem'
              · rw [shOKL_append, h5d]
                simp [shOKL, hc's]
            · show heightL (cs.dropLast ++ [c']) + 1 = heightL cs + 1
              rw [heightL_of_mem _ (heightL cs) (by simp) hmem']
            · show toListL (cs.dropLast ++ [c']) = toListL cs ++ other.toList
              rw [toListL_append, toListL_singleton, htl, hdecT,
                List.append_assoc]
            · show s + other.childSize = s + other.childSize
              rfl
            · intro nc nk h
              simp at h
        | some ncnk =>
            obtain ⟨nc, nk⟩ := ncnk
            obtain ⟨hc's0, hc'h0, htl0, hncs0, hnch0, hcsz0⟩ := hout
            have hc's : c'.shOK = true := hc's0
            have hc'h : c'.height = heightL cs := by
              rw [← hLh]
              exact hc'h0
            have hncs : nc.shOK = true := hncs0
            have hnch : nc.height = heightL cs := by
              rw [← hLh]
              exact hnch0
            have htl : c'.toList ++ nc.toList
                = (cs.getLast hne).toList ++ other.toList := htl0
            have hcsz : c'.childSize + nc.childSize
                = (cs.getLast hne).childSize + other.childSize := hcsz0
            have hmem' : ∀ c ∈ cs.dropLast ++ [c'], c.height = heightL cs := by
              intro c hc
              rcases List.mem_append.mp hc with hc' | hc'
              · exact hdlm c hc'
              · rcases List.mem_singleton.mp hc' with rfl
                exact hc'h
            have h5' : shOKL (cs.dropLast ++ [c']) = true := by
              rw [shOKL_append, h5d]
              simp [shOKL, hc's]
            have htl' : toListL (cs.dropLast ++ [c']) ++ nc.toList
                = toListL cs ++ other.toList := by
              rw [toListL_append, toListL_singleton, List.append_assoc, htl,
                hdecT, List.append_assoc]
            have hcs' : csSum (cs.dropLast ++ [c']) + nc.childSize
                = s + other.childSize := by
              rw [csSum_append, csSum_singleton, hl3, hdecS]
              omega
            rw [jgd_inner_eq, if_pos hlt]
            simp only [heqL]
            by_cases hfull : ks.length = innerSlotMax
            · rw [if_pos hfull]
              have hmid : splitInnerMid ks.length ks.length = 8 := by
                rw [hfull]
                decide
              rw [hmid]
              have hkslen : ks.length = 16 := hfull
              have hcslen : cs.length = 17 := by omega
              have hcs'len : (cs.dropLast ++ [c']).length = 17 := by
                simp only [List.length_append, List.length_cons,
                  List.length_nil]
                omega
              have htdT : toListL ((cs.dropLast ++ [c']).take (8 + 1))
                  ++ toListL ((cs.dropLast ++ [c']).drop (8 + 1))
                  = toListL (cs.dropLast ++ [c']) := by
                rw [← toListL_append, List.take_append_drop]
              have htdS : csSum ((cs.dropLast ++ [c']).take (8 + 1))
                  + csSum ((cs.dropLast ++ [c']).drop (8 + 1))
                  = csSum (cs.dropLast ++ [c']) := by
                rw [← csSum_append, List.take_append_drop]
              have hso : shOKL ((cs.dropLast ++ [c']).take (8 + 1)) = true ∧
                  shOKL ((cs.dropLast ++ [c']).drop (8 + 1)) = true := by
                have := h5'
                rw [← List.take_append_drop (8 + 1) (cs.dropLast ++ [c']),
                  shOKL_append, Bool.and_eq_true] at this
                exact this
              have htne : (cs.dropLast ++ [c']).take (8 + 1) ≠ [] := by
                apply List.ne_nil_of_length_pos
                simp only [List.length_take]
                omega
              have hdne : (cs.dropLast ++ [c']).drop (8 + 1) ≠ [] := by
                apply List.ne_nil_of_length_pos
                simp only [List.length_drop]
                omega
              refine ⟨_, rfl, ⟨?_, ?_, ?_, ?_, ?_, ?_⟩, ?_⟩
              · refine shOK_inner_of_parts htne ?_ rfl ?_ hso.1
                · simp only [List.length_take]
                  omega
                · refine heightsEq_of_mem _ (heightL cs) ?_
                  intro c hc
                  exact hmem' c (List.mem_of_mem_take hc)
              · show heightL ((cs.dropLast ++ [c']).take (8 + 1)) + 1
                  = heightL cs + 1
                rw [heightL_of_mem _ (heightL cs) htne
                  (fun c hc => hmem' c (List.mem_of_mem_take hc))]
              · show toListL ((cs.dropLast ++ [c']).take (8 + 1))
                    ++ toListL ((cs.dropLast ++ [c']).drop (8 + 1) ++ [nc])
                  = toListL cs ++ other.toList
                rw [toListL_append _ [nc], toListL_singleton,
                  ← List.append_assoc, htdT, htl']
              · refine shOK_inner_of_parts (by simp) ?_ ?_ ?_ ?_
                · simp only [List.length_append, List.length_cons,
                    List.length_nil, List.length_drop]
                  omega
                · rw [csSum_append, csSum_singleton]
                · refine heightsEq_of_mem _ (heightL cs) ?_
                  intro c hc
                  rcases List.mem_append.mp hc with hc' | hc'
                  · exact hmem' c (List.mem_of_mem_drop hc')
                  · rcases List.mem_singleton.mp hc' with rfl
                    exact hnch
                · rw [shOKL_append, hso.2]
                  simp [shOKL, hncs]
              · show heightL ((cs.dropLast ++ [c']).drop (8 + 1) ++ [nc]) + 1
                  = heightL cs + 1
                rw [heightL_append_of_ne_nil _ _ hdne,
                  heightL_of_mem _ (heightL cs) hdne
                    (fun c hc => hmem' c (List.mem_of_mem_drop hc))]
              · show csSum ((cs.dropLast ++ [c']).take (8 + 1))
                    + (csSum ((cs.dropLast ++ [c']).drop (8 + 1))
                      + nc.childSize)
                  = s + other.childSize
                omega
              · intro nc' nk' h
                exact Or.inl hfull
            · rw [if_neg hfull]
              refine ⟨_, rfl, ⟨?_, ?_, ?_, ?_⟩, ?_⟩
              · refine shOK_inner_of_parts (by simp) ?_ ?_ ?_ ?_
                · simp only [List.length_append, List.length_cons,
                    List.length_nil]
                  omega
                · rw [csSum_append, csSum_singleton, hcs']
                · refine heightsEq_of_mem _ (heightL cs) ?_
                  intro c hc
                  rcases List.mem_append.mp hc with hc' | hc'
                  · exact hmem' c hc'
                  · rcases List.mem_singleton.mp hc' with rfl
                    exact hnch
                · rw [shOKL_append, h5']
                  simp [shOKL, hncs]
              · show heightL ((cs.dropLast ++ [c']) ++ [nc]) + 1
                  = heightL cs + 1
                rw [heightL_append_of_ne_nil _ _ (by simp),
                  heightL_of_mem _ (heightL cs) (by simp) hmem']
              · show toListL ((cs.dropLast ++ [c']) ++ [nc])
                  = toListL cs ++ other.toList
                rw [toListL_append, toListL_singleton, htl']
              · show s + other.childSize = s + other.childSize
                rfl
              · intro nc' nk' h
                simp at h
      · have heqh : other.height = heightL cs + 1 := by
          simp only [BNode.height] at hh hlt
          omega
        cases other with
        | leaf os => simp [BNode.height] at heqh
        | inner ok ocs os =>
            have hoh : heightL cs = heightL ocs := by
              simp only [BNode.height] at heqh
              omega
            rcases jI_spec ks cs s ok ocs os key hn ho hoh with
              ⟨m, heq, hsh, hht, htl, hcs⟩ |
              ⟨a, b, nk, heq, hsa, hsb, hha, hhb, htl, hcs⟩
            · refine ⟨(m, none), by
                rw [jgd_inner_eq, if_neg hlt]
                show (match joinInner ks cs s ok ocs os key with
                      | JoinRes.merged m =>
                          some (m, (none : Option (BNode × Key)))
                      | JoinRes.two l r nk => some (l, some (r, nk))) = _
                rw [heq],
                ⟨hsh, ?_, ?_, ?_⟩, ?_⟩
              · show m.height = heightL cs + 1
                exact hht
              · show m.toList = toListL cs ++ toListL ocs
                exact htl
              · show m.childSize = s + os
                exact hcs
              · intro nc nk h
                simp at h
            · refine ⟨(a, some (b, nk)), by
                rw [jgd_inner_eq, if_neg hlt]
                show (match joinInner ks cs s ok ocs os key with
                      | JoinRes.merged m =>
                          some (m, (none : Option (BNode × Key)))
                      | JoinRes.two l r nk => some (l, some (r, nk))) = _
                rw [heq],
                ⟨hsa, hha, htl, hsb, hhb, hcs⟩, ?_⟩
              intro nc nk h
              exact Or.inr heqh

theorem jgdLast_spec (key : Key) (other : BNode) :
    ∀ cs : List BNode, shOKL cs = true → other.shOK = true →
      ∀ (hne : cs ≠ []), other.height ≤ (cs.getLast hne).height →
      ∃ c' ov, jgdLast key other cs = some (cs.dropLast ++ [c'], ov) ∧
        JGDOut other (cs.getLast hne) (c', ov)
  | [], _, _, hne, _ => absurd rfl hne
  | [c], hw, ho, hne, hh => by
      obtain ⟨h1, -⟩ := shOKL_cons_parts hw
      rcases jgd_spec key other c h1 ho hh with ⟨⟨c', ov⟩, heq, hout, -⟩
      refine ⟨c', ov, ?_, hout⟩
      rw [jgdLast, heq]
      rfl
  | c :: c2 :: rest, hw, ho, hne, hh => by
      obtain ⟨h1, h2⟩ := shOKL_cons_parts hw
      have hne2 : c2 :: rest ≠ [] := List.cons_ne_nil c2 rest
      have hgl : (c :: c2 :: rest).getLast hne = (c2 :: rest).getLast hne2 :=
        rfl
      rcases jgdLast_spec key other (c2 :: rest) h2 ho hne2 (hgl ▸ hh) with
        ⟨c', ov, heq, hout⟩
      refine ⟨c', ov, ?_, hgl ▸ hout⟩
      rw [jgdLast, heq]
      rfl

end

/-- Definitional unfolding of `joinLessDescend` at a leaf. -/
theorem jld_leaf_eq (key : Key) (other : BNode) (es : List Entry) :
    joinLessDescend key other (.leaf es)
      = (match other with
         | .leaf os =>
             (match joinLeaves os es key with
              | .merged m => some (m, none)
              | .two l r nk => some (l, some (r, nk)))
         | .inner _ _ _ => none) := rfl

/-- Definitional unfolding of `joinLessDescend` at an inner node with a
nonempty child array. -/
theorem jld_inner_eq (key : Key) (other : BNode) (ks : List Key)
    (c0 : BNode) (rest : List BNode) (s : Nat) :
    joinLessDescend key other (.inner ks (c0 :: rest) s)
      = (if other.height < (BNode.inner ks (c0 :: rest) s).height then
          match joinLessDescend key other c0 with
          | none => none
          | some (c', none) =>
              some (.inner ks (c' :: rest) (s + other.childSize), none)
          | some (c', some (nc, nk)) =>
              if ks.length = innerSlotMax then
                let mid := splitInnerMid ks.length 0
                some (.inner (nk :: ks.take mid)
                    (c' :: nc :: rest.take mid)
                    (csSum (c' :: rest.take mid) + nc.childSize),
                  some (.inner (ks.drop (mid + 1)) (rest.drop mid)
                      (csSum (rest.drop mid)),
                    (ks.get? mid).getD 0))
              else
                some (.inner (nk :: ks) (c' :: nc :: rest)
                  (s + other.childSize), none)
        else
          match other with
          | .inner ok ocs os =>
              (match joinInner ok ocs os ks (c0 :: rest) s key with
               | .merged m => some (m, none)
               | .two l r nk => some (l, some (r, nk)))
          | .leaf _ => none) := rfl

theorem jld_spec (key : Key) (other : BNode) :
    ∀ n : BNode, n.shOK = true → other.shOK = true →
      other.height ≤ n.height →
      ∃ res, joinLessDescend key other n = some res ∧
        JLDOut other n res ∧ JGDOrigin other n res
  | .leaf es, hn, ho, hh => by
      cases other with
      | inner ok ocs os => simp [BNode.height] at hh
      | leaf os =>
          rcases jL_spec os es key with ⟨m, heq, hsh, hht, htl, hcs⟩ |
            ⟨a, b, nk, heq, hsa, hsb, hha, hhb, htl, hcs⟩
          · refine ⟨(m, none), by
              rw [jld_leaf_eq]
              show (match joinLeaves os es key with
                    | JoinRes.merged m => some (m, (none : Option (BNode × Key)))
                    | JoinRes.two l r nk => some (l, some (r, nk))) = _
              rw [heq], ⟨hsh, hht, htl, by
                show m.childSize = es.length + os.length
                omega⟩, ?_⟩
            intro nc nk h
            simp at h
          · refine ⟨(a, some (b, nk)), by
              rw [jld_leaf_eq]
              show (match joinLeaves os es key with
                    | JoinRes.merged m => some (m, (none : Option (BNode × Key)))
                    | JoinRes.two l r nk => some (l, some (r, nk))) = _
              rw [heq],
              ⟨hsa, hha, htl, hsb, hhb, by
                show a.childSize + b.childSize = es.length + os.length
                omega⟩, ?_⟩
            intro nc nk h
            exact Or.inl trivial
  | .inner ks [] s, hn, ho, hh => by
      obtain ⟨hne, -, -, -, -⟩ := shOK_inner_parts hn
      exact absurd rfl hne
  | .inner ks (c0 :: rest) s, hn, ho, hh => by
      obtain ⟨-, hl2, hl3, hl4, hl5⟩ := shOK_inner_parts hn
      have hlm := heightsEq_mem (c0 :: rest) hl4
      obtain ⟨hc0sh, hrsh⟩ := shOKL_cons_parts hl5
      have hc0h : c0.height = heightL (c0 :: rest) := rfl
      have hrm : ∀ c ∈ rest, c.height = heightL (c0 :: rest) := by
        intro c hc
        exact hlm c (List.mem_cons_of_mem c0 hc)
      by_cases hlt : other.height < (BNode.inner ks (c0 :: rest) s).height
      · have hh' : other.height ≤ c0.height := by
          simp only [BNode.height] at hlt
          rw [hc0h]
          omega
        rcases jld_spec key other c0 hc0sh ho hh' with ⟨⟨c', ov⟩, heq0, hout, -⟩
        cases ov with
        | none =>
            obtain ⟨hc's0, hc'h0, htl0, hcsz0⟩ := hout
            have hc's : c'.shOK = true := hc's0
            have hc'h : c'.height = c0.height := hc'h0
            have htl : c'.toList = other.toList ++ c0.toList := htl0
            have hcsz : c'.childSize = c0.childSize + other.childSize := hcsz0
            rw [jld_inner_eq, if_pos hlt]
            simp only [heq0]
            refine ⟨_, rfl, ⟨?_, ?_, ?_, ?_⟩, ?_⟩
            · refine shOK_inner_of_parts (List.cons_ne_nil c' rest) ?_ ?_ ?_ ?_
              · simpa using hl2
              · show s + other.childSize = csSum (c' :: rest)
                have h1 : csSum (c0 :: rest) = c0.childSize + csSum rest := rfl
                have h2 : csSum (c' :: rest) = c'.childSize + csSum rest := rfl
                omega
              · refine heightsEq_of_mem _ (heightL (c0 :: rest)) ?_
                intro c hc
                rcases List.mem_cons.mp hc with rfl | hc'
                · rw [hc'h, hc0h]
                · exact hrm c hc'
              · show (c'.shOK && shOKL rest) = true
                rw [hc's, hrsh]
                rfl
            · show heightL (c' :: rest) + 1 = heightL (c0 :: rest) + 1
              show c'.height + 1 = heightL (c0 :: rest) + 1
              rw [hc'h, hc0h]
            · show toListL (c' :: rest)
                = other.toList ++ toListL (c0 :: rest)
              show c'.toList ++ toListL rest
                = other.toList ++ (c0.toList ++ toListL rest)
              rw [htl, List.append_assoc]
            · show s + other.childSize = s + other.childSize
              rfl
            · intro nc nk h
              simp at h
        | some ncnk =>
            obtain ⟨nc, nk⟩ := ncnk
            obtain ⟨hc's0, hc'h0, htl0, hncs0, hnch0, hcsz0⟩ := hout
            have hc's : c'.shOK = true := hc's0
            have hc'h : c'.height = c0.height := hc'h0
            have hncs : nc.shOK = true := hncs0
            have hnch : nc.height = c0.height := hnch0
            have htl : c'.toList ++ nc.toList = other.toList ++ c0.toList :=
              htl0
            have hcsz : c'.childSize + nc.childSize
                = c0.childSize + other.childSize := hcsz0
            rw [jld_inner_eq, if_pos hlt]
            simp only [heq0]
            by_cases hfull : ks.length = innerSlotMax
            · rw [if_pos hfull]
              have hmid : splitInnerMid ks.length 0 = 7 := by
                rw [hfull]
                decide
              rw [hmid]
              have hkslen : ks.length = 16 := hfull
              have hrlen : rest.length = 16 := by
                simp only [List.length_cons] at hl2
                omega
              have htdS : csSum (rest.take 7) + csSum (rest.drop 7)
                  = csSum rest := by
                rw [← csSum_append, List.take_append_drop]
              have htdT : toListL (rest.take 7) ++ toListL (rest.drop 7)
                  = toListL rest := by
                rw [← toListL_append, List.take_append_drop]
              have hso : shOKL (rest.take 7) = true ∧
                  shOKL (rest.drop 7) = true := by
                have := hrsh
                rw [← List.take_append_drop 7 rest, shOKL_append,
                  Bool.and_eq_true] at this
                exact this
              have hdne : rest.drop 7 ≠ [] := by
                apply List.ne_nil_of_length_pos
                simp only [List.length_drop]
                omega
              refine ⟨_, rfl, ⟨?_, ?_, ?_, ?_, ?_, ?_⟩, ?_⟩
              · refine shOK_inner_of_parts (List.cons_ne_nil _ _) ?_ ?_ ?_ ?_
                · simp only [List.length_cons, List.length_take]
                  omega
                · show csSum (c' :: rest.take 7) + nc.childSize
                    = csSum (c' :: nc :: rest.take 7)
                  have h1 : csSum (c' :: rest.take 7)
                      = c'.childSize + csSum (rest.take 7) := rfl
                  have h2 : csSum (c' :: nc :: rest.take 7)
                      = c'.childSize + (nc.childSize + csSum (rest.take 7)) :=
                    rfl
                  omega
                · refine heightsEq_of_mem _ (heightL (c0 :: rest)) ?_
                  intro c hc
                  rcases List.mem_cons.mp hc with rfl | hc'
                  · rw [hc'h, hc0h]
                  · rcases List.mem_cons.mp hc' with rfl | hc''
                    · rw [hnch, hc0h]
                    · exact hrm c (List.mem_of_mem_take hc'')
                · show (c'.shOK && (nc.shOK && shOKL (rest.take 7))) = true
                  rw [hc's, hncs, hso.1]
                  rfl
              · show heightL (c' :: nc :: rest.take 7) + 1
                  = heightL (c0 :: rest) + 1
                show c'.height + 1 = heightL (c0 :: rest) + 1
                rw [hc'h, hc0h]
              · show toListL (c' :: nc :: rest.take 7)
                    ++ toListL (rest.drop 7)
                  = other.toList ++ toListL (c0 :: rest)
                show c'.toList ++ (nc.toList ++ toListL (rest.take 7))
                    ++ toListL (rest.drop 7)
                  = other.toList ++ (c0.toList ++ toListL rest)
                simp only [← List.append_assoc]
                rw [← htl, List.append_assoc, htdT]
              · refine shOK_inner_of_parts hdne ?_ rfl ?_ hso.2
                · simp only [List.length_drop]
                  omega
                · refine heightsEq_of_mem _ (heightL (c0 :: rest)) ?_
                  intro c hc
                  exact hrm c (List.mem_of_mem_drop hc)
              · show heightL (rest.drop 7) + 1 = heightL (c0 :: rest) + 1
                rw [heightL_of_mem _ (heightL (c0 :: rest)) hdne
                  (fun c hc => hrm c (List.mem_of_mem_drop hc))]
              · show csSum (c' :: rest.take 7) + nc.childSize
                    + csSum (rest.drop 7)
                  = s + other.childSize
                have h1 : csSum (c' :: rest.take 7)
                    = c'.childSize + csSum (rest.take 7) := rfl
                have h2 : csSum (c0 :: rest) = c0.childSize + csSum rest := rfl
                omega
              · intro nc' nk' h
                exact Or.inl hfull
            · rw [if_neg hfull]
              refine ⟨_, rfl, ⟨?_, ?_, ?_, ?_⟩, ?_⟩
              · refine shOK_inner_of_parts (List.cons_ne_nil _ _) ?_ ?_ ?_ ?_
                · simp only [List.length_cons] at hl2 ⊢
                  omega
                · show s + other.childSize = csSum (c' :: nc :: rest)
                  have h1 : csSum (c' :: nc :: rest)
                      = c'.childSize + (nc.childSize + csSum rest) := rfl
                  have h2 : csSum (c0 :: rest) = c0.childSize + csSum rest := rfl
                  omega
                · refine heightsEq_of_mem _ (heightL (c0 :: rest)) ?_
                  intro c hc
                  rcases List.mem_cons.mp hc with rfl | hc'
                  · rw [hc'h, hc0h]
                  · rcases List.mem_cons.mp hc' with rfl | hc''
                    · rw [hnch, hc0h]
                    · exact hrm c hc''
                · show (c'.shOK && (nc.shOK && shOKL rest)) = true
                  rw [hc's, hncs, hrsh]
                  rfl
              · show heightL (c' :: nc :: rest) + 1
                  = heightL (c0 :: rest) + 1
                show c'.height + 1 = heightL (c0 :: rest) + 1
                rw [hc'h, hc0h]
              · show toListL (c' :: nc :: rest)
                  = other.toList ++ toListL (c0 :: rest)
                show c'.toList ++ (nc.toList ++ toListL rest)
                  = other.toList ++ (c0.toList ++ toListL rest)
                rw [← List.append_assoc, htl, List.append_assoc]
              · show s + other.childSize = s + other.childSize
                rfl
              · intro nc' nk' h
                simp at h
      · have heqh : other.height = heightL (c0 :: rest) + 1 := by
          simp only [BNode.height] at hh hlt
          omega
        cases other with
        | leaf os => simp [BNode.height] at heqh
        | inner ok ocs os =>
            have hoh : heightL ocs = heightL (c0 :: rest) := by
              simp only [BNode.height] at heqh
              omega
            rcases jI_spec ok ocs os ks (c0 :: rest) s key ho hn hoh with
              ⟨m, heq, hsh, hht, htl, hcs⟩ |
              ⟨a, b, nk, heq, hsa, hsb, hha, hhb, htl, hcs⟩
            · refine ⟨(m, none), by
                rw [jld_inner_eq, if_neg hlt]
                show (match joinInner ok ocs os ks (c0 :: rest) s key with
                      | JoinRes.merged m =>
                          some (m, (none : Option (BNode × Key)))
                      | JoinRes.two l r nk => some (l, some (r, nk))) = _
                rw [heq],
                ⟨hsh, ?_, ?_, ?_⟩, ?_⟩
              · show m.height = heightL (c0 :: rest) + 1
                rw [hht, hoh]
              · show m.toList = toListL ocs ++ toListL (c0 :: rest)
                exact htl
              · show m.childSize = s + os
                omega
              · intro nc nk h
                simp at h
            · refine ⟨(a, some (b, nk)), by
                rw [jld_inner_eq, if_neg hlt]
                show (match joinInner ok ocs os ks (c0 :: rest) s key with
                      | JoinRes.merged m =>
                          some (m, (none : Option (BNode × Key)))
                      | JoinRes.two l r nk => some (l, some (r, nk))) = _
                rw [heq],
                ⟨hsa, ?_, htl, hsb, ?_, ?_⟩, ?_⟩
              · show a.height = heightL (c0 :: rest) + 1
                rw [hha, hoh]
              · show b.height = heightL (c0 :: rest) + 1
                rw [hhb, hoh]
              · show a.childSize + b.childSize = s + os
                omega
              · intro nc nk h
                exact Or.inr heqh

/-! ### Tree-level one-sided joins -/

theorem toList_mk_some (n : BNode) : (BTree.mk (some n)).toList = n.toList :=
  rfl

theorem size_mk_some (n : BNode) : (BTree.mk (some n)).size = n.childSize := by
  cases n with
  | leaf es => rfl
  | inner ks cs s => rfl

theorem jgT_none_eq (key : Key) (o : BTree) :
    joinGreaterT ⟨none⟩ key o = some o := rfl

theorem jgT_some_none_eq (key : Key) (rt : BNode) :
    joinGreaterT ⟨some rt⟩ key ⟨none⟩ = some ⟨some rt⟩ := rfl

theorem jgT_some_eq (key : Key) (rt ot : BNode) :
    joinGreaterT ⟨some rt⟩ key ⟨some ot⟩
      = (match joinGreaterDescend key ot rt with
         | none => none
         | some (n', none) => some ⟨some n'⟩
         | some (n', some (nc, nk)) => some ⟨some (newRootN n' nc nk)⟩) := rfl

theorem jlT_none_eq (key : Key) (o : BTree) :
    joinLessT ⟨none⟩ key o = some o := rfl

theorem jlT_some_none_eq (key : Key) (rt : BNode) :
    joinLessT ⟨some rt⟩ key ⟨none⟩ = some ⟨some rt⟩ := rfl

theorem jlT_some_eq (key : Key) (rt ot : BNode) :
    joinLessT ⟨some rt⟩ key ⟨some ot⟩
      = (match joinLessDescend key ot rt with
         | none => none
         | some (n', none) => some ⟨some n'⟩
         | some (n', some (nc, nk)) => some ⟨some (newRootN n' nc nk)⟩) := rfl

theorem newRootN_spec (l r : BNode) (k : Key) (hl : l.shOK = true)
    (hr : r.shOK = true) (hh : l.height = r.height) :
    (newRootN l r k).shOK = true ∧
      (newRootN l r k).toList = l.toList ++ r.toList ∧
      (newRootN l r k).childSize = l.childSize + r.childSize ∧
      (newRootN l r k).height = l.height + 1 := by
  refine ⟨?_, ?_, ?_, ?_⟩
  · refine shOK_inner_of_parts (by simp) (by simp) ?_ ?_ ?_
    · show l.childSize + r.childSize = l.childSize + (r.childSize + 0)
      omega
    · refine heightsEq_of_mem _ l.height ?_
      intro c hc
      rcases List.mem_cons.mp hc with rfl | hc'
      · rfl
      · rcases List.mem_singleton.mp hc' with rfl
        exact hh.symm
    · show (l.shOK && (r.shOK && true)) = true
      rw [hl, hr]
      rfl
  · show l.toList ++ (r.toList ++ []) = l.toList ++ r.toList
    rw [List.append_nil]
  · rfl
  · rfl

theorem jgT_spec (t : BTree) (key : Key) (other : BTree)
    (ht : t.shInv = true) (ho : other.shInv = true)
    (hh : ∀ rt ot, t.root = some rt → other.root = some ot →
      ot.height ≤ rt.height) :
    ∃ J, joinGreaterT t key other = some J ∧ J.shInv = true ∧
      J.toList = t.toList ++ other.toList ∧
      J.size = t.size + other.size ∧
      (t.root = none → J = other) ∧
      (∀ rt nj, t.root = some rt → J.root = some nj →
        nj.height ≤ rt.height + 1 ∧
        ((match rt with
          | .leaf _ => False
          | .inner ks _ _ => ks.length < innerSlotMax) →
          (∀ ot, other.root = some ot → ot.height < rt.height) →
          nj.height = rt.height)) := by
  rcases t with ⟨_ | rt⟩
  · refine ⟨other, jgT_none_eq key other, ho, ?_, ?_, ?_, ?_⟩
    · simp [BTree.toList]
    · simp [BTree.size]
    · exact fun _ => rfl
    · intro rt nj h1 h2
      simp at h1
  · rcases other with ⟨_ | ot⟩
    · refine ⟨⟨some rt⟩, jgT_some_none_eq key rt, ht, ?_, ?_, ?_, ?_⟩
      · simp [BTree.toList]
      · simp [BTree.size]
      · intro h
        simp at h
      · intro rt' nj h1 h2
        obtain rfl : rt = rt' := by simpa using h1
        obtain rfl : rt = nj := by simpa using h2
        exact ⟨Nat.le_succ _, fun _ _ => rfl⟩
    · have htn : rt.shOK = true := ht
      have hon : ot.shOK = true := ho
      rcases jgd_spec key ot rt htn hon (hh rt ot rfl rfl) with
        ⟨⟨n', ov⟩, heqd, hout, horig⟩
      cases ov with
      | none =>
          obtain ⟨hsh0, hht0, htl0, hcs0⟩ := hout
          have hsh : n'.shOK = true := hsh0
          have hht : n'.height = rt.height := hht0
          have htl : n'.toList = rt.toList ++ ot.toList := htl0
          have hcs : n'.childSize = rt.childSize + ot.childSize := hcs0
          refine ⟨⟨some n'⟩, by rw [jgT_some_eq, heqd], hsh, ?_, ?_, ?_, ?_⟩
          · show n'.toList = rt.toList ++ ot.toList
            exact htl
          · rw [size_mk_some]
            show n'.childSize = (BTree.mk (some rt)).size
              + (BTree.mk (some ot)).size
            rw [size_mk_some, size_mk_some, hcs]
          · intro h
            simp at h
          · intro rt' nj h1 h2
            obtain rfl : rt = rt' := by simpa using h1
            obtain rfl : n' = nj := by simpa using h2
            exact ⟨by omega, fun _ _ => hht⟩
      | some ncnk =>
          obtain ⟨nc, nk⟩ := ncnk
          obtain ⟨hsh0, hht0, htl0, hncs0, hnch0, hcs0⟩ := hout
          have hsh : n'.shOK = true := hsh0
          have hht : n'.height = rt.height := hht0
          have hncs : nc.shOK = true := hncs0
          have hnch : nc.height = rt.height := hnch0
          have htl : n'.toList ++ nc.toList = rt.toList ++ ot.toList := htl0
          have hcs : n'.childSize + nc.childSize
              = rt.childSize + ot.childSize := hcs0
          obtain ⟨hrs, hrtl, hrcs, hrh⟩ :=
            newRootN_spec n' nc nk hsh hncs (by rw [hht, hnch])
          refine ⟨⟨some (newRootN n' nc nk)⟩, by rw [jgT_some_eq, heqd],
            hrs, ?_, ?_, ?_, ?_⟩
          · show (newRootN n' nc nk).toList = rt.toList ++ ot.toList
            rw [hrtl, htl]
          · rw [size_mk_some]
            show (newRootN n' nc nk).childSize
              = (BTree.mk (some rt)).size + (BTree.mk (some ot)).size
            rw [size_mk_some, size_mk_some, hrcs, hcs]
          · intro h
            simp at h
          · intro rt' nj h1 h2
            obtain rfl : rt = rt' := by simpa using h1
            obtain rfl : newRootN n' nc nk = nj := by simpa using h2
            refine ⟨by rw [hrh, hht], ?_⟩
            intro hkslt hotlt
            rcases horig nc nk rfl with hcase | hcase
            · cases rt with
              | leaf es => exact absurd hkslt (by simp)
              | inner ks cs s =>
                  exact absurd hcase (by omega)
            · have := hotlt ot rfl
              omega

theorem jlT_spec (t : BTree) (key : Key) (other : BTree)
    (ht : t.shInv = true) (ho : other.shInv = true)
    (hh : ∀ rt ot, t.root = some rt → other.root = some ot →
      ot.height ≤ rt.height) :
    ∃ J, joinLessT t key other = some J ∧ J.shInv = true ∧
      J.toList = other.toList ++ t.toList ∧
      J.size = t.size + other.size ∧
      (t.root = none → J = other) ∧
      (∀ rt nj, t.root = some rt → J.root = some nj →
        nj.height ≤ rt.height + 1 ∧
        ((match rt with
          | .leaf _ => False
          | .inner ks _ _ => ks.length < innerSlotMax) →
          (∀ ot, other.root = some ot → ot.height < rt.height) →
          nj.height = rt.height)) := by
  rcases t with ⟨_ | rt⟩
  · refine ⟨other, jlT_none_eq key other, ho, by simp [BTree.toList], by
      simp [BTree.size], fun _ => rfl, ?_⟩
    intro rt nj h
    cases h
  · rcases other with ⟨_ | ot⟩
    · refine ⟨⟨some rt⟩, jlT_some_none_eq key rt, ht, ?_, ?_, ?_, ?_⟩
      · simp [BTree.toList]
      · simp [BTree.size]
      · intro h
        simp at h
      · intro rt' nj h1 h2
        obtain rfl : rt = rt' := by simpa using h1
        obtain rfl : rt = nj := by simpa using h2
        exact ⟨Nat.le_succ _, fun _ _ => rfl⟩
    · have htn : rt.shOK = true := ht
      have hon : ot.shOK = true := ho
      rcases jld_spec key ot rt htn hon (hh rt ot rfl rfl) with
        ⟨⟨n', ov⟩, heqd, hout, horig⟩
      cases ov with
      | none =>
          obtain ⟨hsh0, hht0, htl0, hcs0⟩ := hout
          have hsh : n'.shOK = true := hsh0
          have hht : n'.height = rt.height := hht0
          have htl : n'.toList = ot.toList ++ rt.toList := htl0
          have hcs : n'.childSize = rt.childSize + ot.childSize := hcs0
          refine ⟨⟨some n'⟩, by rw [jlT_some_eq, heqd], hsh, ?_, ?_, ?_, ?_⟩
          · show n'.toList = ot.toList ++ rt.toList
            exact htl
          · rw [size_mk_some]
            show n'.childSize = (BTree.mk (some rt)).size
              + (BTree.mk (some ot)).size
            rw [size_mk_some, size_mk_some, hcs]
          · intro h
            simp at h
          · intro rt' nj h1 h2
            obtain rfl : rt = rt' := by simpa using h1
            obtain rfl : n' = nj := by simpa using h2
            exact ⟨by omega, fun _ _ => hht⟩
      | some ncnk =>
          obtain ⟨nc, nk⟩ := ncnk
          obtain ⟨hsh0, hht0, htl0, hncs0, hnch0, hcs0⟩ := hout
          have hsh : n'.shOK = true := hsh0
          have hht : n'.height = rt.height := hht0
          have hncs : nc.shOK = true := hncs0
          have hnch : nc.height = rt.height := hnch0
          have htl : n'.toList ++ nc.toList = ot.toList ++ rt.toList := htl0
          have hcs : n'.childSize + nc.childSize
              = rt.childSize + ot.childSize := hcs0
          obtain ⟨hrs, hrtl, hrcs, hrh⟩ :=
            newRootN_spec n' nc nk hsh hncs (by rw [hht, hnch])
          refine ⟨⟨some (newRootN n' nc nk)⟩, by rw [jlT_some_eq, heqd],
            hrs, ?_, ?_, ?_, ?_⟩
          · show (newRootN n' nc nk).toList = ot.toList ++ rt.toList
            rw [hrtl, htl]
          · rw [size_mk_some]
            show (newRootN n' nc nk).childSize
              = (BTree.mk (some rt)).size + (BTree.mk (some ot)).size
            rw [size_mk_some, size_mk_some, hrcs, hcs]
          · intro h
            simp at h
          · intro rt' nj h1 h2
            obtain rfl : rt = rt' := by simpa using h1
            obtain rfl : newRootN n' nc nk = nj := by simpa using h2
            refine ⟨by rw [hrh, hht], ?_⟩
            intro hkslt hotlt
            rcases horig nc nk rfl with hcase | hcase
            · cases rt with
              | leaf es => exact absurd hkslt (by simp)
              | inner ks cs s =>
                  exact absurd hcase (by omega)
            · have := hotlt ot rfl
              omega

/-! ### Assembly of the two sides of `split_inner_node` -/

theorem assembleLeft_spec (pk : List Key) (pc : List BNode) (H : Nat)
    (hlen : pk.length = pc.length) (hw : shOKL pc = true)
    (hmem : ∀ x ∈ pc, x.height = H) :
    (assembleLeft pk pc).1.toList = toListL pc ∧
      (assembleLeft pk pc).1.shInv = true ∧
      (∀ nl, (assembleLeft pk pc).1.root = some nl →
        (nl.height = H ∨ (nl.height = H + 1 ∧
          (match nl with
           | .inner ks2 _ _ => ks2.length + 1 = pk.length
           | .leaf _ => False)))) := by
  match pk, pc with
  | [], [] =>
      refine ⟨rfl, rfl, ?_⟩
      intro nl h
      cases h
  | [], _ :: _ => simp at hlen
  | [k], [] => simp at hlen
  | [k], [c2] =>
      obtain ⟨h1, -⟩ := shOKL_cons_parts hw
      refine ⟨?_, h1, ?_⟩
      · show c2.toList = c2.toList ++ toListL []
        simp [toListL]
      · intro nl h
        obtain rfl : c2 = nl := Option.some_inj.mp h
        exact Or.inl (hmem c2 (List.mem_cons_self c2 []))
  | [k], _ :: _ :: _ => simp at hlen
  | k1 :: k2 :: pkr, pc =>
      have hne : pc ≠ [] := by
        intro hcontra
        rw [hcontra] at hlen
        simp at hlen
      have hL : heightL pc = H :=
        heightL_of_mem pc H hne hmem
      refine ⟨rfl, ?_, ?_⟩
      · refine shOK_inner_of_parts hne ?_ rfl ?_ hw
        · simp only [List.length_dropLast, List.length_cons] at hlen ⊢
          omega
        · exact heightsEq_of_mem pc H hmem
      · intro nl h
        obtain rfl : BNode.inner (k1 :: k2 :: pkr).dropLast pc (csSum pc) = nl :=
          Option.some_inj.mp h
        refine Or.inr ⟨?_, ?_⟩
        · show heightL pc + 1 = H + 1
          rw [hL]
        · show (k1 :: k2 :: pkr).dropLast.length + 1 = (k1 :: k2 :: pkr).length
          simp

theorem assembleRight_spec (k : Key) (sk : List Key) (sc : List BNode) (H : Nat)
    (hlen : sc.length = sk.length + 1) (hw : shOKL sc = true)
    (hmem : ∀ x ∈ sc, x.height = H) :
    (assembleRight k sk sc).1.toList = toListL sc ∧
      (assembleRight k sk sc).1.shInv = true ∧
      (∀ nr, (assembleRight k sk sc).1.root = some nr →
        (nr.height = H ∨ (nr.height = H + 1 ∧
          (match nr with
           | .inner ks2 _ _ => ks2.length = sk.length
           | .leaf _ => False)))) := by
  match sk, sc with
  | [], [] => simp at hlen
  | [], [c2] =>
      obtain ⟨h1, -⟩ := shOKL_cons_parts hw
      refine ⟨?_, h1, ?_⟩
      · show c2.toList = c2.toList ++ toListL []
        simp [toListL]
      · intro nr h
        obtain rfl : c2 = nr := Option.some_inj.mp h
        exact Or.inl (hmem c2 (List.mem_cons_self c2 []))
  | [], _ :: _ :: _ => simp at hlen
  | k0 :: skr, sc =>
      have hne : sc ≠ [] := by
        intro hcontra
        rw [hcontra] at hlen
        simp at hlen
      have hL : heightL sc = H :=
        heightL_of_mem sc H hne hmem
      refine ⟨rfl, ?_, ?_⟩
      · refine shOK_inner_of_parts hne ?_ rfl ?_ hw
        · simpa using hlen.symm
        · exact heightsEq_of_mem sc H hmem
      · intro nr h
        obtain rfl : BNode.inner (k0 :: skr) sc (csSum sc) = nr :=
          Option.some_inj.mp h
        refine Or.inr ⟨?_, rfl⟩
        show heightL sc + 1 = H + 1
        rw [hL]

/-! ### Definitional unfoldings of `split_recursive` -/

theorem splitRec_leaf_eq (key : Key) (es : List Entry) :
    splitRecursive key (.leaf es)
      = some
          (if findUpperP (es.map entryKey) key = 0 then ⟨none⟩
           else ⟨some (.leaf (es.take (findUpperP (es.map entryKey) key)))⟩,
           if findUpperP (es.map entryKey) key = es.length then ⟨none⟩
           else ⟨some (.leaf (es.drop (findUpperP (es.map entryKey) key)))⟩) :=
  rfl

theorem splitRec_inner_eq (key : Key) (ks : List Key) (cs : List BNode)
    (s : Nat) :
    splitRecursive key (.inner ks cs s) = splitRecGo key ks cs [] [] := rfl

theorem splitRecGo_last_eq (key : Key) (c : BNode) (pk : List Key)
    (pc : List BNode) :
    splitRecGo key [] [c] pk pc
      = (match splitRecursive key c with
         | none => none
         | some (bl, br) =>
             match joinGreaterT (assembleLeft pk.reverse pc.reverse).1
                 (assembleLeft pk.reverse pc.reverse).2 bl with
             | none => none
             | some lt => some (lt, br)) := rfl

theorem splitRecGo_cons_eq (key : Key) (k : Key) (ks : List Key) (c : BNode)
    (cs : List BNode) (pk : List Key) (pc : List BNode) :
    splitRecGo key (k :: ks) (c :: cs) pk pc
      = (if k ≤ key then splitRecGo key ks cs (k :: pk) (c :: pc)
         else
           match splitRecursive key c with
           | none => none
           | some (bl, br) =>
               match joinGreaterT (assembleLeft pk.reverse pc.reverse).1
                   (assembleLeft pk.reverse pc.reverse).2 bl with
               | none => none
               | some lt =>
                   match joinLessT (assembleRight k ks cs).1
                       (assembleRight k ks cs).2 br with
                   | none => none
                   | some rt => some (lt, rt)) := rfl

/-! ### The split walk: contents split at the key, shapes preserved -/

mutual

theorem splitRec_spec (skey : Key) :
    ∀ n : BNode, n.wfB = true → n.capB = true →
      ∃ L R, splitRecursive skey n = some (L, R) ∧
        L.toList = n.toList.takeWhile (keyLeB skey) ∧
        R.toList = n.toList.dropWhile (keyLeB skey) ∧
        L.shInv = true ∧ R.shInv = true ∧
        (∀ nl, L.root = some nl → nl.height ≤ n.height) ∧
        (∀ nr, R.root = some nr → nr.height ≤ n.height)
  | .leaf es, hwf, hcap => by
      have hslot : findUpperP (es.map entryKey) skey
          = (es.takeWhile (keyLeB skey)).length := findUpperP_len skey es
      have htake : es.takeWhile (keyLeB skey)
          = es.take (findUpperP (es.map entryKey) skey) := by
        rw [hslot]
        exact List.prefix_iff_eq_take.mp (List.takeWhile_prefix _)
      have hdrop : es.dropWhile (keyLeB skey)
          = es.drop (findUpperP (es.map entryKey) skey) := by
        calc es.dropWhile (keyLeB skey)
            = (es.takeWhile (keyLeB skey)
                ++ es.dropWhile (keyLeB skey)).drop
                  (es.takeWhile (keyLeB skey)).length := by
                rw [List.drop_left]
          _ = es.drop (findUpperP (es.map entryKey) skey) := by
                rw [List.takeWhile_append_dropWhile, hslot]
      refine ⟨_, _, by rw [splitRec_leaf_eq], ?_, ?_, ?_, ?_, ?_, ?_⟩
      · by_cases h0 : findUpperP (es.map entryKey) skey = 0
        · simp only [h0, if_pos rfl]
          show ([] : List Entry) = es.takeWhile (keyLeB skey)
          rw [htake, h0]
          simp
        · rw [if_neg h0]
          show es.take (findUpperP (es.map entryKey) skey)
            = es.takeWhile (keyLeB skey)
          rw [htake]
      · by_cases hN : findUpperP (es.map entryKey) skey = es.length
        · simp only [hN, if_pos rfl]
          show ([] : List Entry) = es.dropWhile (keyLeB skey)
          rw [hdrop, hN, List.drop_length]
        · rw [if_neg hN]
          show es.drop (findUpperP (es.map entryKey) skey)
            = es.dropWhile (keyLeB skey)
          rw [hdrop]
      · by_cases h0 : findUpperP (es.map entryKey) skey = 0
        · simp [h0, BTree.shInv]
        · simp [h0, BTree.shInv, BNode.shOK]
      · by_cases hN : findUpperP (es.map entryKey) skey = es.length
        · simp [hN, BTree.shInv]
        · simp [hN, BTree.shInv, BNode.shOK]
      · intro nl h
        by_cases h0 : findUpperP (es.map entryKey) skey = 0
        · rw [if_pos h0] at h
          cases h
        · rw [if_neg h0] at h
          obtain rfl : BNode.leaf (es.take (findUpperP (es.map entryKey) skey))
              = nl := Option.some_inj.mp h
          exact Nat.le_refl 0
      · intro nr h
        by_cases hN : findUpperP (es.map entryKey) skey = es.length
        · rw [if_pos hN] at h
          cases h
        · rw [if_neg hN] at h
          obtain rfl : BNode.leaf (es.drop (findUpperP (es.map entryKey) skey))
              = nr := Option.some_inj.mp h
          exact Nat.le_refl 0
  | .inner ks cs s, hwf, hcap => by
      obtain ⟨hne, hl2, hl3, hl4, hl5, hl6⟩ := wfB_inner_parts hwf
      have hcap' : ks.length ≤ innerSlotMax ∧ capL cs = true := by
        simp only [BNode.capB, Bool.and_eq_true, decide_eq_true_eq] at hcap
        exact hcap
      rcases splitRecGo_spec skey ks cs [] [] hl2.symm rfl hl5 hl6 hcap'.2
        hl4 hcap'.1 (by intro x hx; cases hx) with
        ⟨L, R, heqr, hLT, hRT, hLS, hRS, hLH, hRH⟩
      refine ⟨L, R, by rw [splitRec_inner_eq, heqr], hLT, hRT, hLS, hRS,
        ?_, ?_⟩
      · intro nl h
        exact hLH nl h
      · intro nr h
        exact hRH nr h

theorem splitRecGo_spec (skey : Key) :
    ∀ (ks : List Key) (cs : List BNode) (pk : List Key) (pc : List BNode),
      cs.length = ks.length + 1 →
      pk.length = pc.length →
      sepOK (pk.reverse ++ ks) (pc.reverse ++ cs) = true →
      wfL (pc.reverse ++ cs) = true →
      capL (pc.reverse ++ cs) = true →
      heightsEq (pc.reverse ++ cs) = true →
      (pk.reverse ++ ks).length ≤ innerSlotMax →
      (∀ k ∈ pk, k ≤ skey) →
      ∃ L R, splitRecGo skey ks cs pk pc = some (L, R) ∧
        L.toList = (toListL (pc.reverse ++ cs)).takeWhile (keyLeB skey) ∧
        R.toList = (toListL (pc.reverse ++ cs)).dropWhile (keyLeB skey) ∧
        L.shInv = true ∧ R.shInv = true ∧
        (∀ nl, L.root = some nl →
          nl.height ≤ heightL (pc.reverse ++ cs) + 1) ∧
        (∀ nr, R.root = some nr →
          nr.height ≤ heightL (pc.reverse ++ cs) + 1)
  | [], [], pk, pc, hlen, _, _, _, _, _, _, _ => by simp at hlen
  | [], _ :: _ :: _, pk, pc, hlen, _, _, _, _, _, _, _ => by
      simp only [List.length_cons, List.length_nil] at hlen
      omega
  | _ :: _, [], pk, pc, hlen, _, _, _, _, _, _, _ => by
      simp only [List.length_cons, List.length_nil] at hlen
      omega
  | [], [c], pk, pc, hlen, hplen, hsep, hwl, hcap, hhe, hklen, hpk => by
      have hCw : wfL pc.reverse = true ∧ c.wfB = true := by
        have h0 := hwl
        rw [wfL_append, Bool.and_eq_true] at h0
        exact ⟨h0.1, (wfL_cons_parts h0.2).1⟩
      have hCc : c.capB = true := by
        have h0 := hcap
        rw [capL_append, Bool.and_eq_true] at h0
        exact (capL_cons_parts h0.2).1
      have hlm := heightsEq_mem _ hhe
      have hch : c.height = heightL (pc.reverse ++ [c]) :=
        hlm c (by simp)
      have hpre : ∀ e ∈ toListL pc.reverse, e.1 ≤ skey :=
        sepOK_prefix_bound skey pk.reverse pc.reverse (by simpa using hplen)
          _ _ hsep hCw.1
          (by intro x hx; exact hpk x (List.mem_reverse.mp hx))
      have hallpre : ∀ a ∈ toListL pc.reverse, keyLeB skey a = true := by
        intro a ha
        exact decide_eq_true (hpre a ha)
      rcases splitRec_spec skey c hCw.2 hCc with
        ⟨bl, br, heqc, hblT, hbrT, hblS, hbrS, hblH, hbrH⟩
      have hpcw : shOKL pc.reverse = true := wfL_shOKL _ hCw.1
      have hpcm : ∀ x ∈ pc.reverse,
          x.height = heightL (pc.reverse ++ [c]) := by
        intro x hx
        exact hlm x (List.mem_append_left _ hx)
      obtain ⟨haT, haS, haH⟩ := assembleLeft_spec pk.reverse pc.reverse _
        (by simpa using hplen) hpcw hpcm
      have hhg : ∀ rt ot,
          (assembleLeft pk.reverse pc.reverse).1.root = some rt →
          bl.root = some ot → ot.height ≤ rt.height := by
        intro rt ot h1 h2
        have h3 := haH rt h1
        have h4 := hblH ot h2
        rcases h3 with h3 | ⟨h3, -⟩ <;> omega
      rcases jgT_spec (assembleLeft pk.reverse pc.reverse).1
          (assembleLeft pk.reverse pc.reverse).2 bl haS hblS hhg with
        ⟨JL, heqJL, hJLs, hJLt, hJLsz, hJLnone, hJLh⟩
      refine ⟨JL, br, ?_, ?_, ?_, hJLs, hbrS, ?_, ?_⟩
      · rw [splitRecGo_last_eq]
        simp only [heqc, heqJL]
      · rw [hJLt, haT, hblT, toListL_append,
          takeWhile_append_all (keyLeB skey) (toListL pc.reverse) _ hallpre]
        have hsingle : (toListL [c]).takeWhile (keyLeB skey)
            = c.toList.takeWhile (keyLeB skey) := by
          show ((c.toList ++ toListL [])).takeWhile (keyLeB skey) = _
          simp [toListL]
        rw [hsingle]
      · rw [hbrT, toListL_append,
          dropWhile_append_all (keyLeB skey) (toListL pc.reverse) _ hallpre]
        have hsingle : (toListL [c]).dropWhile (keyLeB skey)
            = c.toList.dropWhile (keyLeB skey) := by
          show ((c.toList ++ toListL [])).dropWhile (keyLeB skey) = _
          simp [toListL]
        rw [hsingle]
      · intro nl h
        rcases hroot : (assembleLeft pk.reverse pc.reverse).1.root with
          _ | rt
        · have hJb := hJLnone hroot
          rw [hJb] at h
          have := hblH nl h
          omega
        · have hj := hJLh rt nl hroot h
          rcases haH rt hroot with hcase | ⟨hcase, hkc⟩
          · have := hj.1
            omega
          · cases rt with
            | leaf _ => exact hkc.elim
            | inner ks2 cs2 s2 =>
                have hk2 : ks2.length + 1 = pk.reverse.length := hkc
                have hfewer : ks2.length < innerSlotMax := by
                  simp only [List.length_append, List.length_nil,
                    List.length_reverse] at hklen
                  simp only [List.length_reverse] at hk2
                  omega
                have hprec := hj.2 hfewer ?_
                · omega
                · intro ot hot
                  have := hblH ot hot
                  omega
      · intro nr h
        have := hbrH nr h
        omega
  | k :: ks', c :: cs', pk, pc, hlen, hplen, hsep, hwl, hcap, hhe, hklen,
      hpk => by
      by_cases hk : k ≤ skey
      · have hrk : (k :: pk).reverse ++ ks' = pk.reverse ++ k :: ks' := by
          simp
        have hrc : (c :: pc).reverse ++ cs' = pc.reverse ++ c :: cs' := by
          simp
        rcases splitRecGo_spec skey ks' cs' (k :: pk) (c :: pc)
          (by simpa using hlen) (by simpa using hplen)
          (by rw [hrk, hrc]; exact hsep) (by rw [hrc]; exact hwl)
          (by rw [hrc]; exact hcap) (by rw [hrc]; exact hhe)
          (by rw [hrk]; exact hklen)
          (by
            intro x hx
            rcases List.mem_cons.mp hx with rfl | hx'
            · exact hk
            · exact hpk x hx') with
          ⟨L, R, heqr, hLT, hRT, hLS, hRS, hLH, hRH⟩

        refine ⟨L, R, ?_, ?_, ?_, hLS, hRS, ?_, ?_⟩
        · rw [splitRecGo_cons_eq, if_pos hk, heqr]
        · rw [hLT, hrc]
        · rw [hRT, hrc]
        · intro nl h
          have := hLH nl h
          rw [hrc] at this
          exact this
        · intro nr h
          have := hRH nr h
          rw [hrc] at this
          exact this
      · have hCw : wfL pc.reverse = true ∧ c.wfB = true ∧ wfL cs' = true := by
          have h0 := hwl
          rw [wfL_append, Bool.and_eq_true] at h0
          obtain ⟨h2a, h2b⟩ := wfL_cons_parts h0.2
          exact ⟨h0.1, h2a, h2b⟩
        have hCc : c.capB = true := by
          have h0 := hcap
          rw [capL_append, Bool.and_eq_true] at h0
          exact (capL_cons_parts h0.2).1
        have hlm := heightsEq_mem _ hhe
        have hch : c.height = heightL (pc.reverse ++ c :: cs') :=
          hlm c (by simp)
        have hsk : sepOK (k :: ks') (c :: cs') = true :=
          sepOK_skip pk.reverse pc.reverse (by simpa using hplen) _ _ hsep
        rcases sepOK_cons_parts hsk with
          ⟨c0, c1, cs0, heq0, hlastk, hkfirst, hsep'⟩
        have hc0 : c = c0 := (List.cons.injEq _ _ _ _ ▸ heq0).1
        rw [← hc0] at hlastk
        have hpre : ∀ e ∈ toListL pc.reverse, e.1 ≤ skey :=
          sepOK_prefix_bound skey pk.reverse pc.reverse
            (by simpa using hplen) _ _ hsep hCw.1
            (by intro x hx; exact hpk x (List.mem_reverse.mp hx))
        have hallpre : ∀ a ∈ toListL pc.reverse, keyLeB skey a = true := by
          intro a ha
          exact decide_eq_true (hpre a ha)
        have hcwit : ∃ e ∈ c.toList, keyLeB skey e = false := by
          rcases wfB_lastKey_mem c hCw.2.1 with ⟨e, he, hek⟩
          refine ⟨e, he, ?_⟩
          apply decide_eq_false
          rw [hek, hlastk]
          exact hk
        rcases splitRec_spec skey c hCw.2.1 hCc with
          ⟨bl, br, heqc, hblT, hbrT, hblS, hbrS, hblH, hbrH⟩
        have hpcw : shOKL pc.reverse = true := wfL_shOKL _ hCw.1
        have hpcm : ∀ x ∈ pc.reverse,
            x.height = heightL (pc.reverse ++ c :: cs') := by
          intro x hx
          exact hlm x (List.mem_append_left _ hx)
        obtain ⟨haT, haS, haH⟩ := assembleLeft_spec pk.reverse pc.reverse _
          (by simpa using hplen) hpcw hpcm
        have hcs'len : cs'.length = ks'.length + 1 := by simpa using hlen
        have hcs'w : shOKL cs' = true := wfL_shOKL _ hCw.2.2
        have hcs'm : ∀ x ∈ cs',
            x.height = heightL (pc.reverse ++ c :: cs') := by
          intro x hx
          exact hlm x (List.mem_append_right _ (List.mem_cons_of_mem c hx))
        obtain ⟨hbT, hbS, hbH⟩ :=
          assembleRight_spec k ks' cs' _ hcs'len hcs'w hcs'm
        have hhg : ∀ rt ot,
            (assembleLeft pk.reverse pc.reverse).1.root = some rt →
            bl.root = some ot → ot.height ≤ rt.height := by
          intro rt ot h1 h2
          have h3 := haH rt h1
          have h4 := hblH ot h2
          rcases h3 with h3 | ⟨h3, -⟩ <;> omega
        rcases jgT_spec (assembleLeft pk.reverse pc.reverse).1
            (assembleLeft pk.reverse pc.reverse).2 bl haS hblS hhg with
          ⟨JL, heqJL, hJLs, hJLt, hJLsz, hJLnone, hJLh⟩
        have hhl : ∀ rt ot,
            (assembleRight k ks' cs').1.root = some rt →
            br.root = some ot → ot.height ≤ rt.height := by
          intro rt ot h1 h2
          have h3 := hbH rt h1
          have h4 := hbrH ot h2
          rcases h3 with h3 | ⟨h3, -⟩ <;> omega
        rcases jlT_spec (assembleRight k ks' cs').1
            (assembleRight k ks' cs').2 br hbS hbrS hhl with
          ⟨JR, heqJR, hJRs, hJRt, hJRsz, hJRnone, hJRh⟩
        refine ⟨JL, JR, ?_, ?_, ?_, hJLs, hJRs, ?_, ?_⟩
        · rw [splitRecGo_cons_eq, if_neg hk]
          simp only [heqc, heqJL, heqJR]
        · rw [hJLt, haT, hblT, toListL_append,
            takeWhile_append_all (keyLeB skey) (toListL pc.reverse) _ hallpre]
          have hstep : (toListL (c :: cs')).takeWhile (keyLeB skey)
              = c.toList.takeWhile (keyLeB skey) := by
            show ((c.toList ++ toListL cs')).takeWhile (keyLeB skey) = _
            exact takeWhile_append_stop _ _ _ hcwit
          rw [hstep]
        · rw [hJRt, hbT, hbrT, toListL_append,
            dropWhile_append_all (keyLeB skey) (toListL pc.reverse) _ hallpre]
          have hstep : (toListL (c :: cs')).dropWhile (keyLeB skey)
              = c.toList.dropWhile (keyLeB skey) ++ toListL cs' := by
            show ((c.toList ++ toListL cs')).dropWhile (keyLeB skey) = _
            exact dropWhile_append_stop _ _ _ hcwit
          rw [hstep]
        · intro nl h
          rcases hroot : (assembleLeft pk.reverse pc.reverse).1.root with
            _ | rt
          · have hJb := hJLnone hroot
            rw [hJb] at h
            have := hblH nl h
            omega
          · have hj := hJLh rt nl hroot h
            rcases haH rt hroot with hcase | ⟨hcase, hkc⟩
            · have := hj.1
              omega
            · cases rt with
              | leaf _ => exact hkc.elim
              | inner ks2 cs2 s2 =>
                  have hk2 : ks2.length + 1 = pk.reverse.length := hkc
                  have hfewer : ks2.length < innerSlotMax := by
                    simp only [List.length_append, List.length_cons,
                      List.length_reverse] at hklen
                    simp only [List.length_reverse] at hk2
                    omega
                  have hprec := hj.2 hfewer ?_
                  · omega
                  · intro ot hot
                    have := hblH ot hot
                    omega
        · intro nr h
          rcases hroot : (assembleRight k ks' cs').1.root with _ | rt
          · have hJb := hJRnone hroot
            rw [hJb] at h
            have := hbrH nr h
            omega
          · have hj := hJRh rt nr hroot h
            rcases hbH rt hroot with hcase | ⟨hcase, hkc⟩
            · have := hj.1
              omega
            · cases rt with
              | leaf _ => exact hkc.elim
              | inner ks2 cs2 s2 =>
                  have hk2 : ks2.length = ks'.length := hkc
                  have hfewer : ks2.length < innerSlotMax := by
                    simp only [List.length_append, List.length_cons,
                      List.length_reverse] at hklen
                    omega
                  have hprec := hj.2 hfewer ?_
                  · omega
                  · intro ot hot
                    have := hbrH ot hot
                    omega

end

/-! ### C3: split at a key and re-join -/

theorem mem_takeWhile_pred {α : Type} (p : α → Bool) :
    ∀ l : List α, ∀ a ∈ l.takeWhile p, p a = true
  | [], a, ha => by simp at ha
  | x :: l, a, ha => by
      cases hpx : p x with
      | false =>
          rw [List.takeWhile_cons, hpx] at ha
          simp at ha
      | true =>
          rw [List.takeWhile_cons, hpx, if_pos rfl] at ha
          rcases List.mem_cons.mp ha with rfl | ha'
          · exact hpx
          · exact mem_takeWhile_pred p l a ha'

theorem BTree.toList_eq_nil_of_empty (t : BTree) (hs : t.sizeInv = true)
    (h : t.empty = true) : t.toList = [] := by
  rw [BTree.empty, beq_iff_eq] at h
  have := BTree.size_toList t hs
  rw [h] at this
  exact List.length_eq_zero.mp this.symm

theorem BTree.root_some_of_toList_ne_nil (t : BTree) (h : t.toList ≠ []) :
    ∃ n, t.root = some n := by
  rcases t with ⟨_ | n⟩
  · exact absurd rfl h
  · exact ⟨n, rfl⟩

/-- C3: for every well-formed tree (within the physical node-capacity bound
`slotuse ≤ slotmax`, which every really constructed tree satisfies) and
every key `s`, `split` (the spec's `split_at_key`) yields trees `(L, R)`
with `size(L) + size(R) = size(T)`, every key in `L` at most `s`, every key
in `R` strictly greater than `s`, and `L.join(R)` restores a tree with
exactly the original multiset of (key, payload) entries. -/
theorem C3_split_at_key_round_trip (t : BTree) (s : Key)
    (hwf : t.wf = true) (hcap : t.cap = true) :
    ∃ L R J, t.splitKey s = some (L, R) ∧
      L.size + R.size = t.size ∧
      (∀ e ∈ L.toList, e.1 ≤ s) ∧
      (∀ e ∈ R.toList, s < e.1) ∧
      L.join R = some J ∧
      Multiset.ofList J.toList = Multiset.ofList t.toList := by
  rcases t with ⟨_ | n⟩
  · refine ⟨⟨none⟩, ⟨none⟩, ⟨none⟩, rfl, rfl, ?_, ?_, rfl, rfl⟩
    · intro e he
      simp [BTree.toList] at he
    · intro e he
      simp [BTree.toList] at he
  · have hwfn : n.wfB = true := hwf
    have hcapn : n.capB = true := hcap
    rcases splitRec_spec s n hwfn hcapn with
      ⟨L, R, heqs, hLT, hRT, hLS, hRS, hLH, hRH⟩
    have hsorted : List.Pairwise (· ≤ ·) (n.toList.map entryKey) :=
      List.chain'_iff_pairwise.mp (BNode.wfB_chain n hwfn)
    have hLb : ∀ e ∈ L.toList, e.1 ≤ s := by
      intro e he
      rw [hLT] at he
      exact of_decide_eq_true (mem_takeWhile_pred _ _ e he)
    have hRb : ∀ e ∈ R.toList, s < e.1 := by
      intro e he
      rw [hRT] at he
      exact sorted_dropWhile_gt s n.toList hsorted e he
    have hconcat : L.toList ++ R.toList = n.toList := by
      rw [hLT, hRT, List.takeWhile_append_dropWhile]
    have hLsz := BTree.size_toList L (BTree.shInv_sizeInv L hLS)
    have hRsz := BTree.size_toList R (BTree.shInv_sizeInv R hRS)
    have htsz := BTree.size_toList ⟨some n⟩
      (BTree.wf_sizeInv ⟨some n⟩ hwf)
    have hsizes : L.size + R.size = (BTree.mk (some n)).size := by
      rw [hLsz, hRsz, htsz]
      have := congrArg List.length hconcat
      rw [List.length_append] at this
      exact this
    have hsplit : (BTree.mk (some n)).splitKey s = some (L, R) := heqs
    by_cases hLe : L.empty = true
    · have hLnil : L.toList = [] :=
        BTree.toList_eq_nil_of_empty L (BTree.shInv_sizeInv L hLS) hLe
      have hJ : L.join R = some R := by
        rw [BTree.join, if_pos hLe]
      refine ⟨L, R, R, hsplit, hsizes, hLb, hRb, hJ, ?_⟩
      have : R.toList = n.toList := by
        rw [← hconcat, hLnil]
        rfl
      rw [this]
      rfl
    · by_cases hRe : R.empty = true
      · have hRnil : R.toList = [] :=
          BTree.toList_eq_nil_of_empty R (BTree.shInv_sizeInv R hRS) hRe
        have hJ : L.join R = some L := by
          rw [BTree.join, if_neg hLe, if_pos hRe]
        refine ⟨L, R, L, hsplit, hsizes, hLb, hRb, hJ, ?_⟩
        have : L.toList = n.toList := by
          rw [← hconcat, hRnil, List.append_nil]
        rw [this]
        rfl
      · have hLne : L.toList ≠ [] := by
          intro hcontra
          rw [BTree.empty, beq_iff_eq] at hLe
          rw [hLsz, hcontra] at hLe
          exact hLe rfl
        have hRne : R.toList ≠ [] := by
          intro hcontra
          rw [BTree.empty, beq_iff_eq] at hRe
          rw [hRsz, hcontra] at hRe
          exact hRe rfl
        obtain ⟨rtL, hrtL⟩ := BTree.root_some_of_toList_ne_nil L hLne
        obtain ⟨rtR, hrtR⟩ := BTree.root_some_of_toList_ne_nil R hRne
        have hmapne : L.toList.map entryKey ≠ [] := by simpa using hLne
        have hlk : (L.toList.map entryKey).getLast?
            = some ((L.toList.map entryKey).getLast hmapne) :=
          List.getLast?_eq_getLast _ hmapne
        have hjoin : L.join R
            = (if rtR.height ≤ rtL.height then
                joinGreaterT L ((L.toList.map entryKey).getLast hmapne) R
              else
                joinLessT R ((L.toList.map entryKey).getLast hmapne) L) := by
          rw [BTree.join, if_neg hLe, if_neg hRe]
          simp only [hlk, hrtL, hrtR]
        by_cases hht : rtR.height ≤ rtL.height
        · rw [if_pos hht] at hjoin
          rcases jgT_spec L ((L.toList.map entryKey).getLast hmapne) R hLS hRS
            (by
              intro rt ot h1 h2
              rw [hrtL] at h1
              rw [hrtR] at h2
              obtain rfl : rtL = rt := Option.some_inj.mp h1
              obtain rfl : rtR = ot := Option.some_inj.mp h2
              exact hht) with ⟨J, heqJ, -, hJt, -, -, -⟩
          refine ⟨L, R, J, hsplit, hsizes, hLb, hRb, by rw [hjoin, heqJ], ?_⟩
          rw [hJt, hconcat]
          rfl
        · rw [if_neg hht] at hjoin
          rcases jlT_spec R ((L.toList.map entryKey).getLast hmapne) L hRS hLS
            (by
              intro rt ot h1 h2
              rw [hrtR] at h1
              rw [hrtL] at h2
              obtain rfl : rtR = rt := Option.some_inj.mp h1
              obtain rfl : rtL = ot := Option.some_inj.mp h2
              omega) with ⟨J, heqJ, -, hJt, -, -, -⟩
          refine ⟨L, R, J, hsplit, hsizes, hLb, hRb, by rw [hjoin, heqJ], ?_⟩
          rw [hJt, hconcat]
          rfl

/-- Witness for C3 at a concrete two-level tree, split key 3. -/
theorem C3_split_at_key_round_trip_witness :
    (BTree.mk (some (BNode.inner [2]
      [BNode.leaf [(1, 1), (2, 2)], BNode.leaf [(3, 3), (4, 4)]] 4))).wf
        = true ∧
    (BTree.mk (some (BNode.inner [2]
      [BNode.leaf [(1, 1), (2, 2)], BNode.leaf [(3, 3), (4, 4)]] 4))).cap
        = true ∧
    (∃ L R J, (BTree.mk (some (BNode.inner [2]
        [BNode.leaf [(1, 1), (2, 2)], BNode.leaf [(3, 3), (4, 4)]] 4))).splitKey
          3 = some (L, R) ∧
      L.size + R.size = (BTree.mk (some (BNode.inner [2]
        [BNode.leaf [(1, 1), (2, 2)], BNode.leaf [(3, 3), (4, 4)]] 4))).size ∧
      (∀ e ∈ L.toList, e.1 ≤ 3) ∧
      (∀ e ∈ R.toList, (3 : Key) < e.1) ∧
      L.join R = some J ∧
      Multiset.ofList J.toList = Multiset.ofList (BTree.mk (some (BNode.inner
        [2] [BNode.leaf [(1, 1), (2, 2)], BNode.leaf [(3, 3), (4, 4)]]
          4))).toList) :=
  ⟨by decide, by decide,
    C3_split_at_key_round_trip (BTree.mk (some (BNode.inner [2]
      [BNode.leaf [(1, 1), (2, 2)], BNode.leaf [(3, 3), (4, 4)]] 4))) 3
      (by decide) (by decide)⟩

/-! ### Insertion (btree.hpp:1887-2160)

The tree is instantiated as `btree_multimap`, so `allow_duplicates` is
true. -/

/-- `allow_duplicates` of the reservoir's `btree_multimap` instantiation. -/
def allowDuplicates : Bool := true

/-- `find_lower` over plain keys (the linear-search form,
btree.hpp:1386-1391): number of leading keys `< key`. -/
def findLowerP : List Key → Key → Nat
  | [], _ => 0
  | k :: ks, key => if k < key then findLowerP ks key + 1 else 0

/-- `std::copy_backward` plus slot assignment: insert `a` at index `i`. -/
def insertAt {α : Type} (l : List α) (i : Nat) (a : α) : List α :=
  l.take i ++ a :: l.drop i

/-- Result of `insert_descend`: the updated node, or an (old node, new
sibling, separator) triple on overflow, together with the `r.second`
inserted flag. -/
inductive InsRes where
  | one (n : BNode) (ins : Bool)
  | two (l r : BNode) (sep : Key) (ins : Bool)

/-- The leaf case of `insert_descend` (btree.hpp:2040-2079), including
`split_leaf_node` (btree.hpp:2083-2112) on overflow and the split-key
correction when the insert lands on the last slot of the old leaf. -/
def insertLeaf (key : Key) (v : Payload) (es : List Entry) : InsRes :=
  let slot := findLowerP (es.map entryKey) key
  if allowDuplicates = false ∧ slot < es.length ∧
      (es.map entryKey).get? slot = some key then
    .one (.leaf es) false
  else if es.length = leafSlotMax then
    let mid := es.length / 2
    let sep0 := ((es.take mid).map entryKey).getLast?.getD 0
    if mid ≤ slot then
      .two (.leaf (es.take mid))
        (.leaf (insertAt (es.drop mid) (slot - mid) (key, v))) sep0 true
    else
      .two (.leaf (insertAt (es.take mid) slot (key, v)))
        (.leaf (es.drop mid)) (if slot = mid then key else sep0) true
  else
    .one (.leaf (insertAt es slot (key, v))) true

/-- Integration of a child's insertion result into the inner node
(btree.hpp:1944-2037): prefix/suffix are the keys and children around the
descent slot; an overflowing child is inserted at the slot, splitting the
node (`split_inner_node`, btree.hpp:2118-2159, which recomputes both
halves' `subtree_size`) when full, including the special case where the
new child becomes the separator between the halves.  The trailing
`subtree_size++` for an inserted element is fused in (the special case
returns early and skips it, its adjustments already accounting for the new
element). -/
def insCombine (s : Nat) (P : List Key) (PC : List BNode) (SK : List Key)
    (SC : List BNode) : InsRes → Option InsRes
  | .one c' ins =>
      some (.one (.inner (P ++ SK) (PC ++ c' :: SC)
        (if ins then s + 1 else s)) ins)
  | .two c' nc nk ins =>
      let ksFull := P ++ SK
      let csFull := PC ++ c' :: SC
      let slot := PC.length
      let newSub := nc.childSize
      if ksFull.length = innerSlotMax then
        let mid := splitInnerMid ksFull.length slot
        let lks := ksFull.take mid
        let lcs := csFull.take (mid + 1)
        let rks := ksFull.drop (mid + 1)
        let rcs := csFull.drop (mid + 1)
        let sep := (ksFull.get? mid).getD 0
        if slot = mid + 1 ∧ mid < ksFull.length - (mid + 1) then
          match rcs with
          | [] => none
          | rc0 :: rcrest =>
              some (.two
                (.inner (lks ++ [sep]) (lcs ++ [rc0])
                  (csSum lcs + rc0.childSize))
                (.inner rks (nc :: rcrest)
                  (csSum rcs + newSub - rc0.childSize))
                nk ins)
        else if mid + 1 ≤ slot then
          some (.two
            (.inner lks lcs (csSum lcs))
            (.inner (insertAt rks (slot - (mid + 1)) nk)
              (insertAt rcs (slot - (mid + 1) + 1) nc)
              (csSum rcs + newSub - 1 + (if ins then 1 else 0)))
            sep ins)
        else
          some (.two
            (.inner (insertAt lks slot nk) (insertAt lcs (slot + 1) nc)
              (csSum lcs + newSub - 1 + (if ins then 1 else 0)))
            (.inner rks rcs (csSum rcs))
            sep ins)
      else
        some (.one (.inner (insertAt ksFull slot nk)
          (insertAt csFull (slot + 1) nc)
          (s + (if ins then 1 else 0))) ins)

mutual

/-- `insert_descend` (btree.hpp:1926-2079): descend along `find_lower` into
a leaf, insert there, and integrate overflows on the way back up.  `none`
models the undefined behaviour on malformed nodes. -/
def insertDescend (key : Key) (v : Payload) : BNode → Option InsRes
  | .leaf es => some (insertLeaf key v es)
  | .inner ks cs s => insDescGo key v s ks cs [] []

/-- The `find_lower` walk of `insert_descend` over an inner node, fused
with the descent (prefix accumulated in reverse). -/
def insDescGo (key : Key) (v : Payload) (s : Nat) :
    List Key → List BNode → List Key → List BNode → Option InsRes
  | [], [c], pk, pc =>
      match insertDescend key v c with
      | none => none
      | some r => insCombine s pk.reverse pc.reverse [] [] r
  | [], [], _, _ => none
  | [], _ :: _ :: _, _, _ => none
  | _ :: _, [], _, _ => none
  | k :: ks, c :: cs, pk, pc =>
      if k < key then insDescGo key v s ks cs (k :: pk) (c :: pc)
      else
        match insertDescend key v c with
        | none => none
        | some r => insCombine s pk.reverse pc.reverse (k :: ks) cs r

end

/-- The public `insert` via `insert_start` (btree.hpp:1888-1917): an empty
tree first allocates an empty root leaf; a root overflow creates a new
root. -/
def BTree.insertE (t : BTree) (e : Entry) : Option BTree :=
  match insertDescend e.1 e.2 (t.root.getD (.leaf [])) with
  | none => none
  | some (.one n' _) => some ⟨some n'⟩
  | some (.two l r sep _) => some ⟨some (newRootN l r sep)⟩

/-! ### Bulk loading (btree.hpp:2169-2310) -/

/-- The distribution loop of `bulk_load`: chunk `xs` into `cnt` pieces,
piece `i` receiving `remaining / (cnt - i)` elements. -/
def splitChunks {α : Type} : Nat → List α → List (List α)
  | 0, _ => []
  | cnt + 1, xs => xs.take (xs.length / (cnt + 1))
      :: splitChunks cnt (xs.drop (xs.length / (cnt + 1)))

/-- One parent level of `bulk_load`: group the child nodes into `cnt` inner
nodes; each takes its children's `lastKeyD` as separators (the tracked
max-key pointers) and sums their sizes into `subtree_size`. -/
def buildParents (cnt : Nat) (children : List BNode) : List BNode :=
  (splitChunks cnt children).map
    (fun g => .inner (g.dropLast.map BNode.lastKeyD) g (csSum g))

/-- The level loop of `bulk_load`: build parent levels until a single node
remains (the root); `cnt = ceil(len / (inner_slotmax + 1))`. -/
def buildLevels : Nat → List BNode → Option BNode
  | 0, _ => none
  | _ + 1, [n] => some n
  | fuel + 1, nodes =>
      buildLevels fuel
        (buildParents ((nodes.length + innerSlotMax) / (innerSlotMax + 1))
          nodes)

/-- `bulk_load` (btree.hpp:2169-2310) from an already sorted sequence:
distribute the items over `ceil(n / leaf_slotmax)` leaves and build the
inner levels bottom-up. -/
def BTree.bulkLoad (items : List Entry) : Option BTree :=
  if items.length = 0 then some ⟨none⟩
  else
    match buildLevels (items.length + 1)
        ((splitChunks ((items.length + leafSlotMax - 1) / leafSlotMax)
          items).map .leaf) with
    | none => none
    | some n => some ⟨some n⟩

/-! ### Erase by iterator (btree.hpp:2414-2427, erase_iter_descend 2743-3046)

An iterator is a (leaf, slot) pair; leaf pointer identity is modelled by
the index of the leaf in left-to-right order.  `iter.key()` is read only
while no mutation has happened yet, so it is carried as a fixed key. -/

/-- Model of a tree iterator: leaf index (in left-to-right order), slot
within the leaf, and the key under the iterator. -/
structure EIter where
  leafIdx : Nat
  slot : Nat
  ikey : Key

/-- `slotuse` of a node. -/
def BNode.slotuseN : BNode → Nat
  | .leaf es => es.length
  | .inner ks _ _ => ks.length

mutual

/-- Number of leaves in a subtree (models leaf pointer identity by
position). -/
def BNode.numLeaves : BNode → Nat
  | .leaf _ => 1
  | .inner _ cs _ => numLeavesL cs

def numLeavesL : List BNode → Nat
  | [] => 0
  | c :: cs => c.numLeaves + numLeavesL cs

end

/-- `is_few` (btree.hpp:272, 335): `slotuse <= slotmin`. -/
def isFewN (su : Nat) : Bool := decide (su ≤ innerSlotMin)

/-- The rebalancing action chosen by the underflow case ladder; all
actions operate on the node and a sibling under the same parent (the case
analysis only ever mutates same-parent siblings; cousins contribute their
null-ness and `is_few` to the decision). -/
inductive RebAct where
  | none0
  | mergeL
  | mergeR
  | shiftL
  | shiftR

/-- The underflow case ladder shared by the leaf and inner branches of
`erase_iter_descend` (btree.hpp:2814-2864, 2973-3040).  `hasL`/`hasR` are
the null tests on the neighbors, `lsu`/`rsu` their `slotuse`, and
`lSame`/`rSame` whether the neighbor's parent is the current node's parent
(`left_parent == parent` etc.; `left_parent == right_parent` holds exactly
when both are the parent, since a neighbor exists iff its recorded parent
is non-null). -/
def chooseReb (hasL hasR : Bool) (lsu rsu : Nat) (lSame rSame : Bool) :
    RebAct :=
  if (!hasL || isFewN lsu) && (!hasR || isFewN rsu) then
    if lSame then .mergeL else .mergeR
  else if (hasL && isFewN lsu) && (hasR && !isFewN rsu) then
    if rSame then .shiftL else .mergeL
  else if (hasL && !isFewN lsu) && (hasR && isFewN rsu) then
    if lSame then .shiftR else .mergeR
  else if lSame && rSame then
    if lsu ≤ rsu then .shiftL else .shiftR
  else if lSame then .shiftR else .shiftL

/-- Result of one `erase_iter_descend` call: not found (no mutation), a
root replacement (the two root-trimming cases), or the updated node with a
pending write into the parent's separator at the descent slot (`wp`), a
pending `btree_update_lastkey` flag (`upd`), and the chosen rebalancing
action for the parent to perform (`act`). -/
inductive ERes where
  | notFound
  | rootDone (newRoot : Option BNode)
  | ok (n : BNode) (wp : Option Key) (upd : Option Key) (act : RebAct)

/-- `merge_leaves` (btree.hpp:3051-3076) / `merge_inner` (3082-3126):
move everything from the right node into the left and zero the right.
`none` on capacity overflow (buffer overrun in the C++). -/
def mergeNodesE : BNode → Key → BNode → Option (BNode × BNode)
  | .leaf les, _, .leaf res =>
      if les.length + res.length ≤ leafSlotMax then
        some (.leaf (les ++ res), .leaf [])
      else none
  | .inner lks lcs ls, sep, .inner rks rcs rs =>
      if lks.length + rks.length + 1 ≤ innerSlotMax then
        some (.inner (lks ++ sep :: rks) (lcs ++ rcs) (ls + rs),
          .inner [] [] 0)
      else none
  | _, _, _ => none

/-- `shift_left_leaf` (btree.hpp:3131-3173): move the first
`(r-l)/2` entries of the right leaf to the left; returns the left's new
last key to be written at the parent separator (or forwarded as
`update_lastkey` by the caller).  `none` on `slotuse` underflow/overflow
(unsigned wrap / buffer overrun / `key(-1)` in the C++). -/
def shiftLeftLeafE (les res : List Entry) :
    Option (List Entry × List Entry × Key) :=
  let sh := (res.length - les.length) / 2
  if res.length ≤ les.length then none
  else if leafSlotMax < les.length + sh then none
  else
    match (les ++ res.take sh).getLast? with
    | none => none
    | some e => some (les ++ res.take sh, res.drop sh, e.1)

/-- `shift_left_inner` (btree.hpp:3178-3236): weave the parent separator
plus the right's first `sh-1` keys and `sh` children into the left;
the right's key at `sh-1` becomes the new parent separator;
`shift_subtree_size` moves the moved children's summed sizes. -/
def shiftLeftInnerE (lks : List Key) (lcs : List BNode) (ls : Nat)
    (rks : List Key) (rcs : List BNode) (rs : Nat) (sep : Key) :
    Option (BNode × BNode × Key) :=
  let sh := (rks.length - lks.length) / 2
  if rks.length ≤ lks.length then none
  else if sh = 0 then none
  else if innerSlotMax < lks.length + sh then none
  else
    match rks.get? (sh - 1) with
    | none => none
    | some newsep =>
        some (.inner (lks ++ sep :: rks.take (sh - 1)) (lcs ++ rcs.take sh)
            (ls + csSum (rcs.take sh)),
          .inner (rks.drop sh) (rcs.drop sh) (rs - csSum (rcs.take sh)),
          newsep)

/-- `shift_right_leaf` (btree.hpp:3241-3289): move the last `(l-r)/2`
entries of the left leaf to the front of the right; the left's new last
key is written at the parent separator unconditionally. -/
def shiftRightLeafE (les res : List Entry) :
    Option (List Entry × List Entry × Key) :=
  let sh := (les.length - res.length) / 2
  if les.length ≤ res.length then none
  else if leafSlotMax < res.length + sh then none
  else
    match (les.take (les.length - sh)).getLast? with
    | none => none
    | some e =>
        some (les.take (les.length - sh),
          les.drop (les.length - sh) ++ res, e.1)

/-- `shift_right_inner` (btree.hpp:3294-3350): the right node receives the
left's last `sh-1` keys, then the parent separator, then its old keys, and
the left's last `sh` children; the left's key before the moved block
becomes the new parent separator. -/
def shiftRightInnerE (lks : List Key) (lcs : List BNode) (ls : Nat)
    (rks : List Key) (rcs : List BNode) (rs : Nat) (sep : Key) :
    Option (BNode × BNode × Key) :=
  let sh := (lks.length - rks.length) / 2
  if lks.length ≤ rks.length then none
  else if sh = 0 then none
  else if innerSlotMax < rks.length + sh then none
  else
    match lks.get? (lks.length - sh) with
    | none => none
    | some newsep =>
        let moved := csSum ((lcs.drop (lks.length - sh + 1)).take sh)
        some (.inner (lks.take (lks.length - sh))
            (lcs.take (lks.length - sh + 1)) (ls - moved),
          .inner (lks.drop (lks.length - sh + 1) ++ sep :: rks)
            (lcs.drop (lks.length - sh + 1) ++ rcs) (rs + moved),
          newsep)

/-- Apply a rebalancing action around `slot = PC.length` of an inner node
whose keys are `P ++ SK` and children `PC ++ c :: SCR`.  Returns the new
key and child lists, a forwarded `update_lastkey` key, and the `fixmerge`
flag. -/
def applyReb (P : List Key) (PC : List BNode) (SK : List Key)
    (SCR : List BNode) (c : BNode) :
    RebAct → Option (List Key × List BNode × Option Key × Bool)
  | .none0 => some (P ++ SK, PC ++ c :: SCR, none, false)
  | .mergeL =>
      match PC.getLast?, P.getLast? with
      | some L, some sep =>
          match mergeNodesE L sep c with
          | none => none
          | some (L', Z) =>
              some (P ++ SK, PC.dropLast ++ L' :: Z :: SCR, none, true)
      | _, _ => none
  | .mergeR =>
      match SCR, SK with
      | R :: scr, sep :: _ =>
          match mergeNodesE c sep R with
          | none => none
          | some (C', Z) =>
              some (P ++ SK, PC ++ C' :: Z :: scr, none, true)
      | _, _ => none
  | .shiftL =>
      match SCR with
      | R :: scr =>
          match c, R with
          | .leaf les, .leaf res =>
              match shiftLeftLeafE les res with
              | none => none
              | some (les', res', wk) =>
                  match SK with
                  | _ :: sk =>
                      some (P ++ wk :: sk,
                        PC ++ .leaf les' :: .leaf res' :: scr, none, false)
                  | [] =>
                      some (P, PC ++ .leaf les' :: .leaf res' :: scr,
                        some wk, false)
          | .inner lks lcs ls, .inner rks rcs rs =>
              match SK with
              | sep :: sk =>
                  match shiftLeftInnerE lks lcs ls rks rcs rs sep with
                  | none => none
                  | some (C', R', newsep) =>
                      some (P ++ newsep :: sk, PC ++ C' :: R' :: scr,
                        none, false)
              | [] => none
          | _, _ => none
      | [] => none
  | .shiftR =>
      match PC.getLast?, P.getLast? with
      | some L, some sep =>
          match L, c with
          | .leaf les, .leaf res =>
              match shiftRightLeafE les res with
              | none => none
              | some (les', res', wk) =>
                  some (P.dropLast ++ wk :: SK,
                    PC.dropLast ++ .leaf les' :: .leaf res' :: SCR,
                    none, false)
          | .inner lks lcs ls, .inner rks rcs rs =>
              match shiftRightInnerE lks lcs ls rks rcs rs sep with
              | none => none
              | some (L', C', newsep) =>
                  some (P.dropLast ++ newsep :: SK,
                    PC.dropLast ++ L' :: C' :: SCR, none, false)
          | _, _ => none
      | _, _ => none

/-- Context threaded through `erase_iter_descend`: the left/right
neighbors (read-only; all mutations are same-parent), whether their
parents are the current node's parent, whether the parent separator at the
current node's slot exists (`parent && parentslot < parent->slotuse`), and
whether the current node is the root. -/
structure ECtx where
  left : Option BNode
  right : Option BNode
  lSame : Bool
  rSame : Bool
  pfix : Bool
  isRoot : Bool

/-- `slotuse` of an optional neighbor (0 when absent). -/
def slotuseO : Option BNode → Nat
  | none => 0
  | some n => n.slotuseN

/-- The leaf branch of `erase_iter_descend` (btree.hpp:2747-2866):
slot removal, last-key notification (`none` models the `key(-1)` read when
an emptied non-last child's separator is refreshed), and the underflow
ladder. -/
def eraseLeaf (it : EIter) (base : Nat) (es : List Entry) (ctx : ECtx) :
    Option ERes :=
  if base ≠ it.leafIdx then some .notFound
  else if es.length ≤ it.slot then some .notFound
  else
    let es' := es.take it.slot ++ es.drop (it.slot + 1)
    let wpupd : Option (Option Key × Option Key) :=
      if it.slot = es'.length then
        if ctx.pfix then
          match es'.getLast? with
          | none => none
          | some e => some (some e.1, none)
        else
          match es'.getLast? with
          | none => some (none, none)
          | some e => some (none, some e.1)
      else some (none, none)
    match wpupd with
    | none => none
    | some (wp, upd) =>
        if es'.length < leafSlotMin ∧
            ¬(ctx.isRoot = true ∧ 1 ≤ es'.length) then
          if ctx.left.isNone && ctx.right.isNone then
            some (.rootDone none)
          else
            some (.ok (.leaf es') wp upd
              (chooseReb ctx.left.isSome ctx.right.isSome
                (slotuseO ctx.left) (slotuseO ctx.right) ctx.lSame
                ctx.rSame))
        else some (.ok (.leaf es') wp upd .none0)

/-- Post-processing of a found child result in the inner branch of
`erase_iter_descend` (btree.hpp:2926-3042): `subtree_size--`, applying the
child's parent-separator write and rebalancing action, the
`update_lastkey` fixup, the `fixmerge` child removal (with the level-1
separator refresh, whose write is dropped when it lands beyond the used
slots), and the node's own underflow ladder. -/
def erasePost (ctx : ECtx) (s : Nat) (P : List Key) (PC : List BNode)
    (SK : List Key) (SCR : List BNode) (c' : BNode) (wp : Option Key)
    (upd : Option Key) (act : RebAct) : Option ERes :=
  let SK1 := match wp, SK with
    | some k, _ :: t => k :: t
    | _, _ => SK
  match applyReb P PC SK1 SCR c' act with
  | none => none
  | some (ks2, cs2, updA, fixA) =>
      let updE := match updA with
        | some k => some k
        | none => upd
      let wpupd : Option Key × Option Key :=
        match updE with
        | some k => if ctx.pfix then (some k, none) else (none, some k)
        | none => (none, none)
      let slot := PC.length
      let fixed : Option (List Key × List BNode) :=
        if fixA then
          let slot2 := match cs2.get? slot with
            | some n => if n.slotuseN ≠ 0 then slot + 1 else slot
            | none => slot
          if slot2 = 0 then none
          else
            let ks3 := ks2.eraseIdx (slot2 - 1)
            let cs3 := cs2.eraseIdx slot2
            match cs3.get? (slot2 - 1) with
            | some (.leaf les) =>
                match les.getLast? with
                | none => none
                | some e =>
                    if slot2 - 1 < ks3.length then
                      some (ks3.set (slot2 - 1) e.1, cs3)
                    else some (ks3, cs3)
            | _ => some (ks3, cs3)
        else some (ks2, cs2)
      match fixed with
      | none => none
      | some (ks3, cs3) =>
          if ks3.length < innerSlotMin ∧
              ¬(ctx.isRoot = true ∧ 1 ≤ ks3.length) then
            if ctx.left.isNone && ctx.right.isNone then
              match cs3.get? 0 with
              | none => none
              | some c0 => some (.rootDone (some c0))
            else
              some (.ok (.inner ks3 cs3 (s - 1)) wpupd.1 wpupd.2
                (chooseReb ctx.left.isSome ctx.right.isSome
                  (slotuseO ctx.left) (slotuseO ctx.right) ctx.lSame
                  ctx.rSame))
          else
            some (.ok (.inner ks3 cs3 (s - 1)) wpupd.1 wpupd.2 .none0)

/-- The left neighbor handed to a child at slot 0: the left cousin's child
at index `slotuse - 1` (btree.hpp:2885-2887; note this is the
second-to-last child). -/
def leftHandMe : Option BNode → Option BNode
  | some (.inner lks lcs _) => lcs.get? (lks.length - 1)
  | _ => none

/-- The right neighbor handed to a child at the last slot: the right
cousin's first child (btree.hpp:2895-2897). -/
def rightHandMe : Option BNode → Option BNode
  | some (.inner _ rcs _) => rcs.get? 0
  | _ => none

mutual

/-- `erase_iter_descend` (btree.hpp:2743-3046). -/
def eraseD (it : EIter) (base : Nat) (ctx : ECtx) : BNode → Option ERes
  | .leaf es => eraseLeaf it base es ctx
  | .inner ks cs s => eraseGo it ctx s true base ks cs [] []

/-- The `find_lower` / retry loop over the slots of an inner node
(btree.hpp:2876-2924), fused into one walk: while `skipping`, slots whose
separator is `< iter.key()` are passed over without descending
(`find_lower`); afterwards each slot is tried in turn, giving up when a
failed slot's separator is `< iter.key()`. -/
def eraseGo (it : EIter) (ctx : ECtx) (s : Nat) (skipping : Bool)
    (baseAcc : Nat) :
    List Key → List BNode → List Key → List BNode → Option ERes
  | [], [c], pk, pc =>
      match eraseD it baseAcc
          { left := match pc with
              | p :: _ => some p
              | [] => leftHandMe ctx.left,
            right := rightHandMe ctx.right,
            lSame := match pc with
              | _ :: _ => true
              | [] => false,
            rSame := false,
            pfix := false, isRoot := false } c with
      | none => none
      | some .notFound => some .notFound
      | some (.rootDone _) => none
      | some (.ok c' wp upd act) =>
          erasePost ctx s pk.reverse pc.reverse [] [] c' wp upd act
  | [], [], _, _ => none
  | [], _ :: _ :: _, _, _ => none
  | _ :: _, [], _, _ => none
  | k :: ks, c :: cs, pk, pc =>
      if skipping ∧ k < it.ikey then
        eraseGo it ctx s true (baseAcc + c.numLeaves) ks cs (k :: pk)
          (c :: pc)
      else
        match eraseD it baseAcc
            { left := match pc with
                | p :: _ => some p
                | [] => leftHandMe ctx.left,
              right := match cs with
                | r :: _ => some r
                | [] => rightHandMe ctx.right,
              lSame := match pc with
                | _ :: _ => true
                | [] => false,
              rSame := match cs with
                | _ :: _ => true
                | [] => false,
              pfix := true, isRoot := false } c with
        | none => none
        | some .notFound =>
            if k < it.ikey then some .notFound
            else
              eraseGo it ctx s false (baseAcc + c.numLeaves) ks cs (k :: pk)
                (c :: pc)
        | some (.rootDone _) => none
        | some (.ok c' wp upd act) =>
            erasePost ctx s pk.reverse pc.reverse (k :: ks) cs c' wp upd act

end

/-- The public `erase(iterator)` (btree.hpp:2414-2427): an empty tree is
left unchanged; a root-level result flag is discarded (no parent exists).
A non-trivial rebalancing action at the root cannot occur (the root's
ladder only reaches the root-trimming cases). -/
def BTree.eraseIt (t : BTree) (it : EIter) : Option BTree :=
  match t.root with
  | none => some t
  | some n =>
      match eraseD it 0
          { left := none, right := none, lSame := false, rSame := false,
            pfix := false, isRoot := true } n with
      | none => none
      | some .notFound => some t
      | some (.rootDone r) => some ⟨r⟩
      | some (.ok n' _ _ .none0) => some ⟨some n'⟩
      | some (.ok _ _ _ _) => none

mutual

/-- The rightmost leaf of a subtree. -/
def lastLeafB : BNode → Option (List Entry)
  | .leaf es => some es
  | .inner _ cs _ => lastLeafGo cs

def lastLeafGo : List BNode → Option (List Entry)
  | [] => none
  | [c] => lastLeafB c
  | _ :: c :: cs => lastLeafGo (c :: cs)

end

/-- `std::prev(end())` as an `EIter`: the last slot of the last leaf. -/
def BTree.lastIter (t : BTree) : Option EIter :=
  match t.root with
  | none => none
  | some n =>
      match lastLeafB n with
      | none => none
      | some es =>
          match es.getLast? with
          | none => none
          | some e => some ⟨n.numLeaves - 1, es.length - 1, e.1⟩

/-- The entry under `std::prev(end())`: the last entry of the last leaf. -/
def BTree.lastEntry (t : BTree) : Option Entry :=
  match t.root with
  | none => none
  | some n =>
      match lastLeafB n with
      | none => none
      | some es => es.getLast?

/-! ### `find_rank` (btree.hpp:4241-4274) and `splitAt`
(btree.hpp:3402-3438) -/

mutual

/-- The descent of `find_rank`: pick the child whose cumulative size range
contains the rank.  Returns the leaf index, slot, and entry. -/
def findRankGoE : BNode → Nat → Nat → Option (Nat × Nat × Entry)
  | .leaf es, rank, base =>
      match es.get? rank with
      | some e => some (base, rank, e)
      | none => none
  | .inner _ cs _, rank, base => findRankLE cs rank base

def findRankLE : List BNode → Nat → Nat → Option (Nat × Nat × Entry)
  | [], _, _ => none
  | c :: cs, rank, base =>
      if rank < c.childSize then findRankGoE c rank base
      else findRankLE cs (rank - c.childSize) (base + c.numLeaves)

end

/-- `find_rank` (btree.hpp:4241-4274) as leaf index / slot / entry;
`none` is `end()` (rank out of range). -/
def BTree.findRankE (t : BTree) (rank : Nat) : Option (Nat × Nat × Entry) :=
  match t.root with
  | none => none
  | some n => if rank < t.size then findRankGoE n rank 0 else none

/-- The duplicate-moving loop of `splitAt` (btree.hpp:3423-3436): while the
left tree is larger than `k`, move its last element into the right tree
(`right.insert(*moved); left.erase(moved)`). -/
def splitAtLoop : Nat → BTree → BTree → Nat → Option (BTree × BTree)
  | 0, _, _, _ => none
  | fuel + 1, L, R, k =>
      if L.size ≤ k then some (L, R)
      else
        match L.lastIter, L.lastEntry with
        | some mit, some me =>
            match R.insertE me with
            | none => none
            | some R' =>
                match L.eraseIt mit with
                | none => none
                | some L' => splitAtLoop fuel L' R' k
        | _, _ => none

/-- `splitAt` (btree.hpp:3402-3438): `k = 0` short-circuits; otherwise
split at the key of the element of rank `k - 1` (`--find_rank(k)`), then
move boundary duplicates from the left to the right until the left has
exactly `k` elements. -/
def BTree.splitAtM (t : BTree) (k : Nat) : Option (BTree × BTree) :=
  if k = 0 then some (⟨none⟩, t)
  else
    match t.findRankE (k - 1) with
    | none => none
    | some (_, _, e) =>
        match t.splitKey e.1 with
        | none => none
        | some (L, R) => splitAtLoop (t.size + 1) L R k


/-! ### Correctness of insertion and bulk loading -/

/-! ### Insertion: supporting lemmas -/

/-- Entries strictly below the inserted key (the elements `find_lower`
skips). -/
def insPos (key : Key) : Entry → Bool := fun e => decide (e.1 < key)

/-- The in-order effect of one insertion: the new entry goes before the
first entry whose key is `≥ key` (duplicates are inserted in front of
equal keys, since `find_lower` stops at the first such slot). -/
def insIns (key : Key) (v : Payload) (l : List Entry) : List Entry :=
  l.takeWhile (insPos key) ++ (key, v) :: l.dropWhile (insPos key)

theorem findLowerP_le_length : ∀ (l : List Key) (key : Key),
    findLowerP l key ≤ l.length
  | [], _ => Nat.le_refl 0
  | k :: l, key => by
      rw [findLowerP]
      by_cases h : k < key
      · rw [if_pos h, List.length_cons]
        exact Nat.succ_le_succ (findLowerP_le_length l key)
      · rw [if_neg h]
        exact Nat.zero_le _

theorem insertAt_findLowerP (key : Key) (v : Payload) :
    ∀ l : List Entry,
      insertAt l (findLowerP (l.map entryKey) key) (key, v) = insIns key v l
  | [] => rfl
  | e :: l => by
      show insertAt (e :: l) (if e.1 < key then findLowerP (l.map entryKey)
        key + 1 else 0) (key, v) = insIns key v (e :: l)
      by_cases h : e.1 < key
      · rw [if_pos h]
        show e :: insertAt l (findLowerP (l.map entryKey) key) (key, v) = _
        rw [insertAt_findLowerP key v l]
        simp only [insIns, List.takeWhile_cons, List.dropWhile_cons, insPos,
          decide_eq_true h, if_true, List.cons_append]
      · rw [if_neg h]
        show (key, v) :: e :: l = _
        simp [insIns, List.takeWhile_cons, List.dropWhile_cons, insPos, h]

theorem insertAt_length {α : Type} (l : List α) (i : Nat) (a : α) :
    (insertAt l i a).length = l.length + 1 := by
  simp only [insertAt, List.length_append, List.length_cons,
    List.length_take, List.length_drop]
  omega

theorem insIns_length (key : Key) (v : Payload) (l : List Entry) :
    (insIns key v l).length = l.length + 1 := by
  have h := congrArg List.length
    (List.takeWhile_append_dropWhile (p := insPos key) (l := l))
  rw [List.length_append] at h
  simp only [insIns, List.length_append, List.length_cons]
  omega

theorem dropWhile_head_not {α : Type} (p : α → Bool) :
    ∀ (l : List α) (a : α) (rest : List α),
      l.dropWhile p = a :: rest → p a = false
  | [], a, rest, h => by simp at h
  | x :: l, a, rest, h => by
      rw [List.dropWhile_cons] at h
      by_cases hx : p x = true
      · rw [if_pos hx] at h
        exact dropWhile_head_not p l a rest h
      · rw [if_neg hx] at h
        obtain ⟨rfl, -⟩ := List.cons.injEq _ _ _ _ ▸ h
        exact Bool.not_eq_true _ ▸ hx

theorem chain'_chainLeB : ∀ l : List Key,
    List.Chain' (· ≤ ·) l → chainLeB l = true
  | [], _ => rfl
  | [_], _ => rfl
  | a :: b :: rest, h => by
      rw [List.chain'_cons] at h
      show (decide (a ≤ b) && chainLeB (b :: rest)) = true
      rw [decide_eq_true h.1, Bool.true_and]
      exact chain'_chainLeB (b :: rest) h.2

theorem insIns_sorted (key : Key) (v : Payload) (l : List Entry)
    (h : List.Chain' (· ≤ ·) (l.map entryKey)) :
    List.Chain' (· ≤ ·) ((insIns key v l).map entryKey) := by
  have hmap : (insIns key v l).map entryKey
      = (l.takeWhile (insPos key)).map entryKey
        ++ key :: (l.dropWhile (insPos key)).map entryKey := by
    simp [insIns, entryKey]
  have htw : List.Chain' (· ≤ ·) ((l.takeWhile (insPos key)).map entryKey) :=
    h.sublist (List.Sublist.map entryKey (List.takeWhile_sublist _))
  have hdw : List.Chain' (· ≤ ·) ((l.dropWhile (insPos key)).map entryKey) :=
    h.sublist (List.Sublist.map entryKey (List.dropWhile_sublist _))
  rw [hmap, List.chain'_append]
  refine ⟨htw, ?_, ?_⟩
  · rw [List.chain'_cons']
    refine ⟨?_, hdw⟩
    intro y hy
    cases hdwe : l.dropWhile (insPos key) with
    | nil =>
        rw [hdwe] at hy
        simp at hy
    | cons a rest =>
        rw [hdwe] at hy
        simp only [List.map_cons, List.head?_cons] at hy
        obtain rfl : a.1 = y := Option.some_inj.mp hy
        have hnot : insPos key a = false :=
          dropWhile_head_not (insPos key) l a rest hdwe
        exact le_of_not_lt (of_decide_eq_false hnot)
  · intro x hx y hy
    obtain rfl : key = y := by simpa using hy
    rcases List.mem_of_mem_getLast? hx with hxmem
    rcases List.mem_map.mp hxmem with ⟨e, hemem, rfl⟩
    have hp := mem_takeWhile_pred (insPos key) l e hemem
    exact le_of_lt (of_decide_eq_true hp)

theorem mem_takeWhile_lt (key : Key) (l : List Entry) :
    ∀ e ∈ l.takeWhile (insPos key), e.1 < key := by
  intro e he
  exact of_decide_eq_true (mem_takeWhile_pred (insPos key) l e he)

theorem insIns_first (key : Key) (v : Payload) (l : List Entry)
    (hne : l ≠ []) :
    ((insIns key v l).map entryKey).headD 0
      = min ((l.map entryKey).headD 0) key := by
  cases l with
  | nil => exact absurd rfl hne
  | cons e l =>
      by_cases h : e.1 < key
      · have : insIns key v (e :: l)
            = e :: (l.takeWhile (insPos key) ++ (key, v)
              :: l.dropWhile (insPos key)) := by
          simp [insIns, List.takeWhile_cons, List.dropWhile_cons, insPos, h]
        rw [this]
        show e.1 = min (e.1) key
        exact (min_eq_left (le_of_lt h)).symm
      · have : insIns key v (e :: l) = (key, v) :: e :: l := by
          simp [insIns, List.takeWhile_cons, List.dropWhile_cons, insPos, h]
        rw [this]
        show key = min (e.1) key
        exact (min_eq_right (le_of_not_lt h)).symm

theorem insIns_last (key : Key) (v : Payload) (l : List Entry) (hne : l ≠ [])
    (h : List.Chain' (· ≤ ·) (l.map entryKey)) :
    ((insIns key v l).map entryKey).getLast?.getD 0
      = max ((l.map entryKey).getLast?.getD 0) key := by
  cases hdw : l.dropWhile (insPos key) with
  | nil =>
      have htw : l.takeWhile (insPos key) = l := by
        have := List.takeWhile_append_dropWhile (p := insPos key) (l := l)
        rw [hdw, List.append_nil] at this
        exact this
      have hlast : ∀ e ∈ l, e.1 < key := by
        intro e he
        rw [← htw] at he
        exact mem_takeWhile_lt key l e he
      have hmape : l.map entryKey ≠ [] := by simpa using hne
      have hsome := List.getLast?_eq_getLast (l.map entryKey) hmape
      rcases List.mem_map.mp (List.getLast_mem hmape) with ⟨e, hemem, hee⟩
      have hmax : (l.map entryKey).getLast?.getD 0 < key := by
        rw [hsome]
        show (l.map entryKey).getLast hmape < key
        rw [← hee]
        exact hlast e hemem
      have heq : insIns key v l = l ++ [(key, v)] := by
        rw [insIns, htw, hdw]
      rw [heq, List.map_append,
        show List.map entryKey [(key, v)] = [key] from rfl,
        List.getLast?_concat]
      show key = max ((l.map entryKey).getLast?.getD 0) key
      exact (max_eq_right (le_of_lt hmax)).symm
  | cons a rest =>
      have hdec : l = l.takeWhile (insPos key) ++ a :: rest := by
        rw [← hdw, List.takeWhile_append_dropWhile]
      have hlne : (a :: rest).map entryKey ≠ [] := by simp
      have hlast_eq : (l.map entryKey).getLast?
          = ((a :: rest).map entryKey).getLast? := by
        conv_lhs => rw [hdec]
        rw [List.map_append, List.getLast?_append_of_ne_nil _ hlne]
      have hinsmap : (insIns key v l).map entryKey
          = (l.takeWhile (insPos key)).map entryKey
            ++ key :: (a :: rest).map entryKey := by
        simp [insIns, hdw, entryKey]
      have hins_last : ((insIns key v l).map entryKey).getLast?
          = ((a :: rest).map entryKey).getLast? := by
        rw [hinsmap, List.getLast?_append_of_ne_nil _ (by simp)]
        show (key :: entryKey a :: List.map entryKey rest).getLast? = _
        rw [List.getLast?_cons_cons]
        rfl
      have hchain : List.Chain' (· ≤ ·) ((a :: rest).map entryKey) := by
        have : List.Chain' (· ≤ ·) ((l.dropWhile (insPos key)).map entryKey) :=
          h.sublist (List.Sublist.map entryKey (List.dropWhile_sublist _))
        rw [hdw] at this
        exact this
      have hanot : insPos key a = false :=
        dropWhile_head_not (insPos key) l a rest hdw
      have hka : key ≤ a.1 := le_of_not_lt (of_decide_eq_false hanot)
      have hsome := List.getLast?_eq_getLast ((a :: rest).map entryKey) hlne
      have hae : a.1 ≤ ((a :: rest).map entryKey).getLast hlne := by
        refine chain_le_getLast _ hchain _ hsome a.1 ?_
        simp [entryKey]
      rw [hins_last, hlast_eq, hsome]
      show ((a :: rest).map entryKey).getLast hlne
        = max (((a :: rest).map entryKey).getLast hlne) key
      exact (max_eq_left (le_trans hka hae)).symm

theorem findLowerP_take : ∀ (l : List Key) (key : Key) (m : Nat),
    findLowerP (l.take m) key = min (findLowerP l key) m
  | _, _, 0 => by simp [findLowerP]
  | [], _, m + 1 => by simp [findLowerP]
  | k :: l, key, m + 1 => by
      show findLowerP (k :: l.take m) key = _
      by_cases h : k < key
      · show (if k < key then findLowerP (l.take m) key + 1 else 0) = _
        rw [if_pos h, findLowerP_take l key m]
        show _ = min (if k < key then findLowerP l key + 1 else 0) (m + 1)
        rw [if_pos h]
        omega
      · show (if k < key then findLowerP (l.take m) key + 1 else 0) = _
        rw [if_neg h]
        show _ = min (if k < key then findLowerP l key + 1 else 0) (m + 1)
        rw [if_neg h]
        omega

theorem findLowerP_drop : ∀ (l : List Key) (key : Key) (m : Nat),
    m ≤ findLowerP l key →
    findLowerP (l.drop m) key = findLowerP l key - m
  | _, _, 0, _ => by simp
  | [], _, m + 1, h => by
      simp [findLowerP] at h
  | k :: l, key, m + 1, h => by
      by_cases hk : k < key
      · have h' : m ≤ findLowerP l key := by
          have : findLowerP (k :: l) key = findLowerP l key + 1 := by
            rw [findLowerP, if_pos hk]
          omega
        show findLowerP (l.drop m) key = _
        rw [findLowerP_drop l key m h']
        have : findLowerP (k :: l) key = findLowerP l key + 1 := by
          rw [findLowerP, if_pos hk]
        omega
      · exfalso
        have : findLowerP (k :: l) key = 0 := by
          rw [findLowerP, if_neg hk]
        omega

/-! ### Separator-chain decomposition -/

/-- The separator invariant restricted to a prefix of paired keys and
children, with `b` the first key of the subtree that follows the prefix. -/
def sepPre : List Key → List BNode → Key → Bool
  | [], [], _ => true
  | [k], [c], b => (c.lastKeyD == k) && decide (k ≤ b)
  | k :: ks, c :: c2 :: cs, b =>
      (c.lastKeyD == k) && decide (k ≤ c2.firstKeyD) && sepPre ks (c2 :: cs) b
  | _, _, _ => false

theorem sepOK_decomp : ∀ (P : List Key) (PC : List BNode),
    P.length = PC.length →
    ∀ (ks : List Key) (c : BNode) (cs : List BNode),
      sepOK (P ++ ks) (PC ++ c :: cs)
        = (sepPre P PC c.firstKeyD && sepOK ks (c :: cs))
  | [], [], _, ks, c, cs => by simp [sepPre]
  | [], _ :: _, hlen, _, _, _ => by simp at hlen
  | _ :: _, [], hlen, _, _, _ => by simp at hlen
  | p :: P, pc :: PC, hlen, ks, c, cs => by
      cases P with
      | nil =>
          cases PC with
          | nil =>
              show sepOK (p :: ks) (pc :: c :: cs) = _
              show ((pc.lastKeyD == p) && decide (p ≤ c.firstKeyD)
                  && sepOK ks (c :: cs)) = _
              show _ = ((pc.lastKeyD == p) && decide (p ≤ c.firstKeyD)
                  && sepOK ks (c :: cs))
              rfl
          | cons _ _ => simp at hlen
      | cons p2 P2 =>
          cases PC with
          | nil => simp at hlen
          | cons pc2 PC2 =>
              show sepOK (p :: (p2 :: P2) ++ ks)
                  ((pc :: pc2 :: PC2) ++ c :: cs) = _
              show ((pc.lastKeyD == p) && decide (p ≤ pc2.firstKeyD)
                  && sepOK ((p2 :: P2) ++ ks) ((pc2 :: PC2) ++ c :: cs)) = _
              rw [sepOK_decomp (p2 :: P2) (pc2 :: PC2) (by simpa using hlen)
                ks c cs]
              show _ = ((pc.lastKeyD == p) && decide (p ≤ pc2.firstKeyD)
                  && sepPre (p2 :: P2) (pc2 :: PC2) c.firstKeyD
                  && sepOK ks (c :: cs))
              rw [← Bool.and_assoc]

theorem sepPre_rebound : ∀ (P : List Key) (PC : List BNode) (b b' : Key),
    sepPre P PC b = true →
    (∀ k, P.getLast? = some k → k ≤ b') → sepPre P PC b' = true
  | [], [], _, _, _, _ => rfl
  | [k], [c], b, b', h, hb => by
      simp only [sepPre, Bool.and_eq_true, beq_iff_eq, decide_eq_true_eq] at h
      simp only [sepPre, Bool.and_eq_true, beq_iff_eq, decide_eq_true_eq]
      exact ⟨h.1, hb k rfl⟩
  | k :: k2 :: ks, c :: c2 :: cs, b, b', h, hb => by
      simp only [sepPre, Bool.and_eq_true] at h
      simp only [sepPre, Bool.and_eq_true]
      refine ⟨h.1, ?_⟩
      refine sepPre_rebound (k2 :: ks) (c2 :: cs) b b' h.2 ?_
      intro x hx
      refine hb x ?_
      rw [List.getLast?_cons_cons]
      exact hx
  | [], _ :: _, _, _, h, _ => by simp [sepPre] at h
  | _ :: _, [], _, _, h, _ => by simp [sepPre] at h
  | [_], _ :: _ :: _, _, _, h, _ => by simp [sepPre] at h
  | _ :: _ :: _, [_], _, _, h, _ => by simp [sepPre] at h

/-- Entries under a separator-prefix of children are strictly below any
bound exceeding all the prefix separators. -/
theorem sepPre_entries_lt (key : Key) :
    ∀ (P : List Key) (PC : List BNode) (b : Key),
      sepPre P PC b = true → wfL PC = true →
      (∀ k ∈ P, k < key) → ∀ e ∈ toListL PC, e.1 < key
  | [], [], _, _, _, _ => by
      intro e he
      simp [toListL] at he
  | [k], [c], b, h, hw, hub => by
      simp only [sepPre, Bool.and_eq_true, beq_iff_eq, decide_eq_true_eq] at h
      obtain ⟨h1, -⟩ := wfL_cons_parts hw
      intro e he
      have he' : e ∈ c.toList := by
        simpa [toListL] using he
      calc e.1 ≤ c.lastKeyD := wfB_le_lastKeyD c h1 e he'
        _ = k := h.1
        _ < key := hub k (List.mem_cons_self k [])
  | k :: k2 :: ks, c :: c2 :: cs, b, h, hw, hub => by
      simp only [sepPre, Bool.and_eq_true, beq_iff_eq, decide_eq_true_eq] at h
      obtain ⟨h1, hw'⟩ := wfL_cons_parts hw
      intro e he
      simp only [toListL] at he
      rcases List.mem_append.mp he with he' | he'
      · calc e.1 ≤ c.lastKeyD := wfB_le_lastKeyD c h1 e he'
          _ = k := h.1.1
          _ < key := hub k (List.mem_cons_self k _)
      · exact sepPre_entries_lt key (k2 :: ks) (c2 :: cs) b h.2 hw'
          (fun x hx => hub x (List.mem_cons_of_mem k hx)) e he'
  | [], _ :: _, _, h, _, _ => by simp [sepPre] at h
  | _ :: _, [], _, h, _, _ => by simp [sepPre] at h
  | [_], _ :: _ :: _, _, h, _, _ => by simp [sepPre] at h
  | _ :: _ :: _, [_], _, h, _, _ => by simp [sepPre] at h

theorem head?_take {α : Type} (l : List α) (m : Nat) (hm : 1 ≤ m) :
    (l.take m).head? = l.head? := by
  cases l with
  | nil => simp
  | cons a l =>
      cases m with
      | zero => omega
      | succ m => simp [List.take_succ_cons]

theorem getLast?_drop_of_lt {α : Type} (l : List α) (m : Nat)
    (hm : m < l.length) : (l.drop m).getLast? = l.getLast? := by
  have hne : l.drop m ≠ [] := by
    intro hcon
    have hc := congrArg List.length hcon
    rw [List.length_drop] at hc
    simp only [List.length_nil] at hc
    omega
  conv_rhs => rw [← List.take_append_drop m l]
  rw [List.getLast?_append_of_ne_nil _ hne]

theorem takeWhile_eq_take (key : Key) :
    ∀ l : List Entry,
      l.takeWhile (insPos key) = l.take (findLowerP (l.map entryKey) key) ∧
      l.dropWhile (insPos key) = l.drop (findLowerP (l.map entryKey) key)
  | [] => ⟨rfl, rfl⟩
  | e :: l => by
      by_cases h : e.1 < key
      · have hf : findLowerP ((e :: l).map entryKey) key
            = findLowerP (l.map entryKey) key + 1 := by
          show (if e.1 < key then _ + 1 else 0) = _
          rw [if_pos h]
        rw [hf]
        constructor
        · rw [List.takeWhile_cons]
          have hp : insPos key e = true := decide_eq_true h
          rw [hp, if_pos rfl, (takeWhile_eq_take key l).1]
          rfl
        · rw [List.dropWhile_cons]
          have hp : insPos key e = true := decide_eq_true h
          rw [hp, if_pos rfl, (takeWhile_eq_take key l).2]
          rfl
      · have hf : findLowerP ((e :: l).map entryKey) key = 0 := by
          show (if e.1 < key then _ + 1 else 0) = 0
          rw [if_neg h]
        rw [hf]
        constructor
        · rw [List.takeWhile_cons]
          have hp : insPos key e = false := decide_eq_false h
          rw [hp]
          simp
        · rw [List.dropWhile_cons]
          have hp : insPos key e = false := decide_eq_false h
          rw [hp]
          simp

/-- The entry at the `find_lower` stop slot has key at least the searched
key. -/
theorem findLowerP_stop (key : Key) (l : List Entry)
    (hlt : findLowerP (l.map entryKey) key < l.length) :
    ∃ e rest, l.drop (findLowerP (l.map entryKey) key) = e :: rest ∧
      key ≤ e.1 := by
  have hd := (takeWhile_eq_take key l).2
  cases hdw : l.dropWhile (insPos key) with
  | nil =>
      exfalso
      rw [hdw] at hd
      have hc := congrArg List.length hd.symm
      rw [List.length_drop] at hc
      simp only [List.length_nil] at hc
      omega
  | cons e rest =>
      refine ⟨e, rest, by rw [← hd, hdw], ?_⟩
      exact le_of_not_lt (of_decide_eq_false
        (dropWhile_head_not (insPos key) l e rest hdw))

theorem insertAt_split_right {α : Type} (l : List α) (i m : Nat) (x : α)
    (him : m ≤ i) :
    l.take m ++ insertAt (l.drop m) (i - m) x = insertAt l i x := by
  simp only [insertAt]
  rw [List.drop_drop]
  have h1 : m + (i - m) = i := by omega
  rw [h1, ← List.append_assoc]
  have h2 : l.take m ++ (l.drop m).take (i - m) = l.take i := by
    rw [← List.take_add, h1]
  rw [h2]

theorem insertAt_split_left {α : Type} (l : List α) (i m : Nat) (x : α)
    (him : i ≤ m) :
    insertAt (l.take m) i x ++ l.drop m = insertAt l i x := by
  simp only [insertAt]
  rw [List.take_take, Nat.min_eq_left him]
  rw [List.append_assoc, List.cons_append]
  have h2 : (l.take m).drop i ++ l.drop m = l.drop i := by
    by_cases hil : i ≤ l.length
    · conv_rhs => rw [← List.take_append_drop m l]
      rw [List.drop_append_of_le_length (by rw [List.length_take]; omega)]
    · have e1 : (l.take m).drop i = [] :=
        List.drop_eq_nil_of_le (by rw [List.length_take]; omega)
      have e2 : l.drop m = [] := List.drop_eq_nil_of_le (by omega)
      have e3 : l.drop i = [] := List.drop_eq_nil_of_le (by omega)
      rw [e1, e2, e3]
      rfl
  rw [h2]

/-- The per-node contract of `insert_descend`: the node (or the two nodes
after an overflow split) is well-formed and within capacity, keeps its
height, holds the node's entries with the new entry inserted before the
first key `≥ key`, counts one more entry, and its boundary keys move as
`min`/`max` with the inserted key.  For a split, the reported separator is
exactly the last key of the left node. -/
def InsOut (key : Key) (v : Payload) (n : BNode) : InsRes → Prop
  | .one n' ins =>
      ins = true ∧ n'.wfB = true ∧ n'.capB = true ∧ n'.height = n.height ∧
        n'.toList = insIns key v n.toList ∧
        n'.childSize = n.childSize + 1 ∧
        n'.firstKeyD = min n.firstKeyD key ∧
        n'.lastKeyD = max n.lastKeyD key
  | .two l r sep ins =>
      ins = true ∧ l.wfB = true ∧ r.wfB = true ∧ l.capB = true ∧
        r.capB = true ∧ l.height = n.height ∧ r.height = n.height ∧
        l.toList ++ r.toList = insIns key v n.toList ∧
        sep = l.lastKeyD ∧
        l.childSize + r.childSize = n.childSize + 1 ∧
        l.firstKeyD = min n.firstKeyD key ∧
        r.lastKeyD = max n.lastKeyD key

theorem leaf_wfB_of (es : List Entry) (hne : es ≠ [])
    (hch : List.Chain' (· ≤ ·) (es.map entryKey)) :
    (BNode.leaf es).wfB = true := by
  show (!es.isEmpty && chainLeB (es.map entryKey)) = true
  rw [chain'_chainLeB _ hch, Bool.and_true]
  simpa [List.isEmpty_iff] using hne

theorem leaf_capB_of (es : List Entry) (hle : es.length ≤ 16) :
    (BNode.leaf es).capB = true := by
  show decide (es.length ≤ leafSlotMax) = true
  exact decide_eq_true hle

theorem insertLeaf_eq (key : Key) (v : Payload) (es : List Entry) :
    insertLeaf key v es =
      (if allowDuplicates = false ∧
          findLowerP (es.map entryKey) key < es.length ∧
          (es.map entryKey).get? (findLowerP (es.map entryKey) key)
            = some key
       then .one (.leaf es) false
       else if es.length = leafSlotMax then
         if es.length / 2 ≤ findLowerP (es.map entryKey) key then
           .two (.leaf (es.take (es.length / 2)))
             (.leaf (insertAt (es.drop (es.length / 2))
               (findLowerP (es.map entryKey) key - es.length / 2) (key, v)))
             (((es.take (es.length / 2)).map entryKey).getLast?.getD 0) true
         else
           .two (.leaf (insertAt (es.take (es.length / 2))
               (findLowerP (es.map entryKey) key) (key, v)))
             (.leaf (es.drop (es.length / 2)))
             (if findLowerP (es.map entryKey) key = es.length / 2 then key
              else ((es.take (es.length / 2)).map entryKey).getLast?.getD 0)
             true
       else .one (.leaf (insertAt es (findLowerP (es.map entryKey) key)
         (key, v))) true) := rfl

theorem insertLeaf_spec (key : Key) (v : Payload) (es : List Entry)
    (hwf : (BNode.leaf es).wfB = true)
    (hcap : (BNode.leaf es).capB = true) :
    InsOut key v (.leaf es) (insertLeaf key v es) := by
  have hne : es ≠ [] := by
    intro hcon
    rw [hcon] at hwf
    exact absurd hwf (by decide)
  have hch : List.Chain' (· ≤ ·) (es.map entryKey) := by
    have hc := BNode.wfB_chain (.leaf es) hwf
    simpa [BNode.toList] using hc
  have hlen : es.length ≤ 16 := by
    have hc : decide (es.length ≤ leafSlotMax) = true := hcap
    simpa [leafSlotMax] using of_decide_eq_true hc
  have hslotle := findLowerP_le_length (es.map entryKey) key
  rw [List.length_map] at hslotle
  have hins := insertAt_findLowerP key v es
  have hdup : ¬(allowDuplicates = false ∧
      findLowerP (es.map entryKey) key < es.length ∧
      (es.map entryKey).get? (findLowerP (es.map entryKey) key)
        = some key) := by
    intro hcon
    exact absurd hcon.1 (by decide)
  rw [insertLeaf_eq, if_neg hdup]
  by_cases hfull : es.length = leafSlotMax
  · rw [if_pos hfull]
    have hlen16 : es.length = 16 := hfull
    have hmid8 : es.length / 2 = 8 := by rw [hlen16]
    by_cases hside : es.length / 2 ≤ findLowerP (es.map entryKey) key
    · rw [if_pos hside]
      have hTKne : es.take (es.length / 2) ≠ [] := by
        intro hcon
        have hc := congrArg List.length hcon
        rw [List.length_take] at hc
        simp only [List.length_nil] at hc
        omega
      have hDRne : es.drop (es.length / 2) ≠ [] := by
        intro hcon
        have hc := congrArg List.length hcon
        rw [List.length_drop] at hc
        simp only [List.length_nil] at hc
        omega
      have hdch : List.Chain' (· ≤ ·)
          ((es.drop (es.length / 2)).map entryKey) :=
        hch.sublist (List.Sublist.map entryKey (List.drop_sublist _ _))
      have hfl : findLowerP ((es.drop (es.length / 2)).map entryKey) key
          = findLowerP (es.map entryKey) key - es.length / 2 := by
        rw [List.map_drop]
        exact findLowerP_drop (es.map entryKey) key (es.length / 2) hside
      have hRT : insertAt (es.drop (es.length / 2))
          (findLowerP (es.map entryKey) key - es.length / 2) (key, v)
            = insIns key v (es.drop (es.length / 2)) := by
        rw [← hfl]
        exact insertAt_findLowerP key v (es.drop (es.length / 2))
      refine ⟨rfl, ?_, ?_, ?_, ?_, rfl, rfl, ?_, rfl, ?_, ?_, ?_⟩
      · exact leaf_wfB_of _ hTKne
          (hch.sublist (List.Sublist.map entryKey (List.take_sublist _ _)))
      · refine leaf_wfB_of _ ?_ ?_
        · intro hcon
          have hc := congrArg List.length hcon
          rw [insertAt_length] at hc
          simp at hc
        · rw [hRT]
          exact insIns_sorted key v _ hdch
      · exact leaf_capB_of _ (by rw [List.length_take]; omega)
      · refine leaf_capB_of _ ?_
        rw [insertAt_length, List.length_drop]
        omega
      · show es.take (es.length / 2) ++ insertAt (es.drop (es.length / 2))
            (findLowerP (es.map entryKey) key - es.length / 2) (key, v)
          = insIns key v es
        rw [insertAt_split_right es _ _ _ hside, hins]
      · show (es.take (es.length / 2)).length + (insertAt
            (es.drop (es.length / 2)) _ (key, v)).length = es.length + 1
        rw [insertAt_length, List.length_take, List.length_drop]
        omega
      · show ((es.take (es.length / 2)).map entryKey).headD 0
          = min ((es.map entryKey).headD 0) key
        rw [List.map_take, List.headD_eq_head?, List.headD_eq_head?,
          head?_take _ _ (by omega)]
        have hhead : ∃ k0 kl, es.map entryKey = k0 :: kl ∧ k0 < key := by
          cases hes : es.map entryKey with
          | nil =>
              exfalso
              have hc := congrArg List.length hes
              rw [List.length_map] at hc
              simp only [List.length_nil] at hc
              omega
          | cons k0 kl =>
              refine ⟨k0, kl, rfl, ?_⟩
              by_contra hk0
              have : findLowerP (k0 :: kl) key = 0 := by
                rw [findLowerP, if_neg hk0]
              rw [hes] at hside
              omega
        rcases hhead with ⟨k0, kl, hes, hk0⟩
        rw [hes]
        show k0 = min k0 key
        exact (min_eq_left (le_of_lt hk0)).symm
      · show (BNode.leaf (insertAt (es.drop (es.length / 2)) _
            (key, v))).lastKeyD = max (BNode.leaf es).lastKeyD key
        show ((insertAt (es.drop (es.length / 2)) _ (key, v)).map
            entryKey).getLast?.getD 0 = _
        rw [hRT]
        rw [insIns_last key v _ hDRne hdch]
        have hlast : ((es.drop (es.length / 2)).map entryKey).getLast?
            = (es.map entryKey).getLast? := by
          rw [List.map_drop]
          exact getLast?_drop_of_lt (es.map entryKey) _ (by
            rw [List.length_map]; omega)
        rw [hlast]
        rfl
    · rw [if_neg hside]
      have hslotlt : findLowerP (es.map entryKey) key < es.length / 2 := by
        omega
      have hTKne : es.take (es.length / 2) ≠ [] := by
        intro hcon
        have hc := congrArg List.length hcon
        rw [List.length_take] at hc
        simp only [List.length_nil] at hc
        omega
      have hDRne : es.drop (es.length / 2) ≠ [] := by
        intro hcon
        have hc := congrArg List.length hcon
        rw [List.length_drop] at hc
        simp only [List.length_nil] at hc
        omega
      have htch : List.Chain' (· ≤ ·)
          ((es.take (es.length / 2)).map entryKey) :=
        hch.sublist (List.Sublist.map entryKey (List.take_sublist _ _))
      have hfl : findLowerP ((es.take (es.length / 2)).map entryKey) key
          = findLowerP (es.map entryKey) key := by
        rw [List.map_take, findLowerP_take]
        omega
      have hLI : insertAt (es.take (es.length / 2))
          (findLowerP (es.map entryKey) key) (key, v)
            = insIns key v (es.take (es.length / 2)) := by
        rw [← hfl]
        exact insertAt_findLowerP key v (es.take (es.length / 2))
      obtain ⟨e0, rest0, hdropslot, hke0⟩ := findLowerP_stop key es (by omega)
      -- the stop entry is inside the left half and below its last key
      have he0_le_septake :
          e0.1 ≤ ((es.take (es.length / 2)).map entryKey).getLast?.getD 0 := by
        have hKdt : ((es.take (es.length / 2)).map entryKey).drop
            (findLowerP (es.map entryKey) key)
              = ((es.map entryKey).drop (findLowerP (es.map entryKey) key)
                ).take (es.length / 2 - findLowerP (es.map entryKey) key) := by
          rw [List.map_take, List.drop_take]
        have hheadKd : ((es.map entryKey).drop
            (findLowerP (es.map entryKey) key)).head? = some e0.1 := by
          rw [← List.map_drop, hdropslot]
          rfl
        have hheadL0 : (((es.take (es.length / 2)).map entryKey).drop
            (findLowerP (es.map entryKey) key)).head? = some e0.1 := by
          rw [hKdt, head?_take _ _ (by omega)]
          exact hheadKd
        have hlastL0 : (((es.take (es.length / 2)).map entryKey).drop
            (findLowerP (es.map entryKey) key)).getLast?
              = ((es.take (es.length / 2)).map entryKey).getLast? := by
          refine getLast?_drop_of_lt _ _ ?_
          rw [List.length_map, List.length_take]
          omega
        have hchL0 : List.Chain' (· ≤ ·)
            (((es.take (es.length / 2)).map entryKey).drop
              (findLowerP (es.map entryKey) key)) :=
          htch.sublist (List.drop_sublist _ _)
        have hLne : ((es.take (es.length / 2)).map entryKey).drop
            (findLowerP (es.map entryKey) key) ≠ [] := by
          intro hcon
          rw [hcon] at hheadL0
          cases hheadL0
        have hsome := List.getLast?_eq_getLast _ hLne
        have hle := chain_le_getLast _ hchL0 _ hsome e0.1
          (List.mem_of_mem_head? (by rw [hheadL0]; exact rfl))
        rw [← hlastL0, hsome]
        exact hle
      have hsep_ne : ¬(findLowerP (es.map entryKey) key = es.length / 2) := by
        omega
      refine ⟨rfl, ?_, ?_, ?_, ?_, rfl, rfl, ?_, ?_, ?_, ?_, ?_⟩
      · refine leaf_wfB_of _ ?_ ?_
        · intro hcon
          have hc := congrArg List.length hcon
          rw [insertAt_length] at hc
          simp at hc
        · rw [hLI]
          exact insIns_sorted key v _ htch
      · exact leaf_wfB_of _ hDRne
          (hch.sublist (List.Sublist.map entryKey (List.drop_sublist _ _)))
      · refine leaf_capB_of _ ?_
        rw [insertAt_length, List.length_take]
        omega
      · exact leaf_capB_of _ (by rw [List.length_drop]; omega)
      · show insertAt (es.take (es.length / 2))
            (findLowerP (es.map entryKey) key) (key, v)
              ++ es.drop (es.length / 2) = insIns key v es
        rw [insertAt_split_left es _ _ _ (by omega), hins]
      · rw [if_neg hsep_ne]
        show ((es.take (es.length / 2)).map entryKey).getLast?.getD 0
          = (BNode.leaf (insertAt (es.take (es.length / 2)) _
            (key, v))).lastKeyD
        show _ = ((insertAt (es.take (es.length / 2)) _ (key, v)).map
            entryKey).getLast?.getD 0
        rw [hLI, insIns_last key v _ hTKne htch]
        exact (max_eq_left (le_trans hke0 he0_le_septake)).symm
      · show (insertAt (es.take (es.length / 2)) _ (key, v)).length
            + (es.drop (es.length / 2)).length = es.length + 1
        rw [insertAt_length, List.length_take, List.length_drop]
        omega
      · show ((insertAt (es.take (es.length / 2)) _ (key, v)).map
            entryKey).headD 0 = min ((es.map entryKey).headD 0) key
        rw [hLI, insIns_first key v _ hTKne]
        rw [List.map_take, List.headD_eq_head?, List.headD_eq_head?,
          head?_take _ _ (by omega)]
      · show ((es.drop (es.length / 2)).map entryKey).getLast?.getD 0
          = max ((es.map entryKey).getLast?.getD 0) key
        have hlast : ((es.drop (es.length / 2)).map entryKey).getLast?
            = (es.map entryKey).getLast? := by
          rw [List.map_drop]
          exact getLast?_drop_of_lt (es.map entryKey) _ (by
            rw [List.length_map]; omega)
        rw [hlast]
        have hmape : es.map entryKey ≠ [] := by simpa using hne
        have hsome := List.getLast?_eq_getLast _ hmape
        have he0mem : e0.1 ∈ es.map entryKey := by
          have : e0.1 ∈ (es.map entryKey).drop
              (findLowerP (es.map entryKey) key) := by
            rw [← List.map_drop, hdropslot]
            exact List.mem_cons_self _ _
          exact (List.drop_sublist _ _).mem this
        have hle := chain_le_getLast _ hch _ hsome e0.1 he0mem
        rw [hsome]
        show (es.map entryKey).getLast hmape
          = max ((es.map entryKey).getLast hmape) key
        exact (max_eq_left (le_trans hke0 hle)).symm
  · rw [if_neg hfull]
    refine ⟨rfl, ?_, ?_, rfl, ?_, ?_, ?_, ?_⟩
    · refine leaf_wfB_of _ ?_ ?_
      · intro hcon
        have hc := congrArg List.length hcon
        rw [insertAt_length] at hc
        simp at hc
      · rw [hins]
        exact insIns_sorted key v es hch
    · refine leaf_capB_of _ ?_
      rw [insertAt_length]
      have : es.length ≠ 16 := by
        intro hc
        exact hfull (by rw [hc]; rfl)
      omega
    · show insertAt es (findLowerP (es.map entryKey) key) (key, v)
        = insIns key v es
      exact hins
    · show (insertAt es (findLowerP (es.map entryKey) key) (key, v)).length
        = es.length + 1
      rw [insertAt_length]
    · show ((insertAt es _ (key, v)).map entryKey).headD 0
        = min ((es.map entryKey).headD 0) key
      rw [hins]
      exact insIns_first key v es hne
    · show ((insertAt es _ (key, v)).map entryKey).getLast?.getD 0
        = max ((es.map entryKey).getLast?.getD 0) key
      rw [hins]
      exact insIns_last key v es hne hch

theorem wfL_mem : ∀ cs : List BNode, wfL cs = true → ∀ c ∈ cs, c.wfB = true
  | [], _, c, hc => by cases hc
  | a :: cs, h, c, hc => by
      obtain ⟨h1, h2⟩ := wfL_cons_parts h
      rcases List.mem_cons.mp hc with rfl | hc'
      · exact h1
      · exact wfL_mem cs h2 c hc'

theorem capL_mem : ∀ cs : List BNode, capL cs = true → ∀ c ∈ cs, c.capB = true
  | [], _, c, hc => by cases hc
  | a :: cs, h, c, hc => by
      obtain ⟨h1, h2⟩ := capL_cons_parts h
      rcases List.mem_cons.mp hc with rfl | hc'
      · exact h1
      · exact capL_mem cs h2 c hc'

theorem wfB_inner_of_parts {ks : List Key} {cs : List BNode} {s : Nat}
    (h1 : cs ≠ []) (h2 : ks.length + 1 = cs.length) (h3 : s = csSum cs)
    (h4 : heightsEq cs = true) (h5 : sepOK ks cs = true)
    (h6 : wfL cs = true) : (BNode.inner ks cs s).wfB = true := by
  simp only [BNode.wfB, Bool.and_eq_true, Bool.not_eq_true', beq_iff_eq]
  exact ⟨⟨⟨⟨⟨by simpa [List.isEmpty_iff] using h1, h2⟩, h3⟩, h4⟩, h5⟩, h6⟩

theorem capB_inner_parts {ks : List Key} {cs : List BNode} {s : Nat}
    (h : (BNode.inner ks cs s).capB = true) :
    ks.length ≤ innerSlotMax ∧ capL cs = true := by
  simp only [BNode.capB, Bool.and_eq_true, decide_eq_true_eq] at h
  exact h

theorem capB_inner_of_parts {ks : List Key} {cs : List BNode} {s : Nat}
    (h1 : ks.length ≤ innerSlotMax) (h2 : capL cs = true) :
    (BNode.inner ks cs s).capB = true := by
  simp only [BNode.capB, Bool.and_eq_true, decide_eq_true_eq]
  exact ⟨h1, h2⟩

/-- Last key of a prefix-plus-final-child array is the final child's. -/
theorem lastKeyD_inner_last {ks : List Key} {CA0 : List BNode} {cl : BNode}
    {s : Nat} (hcl : cl.toList ≠ []) :
    (BNode.inner ks (CA0 ++ [cl]) s).lastKeyD = cl.lastKeyD := by
  show ((toListL (CA0 ++ [cl])).map entryKey).getLast?.getD 0 = _
  rw [toListL_append, toListL_singleton, List.map_append,
    List.getLast?_append_of_ne_nil _ (by simpa using hcl)]
  rfl

theorem sepPre_last_link : ∀ (P : List Key) (PC : List BNode) (b : Key),
    sepPre P PC b = true → ∀ k, P.getLast? = some k → k ≤ b
  | [], [], _, _, k, hk => by cases hk
  | [p], [c], b, h, k, hk => by
      obtain rfl : p = k := by simpa using hk
      simp only [sepPre, Bool.and_eq_true, beq_iff_eq, decide_eq_true_eq] at h
      exact h.2
  | p :: p2 :: P2, c :: c2 :: C2, b, h, k, hk => by
      simp only [sepPre, Bool.and_eq_true] at h
      refine sepPre_last_link (p2 :: P2) (c2 :: C2) b h.2 k ?_
      rw [List.getLast?_cons_cons] at hk
      exact hk
  | [], _ :: _, _, h, _, _ => by simp [sepPre] at h
  | _ :: _, [], _, h, _, _ => by simp [sepPre] at h
  | [_], _ :: _ :: _, _, h, _, _ => by simp [sepPre] at h
  | _ :: _ :: _, [_], _, h, _, _ => by simp [sepPre] at h

/-- In a sorted concatenation of two nonempty entry lists, the last key of
the first is at most the first key of the second. -/
theorem chain_append_last_le_head (A B : List Entry)
    (hch : List.Chain' (· ≤ ·) ((A ++ B).map entryKey))
    (hA : A ≠ []) (hB : B ≠ []) :
    (A.map entryKey).getLast?.getD 0 ≤ (B.map entryKey).headD 0 := by
  rw [List.map_append, List.chain'_append] at hch
  have hAm : A.map entryKey ≠ [] := by simpa using hA
  have hBm : B.map entryKey ≠ [] := by simpa using hB
  have hAl := List.getLast?_eq_getLast (A.map entryKey) hAm
  have hBh := List.head?_eq_head hBm
  have := hch.2.2 _ (by rw [hAl]; exact rfl) _ (by rw [hBh]; exact rfl)
  rw [hAl, List.headD_eq_head?, hBh]
  exact this

/-- Splitting a well-formed inner configuration at the separator of index
`β` produces two well-formed inner nodes; the separator equals the left
node's last key and the contents and sizes concatenate. -/
theorem inner_section_out (K : List Key) (C : List BNode) (H : Nat) (β : Nat)
    (hβ : β < K.length) (hlen : K.length + 1 = C.length)
    (hsep : sepOK K C = true) (hwfl : wfL C = true)
    (hhts : ∀ x ∈ C, x.height = H) (hcapl : capL C = true)
    (hcapA : β ≤ innerSlotMax) (hcapB : K.length - β - 1 ≤ innerSlotMax) :
    (BNode.inner (K.take β) (C.take (β + 1))
        (csSum (C.take (β + 1)))).wfB = true ∧
    (BNode.inner (K.drop (β + 1)) (C.drop (β + 1))
        (csSum (C.drop (β + 1)))).wfB = true ∧
    (BNode.inner (K.take β) (C.take (β + 1))
        (csSum (C.take (β + 1)))).capB = true ∧
    (BNode.inner (K.drop (β + 1)) (C.drop (β + 1))
        (csSum (C.drop (β + 1)))).capB = true ∧
    (BNode.inner (K.take β) (C.take (β + 1))
        (csSum (C.take (β + 1)))).height = H + 1 ∧
    (BNode.inner (K.drop (β + 1)) (C.drop (β + 1))
        (csSum (C.drop (β + 1)))).height = H + 1 ∧
    toListL (C.take (β + 1)) ++ toListL (C.drop (β + 1)) = toListL C ∧
    K.get? β = some ((BNode.inner (K.take β) (C.take (β + 1))
        (csSum (C.take (β + 1)))).lastKeyD) ∧
    csSum (C.take (β + 1)) + csSum (C.drop (β + 1)) = csSum C := by
  have hβC : β + 1 < C.length := by omega
  have hKdec : K = K.take β ++ K[β] :: K.drop (β + 1) := by
    conv_lhs => rw [← List.take_append_drop β K]
    rw [List.drop_eq_getElem_cons hβ]
  have hCtake : C.take (β + 1) = C.take β ++ [C[β]] := by
    rw [List.take_succ, List.getElem?_eq_getElem (by omega)]
    rfl
  have hCdec : C = C.take β ++ C[β] :: C[β + 1] :: C.drop (β + 2) := by
    conv_lhs => rw [← List.take_append_drop β C]
    rw [List.drop_eq_getElem_cons (by omega : β < C.length)]
    rw [List.drop_eq_getElem_cons (by omega : β + 1 < C.length)]
  have hCdrop : C.drop (β + 1) = C[β + 1] :: C.drop (β + 2) :=
    List.drop_eq_getElem_cons hβC
  have hlentake : (K.take β).length = (C.take β).length := by
    rw [List.length_take, List.length_take]
    omega
  -- decompose the separator invariant
  have hsep' : sepOK (K.take β ++ K[β] :: K.drop (β + 1))
      (C.take β ++ C[β] :: C[β + 1] :: C.drop (β + 2)) = true := by
    rw [← hKdec, ← hCdec]
    exact hsep
  rw [sepOK_decomp (K.take β) (C.take β) hlentake] at hsep'
  obtain ⟨hpre, hrest⟩ := Bool.and_eq_true_iff.mp hsep'
  have hrest' : ((C[β].lastKeyD == K[β])
      && decide (K[β] ≤ (C[β + 1]).firstKeyD)
      && sepOK (K.drop (β + 1)) (C[β + 1] :: C.drop (β + 2))) = true :=
    hrest
  obtain ⟨hlink, hsepR⟩ := Bool.and_eq_true_iff.mp hrest'
  obtain ⟨hlast, -⟩ := Bool.and_eq_true_iff.mp hlink
  have hlastEq : (C[β]).lastKeyD = K[β] := by
    exact beq_iff_eq.mp hlast
  -- well-formedness pieces of the child lists
  have hwfl_take : wfL (C.take (β + 1)) = true := by
    have hjoin : C = C.take (β + 1) ++ C.drop (β + 1) := by
      rw [List.take_append_drop]
    rw [hjoin, wfL_append, Bool.and_eq_true] at hwfl
    exact hwfl.1
  have hwfl' : wfL C = true := by
    have hjoin : C = C.take (β + 1) ++ C.drop (β + 1) := by
      rw [List.take_append_drop]
    exact hwfl
  have hwfl_drop : wfL (C.drop (β + 1)) = true := by
    have hjoin : C = C.take (β + 1) ++ C.drop (β + 1) := by
      rw [List.take_append_drop]
    rw [hjoin, wfL_append, Bool.and_eq_true] at hwfl'
    exact hwfl'.2
  have hcapl_take : capL (C.take (β + 1)) = true := by
    have hjoin : C = C.take (β + 1) ++ C.drop (β + 1) := by
      rw [List.take_append_drop]
    rw [hjoin, capL_append, Bool.and_eq_true] at hcapl
    exact hcapl.1
  have hcapl_drop : capL (C.drop (β + 1)) = true := by
    have hc := hcapl
    have hjoin : C = C.take (β + 1) ++ C.drop (β + 1) := by
      rw [List.take_append_drop]
    rw [hjoin, capL_append, Bool.and_eq_true] at hc
    exact hc.2
  have hclwf : (C[β]).wfB = true := by
    have : C[β] ∈ C.take (β + 1) := by
      rw [hCtake]
      exact List.mem_append_right _ (List.mem_singleton.mpr rfl)
    exact wfL_mem _ hwfl_take _ this
  have hclne : (C[β]).toList ≠ [] := BNode.wfB_toList_ne_nil _ hclwf
  have hsepL : sepOK (K.take β) (C.take (β + 1)) = true := by
    rw [hCtake]
    have hd := sepOK_decomp (K.take β) (C.take β) hlentake [] (C[β]) []
    rw [List.append_nil] at hd
    rw [hd]
    rw [hpre]
    rfl
  have hTne : C.take (β + 1) ≠ [] := by
    intro hcon
    have hc := congrArg List.length hcon
    rw [List.length_take] at hc
    simp only [List.length_nil] at hc
    omega
  have hDne : C.drop (β + 1) ≠ [] := by
    rw [hCdrop]
    exact List.cons_ne_nil _ _
  have hmem_take : ∀ x ∈ C.take (β + 1), x.height = H := fun x hx =>
    hhts x ((List.take_sublist _ _).mem hx)
  have hmem_drop : ∀ x ∈ C.drop (β + 1), x.height = H := fun x hx =>
    hhts x ((List.drop_sublist _ _).mem hx)
  refine ⟨?_, ?_, ?_, ?_, ?_, ?_, ?_, ?_, ?_⟩
  · refine wfB_inner_of_parts hTne ?_ rfl (heightsEq_of_mem _ H hmem_take)
      hsepL hwfl_take
    rw [List.length_take, List.length_take]
    omega
  · refine wfB_inner_of_parts hDne ?_ rfl (heightsEq_of_mem _ H hmem_drop)
      ?_ hwfl_drop
    · rw [List.length_drop, List.length_drop]
      omega
    · rw [hCdrop]
      exact hsepR
  · refine capB_inner_of_parts ?_ hcapl_take
    rw [List.length_take]
    omega
  · refine capB_inner_of_parts ?_ hcapl_drop
    rw [List.length_drop]
    omega
  · show heightL (C.take (β + 1)) + 1 = H + 1
    rw [heightL_of_mem _ H hTne hmem_take]
  · show heightL (C.drop (β + 1)) + 1 = H + 1
    rw [heightL_of_mem _ H hDne hmem_drop]
  · rw [← toListL_append, List.take_append_drop]
  · rw [List.get?_eq_getElem? , List.getElem?_eq_getElem hβ]
    rw [hCtake, lastKeyD_inner_last hclne, hlastEq]
  · rw [← csSum_append, List.take_append_drop]

theorem insertAt_append_mid {α : Type} (A B : List α) (x : α) :
    insertAt (A ++ B) A.length x = A ++ x :: B := by
  simp only [insertAt]
  rw [List.take_left, List.drop_left]

theorem insertAt_append_mid2 {α : Type} (A : List α) (b : α) (B : List α)
    (x : α) : insertAt (A ++ b :: B) (A.length + 1) x = A ++ b :: x :: B := by
  have h1 : A ++ b :: B = (A ++ [b]) ++ B := by simp
  have h2 : A.length + 1 = (A ++ [b]).length := by simp
  rw [h1, h2, insertAt_append_mid]
  simp

theorem wfB_childSize_pos (n : BNode) (h : n.wfB = true) :
    1 ≤ n.childSize := by
  rw [BNode.shOK_childSize n (BNode.wfB_shOK n h)]
  have hne := BNode.wfB_toList_ne_nil n h
  cases hl : n.toList with
  | nil => exact absurd hl hne
  | cons a l => simp

theorem insIns_append_left (key : Key) (v : Payload) (A B : List Entry)
    (h : ∀ e ∈ A, e.1 < key) :
    insIns key v (A ++ B) = A ++ insIns key v B := by
  simp only [insIns]
  rw [takeWhile_append_all (insPos key) A B
      (fun e he => decide_eq_true (h e he)),
    dropWhile_append_all (insPos key) A B
      (fun e he => decide_eq_true (h e he)),
    List.append_assoc]

theorem insIns_append_stop (key : Key) (v : Payload) (A B : List Entry)
    (h : ∃ e ∈ A, insPos key e = false) :
    insIns key v (A ++ B) = insIns key v A ++ B := by
  simp only [insIns]
  rw [takeWhile_append_stop (insPos key) A B h,
    dropWhile_append_stop (insPos key) A B h]
  simp

/-- Rebuild the tail separator invariant when the first child changes but
keeps the linked last key. -/
theorem sepOK_head_swap (SK : List Key) (SC : List BNode) (c d : BNode)
    (hrest : sepOK SK (c :: SC) = true)
    (hlast : ∀ k, SK.head? = some k → d.lastKeyD = k) :
    sepOK SK (d :: SC) = true := by
  cases SK with
  | nil =>
      cases SC with
      | nil => rfl
      | cons sc0 SC' =>
          have hf : sepOK [] (c :: sc0 :: SC') = false := rfl
          rw [hf] at hrest
          cases hrest
  | cons k' SK' =>
      rcases sepOK_cons_parts hrest with ⟨c0, c1, cs', heqq, hl, hle, hrest'⟩
      obtain ⟨rfl, hSC⟩ := List.cons.injEq _ _ _ _ ▸ heqq
      rw [hSC]
      show ((d.lastKeyD == k') && decide (k' ≤ c1.firstKeyD)
        && sepOK SK' (c1 :: cs')) = true
      rw [beq_iff_eq.mpr (hlast k' rfl), decide_eq_true hle, hrest']
      rfl

/-- Composing one child's insertion back into the surrounding in-order
sequence. -/
theorem ins_content_mid (key : Key) (v : Payload) (P : List Key)
    (PC : List BNode) (SK : List Key) (SC : List BNode) (c : BNode)
    (hSKSC : SK.length = SC.length)
    (hwfPC : wfL PC = true) (hwfc : c.wfB = true)
    (hpre : sepPre P PC c.firstKeyD = true)
    (hrest : sepOK SK (c :: SC) = true)
    (hPlt : ∀ k ∈ P, k < key)
    (hSKge : ∀ k, SK.head? = some k → key ≤ k) :
    toListL PC ++ (insIns key v c.toList ++ toListL SC)
      = insIns key v (toListL (PC ++ c :: SC)) := by
  have hPClt : ∀ e ∈ toListL PC, e.1 < key :=
    sepPre_entries_lt key P PC _ hpre hwfPC hPlt
  have hmid : insIns key v (c.toList ++ toListL SC)
      = insIns key v c.toList ++ toListL SC := by
    cases SK with
    | nil =>
        cases SC with
        | nil =>
            show insIns key v (c.toList ++ []) = insIns key v c.toList ++ []
            rw [List.append_nil, List.append_nil]
        | cons sc0 SC' => simp at hSKSC
    | cons k' SK' =>
        rcases sepOK_cons_parts hrest with ⟨c0, c1, cs', heqq, hl, -, -⟩
        obtain ⟨hc0, -⟩ := List.cons.injEq _ _ _ _ ▸ heqq
        rcases wfB_lastKey_mem c hwfc with ⟨e, hemem, helast⟩
        refine insIns_append_stop key v _ _ ⟨e, hemem, ?_⟩
        have hek : e.1 = k' := by
          rw [helast, hc0]
          exact hl
        have hke : key ≤ e.1 := by
          rw [hek]
          exact hSKge k' rfl
        exact decide_eq_false (not_lt.mpr hke)
  rw [toListL_append]
  show toListL PC ++ (insIns key v c.toList ++ toListL SC)
    = insIns key v (toListL PC ++ (c.toList ++ toListL SC))
  rw [insIns_append_left key v _ _ hPClt, hmid]

theorem insCombine_one_eq (s : Nat) (P : List Key) (PC : List BNode)
    (SK : List Key) (SC : List BNode) (c' : BNode) (ins : Bool) :
    insCombine s P PC SK SC (.one c' ins)
      = some (.one (.inner (P ++ SK) (PC ++ c' :: SC)
          (if ins then s + 1 else s)) ins) := rfl

theorem insCombine_two_eq (s : Nat) (P : List Key) (PC : List BNode)
    (SK : List Key) (SC : List BNode) (c' nc : BNode) (nk : Key)
    (ins : Bool) (m : Nat)
    (hm : m = splitInnerMid (P ++ SK).length PC.length) :
    insCombine s P PC SK SC (.two c' nc nk ins)
      = (if (P ++ SK).length = innerSlotMax then
          if PC.length = m + 1 ∧ m < (P ++ SK).length - (m + 1) then
            (match (PC ++ c' :: SC).drop (m + 1) with
             | [] => none
             | rc0 :: rcrest =>
                 some (.two
                   (.inner ((P ++ SK).take m
                       ++ [((P ++ SK).get? m).getD 0])
                     ((PC ++ c' :: SC).take (m + 1) ++ [rc0])
                     (csSum ((PC ++ c' :: SC).take (m + 1))
                       + rc0.childSize))
                   (.inner ((P ++ SK).drop (m + 1)) (nc :: rcrest)
                     (csSum ((PC ++ c' :: SC).drop (m + 1))
                       + nc.childSize - rc0.childSize))
                   nk ins))
          else if m + 1 ≤ PC.length then
            some (.two
              (.inner ((P ++ SK).take m) ((PC ++ c' :: SC).take (m + 1))
                (csSum ((PC ++ c' :: SC).take (m + 1))))
              (.inner (insertAt ((P ++ SK).drop (m + 1))
                  (PC.length - (m + 1)) nk)
                (insertAt ((PC ++ c' :: SC).drop (m + 1))
                  (PC.length - (m + 1) + 1) nc)
                (csSum ((PC ++ c' :: SC).drop (m + 1)) + nc.childSize - 1
                  + (if ins then 1 else 0)))
              (((P ++ SK).get? m).getD 0) ins)
          else
            some (.two
              (.inner (insertAt ((P ++ SK).take m) PC.length nk)
                (insertAt ((PC ++ c' :: SC).take (m + 1)) (PC.length + 1) nc)
                (csSum ((PC ++ c' :: SC).take (m + 1)) + nc.childSize - 1
                  + (if ins then 1 else 0)))
              (.inner ((P ++ SK).drop (m + 1)) ((PC ++ c' :: SC).drop (m + 1))
                (csSum ((PC ++ c' :: SC).drop (m + 1))))
              (((P ++ SK).get? m).getD 0) ins)
        else
          some (.one (.inner (insertAt (P ++ SK) PC.length nk)
            (insertAt (PC ++ c' :: SC) (PC.length + 1) nc)
            (s + (if ins then 1 else 0))) ins)) := by
  subst hm
  rfl

theorem headD_append_left (A B : List Entry) (hA : A ≠ []) :
    (((A ++ B).map entryKey)).headD 0 = ((A.map entryKey)).headD 0 := by
  have hAm : A.map entryKey ≠ [] := by simpa using hA
  rw [List.map_append, List.headD_eq_head?, List.headD_eq_head?,
    List.head?_append_of_ne_nil _ hAm]

theorem lastD_append_right (A B : List Entry) (hB : B ≠ []) :
    (((A ++ B).map entryKey)).getLast?.getD 0
      = ((B.map entryKey)).getLast?.getD 0 := by
  have hBm : B.map entryKey ≠ [] := by simpa using hB
  rw [List.map_append, List.getLast?_append_of_ne_nil _ hBm]

/-- Assemble the overflow-split contract from per-node facts. -/
theorem assemble_two_out (key : Key) (v : Payload) (N l r : BNode)
    (sep : Key) (hlwf : l.wfB = true) (hrwf : r.wfB = true)
    (hlcap : l.capB = true) (hrcap : r.capB = true)
    (hlh : l.height = N.height) (hrh : r.height = N.height)
    (hcat : l.toList ++ r.toList = insIns key v N.toList)
    (hsep : sep = l.lastKeyD)
    (hcnt : l.childSize + r.childSize = N.childSize + 1)
    (hNne : N.toList ≠ [])
    (hNch : List.Chain' (· ≤ ·) (N.toList.map entryKey)) :
    InsOut key v N (.two l r sep true) := by
  refine ⟨rfl, hlwf, hrwf, hlcap, hrcap, hlh, hrh, hcat, hsep, hcnt, ?_, ?_⟩
  · have hlne := BNode.wfB_toList_ne_nil l hlwf
    show ((l.toList.map entryKey)).headD 0 = _
    rw [← headD_append_left l.toList r.toList hlne, hcat]
    exact insIns_first key v N.toList hNne
  · have hrne := BNode.wfB_toList_ne_nil r hrwf
    show ((r.toList.map entryKey)).getLast?.getD 0 = _
    rw [← lastD_append_right l.toList r.toList hrne, hcat]
    exact insIns_last key v N.toList hNne hNch

theorem insCombine_spec (key : Key) (v : Payload) (s : Nat) (P : List Key)
    (PC : List BNode) (SK : List Key) (SC : List BNode) (c : BNode)
    (r : InsRes) (hlenP : P.length = PC.length)
    (hN : (BNode.inner (P ++ SK) (PC ++ c :: SC) s).wfB = true)
    (hNcap : (BNode.inner (P ++ SK) (PC ++ c :: SC) s).capB = true)
    (hr : InsOut key v c r)
    (hPlt : ∀ k ∈ P, k < key)
    (hSKge : ∀ k, SK.head? = some k → key ≤ k) :
    ∃ res, insCombine s P PC SK SC r = some res ∧
      InsOut key v (.inner (P ++ SK) (PC ++ c :: SC) s) res := by
  obtain ⟨hNne, hNcnt, hNcs, hNh, hNsep, hNwl⟩ := wfB_inner_parts hN
  obtain ⟨hNkcap, hNccap⟩ := capB_inner_parts hNcap
  have hSKSC : SK.length = SC.length := by
    have h := hNcnt
    simp only [List.length_append, List.length_cons] at h
    omega
  have hlens : P.length + SK.length = PC.length + SC.length := by
    have h := hNcnt
    simp only [List.length_append, List.length_cons] at h
    omega
  have hwl0 := hNwl
  rw [wfL_append, Bool.and_eq_true] at hwl0
  obtain ⟨hwfPC, hwfcSC⟩ := hwl0
  obtain ⟨hwfc, hwfSC⟩ := wfL_cons_parts hwfcSC
  have hcap0 := hNccap
  rw [capL_append, Bool.and_eq_true] at hcap0
  obtain ⟨hcapPC, hcapcSC⟩ := hcap0
  obtain ⟨hcapc, hcapSC⟩ := capL_cons_parts hcapcSC
  have hsep0 := hNsep
  rw [sepOK_decomp P PC hlenP SK c SC, Bool.and_eq_true] at hsep0
  obtain ⟨hpre, hrest⟩ := hsep0
  have hH := heightsEq_mem _ hNh
  have hcH : c.height = heightL (PC ++ c :: SC) :=
    hH c (List.mem_append_right _ (List.mem_cons_self _ _))
  have hcontent := ins_content_mid key v P PC SK SC c hSKSC hwfPC hwfc
    hpre hrest hPlt hSKge
  have hNtlne : toListL (PC ++ c :: SC) ≠ [] :=
    BNode.wfB_toList_ne_nil (.inner (P ++ SK) (PC ++ c :: SC) s) hN
  have hNchain : List.Chain' (· ≤ ·)
      ((toListL (PC ++ c :: SC)).map entryKey) :=
    BNode.wfB_chain (.inner (P ++ SK) (PC ++ c :: SC) s) hN
  have hpreL : ∀ b', (∀ k, P.getLast? = some k → k ≤ b') →
      sepPre P PC b' = true := fun b' hb => sepPre_rebound P PC _ b' hpre hb
  cases r with
  | one c' ins =>
      obtain ⟨hins, hc'wf, hc'cap, hc'h, hc'tl, hc'cnt, hc'first, hc'last⟩
        := hr
      subst hins
      rw [insCombine_one_eq]
      have htl' : toListL (PC ++ c' :: SC)
          = insIns key v (toListL (PC ++ c :: SC)) := by
        rw [toListL_append]
        show toListL PC ++ (c'.toList ++ toListL SC) = _
        rw [hc'tl]
        exact hcontent
      have hmem' : ∀ x ∈ PC ++ c' :: SC,
          x.height = heightL (PC ++ c :: SC) := by
        intro x hx
        rcases List.mem_append.mp hx with hx' | hx'
        · exact hH x (List.mem_append_left _ hx')
        · rcases List.mem_cons.mp hx' with rfl | hx''
          · rw [hc'h]
            exact hcH
          · exact hH x (List.mem_append_right _
              (List.mem_cons_of_mem _ hx''))
      have hne' : PC ++ c' :: SC ≠ [] := by
        intro hcon
        have hc := congrArg List.length hcon
        rw [List.length_append, List.length_cons] at hc
        simp only [List.length_nil] at hc
        omega
      refine ⟨_, rfl, rfl, ?_, ?_, ?_, htl', ?_, ?_, ?_⟩
      · refine wfB_inner_of_parts hne' ?_ ?_
          (heightsEq_of_mem _ _ hmem') ?_ ?_
        · show (P ++ SK).length + 1 = (PC ++ c' :: SC).length
          simp only [List.length_append, List.length_cons]
          omega
        · show s + 1 = csSum (PC ++ c' :: SC)
          rw [csSum_append] at hNcs ⊢
          show _ = csSum PC + (c'.childSize + csSum SC)
          have hcs0 : s = csSum PC + (c.childSize + csSum SC) := hNcs
          omega
        · rw [sepOK_decomp P PC hlenP SK c' SC]
          have h1 : sepPre P PC c'.firstKeyD = true := by
            refine hpreL _ ?_
            intro k hk
            rw [hc'first]
            refine le_min (sepPre_last_link P PC _ hpre k hk) ?_
            exact le_of_lt (hPlt k (List.mem_of_mem_getLast?
              (Option.mem_def.mpr hk)))
          have h2 : sepOK SK (c' :: SC) = true := by
            refine sepOK_head_swap SK SC c c' hrest ?_
            intro k hk
            cases SK with
            | nil => cases hk
            | cons k0 SK' =>
                have hkk : k0 = k := by simpa using hk
                subst hkk
                rcases sepOK_cons_parts hrest with
                  ⟨c0, c1, cs', heqq, hl, -, -⟩
                obtain ⟨hc0, -⟩ := List.cons.injEq _ _ _ _ ▸ heqq
                rw [hc'last]
                have hck : c.lastKeyD = k0 := by
                  rw [hc0]; exact hl
                rw [hck]
                exact max_eq_left (hSKge k0 rfl)
          rw [h1, h2]
          rfl
        · rw [wfL_append]
          show (wfL PC && (c'.wfB && wfL SC)) = true
          rw [hwfPC, hc'wf, hwfSC]
          rfl
      · refine capB_inner_of_parts hNkcap ?_
        rw [capL_append]
        show (capL PC && (c'.capB && capL SC)) = true
        rw [hcapPC, hc'cap, hcapSC]
        rfl
      · show heightL (PC ++ c' :: SC) + 1 = heightL (PC ++ c :: SC) + 1
        rw [heightL_of_mem _ _ hne' hmem']
      · show (if true then s + 1 else s) = s + 1
        rfl
      · show ((toListL (PC ++ c' :: SC)).map entryKey).headD 0 = _
        rw [htl']
        exact insIns_first key v _ hNtlne
      · show ((toListL (PC ++ c' :: SC)).map entryKey).getLast?.getD 0 = _
        rw [htl']
        exact insIns_last key v _ hNtlne hNchain
  | two c' nc nk ins =>
      obtain ⟨hins, hc'wf, hncwf, hc'cap, hnccap, hc'h, hnch, htl2, hnk,
        hcnt2, hfirst2, hlast2⟩ := hr
      subst hins
      have hc'ne := BNode.wfB_toList_ne_nil c' hc'wf
      have hncne := BNode.wfB_toList_ne_nil nc hncwf
      have hncpos := wfB_childSize_pos nc hncwf
      have hc'pos := wfB_childSize_pos c' hc'wf
      -- facts about the virtual (unsplit) configuration
      have hvcontent : toListL (PC ++ c' :: nc :: SC)
          = insIns key v (toListL (PC ++ c :: SC)) := by
        rw [toListL_append]
        show toListL PC ++ (c'.toList ++ (nc.toList ++ toListL SC)) = _
        rw [← List.append_assoc c'.toList, htl2]
        exact hcontent
      have hchainIns : List.Chain' (· ≤ ·)
          ((c'.toList ++ nc.toList).map entryKey) := by
        rw [htl2]
        exact insIns_sorted key v c.toList (by
          have hcc := BNode.wfB_chain c hwfc
          exact hcc)
      have hnkle : nk ≤ nc.firstKeyD := by
        rw [hnk]
        exact chain_append_last_le_head c'.toList nc.toList hchainIns
          hc'ne hncne
      have hvsep : sepOK (P ++ nk :: SK) (PC ++ c' :: nc :: SC) = true := by
        rw [sepOK_decomp P PC hlenP (nk :: SK) c' (nc :: SC)]
        have h1 : sepPre P PC c'.firstKeyD = true := by
          refine hpreL _ ?_
          intro k hk
          rw [hfirst2]
          refine le_min (sepPre_last_link P PC _ hpre k hk) ?_
          exact le_of_lt (hPlt k (List.mem_of_mem_getLast?
            (Option.mem_def.mpr hk)))
        have h2 : sepOK SK (nc :: SC) = true := by
          refine sepOK_head_swap SK SC c nc hrest ?_
          intro k hk
          cases SK with
          | nil => cases hk
          | cons k0 SK' =>
              have hkk : k0 = k := by simpa using hk
              subst hkk
              rcases sepOK_cons_parts hrest with
                ⟨c0, c1, cs', heqq, hl, -, -⟩
              obtain ⟨hc0, -⟩ := List.cons.injEq _ _ _ _ ▸ heqq
              rw [hlast2]
              have hck : c.lastKeyD = k0 := by
                rw [hc0]; exact hl
              rw [hck]
              exact max_eq_left (hSKge k0 rfl)
        have h3 : sepOK (nk :: SK) (c' :: nc :: SC) = true := by
          show ((c'.lastKeyD == nk) && decide (nk ≤ nc.firstKeyD)
            && sepOK SK (nc :: SC)) = true
          rw [beq_iff_eq.mpr hnk.symm, decide_eq_true hnkle, h2]
          rfl
        rw [h1, h3]
        rfl
      have hvwl : wfL (PC ++ c' :: nc :: SC) = true := by
        rw [wfL_append]
        show (wfL PC && (c'.wfB && (nc.wfB && wfL SC))) = true
        rw [hwfPC, hc'wf, hncwf, hwfSC]
        rfl
      have hvcapl : capL (PC ++ c' :: nc :: SC) = true := by
        rw [capL_append]
        show (capL PC && (c'.capB && (nc.capB && capL SC))) = true
        rw [hcapPC, hc'cap, hnccap, hcapSC]
        rfl
      have hvhts : ∀ x ∈ PC ++ c' :: nc :: SC,
          x.height = heightL (PC ++ c :: SC) := by
        intro x hx
        rcases List.mem_append.mp hx with hx' | hx'
        · exact hH x (List.mem_append_left _ hx')
        · rcases List.mem_cons.mp hx' with rfl | hx''
          · rw [hc'h]; exact hcH
          · rcases List.mem_cons.mp hx'' with rfl | hx3
            · rw [hnch]; exact hcH
            · exact hH x (List.mem_append_right _
                (List.mem_cons_of_mem _ hx3))
      have hvcs : csSum (PC ++ c' :: nc :: SC) = s + 1 := by
        rw [csSum_append] at hNcs ⊢
        show csSum PC + (c'.childSize + (nc.childSize + csSum SC)) = s + 1
        have hcs0 : s = csSum PC + (c.childSize + csSum SC) := hNcs
        omega
      have hvlen : (P ++ nk :: SK).length + 1
          = (PC ++ c' :: nc :: SC).length := by
        simp only [List.length_append, List.length_cons]
        omega
      rw [insCombine_two_eq s P PC SK SC c' nc nk true
        (splitInnerMid (P ++ SK).length PC.length) rfl]
      by_cases hfull : (P ++ SK).length = innerSlotMax
      · rw [if_pos hfull]
        have h16 : (P ++ SK).length = 16 := hfull
        have hKlen17 : (P ++ nk :: SK).length = 17 := by
          rw [List.length_append] at h16
          simp only [List.length_append, List.length_cons]
          omega
        have hmid : splitInnerMid (P ++ SK).length PC.length
            = if PC.length ≤ 8 then 7 else 8 := by
          rw [h16]
          show (if PC.length ≤ 16 / 2 ∧ 16 - (16 / 2 + 1) < 16 / 2
            then 16 / 2 - 1 else 16 / 2) = _
          norm_num
        generalize hmg : splitInnerMid (P ++ SK).length PC.length = m
        rw [hmg] at hmid
        have hm78 : m = 7 ∨ m = 8 := by
          rw [hmid]
          by_cases h8 : PC.length ≤ 8
          · rw [if_pos h8]; exact Or.inl rfl
          · rw [if_neg h8]; exact Or.inr rfl
        have hslotle : PC.length ≤ 16 := by
          rw [List.length_append] at h16
          omega
        by_cases hsp : PC.length = m + 1 ∧ m < (P ++ SK).length - (m + 1)
        · rw [if_pos hsp]
          obtain ⟨hsp1, hsp2⟩ := hsp
          have hPlen : P.length = m + 1 := by omega
          have e_drop : (PC ++ c' :: SC).drop (m + 1) = c' :: SC :=
            List.drop_left' hsp1
          rw [e_drop]
          refine ⟨_, rfl, ?_⟩
          -- section at β = m + 1
          obtain ⟨s1, s2, s3, s4, s5, s6, s7, s8, s9⟩ :=
            inner_section_out (P ++ nk :: SK) (PC ++ c' :: nc :: SC)
              (heightL (PC ++ c :: SC)) (m + 1)
              (by omega) hvlen hvsep hvwl hvhts hvcapl
              (by show m + 1 ≤ 16; omega)
              (by rw [hKlen17]; show 17 - (m + 1) - 1 ≤ 16; omega)
          -- identify the computed nodes with the section nodes
          have eKL : (P ++ SK).take m ++ [((P ++ SK).get? m).getD 0]
              = (P ++ nk :: SK).take (m + 1) := by
            have h1 : (P ++ SK).take m = P.take m :=
              List.take_append_of_le_length (by omega)
            have h2 : (P ++ SK).get? m = P.get? m := by
              rw [List.get?_eq_getElem?, List.get?_eq_getElem?]
              exact List.getElem?_append_left (by omega)
            have h3 : (P ++ nk :: SK).take (m + 1) = P.take (m + 1) :=
              List.take_append_of_le_length (by omega)
            have h4 : P.take (m + 1) = P.take m ++ [P[m]] := by
              rw [List.take_succ, List.getElem?_eq_getElem (by omega)]
              rfl
            have h5 : P.get? m = some P[m] := by
              rw [List.get?_eq_getElem?]
              exact List.getElem?_eq_getElem (by omega)
            rw [h1, h2, h3, h4, h5]
            rfl
          have eCL : (PC ++ c' :: SC).take (m + 1) ++ [c']
              = (PC ++ c' :: nc :: SC).take (m + 2) := by
            have h1 : (PC ++ c' :: SC).take (m + 1) = PC :=
              List.take_left' hsp1
            have h2 : (PC ++ c' :: nc :: SC).take (m + 2)
                = PC ++ (c' :: nc :: SC).take 1 := by
              have hx : m + 2 = PC.length + 1 := by omega
              rw [hx, List.take_append]
            rw [h1, h2]
            rfl
          have eCacheL : csSum ((PC ++ c' :: SC).take (m + 1))
              + c'.childSize
                = csSum ((PC ++ c' :: nc :: SC).take (m + 2)) := by
            rw [← eCL, csSum_append, csSum_singleton]
          have eKR : (P ++ SK).drop (m + 1) = (P ++ nk :: SK).drop (m + 2)
              := by
            have h1 : (P ++ SK).drop (m + 1) = SK := List.drop_left' hPlen
            have h2 : (P ++ nk :: SK).drop (m + 2)
                = (nk :: SK).drop 1 := by
              have hx : m + 2 = P.length + 1 := by omega
              rw [hx, List.drop_append]
            rw [h1, h2]
            rfl
          have eCR : (nc :: SC) = (PC ++ c' :: nc :: SC).drop (m + 2) := by
            have h2 : (PC ++ c' :: nc :: SC).drop (m + 2)
                = (c' :: nc :: SC).drop 1 := by
              have hx : m + 2 = PC.length + 1 := by omega
              rw [hx, List.drop_append]
            rw [h2]
            rfl
          have eCacheR : csSum (c' :: SC) + nc.childSize - c'.childSize
                = csSum ((PC ++ c' :: nc :: SC).drop (m + 2)) := by
            rw [← eCR]
            show c'.childSize + csSum SC + nc.childSize - c'.childSize
              = nc.childSize + csSum SC
            omega
          have eSep : nk = (BNode.inner ((P ++ nk :: SK).take (m + 1))
              ((PC ++ c' :: nc :: SC).take (m + 2))
              (csSum ((PC ++ c' :: nc :: SC).take (m + 2)))).lastKeyD := by
            have hget : (P ++ nk :: SK).get? (m + 1) = some nk := by
              rw [List.get?_eq_getElem?]
              rw [List.getElem?_append_right (by omega)]
              have hx : m + 1 - P.length = 0 := by omega
              rw [hx, List.getElem?_cons_zero]
            rw [hget] at s8
            exact Option.some_inj.mp s8
          rw [eCR, eCacheR, eKL, eCL, eCacheL, eKR]
          refine assemble_two_out key v _ _ _ _ s1 s2 s3 s4 ?_ ?_ ?_ eSep ?_
            hNtlne hNchain
          · rw [s5]
            rfl
          · rw [s6]
            rfl
          · show toListL ((PC ++ c' :: nc :: SC).take (m + 2))
              ++ toListL ((PC ++ c' :: nc :: SC).drop (m + 2)) = _
            rw [s7, hvcontent]
            rfl
          · show csSum ((PC ++ c' :: nc :: SC).take (m + 2))
              + csSum ((PC ++ c' :: nc :: SC).drop (m + 2)) = s + 1
            rw [s9, hvcs]
        · rw [if_neg hsp]
          by_cases hge : m + 1 ≤ PC.length
          · rw [if_pos hge]
            refine ⟨_, rfl, ?_⟩
            obtain ⟨s1, s2, s3, s4, s5, s6, s7, s8, s9⟩ :=
              inner_section_out (P ++ nk :: SK) (PC ++ c' :: nc :: SC)
                (heightL (PC ++ c :: SC)) m
                (by omega) hvlen hvsep hvwl hvhts hvcapl
                (by show m ≤ 16; omega)
                (by rw [hKlen17]; show 17 - m - 1 ≤ 16; omega)
            have eKL : (P ++ SK).take m = (P ++ nk :: SK).take m := by
              rw [List.take_append_of_le_length (by omega),
                List.take_append_of_le_length (by omega)]
            have eCL : (PC ++ c' :: SC).take (m + 1)
                = (PC ++ c' :: nc :: SC).take (m + 1) := by
              rw [List.take_append_of_le_length (by omega),
                List.take_append_of_le_length (by omega)]
            have eKR : insertAt ((P ++ SK).drop (m + 1))
                (PC.length - (m + 1)) nk
                  = (P ++ nk :: SK).drop (m + 1) := by
              have h1 : (P ++ SK).drop (m + 1) = P.drop (m + 1) ++ SK :=
                List.drop_append_of_le_length (by omega)
              have h2 : (P ++ nk :: SK).drop (m + 1)
                  = P.drop (m + 1) ++ nk :: SK :=
                List.drop_append_of_le_length (by omega)
              have h3 : PC.length - (m + 1) = (P.drop (m + 1)).length := by
                rw [List.length_drop]
                omega
              rw [h1, h2, h3, insertAt_append_mid]
            have eCR : insertAt ((PC ++ c' :: SC).drop (m + 1))
                (PC.length - (m + 1) + 1) nc
                  = (PC ++ c' :: nc :: SC).drop (m + 1) := by
              have h1 : (PC ++ c' :: SC).drop (m + 1)
                  = PC.drop (m + 1) ++ c' :: SC :=
                List.drop_append_of_le_length (by omega)
              have h2 : (PC ++ c' :: nc :: SC).drop (m + 1)
                  = PC.drop (m + 1) ++ c' :: nc :: SC :=
                List.drop_append_of_le_length (by omega)
              have h3 : PC.length - (m + 1) + 1
                  = (PC.drop (m + 1)).length + 1 := by
                rw [List.length_drop]
              rw [h1, h2, h3, insertAt_append_mid2]
            have eCacheL : csSum ((PC ++ c' :: SC).take (m + 1))
                = csSum ((PC ++ c' :: nc :: SC).take (m + 1)) := by
              rw [eCL]
            have eCacheR : csSum ((PC ++ c' :: SC).drop (m + 1))
                + nc.childSize - 1 + (if true then 1 else 0)
                  = csSum ((PC ++ c' :: nc :: SC).drop (m + 1)) := by
              have h1 : (PC ++ c' :: SC).drop (m + 1)
                  = PC.drop (m + 1) ++ c' :: SC :=
                List.drop_append_of_le_length (by omega)
              have h2 : (PC ++ c' :: nc :: SC).drop (m + 1)
                  = PC.drop (m + 1) ++ c' :: nc :: SC :=
                List.drop_append_of_le_length (by omega)
              rw [h1, h2, csSum_append, csSum_append]
              show csSum (PC.drop (m + 1)) + (c'.childSize + csSum SC)
                + nc.childSize - 1 + 1
                  = csSum (PC.drop (m + 1))
                    + (c'.childSize + (nc.childSize + csSum SC))
              omega
            have eSep : ((P ++ SK).get? m).getD 0
                = (BNode.inner ((P ++ nk :: SK).take m)
                  ((PC ++ c' :: nc :: SC).take (m + 1))
                  (csSum ((PC ++ c' :: nc :: SC).take (m + 1)))).lastKeyD
                := by
              have hg : (P ++ SK).get? m = (P ++ nk :: SK).get? m := by
                rw [List.get?_eq_getElem?, List.get?_eq_getElem?,
                  List.getElem?_append_left (by omega : m < P.length),
                  List.getElem?_append_left (by omega : m < P.length)]
              rw [hg, s8]
              rfl
            rw [eKL, eCL, eKR, eCR, eCacheR]
            refine assemble_two_out key v _ _ _ _ s1 s2 s3 s4 ?_ ?_ ?_ eSep
              ?_ hNtlne hNchain
            · rw [s5]
              rfl
            · rw [s6]
              rfl
            · show toListL ((PC ++ c' :: nc :: SC).take (m + 1))
                ++ toListL ((PC ++ c' :: nc :: SC).drop (m + 1)) = _
              rw [s7, hvcontent]
              rfl
            · show csSum ((PC ++ c' :: nc :: SC).take (m + 1))
                + csSum ((PC ++ c' :: nc :: SC).drop (m + 1)) = s + 1
              rw [s9, hvcs]
          · rw [if_neg hge]
            have hslotm : PC.length ≤ m := by omega
            refine ⟨_, rfl, ?_⟩
            obtain ⟨s1, s2, s3, s4, s5, s6, s7, s8, s9⟩ :=
              inner_section_out (P ++ nk :: SK) (PC ++ c' :: nc :: SC)
                (heightL (PC ++ c :: SC)) (m + 1)
                (by omega) hvlen hvsep hvwl hvhts hvcapl
                (by show m + 1 ≤ 16; omega)
                (by rw [hKlen17]; show 17 - (m + 1) - 1 ≤ 16; omega)
            have eKL : insertAt ((P ++ SK).take m) PC.length nk
                = (P ++ nk :: SK).take (m + 1) := by
              have h1 : (P ++ SK).take m = P ++ SK.take (m - P.length) := by
                have hx : m = P.length + (m - P.length) := by omega
                conv_lhs => rw [hx]
                rw [List.take_append]
              have h2 : (P ++ nk :: SK).take (m + 1)
                  = P ++ (nk :: SK).take (m + 1 - P.length) := by
                have hx : m + 1 = P.length + (m + 1 - P.length) := by omega
                conv_lhs => rw [hx]
                rw [List.take_append]
              have h3 : (nk :: SK).take (m + 1 - P.length)
                  = nk :: SK.take (m - P.length) := by
                have hx : m + 1 - P.length = (m - P.length) + 1 := by omega
                rw [hx]
                rfl
              have h4 : PC.length = P.length := hlenP.symm
              rw [h1, h2, h3, h4, insertAt_append_mid]
            have eCL : insertAt ((PC ++ c' :: SC).take (m + 1))
                (PC.length + 1) nc
                  = (PC ++ c' :: nc :: SC).take (m + 2) := by
              have h1 : (PC ++ c' :: SC).take (m + 1)
                  = PC ++ c' :: SC.take (m - PC.length) := by
                have hx : m + 1 = PC.length + (m + 1 - PC.length) := by
                  omega
                conv_lhs => rw [hx]
                rw [List.take_append]
                have hy : m + 1 - PC.length = (m - PC.length) + 1 := by
                  omega
                rw [hy]
                rfl
              have h2 : (PC ++ c' :: nc :: SC).take (m + 2)
                  = PC ++ c' :: nc :: SC.take (m - PC.length) := by
                have hx : m + 2 = PC.length + (m + 2 - PC.length) := by
                  omega
                conv_lhs => rw [hx]
                rw [List.take_append]
                have hy : m + 2 - PC.length = (m - PC.length) + 2 := by
                  omega
                rw [hy]
                rfl
              rw [h1, h2, insertAt_append_mid2]
            have eKR : (P ++ SK).drop (m + 1)
                = (P ++ nk :: SK).drop (m + 2) := by
              have h1 : (P ++ SK).drop (m + 1) = SK.drop (m + 1 - P.length)
                  := by
                have hx : m + 1 = P.length + (m + 1 - P.length) := by omega
                conv_lhs => rw [hx]
                rw [List.drop_append]
              have h2 : (P ++ nk :: SK).drop (m + 2)
                  = (nk :: SK).drop (m + 2 - P.length) := by
                have hx : m + 2 = P.length + (m + 2 - P.length) := by omega
                conv_lhs => rw [hx]
                rw [List.drop_append]
              have h3 : (nk :: SK).drop (m + 2 - P.length)
                  = SK.drop (m + 1 - P.length) := by
                have hx : m + 2 - P.length = (m + 1 - P.length) + 1 := by
                  omega
                rw [hx]
                rfl
              rw [h1, h2, h3]
            have eCR : (PC ++ c' :: SC).drop (m + 1)
                = (PC ++ c' :: nc :: SC).drop (m + 2) := by
              have h1 : (PC ++ c' :: SC).drop (m + 1)
                  = (c' :: SC).drop (m + 1 - PC.length) := by
                have hx : m + 1 = PC.length + (m + 1 - PC.length) := by
                  omega
                conv_lhs => rw [hx]
                rw [List.drop_append]
              have h2 : (PC ++ c' :: nc :: SC).drop (m + 2)
                  = (c' :: nc :: SC).drop (m + 2 - PC.length) := by
                have hx : m + 2 = PC.length + (m + 2 - PC.length) := by
                  omega
                conv_lhs => rw [hx]
                rw [List.drop_append]
              have h3 : (c' :: SC).drop (m + 1 - PC.length)
                  = SC.drop (m - PC.length) := by
                have hx : m + 1 - PC.length = (m - PC.length) + 1 := by
                  omega
                rw [hx]
                rfl
              have h4 : (c' :: nc :: SC).drop (m + 2 - PC.length)
                  = SC.drop (m - PC.length) := by
                have hx : m + 2 - PC.length = (m - PC.length) + 2 := by
                  omega
                rw [hx]
                rfl
              rw [h1, h2, h3, h4]
            have eCacheL : csSum ((PC ++ c' :: SC).take (m + 1))
                + nc.childSize - 1 + (if true then 1 else 0)
                  = csSum ((PC ++ c' :: nc :: SC).take (m + 2)) := by
              have h1 : (PC ++ c' :: SC).take (m + 1)
                  = PC ++ c' :: SC.take (m - PC.length) := by
                have hx : m + 1 = PC.length + (m + 1 - PC.length) := by
                  omega
                conv_lhs => rw [hx]
                rw [List.take_append]
                have hy : m + 1 - PC.length = (m - PC.length) + 1 := by
                  omega
                rw [hy]
                rfl
              have h2 : (PC ++ c' :: nc :: SC).take (m + 2)
                  = PC ++ c' :: nc :: SC.take (m - PC.length) := by
                have hx : m + 2 = PC.length + (m + 2 - PC.length) := by
                  omega
                conv_lhs => rw [hx]
                rw [List.take_append]
                have hy : m + 2 - PC.length = (m - PC.length) + 2 := by
                  omega
                rw [hy]
                rfl
              rw [h1, h2, csSum_append, csSum_append]
              show csSum PC + (c'.childSize + csSum (SC.take (m - PC.length)))
                + nc.childSize - 1 + 1
                  = csSum PC + (c'.childSize
                    + (nc.childSize + csSum (SC.take (m - PC.length))))
              omega
            have eCacheR : csSum ((PC ++ c' :: SC).drop (m + 1))
                = csSum ((PC ++ c' :: nc :: SC).drop (m + 2)) := by
              rw [eCR]
            have eSep : ((P ++ SK).get? m).getD 0
                = (BNode.inner ((P ++ nk :: SK).take (m + 1))
                  ((PC ++ c' :: nc :: SC).take (m + 2))
                  (csSum ((PC ++ c' :: nc :: SC).take (m + 2)))).lastKeyD
                := by
              have hg : (P ++ SK).get? m = (P ++ nk :: SK).get? (m + 1) := by
                rw [List.get?_eq_getElem?, List.get?_eq_getElem?,
                  List.getElem?_append_right (by omega : P.length ≤ m),
                  List.getElem?_append_right
                    (by omega : P.length ≤ m + 1)]
                have hx : m + 1 - P.length = (m - P.length) + 1 := by omega
                rw [hx, List.getElem?_cons_succ]
              rw [hg, s8]
              rfl
            rw [eKL, eCL, eCacheL, eKR, eCR]
            refine assemble_two_out key v _ _ _ _ s1 s2 s3 s4 ?_ ?_ ?_ eSep
              ?_ hNtlne hNchain
            · rw [s5]
              rfl
            · rw [s6]
              rfl
            · show toListL ((PC ++ c' :: nc :: SC).take (m + 2))
                ++ toListL ((PC ++ c' :: nc :: SC).drop (m + 2)) = _
              rw [s7, hvcontent]
              rfl
            · show csSum ((PC ++ c' :: nc :: SC).take (m + 2))
                + csSum ((PC ++ c' :: nc :: SC).drop (m + 2)) = s + 1
              rw [s9, hvcs]
      · rw [if_neg hfull]
        have hlt16 : (P ++ SK).length < 16 := by
          have hle : (P ++ SK).length ≤ 16 := hNkcap
          rcases Nat.lt_or_ge (P ++ SK).length 16 with h | h
          · exact h
          · exact absurd (by omega : (P ++ SK).length = 16) hfull
        refine ⟨_, rfl, ?_⟩
        have eK : insertAt (P ++ SK) PC.length nk = P ++ nk :: SK := by
          have h4 : PC.length = P.length := hlenP.symm
          rw [h4, insertAt_append_mid]
        have eC : insertAt (PC ++ c' :: SC) (PC.length + 1) nc
            = PC ++ c' :: nc :: SC := insertAt_append_mid2 PC c' SC nc
        rw [eK, eC]
        have hne' : PC ++ c' :: nc :: SC ≠ [] := by
          intro hcon
          have hc := congrArg List.length hcon
          rw [List.length_append, List.length_cons] at hc
          simp only [List.length_nil] at hc
          omega
        refine ⟨rfl, ?_, ?_, ?_, ?_, ?_, ?_, ?_⟩
        · refine wfB_inner_of_parts hne' ?_ ?_
            (heightsEq_of_mem _ _ hvhts) hvsep hvwl
          · simp only [List.length_append, List.length_cons] at hvlen ⊢
            omega
          · show s + 1 = csSum (PC ++ c' :: nc :: SC)
            rw [hvcs]
        · refine capB_inner_of_parts ?_ hvcapl
          simp only [List.length_append, List.length_cons]
          rw [List.length_append] at hlt16
          show P.length + (SK.length + 1) ≤ innerSlotMax
          show P.length + (SK.length + 1) ≤ 16
          omega
        · show heightL (PC ++ c' :: nc :: SC) + 1
            = heightL (PC ++ c :: SC) + 1
          rw [heightL_of_mem _ _ hne' hvhts]
        · show toListL (PC ++ c' :: nc :: SC) = _
          exact hvcontent
        · show s + (if true then 1 else 0) = s + 1
          rfl
        · show ((toListL (PC ++ c' :: nc :: SC)).map entryKey).headD 0 = _
          rw [hvcontent]
          exact insIns_first key v _ hNtlne
        · show ((toListL (PC ++ c' :: nc :: SC)).map
              entryKey).getLast?.getD 0 = _
          rw [hvcontent]
          exact insIns_last key v _ hNtlne hNchain

theorem insertDescend_leaf_eq (key : Key) (v : Payload) (es : List Entry) :
    insertDescend key v (.leaf es) = some (insertLeaf key v es) := by
  simp only [insertDescend]

theorem insertDescend_inner_eq (key : Key) (v : Payload) (ks : List Key)
    (cs : List BNode) (s : Nat) :
    insertDescend key v (.inner ks cs s) = insDescGo key v s ks cs [] [] := by
  simp only [insertDescend]

theorem insDescGo_last_eq (key : Key) (v : Payload) (s : Nat) (c : BNode)
    (pk : List Key) (pc : List BNode) :
    insDescGo key v s [] [c] pk pc
      = match insertDescend key v c with
        | none => none
        | some r => insCombine s pk.reverse pc.reverse [] [] r := by
  first
  | (simp only [insDescGo]; rfl)
  | simp only [insDescGo]

theorem insDescGo_cons_eq (key : Key) (v : Payload) (s : Nat) (k : Key)
    (ks : List Key) (c : BNode) (cs : List BNode) (pk : List Key)
    (pc : List BNode) :
    insDescGo key v s (k :: ks) (c :: cs) pk pc
      = if k < key then insDescGo key v s ks cs (k :: pk) (c :: pc)
        else match insertDescend key v c with
          | none => none
          | some r => insCombine s pk.reverse pc.reverse (k :: ks) cs r := by
  first
  | (simp only [insDescGo]; rfl)
  | simp only [insDescGo]

/-- The fused `find_lower` walk of `insert_descend` preserves the insert
contract, given it for every child (the prefix lists hold the slots
already passed, in reverse). -/
theorem insDescGo_pre (key : Key) (v : Payload) (h : Nat)
    (IH : ∀ c : BNode, c.height ≤ h → c.wfB = true → c.capB = true →
      ∃ r, insertDescend key v c = some r ∧ InsOut key v c r) :
    ∀ (ks : List Key) (cs : List BNode) (pk : List Key) (pc : List BNode)
      (s : Nat), pk.length = pc.length → (∀ k ∈ pk, k < key) →
    (BNode.inner (pk.reverse ++ ks) (pc.reverse ++ cs) s).wfB = true →
    (BNode.inner (pk.reverse ++ ks) (pc.reverse ++ cs) s).capB = true →
    heightL (pc.reverse ++ cs) ≤ h →
    ∃ r, insDescGo key v s ks cs pk pc = some r ∧
      InsOut key v (BNode.inner (pk.reverse ++ ks) (pc.reverse ++ cs) s) r
    := by
  intro ks
  induction ks with
  | nil =>
      intro cs pk pc s hlen hpk hwf hcap hh
      obtain ⟨hne, hcnt, -, hhts, -, hwl⟩ := wfB_inner_parts hwf
      obtain ⟨-, hcl⟩ := capB_inner_parts hcap
      have hcs1 : cs.length = 1 := by
        simp only [List.length_append, List.length_reverse,
          List.length_nil] at hcnt
        omega
      cases cs with
      | nil => simp at hcs1
      | cons c cs' =>
          cases cs' with
          | cons c2 cs'' => simp at hcs1
          | nil =>
              have hcmem : c ∈ pc.reverse ++ [c] :=
                List.mem_append_right _ (List.mem_cons_self _ _)
              have hcwf : c.wfB = true := wfL_mem _ hwl c hcmem
              have hccap : c.capB = true := capL_mem _ hcl c hcmem
              have hch : c.height ≤ h := by
                have hcH := heightsEq_mem _ hhts c hcmem
                omega
              obtain ⟨r, hrd, hro⟩ := IH c hch hcwf hccap
              obtain ⟨res, hcomb, hout⟩ := insCombine_spec key v s
                pk.reverse pc.reverse [] [] c r
                (by simpa using hlen) hwf hcap hro
                (fun k hk => hpk k (List.mem_reverse.mp hk))
                (fun k hk => by simp at hk)
              refine ⟨res, ?_, hout⟩
              rw [insDescGo_last_eq, hrd]
              exact hcomb
  | cons k ks' IHks =>
      intro cs pk pc s hlen hpk hwf hcap hh
      obtain ⟨hne, hcnt, -, hhts, -, hwl⟩ := wfB_inner_parts hwf
      obtain ⟨-, hcl⟩ := capB_inner_parts hcap
      have hcs2 : 2 ≤ cs.length := by
        simp only [List.length_append, List.length_reverse,
          List.length_cons] at hcnt
        omega
      cases cs with
      | nil => simp at hcs2
      | cons c cs' =>
          rw [insDescGo_cons_eq]
          by_cases hklt : k < key
          · rw [if_pos hklt]
            have heqK : (k :: pk).reverse ++ ks' = pk.reverse ++ k :: ks'
              := by
              rw [List.reverse_cons, List.append_assoc]
              rfl
            have heqC : (c :: pc).reverse ++ cs' = pc.reverse ++ c :: cs'
              := by
              rw [List.reverse_cons, List.append_assoc]
              rfl
            have hpk' : ∀ k' ∈ k :: pk, k' < key := by
              intro k' hk'
              rcases List.mem_cons.mp hk' with rfl | hmem
              · exact hklt
              · exact hpk k' hmem
            have hwf' : (BNode.inner ((k :: pk).reverse ++ ks')
                ((c :: pc).reverse ++ cs') s).wfB = true := by
              rw [heqK, heqC]
              exact hwf
            have hcap' : (BNode.inner ((k :: pk).reverse ++ ks')
                ((c :: pc).reverse ++ cs') s).capB = true := by
              rw [heqK, heqC]
              exact hcap
            have hh' : heightL ((c :: pc).reverse ++ cs') ≤ h := by
              rw [heqC]
              exact hh
            obtain ⟨r, hgo, hout⟩ := IHks cs' (k :: pk) (c :: pc) s
              (by simp [hlen]) hpk' hwf' hcap' hh'
            rw [heqK, heqC] at hout
            exact ⟨r, hgo, hout⟩
          · rw [if_neg hklt]
            have hkey_le : key ≤ k := not_lt.mp hklt
            have hcmem : c ∈ pc.reverse ++ c :: cs' :=
              List.mem_append_right _ (List.mem_cons_self _ _)
            have hcwf : c.wfB = true := wfL_mem _ hwl c hcmem
            have hccap : c.capB = true := capL_mem _ hcl c hcmem
            have hch : c.height ≤ h := by
              have hcH := heightsEq_mem _ hhts c hcmem
              omega
            obtain ⟨r, hrd, hro⟩ := IH c hch hcwf hccap
            obtain ⟨res, hcomb, hout⟩ := insCombine_spec key v s
              pk.reverse pc.reverse (k :: ks') cs' c r
              (by simpa using hlen) hwf hcap hro
              (fun k' hk' => hpk k' (List.mem_reverse.mp hk'))
              (by
                intro k0 hk0
                have hkk : k = k0 := by simpa using hk0
                rw [← hkk]
                exact hkey_le)
            refine ⟨res, ?_, hout⟩
            rw [hrd]
            exact hcomb

/-- `insert_descend` satisfies the insert contract on every well-formed,
within-capacity node. -/
theorem insertDescend_spec (key : Key) (v : Payload) :
    ∀ (h : Nat) (n : BNode), n.height ≤ h → n.wfB = true → n.capB = true →
    ∃ r, insertDescend key v n = some r ∧ InsOut key v n r := by
  intro h
  induction h with
  | zero =>
      intro n hh hwf hcap
      cases n with
      | leaf es =>
          exact ⟨insertLeaf key v es, insertDescend_leaf_eq key v es,
            insertLeaf_spec key v es hwf hcap⟩
      | inner ks cs s =>
          exfalso
          have h0 : heightL cs + 1 ≤ 0 := hh
          omega
  | succ h IH =>
      intro n hh hwf hcap
      cases n with
      | leaf es =>
          exact ⟨insertLeaf key v es, insertDescend_leaf_eq key v es,
            insertLeaf_spec key v es hwf hcap⟩
      | inner ks cs s =>
          have hh' : heightL cs ≤ h := by
            have h1 : heightL cs + 1 ≤ h + 1 := hh
            omega
          obtain ⟨r, hgo, hout⟩ := insDescGo_pre key v h IH ks cs [] [] s
            rfl (by intro k hk; cases hk) hwf hcap hh'
          refine ⟨r, ?_, hout⟩
          rw [insertDescend_inner_eq]
          exact hgo

theorem insertLeaf_nil_eq (key : Key) (v : Payload) :
    insertLeaf key v [] = .one (.leaf [(key, v)]) true := rfl

/-- `insert` on the tree: always succeeds on a well-formed in-capacity
tree, keeps both invariants, splices the new entry into position, and
bumps the size by one. -/
theorem insertE_spec (t : BTree) (e : Entry) (hwf : t.wf = true)
    (hcap : t.cap = true) :
    ∃ t', t.insertE e = some t' ∧ t'.wf = true ∧ t'.cap = true ∧
      t'.toList = insIns e.1 e.2 t.toList ∧ t'.size = t.size + 1 := by
  obtain ⟨root⟩ := t
  cases root with
  | none =>
      refine ⟨⟨some (.leaf [(e.1, e.2)])⟩, ?_, rfl, rfl, rfl, rfl⟩
      show (match insertDescend e.1 e.2 (.leaf []) with
        | none => none
        | some (.one n' _) => some (⟨some n'⟩ : BTree)
        | some (.two l r sep _) => some ⟨some (newRootN l r sep)⟩)
          = some ⟨some (.leaf [(e.1, e.2)])⟩
      rw [insertDescend_leaf_eq, insertLeaf_nil_eq]
  | some n =>
      have hnwf : n.wfB = true := hwf
      have hncap : n.capB = true := hcap
      obtain ⟨r, hrd, hro⟩ := insertDescend_spec e.1 e.2 n.height n
        (le_refl _) hnwf hncap
      have hnne := BNode.wfB_toList_ne_nil n hnwf
      have hnch := BNode.wfB_chain n hnwf
      cases r with
      | one n' ins =>
          have hred : BTree.insertE ⟨some n⟩ e = some ⟨some n'⟩ := by
            simp only [BTree.insertE, Option.getD_some, hrd]
          obtain ⟨-, hwf', hcap', -, htl', hcnt', -, -⟩ := hro
          refine ⟨⟨some n'⟩, hred, hwf', hcap', htl', ?_⟩
          have hsz : BTree.size ⟨some n⟩ = n.childSize := by
            cases n <;> rfl
          have hsz' : BTree.size ⟨some n'⟩ = n'.childSize := by
            cases n' <;> rfl
          rw [hsz, hsz', hcnt']
      | two l r' sep ins =>
          have hred : BTree.insertE ⟨some n⟩ e
              = some ⟨some (newRootN l r' sep)⟩ := by
            simp only [BTree.insertE, Option.getD_some, hrd]
          obtain ⟨-, hlwf, hrwf, hlcap, hrcap, hlh, hrh, hcat, hsep, hcnt,
            -, -⟩ := hro
          have hlne := BNode.wfB_toList_ne_nil l hlwf
          have hrne := BNode.wfB_toList_ne_nil r' hrwf
          have hchcat : List.Chain' (· ≤ ·)
              ((l.toList ++ r'.toList).map entryKey) := by
            rw [hcat]
            exact insIns_sorted e.1 e.2 n.toList hnch
          have hlr : l.lastKeyD ≤ r'.firstKeyD :=
            chain_append_last_le_head l.toList r'.toList hchcat hlne hrne
          refine ⟨⟨some (newRootN l r' sep)⟩, hred, ?_, ?_, ?_, ?_⟩
          · show (newRootN l r' sep).wfB = true
            refine wfB_inner_of_parts (by simp [newRootN]) rfl ?_ ?_ ?_ ?_
            · show l.childSize + r'.childSize
                = l.childSize + (r'.childSize + 0)
              omega
            · show ((l.height == r'.height) && heightsEq [r']) = true
              rw [hlh, hrh, beq_self_eq_true]
              rfl
            · show ((l.lastKeyD == sep) && decide (sep ≤ r'.firstKeyD)
                && sepOK [] [r']) = true
              rw [hsep, beq_self_eq_true, decide_eq_true hlr]
              rfl
            · show (l.wfB && (r'.wfB && wfL [])) = true
              rw [hlwf, hrwf]
              rfl
          · show (newRootN l r' sep).capB = true
            refine capB_inner_of_parts (by simp [newRootN]; decide) ?_
            show (l.capB && (r'.capB && capL [])) = true
            rw [hlcap, hrcap]
            rfl
          · show toListL [l, r'] = insIns e.1 e.2 n.toList
            show l.toList ++ (r'.toList ++ []) = _
            rw [List.append_nil]
            exact hcat
          · show l.childSize + r'.childSize = BTree.size ⟨some n⟩ + 1
            have hsz : BTree.size ⟨some n⟩ = n.childSize := by
              cases n <;> rfl
            rw [hsz]
            exact hcnt

/-! ### Size correctness of `bulk_load` -/

/-- Concatenation of a list of lists. -/
def listJoin {α : Type} : List (List α) → List α
  | [] => []
  | l :: ls => l ++ listJoin ls

theorem splitChunks_join {α : Type} :
    ∀ (cnt : Nat) (xs : List α), 1 ≤ cnt →
      listJoin (splitChunks cnt xs) = xs
  | 0, _, h => absurd h (by omega)
  | 1, xs, _ => by
      show (xs.take (xs.length / 1) ++
        listJoin (splitChunks 0 (xs.drop (xs.length / 1)))) = xs
      simp [splitChunks, listJoin]
  | cnt + 2, xs, _ => by
      show (xs.take (xs.length / (cnt + 2)) ++
        listJoin (splitChunks (cnt + 1) (xs.drop (xs.length / (cnt + 2)))))
          = xs
      rw [splitChunks_join (cnt + 1) _ (by omega), List.take_append_drop]

theorem splitChunks_length {α : Type} :
    ∀ (cnt : Nat) (xs : List α), (splitChunks cnt xs).length = cnt
  | 0, _ => rfl
  | cnt + 1, xs => by
      show (xs.take (xs.length / (cnt + 1))
        :: splitChunks cnt (xs.drop (xs.length / (cnt + 1)))).length = cnt + 1
      rw [List.length_cons, splitChunks_length cnt]

theorem sizeOKL_append_eq (A B : List BNode) :
    sizeOKL (A ++ B) = (sizeOKL A && sizeOKL B) := by
  induction A with
  | nil => simp [sizeOKL]
  | cons c A ih =>
      show (c.sizeOK && sizeOKL (A ++ B)) = (c.sizeOK && sizeOKL A && sizeOKL B)
      rw [ih, Bool.and_assoc]

theorem csSum_listJoin (gs : List (List BNode)) :
    csSum (gs.map (fun g => BNode.inner (g.dropLast.map BNode.lastKeyD) g
      (csSum g))) = csSum (listJoin gs) := by
  induction gs with
  | nil => rfl
  | cons g gs ih =>
      show csSum g + _ = csSum (g ++ listJoin gs)
      rw [csSum_append, ih]

theorem toListL_listJoin (gs : List (List BNode)) :
    toListL (gs.map (fun g => BNode.inner (g.dropLast.map BNode.lastKeyD) g
      (csSum g))) = toListL (listJoin gs) := by
  induction gs with
  | nil => rfl
  | cons g gs ih =>
      show toListL g ++ _ = toListL (g ++ listJoin gs)
      rw [toListL_append, ih]

theorem sizeOKL_listJoin (gs : List (List BNode))
    (h : sizeOKL (listJoin gs) = true) :
    sizeOKL (gs.map (fun g => BNode.inner (g.dropLast.map BNode.lastKeyD) g
      (csSum g))) = true := by
  induction gs with
  | nil => rfl
  | cons g gs ih =>
      have h' : (sizeOKL g && sizeOKL (listJoin gs)) = true := by
        rw [← sizeOKL_append_eq]
        exact h
      obtain ⟨h1, h2⟩ := Bool.and_eq_true_iff.mp h'
      show ((csSum g == csSum g) && sizeOKL g && _) = true
      rw [beq_self_eq_true, Bool.true_and, h1, Bool.true_and]
      exact ih h2

theorem buildParents_facts (cnt : Nat) (nodes : List BNode) (h1 : 1 ≤ cnt)
    (hs : sizeOKL nodes = true) :
    (buildParents cnt nodes).length = cnt ∧
      sizeOKL (buildParents cnt nodes) = true ∧
      csSum (buildParents cnt nodes) = csSum nodes ∧
      toListL (buildParents cnt nodes) = toListL nodes := by
  have hj := splitChunks_join cnt nodes h1
  refine ⟨?_, ?_, ?_, ?_⟩
  · rw [buildParents, List.length_map, splitChunks_length]
  · refine sizeOKL_listJoin _ ?_
    rw [hj]
    exact hs
  · rw [buildParents, csSum_listJoin, hj]
  · rw [buildParents, toListL_listJoin, hj]

theorem buildLevels_spec :
    ∀ (fuel : Nat) (nodes : List BNode), nodes ≠ [] →
      nodes.length ≤ fuel → sizeOKL nodes = true →
      ∃ n, buildLevels fuel nodes = some n ∧ n.sizeOK = true ∧
        n.toList = toListL nodes ∧ n.childSize = csSum nodes
  | 0, nodes, hne, hlen, _ => by
      exfalso
      cases nodes with
      | nil => exact hne rfl
      | cons a l => simp at hlen
  | fuel + 1, [], hne, _, _ => absurd rfl hne
  | fuel + 1, [n], _, _, hs => by
      refine ⟨n, rfl, ?_, ?_, ?_⟩
      · have h' : (n.sizeOK && sizeOKL []) = true := hs
        exact (Bool.and_eq_true_iff.mp h').1
      · show n.toList = n.toList ++ toListL []
        simp [toListL]
      · show n.childSize = n.childSize + csSum []
        simp [csSum]
  | fuel + 1, a :: b :: rest, _, hlen, hs => by
      have h16 : innerSlotMax = 16 := rfl
      have hcnt1 : 1 ≤ ((a :: b :: rest).length + innerSlotMax)
          / (innerSlotMax + 1) := by
        rw [h16]
        simp only [List.length_cons]
        omega
      obtain ⟨hlen', hs', hsum', htl'⟩ :=
        buildParents_facts _ (a :: b :: rest) hcnt1 hs
      have hne' : buildParents (((a :: b :: rest).length + innerSlotMax)
          / (innerSlotMax + 1)) (a :: b :: rest) ≠ [] := by
        intro hcon
        rw [hcon] at hlen'
        simp only [List.length_nil] at hlen'
        omega
      obtain ⟨n, heq, h1, h2, h3⟩ := buildLevels_spec fuel
        (buildParents (((a :: b :: rest).length + innerSlotMax)
          / (innerSlotMax + 1)) (a :: b :: rest)) hne'
        (by
          rw [hlen', h16]
          simp only [List.length_cons] at hlen ⊢
          omega) hs'
      refine ⟨n, ?_, h1, ?_, ?_⟩
      · show buildLevels fuel _ = some n
        exact heq
      · rw [h2, htl']
      · rw [h3, hsum']

theorem lengthJoin_map_leaf (gs : List (List Entry)) :
    csSum (gs.map BNode.leaf) = (listJoin gs).length ∧
      toListL (gs.map BNode.leaf) = listJoin gs ∧
      sizeOKL (gs.map BNode.leaf) = true := by
  induction gs with
  | nil => exact ⟨rfl, rfl, rfl⟩
  | cons g gs ih =>
      refine ⟨?_, ?_, ?_⟩
      · show g.length + csSum (gs.map BNode.leaf) = (g ++ listJoin gs).length
        rw [ih.1, List.length_append]
      · show g ++ toListL (gs.map BNode.leaf) = g ++ listJoin gs
        rw [ih.2.1]
      · show (true && sizeOKL (gs.map BNode.leaf)) = true
        rw [Bool.true_and]
        exact ih.2.2

theorem bulkLoad_spec (items : List Entry) :
    ∃ t, BTree.bulkLoad items = some t ∧ t.sizeInv = true ∧
      t.toList = items ∧ t.size = items.length := by
  by_cases hz : items.length = 0
  · refine ⟨⟨none⟩, ?_, rfl, ?_, ?_⟩
    · rw [BTree.bulkLoad, if_pos hz]
    · rw [List.length_eq_zero.mp hz]
      rfl
    · rw [hz]
      rfl
  · have h16 : leafSlotMax = 16 := rfl
    have hcnt1 : 1 ≤ (items.length + leafSlotMax - 1) / leafSlotMax := by
      rw [h16]
      omega
    obtain ⟨hsum, htl, hsz⟩ :=
      lengthJoin_map_leaf (splitChunks ((items.length + leafSlotMax - 1)
        / leafSlotMax) items)
    have hj := splitChunks_join _ items hcnt1
    have hlenle : ((splitChunks ((items.length + leafSlotMax - 1)
        / leafSlotMax) items).map BNode.leaf).length ≤ items.length + 1 := by
      rw [List.length_map, splitChunks_length, h16]
      omega
    have hne : ((splitChunks ((items.length + leafSlotMax - 1)
        / leafSlotMax) items).map BNode.leaf) ≠ [] := by
      intro hcon
      have := congrArg List.length hcon
      rw [List.length_map, splitChunks_length] at this
      simp only [List.length_nil] at this
      omega
    obtain ⟨n, heq, h1, h2, h3⟩ := buildLevels_spec (items.length + 1) _
      hne hlenle hsz
    refine ⟨⟨some n⟩, ?_, h1, ?_, ?_⟩
    · rw [BTree.bulkLoad, if_neg hz, heq]
    · rw [toList_mk_some, h2, htl, hj]
    · rw [size_mk_some, h3, hsum, hj]

/-! ### Shape preservation of erase -/

theorem shOKL_mem : ∀ cs : List BNode, shOKL cs = true → ∀ c ∈ cs,
    c.shOK = true
  | c :: cs, h, d, hd => by
      obtain ⟨h1, h2⟩ := shOKL_cons_parts h
      rcases List.mem_cons.mp hd with rfl | hd'
      · exact h1
      · exact shOKL_mem cs h2 d hd'

theorem shOKL_of_mem : ∀ cs : List BNode, (∀ c ∈ cs, c.shOK = true) →
    shOKL cs = true
  | [], _ => rfl
  | c :: cs, h => by
      show (c.shOK && shOKL cs) = true
      rw [h c (List.mem_cons_self _ _),
        shOKL_of_mem cs (fun d hd => h d (List.mem_cons_of_mem _ hd))]
      rfl

theorem shOKL_take (l : List BNode) (n : Nat) (h : shOKL l = true) :
    shOKL (l.take n) = true :=
  shOKL_of_mem _ (fun c hc => shOKL_mem l h c (List.mem_of_mem_take hc))

theorem shOKL_drop (l : List BNode) (n : Nat) (h : shOKL l = true) :
    shOKL (l.drop n) = true :=
  shOKL_of_mem _ (fun c hc => shOKL_mem l h c (List.mem_of_mem_drop hc))

theorem csSum_take_drop (l : List BNode) (n : Nat) :
    csSum (l.take n) + csSum (l.drop n) = csSum l := by
  rw [← csSum_append, List.take_append_drop]

theorem mem_eraseIdx {α : Type} (l : List α) (i : Nat) (a : α)
    (h : a ∈ l.eraseIdx i) : a ∈ l := by
  rw [List.eraseIdx_eq_take_drop_succ] at h
  rcases List.mem_append.mp h with h' | h'
  · exact List.mem_of_mem_take h'
  · exact List.mem_of_mem_drop h'

theorem shOKL_eraseIdx (l : List BNode) (i : Nat) (h : shOKL l = true) :
    shOKL (l.eraseIdx i) = true :=
  shOKL_of_mem _ (fun c hc => shOKL_mem l h c (mem_eraseIdx l i c hc))

theorem csSum_eraseIdx (l : List BNode) (i : Nat) (z : BNode)
    (h : l.get? i = some z) :
    csSum (l.eraseIdx i) + z.childSize = csSum l := by
  have hi : i < l.length := by
    rcases Nat.lt_or_ge i l.length with h' | h'
    · exact h'
    · rw [List.get?_eq_getElem?, List.getElem?_eq_none h'] at h
      cases h
  have hz : l[i] = z := by
    rw [List.get?_eq_getElem?, List.getElem?_eq_getElem hi] at h
    exact Option.some_inj.mp h
  rw [List.eraseIdx_eq_take_drop_succ, csSum_append]
  have hdec : l.drop i = z :: l.drop (i + 1) := by
    rw [List.drop_eq_getElem_cons hi, hz]
  have h1 : csSum (l.take i) + csSum (l.drop i) = csSum l :=
    csSum_take_drop l i
  rw [hdec] at h1
  have h2 : csSum (z :: l.drop (i + 1))
      = z.childSize + csSum (l.drop (i + 1)) := rfl
  rw [h2] at h1
  omega

theorem eraseIdx_append_mid {α : Type} : ∀ (A : List α) (x : α)
    (B : List α), (A ++ x :: B).eraseIdx A.length = A ++ B
  | [], x, B => rfl
  | a :: A, x, B => by
      show a :: (A ++ x :: B).eraseIdx A.length = _
      rw [eraseIdx_append_mid A x B]
      rfl

/-- `merge_leaves` / `merge_inner` preserve the shape invariant; the left
node absorbs everything and the right is zeroed. -/
theorem mergeNodesE_shape (L : BNode) (sep : Key) (R : BNode) (L' Z : BNode)
    (hL : L.shOK = true) (hR : R.shOK = true) (hh : L.height = R.height)
    (h : mergeNodesE L sep R = some (L', Z)) :
    L'.shOK = true ∧ L'.height = L.height ∧
      L'.childSize = L.childSize + R.childSize ∧ Z.childSize = 0 ∧
      Z.slotuseN = 0 ∧
      ((∃ es, L' = .leaf es ∧ Z = .leaf []) ∨ 1 ≤ L'.slotuseN) := by
  cases L with
  | leaf les =>
      cases R with
      | leaf res =>
          simp only [mergeNodesE] at h
          split at h
          · simp only [Option.some.injEq, Prod.mk.injEq] at h
            obtain ⟨h1, h2⟩ := h
            subst h1
            subst h2
            refine ⟨rfl, rfl, ?_, rfl, rfl, Or.inl ⟨les ++ res, rfl, rfl⟩⟩
            show (les ++ res).length = les.length + res.length
            exact List.length_append les res
          · exact Option.noConfusion h
      | inner rks rcs rs =>
          simp only [mergeNodesE] at h
          exact Option.noConfusion h
  | inner lks lcs ls =>
      cases R with
      | leaf res =>
          simp only [mergeNodesE] at h
          exact Option.noConfusion h
      | inner rks rcs rs =>
          simp only [mergeNodesE] at h
          split at h
          · simp only [Option.some.injEq, Prod.mk.injEq] at h
            obtain ⟨h1, h2⟩ := h
            subst h1
            subst h2
            obtain ⟨hlne, hlcnt, hlcs, hlh, hlsh⟩ := shOK_inner_parts hL
            obtain ⟨hrne, hrcnt, hrcs, hrh, hrsh⟩ := shOK_inner_parts hR
            have hhL : heightL rcs = heightL lcs := by
              have hx : heightL lcs + 1 = heightL rcs + 1 := hh
              omega
            refine ⟨?_, ?_, rfl, rfl, rfl, Or.inr ?_⟩
            · refine shOK_inner_of_parts ?_ ?_ ?_ ?_ ?_
              · intro hcon
                exact hlne (List.append_eq_nil.mp hcon).1
              · simp only [List.length_append, List.length_cons]
                omega
              · rw [csSum_append]
                omega
              · refine heightsEq_of_mem _ (heightL lcs) ?_
                intro x hx
                rcases List.mem_append.mp hx with hx' | hx'
                · exact heightsEq_mem _ hlh x hx'
                · rw [heightsEq_mem _ hrh x hx']
                  exact hhL
              · rw [shOKL_append, hlsh, hrsh]
                rfl
            · show heightL (lcs ++ rcs) + 1 = heightL lcs + 1
              rw [heightL_append_of_ne_nil _ _ hlne]
            · show 1 ≤ (lks ++ sep :: rks).length
              simp only [List.length_append, List.length_cons]
              omega
          · exact Option.noConfusion h

/-- `shift_left_leaf` conserves the total number of entries. -/
theorem shiftLeftLeafE_sizes (les res les' res' : List Entry) (wk : Key)
    (h : shiftLeftLeafE les res = some (les', res', wk)) :
    les'.length + res'.length = les.length + res.length := by
  simp only [shiftLeftLeafE] at h
  split at h
  · exact Option.noConfusion h
  · split at h
    · exact Option.noConfusion h
    · split at h
      · exact Option.noConfusion h
      · simp only [Option.some.injEq, Prod.mk.injEq] at h
        obtain ⟨h1, h2, -⟩ := h
        subst h1
        subst h2
        simp only [List.length_append, List.length_take, List.length_drop]
        omega

/-- `shift_right_leaf` conserves the total number of entries. -/
theorem shiftRightLeafE_sizes (les res les' res' : List Entry) (wk : Key)
    (h : shiftRightLeafE les res = some (les', res', wk)) :
    les'.length + res'.length = les.length + res.length := by
  simp only [shiftRightLeafE] at h
  split at h
  · exact Option.noConfusion h
  · split at h
    · exact Option.noConfusion h
    · split at h
      · exact Option.noConfusion h
      · simp only [Option.some.injEq, Prod.mk.injEq] at h
        obtain ⟨h1, h2, -⟩ := h
        subst h1
        subst h2
        simp only [List.length_append, List.length_take, List.length_drop]
        omega

/-- `shift_left_inner` preserves the shape invariant of both nodes and the
total subtrees. -/
theorem shiftLeftInnerE_shape (lks : List Key) (lcs : List BNode) (ls : Nat)
    (rks : List Key) (rcs : List BNode) (rs : Nat) (sep : Key)
    (C' R' : BNode) (newsep : Key)
    (hL : (BNode.inner lks lcs ls).shOK = true)
    (hR : (BNode.inner rks rcs rs).shOK = true)
    (hh : (BNode.inner lks lcs ls).height = (BNode.inner rks rcs rs).height)
    (h : shiftLeftInnerE lks lcs ls rks rcs rs sep
      = some (C', R', newsep)) :
    C'.shOK = true ∧ R'.shOK = true ∧
      C'.height = (BNode.inner lks lcs ls).height ∧
      R'.height = (BNode.inner lks lcs ls).height ∧
      C'.childSize + R'.childSize = ls + rs := by
  obtain ⟨hlne, hlcnt, hlcs, hlh, hlsh⟩ := shOK_inner_parts hL
  obtain ⟨hrne, hrcnt, hrcs, hrh, hrsh⟩ := shOK_inner_parts hR
  have hhL : heightL rcs = heightL lcs := by
    have hx : heightL lcs + 1 = heightL rcs + 1 := hh
    omega
  simp only [shiftLeftInnerE] at h
  by_cases hgt : rks.length ≤ lks.length
  · rw [if_pos hgt] at h
    exact Option.noConfusion h
  rw [if_neg hgt] at h
  by_cases hsh0 : (rks.length - lks.length) / 2 = 0
  · rw [if_pos hsh0] at h
    exact Option.noConfusion h
  rw [if_neg hsh0] at h
  by_cases hcap : innerSlotMax < lks.length + (rks.length - lks.length) / 2
  · rw [if_pos hcap] at h
    exact Option.noConfusion h
  rw [if_neg hcap] at h
  cases hget : rks.get? ((rks.length - lks.length) / 2 - 1) with
  | none =>
      rw [hget] at h
      exact Option.noConfusion h
  | some newsep0 =>
      rw [hget] at h
      simp only [Option.some.injEq, Prod.mk.injEq] at h
      obtain ⟨h1, h2, -⟩ := h
      subst h1
      subst h2
      have hgt' : lks.length < rks.length := Nat.lt_of_not_le hgt
      have hshle : (rks.length - lks.length) / 2 ≤ rks.length := by
        omega
      have hsh1 : 1 ≤ (rks.length - lks.length) / 2 :=
        Nat.one_le_iff_ne_zero.mpr hsh0
      have htkmem : ∀ x ∈ rcs.take ((rks.length - lks.length) / 2),
          x.height = heightL lcs := by
        intro x hx
        rw [heightsEq_mem _ hrh x (List.mem_of_mem_take hx)]
        exact hhL
      have hdrne : rcs.drop ((rks.length - lks.length) / 2) ≠ [] := by
        intro hcon
        have hc := congrArg List.length hcon
        rw [List.length_drop] at hc
        simp only [List.length_nil] at hc
        omega
      have hcsplit := csSum_take_drop rcs ((rks.length - lks.length) / 2)
      refine ⟨?_, ?_, ?_, ?_, ?_⟩
      · refine shOK_inner_of_parts ?_ ?_ ?_ ?_ ?_
        · intro hcon
          exact hlne (List.append_eq_nil.mp hcon).1
        · simp only [List.length_append, List.length_cons,
            List.length_take, List.length_drop]
          omega
        · rw [csSum_append]
          omega
        · refine heightsEq_of_mem _ (heightL lcs) ?_
          intro x hx
          rcases List.mem_append.mp hx with hx' | hx'
          · exact heightsEq_mem _ hlh x hx'
          · exact htkmem x hx'
        · rw [shOKL_append, hlsh, shOKL_take _ _ hrsh]
          rfl
      · refine shOK_inner_of_parts hdrne ?_ ?_ ?_ ?_
        · simp only [List.length_drop]
          omega
        · omega
        · refine heightsEq_of_mem _ (heightL lcs) ?_
          intro x hx
          rw [heightsEq_mem _ hrh x (List.mem_of_mem_drop hx)]
          exact hhL
        · exact shOKL_drop _ _ hrsh
      · show heightL (lcs ++ _) + 1 = heightL lcs + 1
        rw [heightL_append_of_ne_nil _ _ hlne]
      · show heightL (rcs.drop _) + 1 = heightL lcs + 1
        rw [heightL_of_mem _ (heightL lcs) hdrne (fun x hx => by
          rw [heightsEq_mem _ hrh x (List.mem_of_mem_drop hx)]
          exact hhL)]
      · show ls + csSum (rcs.take ((rks.length - lks.length) / 2))
          + (rs - csSum (rcs.take ((rks.length - lks.length) / 2)))
            = ls + rs
        omega

/-- `shift_right_inner` preserves the shape invariant of both nodes and
the total subtrees. -/
theorem shiftRightInnerE_shape (lks : List Key) (lcs : List BNode)
    (ls : Nat) (rks : List Key) (rcs : List BNode) (rs : Nat) (sep : Key)
    (L' C' : BNode) (newsep : Key)
    (hL : (BNode.inner lks lcs ls).shOK = true)
    (hR : (BNode.inner rks rcs rs).shOK = true)
    (hh : (BNode.inner lks lcs ls).height = (BNode.inner rks rcs rs).height)
    (h : shiftRightInnerE lks lcs ls rks rcs rs sep
      = some (L', C', newsep)) :
    L'.shOK = true ∧ C'.shOK = true ∧
      L'.height = (BNode.inner lks lcs ls).height ∧
      C'.height = (BNode.inner lks lcs ls).height ∧
      L'.childSize + C'.childSize = ls + rs := by
  obtain ⟨hlne, hlcnt, hlcs, hlh, hlsh⟩ := shOK_inner_parts hL
  obtain ⟨hrne, hrcnt, hrcs, hrh, hrsh⟩ := shOK_inner_parts hR
  have hhL : heightL rcs = heightL lcs := by
    have hx : heightL lcs + 1 = heightL rcs + 1 := hh
    omega
  simp only [shiftRightInnerE] at h
  by_cases hgt : lks.length ≤ rks.length
  · rw [if_pos hgt] at h
    exact Option.noConfusion h
  rw [if_neg hgt] at h
  by_cases hsh0 : (lks.length - rks.length) / 2 = 0
  · rw [if_pos hsh0] at h
    exact Option.noConfusion h
  rw [if_neg hsh0] at h
  by_cases hcap : innerSlotMax < rks.length + (lks.length - rks.length) / 2
  · rw [if_pos hcap] at h
    exact Option.noConfusion h
  rw [if_neg hcap] at h
  cases hget : lks.get? (lks.length - (lks.length - rks.length) / 2) with
  | none =>
      rw [hget] at h
      exact Option.noConfusion h
  | some newsep0 =>
      rw [hget] at h
      simp only [Option.some.injEq, Prod.mk.injEq] at h
      obtain ⟨h1, h2, -⟩ := h
      subst h1
      subst h2
      have hgt' : rks.length < lks.length := Nat.lt_of_not_le hgt
      have hsh1 : 1 ≤ (lks.length - rks.length) / 2 :=
        Nat.one_le_iff_ne_zero.mpr hsh0
      have hshle : (lks.length - rks.length) / 2 ≤ lks.length := by
        omega
      have hdroplen : (lcs.drop (lks.length
          - (lks.length - rks.length) / 2 + 1)).length
            = (lks.length - rks.length) / 2 := by
        rw [List.length_drop]
        omega
      have hmoved : (lcs.drop (lks.length
          - (lks.length - rks.length) / 2 + 1)).take
            ((lks.length - rks.length) / 2)
          = lcs.drop (lks.length - (lks.length - rks.length) / 2 + 1) :=
        List.take_of_length_le (le_of_eq hdroplen)
      have hcsplit := csSum_take_drop lcs
        (lks.length - (lks.length - rks.length) / 2 + 1)
      have htkne : lcs.take (lks.length
          - (lks.length - rks.length) / 2 + 1) ≠ [] := by
        intro hcon
        have hc := congrArg List.length hcon
        rw [List.length_take] at hc
        simp only [List.length_nil] at hc
        omega
      have hdrne : lcs.drop (lks.length
          - (lks.length - rks.length) / 2 + 1) ≠ [] := by
        intro hcon
        have hc := congrArg List.length hcon
        rw [hdroplen] at hc
        simp only [List.length_nil] at hc
        omega
      refine ⟨?_, ?_, ?_, ?_, ?_⟩
      · refine shOK_inner_of_parts htkne ?_ ?_ ?_ ?_
        · simp only [List.length_take]
          omega
        · rw [hmoved]
          omega
        · refine heightsEq_of_mem _ (heightL lcs) ?_
          intro x hx
          exact heightsEq_mem _ hlh x (List.mem_of_mem_take hx)
        · exact shOKL_take _ _ hlsh
      · refine shOK_inner_of_parts ?_ ?_ ?_ ?_ ?_
        · intro hcon
          exact hdrne (List.append_eq_nil.mp hcon).1
        · simp only [List.length_append, List.length_cons,
            List.length_drop]
          omega
        · rw [csSum_append, hmoved]
          omega
        · refine heightsEq_of_mem _ (heightL lcs) ?_
          intro x hx
          rcases List.mem_append.mp hx with hx' | hx'
          · exact heightsEq_mem _ hlh x (List.mem_of_mem_drop hx')
          · rw [heightsEq_mem _ hrh x hx']
            exact hhL
        · rw [shOKL_append, shOKL_drop _ _ hlsh, hrsh]
          rfl
      · show heightL (lcs.take _) + 1 = heightL lcs + 1
        rw [heightL_of_mem _ (heightL lcs) htkne (fun x hx =>
          heightsEq_mem _ hlh x (List.mem_of_mem_take hx))]
      · show heightL (lcs.drop _ ++ _) + 1 = heightL lcs + 1
        rw [heightL_append_of_ne_nil _ _ hdrne,
          heightL_of_mem _ (heightL lcs) hdrne (fun x hx =>
            heightsEq_mem _ hlh x (List.mem_of_mem_drop hx))]
      · show ls - csSum ((lcs.drop _).take _)
          + (rs + csSum ((lcs.drop _).take _)) = ls + rs
        rw [hmoved]
        omega

theorem get?_append_mid {α : Type} (A : List α) (x : α) (B : List α) :
    (A ++ x :: B).get? A.length = some x := by
  rw [List.get?_eq_getElem?,
    List.getElem?_append_right (le_refl A.length)]
  simp

theorem get?_append_mid2 {α : Type} (A : List α) (x y : α) (B : List α) :
    (A ++ x :: y :: B).get? (A.length + 1) = some y := by
  have h1 : A ++ x :: y :: B = (A ++ [x]) ++ y :: B := by simp
  have h2 : A.length + 1 = (A ++ [x]).length := by simp
  rw [h1, h2, get?_append_mid]

theorem eraseIdx_append_mid2 {α : Type} (A : List α) (x y : α)
    (B : List α) :
    (A ++ x :: y :: B).eraseIdx (A.length + 1) = A ++ x :: B := by
  have h1 : A ++ x :: y :: B = (A ++ [x]) ++ y :: B := by simp
  have h2 : A.length + 1 = (A ++ [x]).length := by simp
  rw [h1, h2, eraseIdx_append_mid]
  simp

/-- The parent-side application of a child rebalancing action conserves
the summed subtree sizes and the list lengths, and keeps the shape
invariant and heights once the `fixmerge` removal (at the slot the C++
`fixmerge` ladder picks) has been performed. -/
theorem applyReb_shape (P : List Key) (PC : List BNode) (SK : List Key)
    (SCR : List BNode) (c' : BNode) (act : RebAct) (H : Nat)
    (hsh : shOKL (PC ++ c' :: SCR) = true)
    (hhts : ∀ x ∈ PC ++ c' :: SCR, x.height = H)
    (ks2 : List Key) (cs2 : List BNode) (updA : Option Key) (fixA : Bool)
    (hr : applyReb P PC SK SCR c' act = some (ks2, cs2, updA, fixA)) :
    ks2.length = P.length + SK.length ∧
    csSum cs2 = csSum (PC ++ c' :: SCR) ∧
    cs2.length = PC.length + SCR.length + 1 ∧
    (fixA = false → shOKL cs2 = true ∧ (∀ x ∈ cs2, x.height = H)) ∧
    (fixA = true → 2 ≤ cs2.length ∧
      ∀ slot2, slot2 = (match cs2.get? PC.length with
          | some n => if n.slotuseN ≠ 0 then PC.length + 1 else PC.length
          | none => PC.length) →
        slot2 < cs2.length ∧
        csSum (cs2.eraseIdx slot2) = csSum (PC ++ c' :: SCR) ∧
        shOKL (cs2.eraseIdx slot2) = true ∧
        (∀ x ∈ cs2.eraseIdx slot2, x.height = H)) := by
  have hc'sh : c'.shOK = true := shOKL_mem _ hsh c'
    (List.mem_append_right _ (List.mem_cons_self _ _))
  have hc'h : c'.height = H := hhts c'
    (List.mem_append_right _ (List.mem_cons_self _ _))
  have hsplit : (shOKL PC && shOKL (c' :: SCR)) = true := by
    rw [← shOKL_append]
    exact hsh
  rw [Bool.and_eq_true] at hsplit
  have hshPC : shOKL PC = true := hsplit.1
  have hshSCR : shOKL SCR = true := (shOKL_cons_parts hsplit.2).2
  have hhPC : ∀ x ∈ PC, x.height = H :=
    fun x hx => hhts x (List.mem_append_left _ hx)
  have hhSCR : ∀ x ∈ SCR, x.height = H :=
    fun x hx => hhts x (List.mem_append_right _
      (List.mem_cons_of_mem _ hx))
  cases act with
  | none0 =>
      have hr' : some ((P ++ SK : List Key), PC ++ c' :: SCR,
          (none : Option Key), false) = some (ks2, cs2, updA, fixA) := hr
      simp only [Option.some.injEq, Prod.mk.injEq] at hr'
      obtain ⟨h1, h2, -, h4⟩ := hr'
      subst h1
      subst h2
      subst h4
      refine ⟨by simp, rfl, ?_, fun _ => ⟨hsh, hhts⟩,
        fun hcon => absurd hcon (by decide)⟩
      simp only [List.length_append, List.length_cons]
      omega
  | mergeL =>
      simp only [applyReb] at hr
      cases hPCl : PC.getLast? with
      | none =>
          rw [hPCl] at hr
          exact Option.noConfusion hr
      | some L =>
          rw [hPCl] at hr
          cases hPl : P.getLast? with
          | none =>
              rw [hPl] at hr
              exact Option.noConfusion hr
          | some sepL =>
              rw [hPl] at hr
              have hr2 : (match mergeNodesE L sepL c' with
                  | none => none
                  | some (L', Z) => some ((P ++ SK : List Key),
                      PC.dropLast ++ L' :: Z :: SCR,
                      (none : Option Key), true))
                    = some (ks2, cs2, updA, fixA) := hr
              cases hmg : mergeNodesE L sepL c' with
              | none =>
                  rw [hmg] at hr2
                  exact Option.noConfusion hr2
              | some LZ =>
                  obtain ⟨L', Z⟩ := LZ
                  rw [hmg] at hr2
                  have hr' : some ((P ++ SK : List Key),
                      PC.dropLast ++ L' :: Z :: SCR,
                      (none : Option Key), true)
                        = some (ks2, cs2, updA, fixA) := hr2
                  simp only [Option.some.injEq, Prod.mk.injEq] at hr'
                  obtain ⟨h1, h2, -, h4⟩ := hr'
                  subst h1
                  subst h2
                  subst h4
                  have hPCne : PC ≠ [] := by
                    intro hcon
                    rw [hcon] at hPCl
                    cases hPCl
                  have hPCdec : PC.dropLast ++ [L] = PC :=
                    List.dropLast_append_getLast? L hPCl
                  have hLmem : L ∈ PC :=
                    List.mem_of_mem_getLast? (Option.mem_def.mpr hPCl)
                  have hLsh : L.shOK = true := shOKL_mem _ hshPC L hLmem
                  have hLh : L.height = H := hhPC L hLmem
                  have hLc'h : L.height = c'.height := by
                    rw [hLh, hc'h]
                  obtain ⟨hL'sh, hL'h, hL'cnt, hZcs, hZsu, -⟩ :=
                    mergeNodesE_shape L sepL c' L' Z hLsh hc'sh hLc'h hmg
                  have hPCsum : csSum PC
                      = csSum PC.dropLast + L.childSize := by
                    conv_lhs => rw [← hPCdec]
                    rw [csSum_append, csSum_singleton]
                  have h1PC : 1 ≤ PC.length :=
                    List.length_pos.mpr hPCne
                  have hlenPC : PC.dropLast.length = PC.length - 1 :=
                    List.length_dropLast PC
                  have hcsq : csSum (PC.dropLast ++ L' :: Z :: SCR)
                      = csSum (PC ++ c' :: SCR) := by
                    rw [csSum_append, csSum_append]
                    show csSum PC.dropLast
                        + (L'.childSize + (Z.childSize + csSum SCR))
                      = csSum PC + (c'.childSize + csSum SCR)
                    omega
                  refine ⟨by simp, hcsq, ?_, ?_, ?_⟩
                  · simp only [List.length_append, List.length_cons,
                      List.length_dropLast]
                    omega
                  · intro hcon
                    exact absurd hcon (by decide)
                  · intro _
                    constructor
                    · simp only [List.length_append, List.length_cons]
                      omega
                    intro slot2 hslot2
                    have hPCe : PC.length = PC.dropLast.length + 1 := by
                      omega
                    have hget2 : (PC.dropLast ++ L' :: Z :: SCR).get?
                        PC.length = some Z := by
                      rw [hPCe, get?_append_mid2]
                    rw [hget2] at hslot2
                    have hslot2' : slot2 = if Z.slotuseN ≠ 0 then
                        PC.length + 1 else PC.length := hslot2
                    have hse : slot2 = PC.length := by
                      rw [hslot2', hZsu]
                      simp
                    subst hse
                    have herase : (PC.dropLast ++ L' :: Z :: SCR).eraseIdx
                        PC.length = PC.dropLast ++ L' :: SCR := by
                      rw [hPCe, eraseIdx_append_mid2]
                    refine ⟨?_, ?_, ?_, ?_⟩
                    · simp only [List.length_append, List.length_cons]
                      omega
                    · rw [herase, csSum_append, csSum_append]
                      show csSum PC.dropLast
                          + (L'.childSize + csSum SCR)
                        = csSum PC + (c'.childSize + csSum SCR)
                      omega
                    · rw [herase]
                      refine shOKL_of_mem _ ?_
                      intro x hx
                      rcases List.mem_append.mp hx with hx' | hx'
                      · exact shOKL_mem _ hshPC x
                          (List.mem_of_mem_dropLast hx')
                      · rcases List.mem_cons.mp hx' with rfl | hx''
                        · exact hL'sh
                        · exact shOKL_mem _ hshSCR x hx''
                    · rw [herase]
                      intro x hx
                      rcases List.mem_append.mp hx with hx' | hx'
                      · exact hhPC x (List.mem_of_mem_dropLast hx')
                      · rcases List.mem_cons.mp hx' with rfl | hx''
                        · rw [hL'h, hLh]
                        · exact hhSCR x hx''
  | mergeR =>
      cases SCR with
      | nil => exact Option.noConfusion hr
      | cons R scr =>
          cases SK with
          | nil => exact Option.noConfusion hr
          | cons sepR skr =>
              have hr2 : (match mergeNodesE c' sepR R with
                  | none => none
                  | some (C', Z) => some ((P ++ sepR :: skr : List Key),
                      PC ++ C' :: Z :: scr, (none : Option Key), true))
                    = some (ks2, cs2, updA, fixA) := hr
              cases hmg : mergeNodesE c' sepR R with
              | none =>
                  rw [hmg] at hr2
                  exact Option.noConfusion hr2
              | some CZ =>
                  obtain ⟨C', Z⟩ := CZ
                  rw [hmg] at hr2
                  have hr' : some ((P ++ sepR :: skr : List Key),
                      PC ++ C' :: Z :: scr, (none : Option Key), true)
                        = some (ks2, cs2, updA, fixA) := hr2
                  simp only [Option.some.injEq, Prod.mk.injEq] at hr'
                  obtain ⟨h1, h2, -, h4⟩ := hr'
                  subst h1
                  subst h2
                  subst h4
                  have hRmem : R ∈ R :: scr := List.mem_cons_self _ _
                  have hRsh : R.shOK = true := shOKL_mem _ hshSCR R hRmem
                  have hRh : R.height = H := hhSCR R hRmem
                  have hc'Rh : c'.height = R.height := by
                    rw [hRh, hc'h]
                  obtain ⟨hC'sh, hC'h, hC'cnt, hZcs, hZsu, hZcase⟩ :=
                    mergeNodesE_shape c' sepR R C' Z hc'sh hRsh hc'Rh hmg
                  have hscr : shOKL scr = true :=
                    (shOKL_cons_parts hshSCR).2
                  have hhscr : ∀ x ∈ scr, x.height = H :=
                    fun x hx => hhSCR x (List.mem_cons_of_mem _ hx)
                  have hcsq : csSum (PC ++ C' :: Z :: scr)
                      = csSum (PC ++ c' :: R :: scr) := by
                    rw [csSum_append, csSum_append]
                    show csSum PC
                        + (C'.childSize + (Z.childSize + csSum scr))
                      = csSum PC
                        + (c'.childSize + (R.childSize + csSum scr))
                    omega
                  refine ⟨by simp, hcsq, ?_, ?_, ?_⟩
                  · simp only [List.length_append, List.length_cons]
                    omega
                  · intro hcon
                    exact absurd hcon (by decide)
                  · intro _
                    constructor
                    · simp only [List.length_append, List.length_cons]
                      omega
                    intro slot2 hslot2
                    have hget2 : (PC ++ C' :: Z :: scr).get? PC.length
                        = some C' := get?_append_mid PC C' (Z :: scr)
                    rw [hget2] at hslot2
                    have hslot2' : slot2 = if C'.slotuseN ≠ 0 then
                        PC.length + 1 else PC.length := hslot2
                    by_cases hsu : C'.slotuseN = 0
                    · have hse : slot2 = PC.length := by
                        rw [hslot2', hsu]
                        simp
                      subst hse
                      rcases hZcase with ⟨es, hC'eq, hZeq⟩ | hge
                      · have hes : es = [] := by
                          have hlen0 : es.length = 0 := by
                            rw [hC'eq] at hsu
                            exact hsu
                          exact List.length_eq_zero.mp hlen0
                        subst hes
                        have herase : (PC ++ C' :: Z :: scr).eraseIdx
                            PC.length = PC ++ Z :: scr :=
                          eraseIdx_append_mid PC C' (Z :: scr)
                        have hC'cs : C'.childSize = 0 := by
                          rw [hC'eq]
                          rfl
                        have hH0 : H = 0 := by
                          rw [← hc'h, ← hC'h, hC'eq]
                          rfl
                        refine ⟨?_, ?_, ?_, ?_⟩
                        · simp only [List.length_append, List.length_cons]
                          omega
                        · rw [herase, csSum_append, csSum_append]
                          show csSum PC + (Z.childSize + csSum scr)
                            = csSum PC
                              + (c'.childSize + (R.childSize + csSum scr))
                          omega
                        · rw [herase]
                          refine shOKL_of_mem _ ?_
                          intro x hx
                          rcases List.mem_append.mp hx with hx' | hx'
                          · exact shOKL_mem _ hshPC x hx'
                          · rcases List.mem_cons.mp hx' with rfl | hx''
                            · rw [hZeq]
                              rfl
                            · exact shOKL_mem _ hscr x hx''
                        · rw [herase]
                          intro x hx
                          rcases List.mem_append.mp hx with hx' | hx'
                          · exact hhPC x hx'
                          · rcases List.mem_cons.mp hx' with rfl | hx''
                            · rw [hZeq, hH0]
                              rfl
                            · exact hhscr x hx''
                      · omega
                    · have hse : slot2 = PC.length + 1 := by
                        rw [hslot2']
                        simp [hsu]
                      subst hse
                      have herase : (PC ++ C' :: Z :: scr).eraseIdx
                          (PC.length + 1) = PC ++ C' :: scr :=
                        eraseIdx_append_mid2 PC C' Z scr
                      refine ⟨?_, ?_, ?_, ?_⟩
                      · simp only [List.length_append, List.length_cons]
                        omega
                      · rw [herase, csSum_append, csSum_append]
                        show csSum PC + (C'.childSize + csSum scr)
                          = csSum PC
                            + (c'.childSize + (R.childSize + csSum scr))
                        omega
                      · rw [herase]
                        refine shOKL_of_mem _ ?_
                        intro x hx
                        rcases List.mem_append.mp hx with hx' | hx'
                        · exact shOKL_mem _ hshPC x hx'
                        · rcases List.mem_cons.mp hx' with rfl | hx''
                          · exact hC'sh
                          · exact shOKL_mem _ hscr x hx''
                      · rw [herase]
                        intro x hx
                        rcases List.mem_append.mp hx with hx' | hx'
                        · exact hhPC x hx'
                        · rcases List.mem_cons.mp hx' with rfl | hx''
                          · rw [hC'h, hc'h]
                          · exact hhscr x hx''
  | shiftL =>
      cases SCR with
      | nil => exact Option.noConfusion hr
      | cons R scr =>
          have hRmem : R ∈ R :: scr := List.mem_cons_self _ _
          have hRsh : R.shOK = true := shOKL_mem _ hshSCR R hRmem
          have hRh : R.height = H := hhSCR R hRmem
          have hscr : shOKL scr = true := (shOKL_cons_parts hshSCR).2
          have hhscr : ∀ x ∈ scr, x.height = H :=
            fun x hx => hhSCR x (List.mem_cons_of_mem _ hx)
          cases c' with
          | leaf les =>
              cases R with
              | leaf res =>
                  have hH0 : H = 0 := by
                    rw [← hc'h]
                    rfl
                  cases SK with
                  | cons k sk =>
                      have hr2 : (match shiftLeftLeafE les res with
                          | none => none
                          | some (les', res', wk) =>
                              some ((P ++ wk :: sk : List Key),
                                PC ++ BNode.leaf les'
                                  :: BNode.leaf res' :: scr,
                                (none : Option Key), false))
                            = some (ks2, cs2, updA, fixA) := hr
                      cases hsl : shiftLeftLeafE les res with
                      | none =>
                          rw [hsl] at hr2
                          exact Option.noConfusion hr2
                      | some t3 =>
                          obtain ⟨les', res', wk⟩ := t3
                          rw [hsl] at hr2
                          have hr' : some ((P ++ wk :: sk : List Key),
                              PC ++ BNode.leaf les'
                                :: BNode.leaf res' :: scr,
                              (none : Option Key), false)
                                = some (ks2, cs2, updA, fixA) := hr2
                          simp only [Option.some.injEq,
                            Prod.mk.injEq] at hr'
                          obtain ⟨h1, h2, -, h4⟩ := hr'
                          subst h1
                          subst h2
                          subst h4
                          have hlen := shiftLeftLeafE_sizes les res les'
                            res' wk hsl
                          refine ⟨by simp, ?_, ?_, ?_, ?_⟩
                          · rw [csSum_append, csSum_append]
                            show csSum PC
                                + (les'.length + (res'.length + csSum scr))
                              = csSum PC
                                + (les.length + (res.length + csSum scr))
                            omega
                          · simp only [List.length_append,
                              List.length_cons]
                            omega
                          · intro _
                            constructor
                            · refine shOKL_of_mem _ ?_
                              intro x hx
                              rcases List.mem_append.mp hx with hx' | hx'
                              · exact shOKL_mem _ hshPC x hx'
                              · rcases List.mem_cons.mp hx' with rfl | hx''
                                · rfl
                                · rcases List.mem_cons.mp hx''
                                    with rfl | hx3
                                  · rfl
                                  · exact shOKL_mem _ hscr x hx3
                            · intro x hx
                              rcases List.mem_append.mp hx with hx' | hx'
                              · exact hhPC x hx'
                              · rcases List.mem_cons.mp hx' with rfl | hx''
                                · rw [hH0]
                                  rfl
                                · rcases List.mem_cons.mp hx''
                                    with rfl | hx3
                                  · rw [hH0]
                                    rfl
                                  · exact hhscr x hx3
                          · intro hcon
                            exact absurd hcon (by decide)
                  | nil =>
                      have hr2 : (match shiftLeftLeafE les res with
                          | none => none
                          | some (les', res', wk) =>
                              some ((P : List Key),
                                PC ++ BNode.leaf les'
                                  :: BNode.leaf res' :: scr,
                                (some wk : Option Key), false))
                            = some (ks2, cs2, updA, fixA) := hr
                      cases hsl : shiftLeftLeafE les res with
                      | none =>
                          rw [hsl] at hr2
                          exact Option.noConfusion hr2
                      | some t3 =>
                          obtain ⟨les', res', wk⟩ := t3
                          rw [hsl] at hr2
                          have hr' : some ((P : List Key),
                              PC ++ BNode.leaf les'
                                :: BNode.leaf res' :: scr,
                              (some wk : Option Key), false)
                                = some (ks2, cs2, updA, fixA) := hr2
                          simp only [Option.some.injEq,
                            Prod.mk.injEq] at hr'
                          obtain ⟨h1, h2, -, h4⟩ := hr'
                          subst h1
                          subst h2
                          subst h4
                          have hlen := shiftLeftLeafE_sizes les res les'
                            res' wk hsl
                          refine ⟨by simp, ?_, ?_, ?_, ?_⟩
                          · rw [csSum_append, csSum_append]
                            show csSum PC
                                + (les'.length + (res'.length + csSum scr))
                              = csSum PC
                                + (les.length + (res.length + csSum scr))
                            omega
                          · simp only [List.length_append,
                              List.length_cons]
                            omega
                          · intro _
                            constructor
                            · refine shOKL_of_mem _ ?_
                              intro x hx
                              rcases List.mem_append.mp hx with hx' | hx'
                              · exact shOKL_mem _ hshPC x hx'
                              · rcases List.mem_cons.mp hx' with rfl | hx''
                                · rfl
                                · rcases List.mem_cons.mp hx''
                                    with rfl | hx3
                                  · rfl
                                  · exact shOKL_mem _ hscr x hx3
                            · intro x hx
                              rcases List.mem_append.mp hx with hx' | hx'
                              · exact hhPC x hx'
                              · rcases List.mem_cons.mp hx' with rfl | hx''
                                · rw [hH0]
                                  rfl
                                · rcases List.mem_cons.mp hx''
                                    with rfl | hx3
                                  · rw [hH0]
                                    rfl
                                  · exact hhscr x hx3
                          · intro hcon
                            exact absurd hcon (by decide)
              | inner rks rcs rs =>
                  cases SK with
                  | nil => exact Option.noConfusion hr
                  | cons sepS sk => exact Option.noConfusion hr
          | inner lks lcs ls =>
              cases R with
              | leaf res =>
                  cases SK with
                  | nil => exact Option.noConfusion hr
                  | cons sepS sk => exact Option.noConfusion hr
              | inner rks rcs rs =>
                  cases SK with
                  | nil => exact Option.noConfusion hr
                  | cons sepS sk =>
                      have hr2 : (match shiftLeftInnerE lks lcs ls rks rcs
                          rs sepS with
                          | none => none
                          | some (C', R', newsep) =>
                              some ((P ++ newsep :: sk : List Key),
                                PC ++ C' :: R' :: scr,
                                (none : Option Key), false))
                            = some (ks2, cs2, updA, fixA) := hr
                      cases hsl : shiftLeftInnerE lks lcs ls rks rcs rs
                          sepS with
                      | none =>
                          rw [hsl] at hr2
                          exact Option.noConfusion hr2
                      | some t3 =>
                          obtain ⟨C', R', newsep⟩ := t3
                          rw [hsl] at hr2
                          have hr' : some ((P ++ newsep :: sk : List Key),
                              PC ++ C' :: R' :: scr,
                              (none : Option Key), false)
                                = some (ks2, cs2, updA, fixA) := hr2
                          simp only [Option.some.injEq,
                            Prod.mk.injEq] at hr'
                          obtain ⟨h1, h2, -, h4⟩ := hr'
                          subst h1
                          subst h2
                          subst h4
                          have hhh : (BNode.inner lks lcs ls).height
                              = (BNode.inner rks rcs rs).height := by
                            rw [hc'h, hRh]
                          obtain ⟨hC'sh, hR'sh, hC'h, hR'h, hsum⟩ :=
                            shiftLeftInnerE_shape lks lcs ls rks rcs rs
                              sepS C' R' newsep hc'sh hRsh hhh hsl
                          refine ⟨by simp, ?_, ?_, ?_, ?_⟩
                          · rw [csSum_append, csSum_append]
                            show csSum PC
                                + (C'.childSize
                                  + (R'.childSize + csSum scr))
                              = csSum PC + (ls + (rs + csSum scr))
                            omega
                          · simp only [List.length_append,
                              List.length_cons]
                            omega
                          · intro _
                            constructor
                            · refine shOKL_of_mem _ ?_
                              intro x hx
                              rcases List.mem_append.mp hx with hx' | hx'
                              · exact shOKL_mem _ hshPC x hx'
                              · rcases List.mem_cons.mp hx' with rfl | hx''
                                · exact hC'sh
                                · rcases List.mem_cons.mp hx''
                                    with rfl | hx3
                                  · exact hR'sh
                                  · exact shOKL_mem _ hscr x hx3
                            · intro x hx
                              rcases List.mem_append.mp hx with hx' | hx'
                              · exact hhPC x hx'
                              · rcases List.mem_cons.mp hx' with rfl | hx''
                                · rw [hC'h]
                                  exact hc'h
                                · rcases List.mem_cons.mp hx''
                                    with rfl | hx3
                                  · rw [hR'h]
                                    exact hc'h
                                  · exact hhscr x hx3
                          · intro hcon
                            exact absurd hcon (by decide)
  | shiftR =>
      simp only [applyReb] at hr
      cases hPCl : PC.getLast? with
      | none =>
          rw [hPCl] at hr
          exact Option.noConfusion hr
      | some L =>
          rw [hPCl] at hr
          cases hPl : P.getLast? with
          | none =>
              rw [hPl] at hr
              exact Option.noConfusion hr
          | some sepP =>
              rw [hPl] at hr
              have hPCne : PC ≠ [] := by
                intro hcon
                rw [hcon] at hPCl
                cases hPCl
              have hPne : P ≠ [] := by
                intro hcon
                rw [hcon] at hPl
                cases hPl
              have hPCdec : PC.dropLast ++ [L] = PC :=
                List.dropLast_append_getLast? L hPCl
              have hLmem : L ∈ PC :=
                List.mem_of_mem_getLast? (Option.mem_def.mpr hPCl)
              have hLsh : L.shOK = true := shOKL_mem _ hshPC L hLmem
              have hLh : L.height = H := hhPC L hLmem
              have hPCsum : csSum PC
                  = csSum PC.dropLast + L.childSize := by
                conv_lhs => rw [← hPCdec]
                rw [csSum_append, csSum_singleton]
              have h1PC : 1 ≤ PC.length := List.length_pos.mpr hPCne
              have h1P : 1 ≤ P.length := List.length_pos.mpr hPne
              have hdlmem : ∀ x ∈ PC.dropLast, x ∈ PC :=
                fun x hx => List.mem_of_mem_dropLast hx
              cases L with
              | leaf les =>
                  cases c' with
                  | leaf res =>
                      have hr2 : (match shiftRightLeafE les res with
                          | none => none
                          | some (les', res', wk) =>
                              some ((P.dropLast ++ wk :: SK : List Key),
                                PC.dropLast ++ BNode.leaf les'
                                  :: BNode.leaf res' :: SCR,
                                (none : Option Key), false))
                            = some (ks2, cs2, updA, fixA) := hr
                      cases hsr : shiftRightLeafE les res with
                      | none =>
                          rw [hsr] at hr2
                          exact Option.noConfusion hr2
                      | some t3 =>
                          obtain ⟨les', res', wk⟩ := t3
                          rw [hsr] at hr2
                          have hr' : some
                              ((P.dropLast ++ wk :: SK : List Key),
                              PC.dropLast ++ BNode.leaf les'
                                :: BNode.leaf res' :: SCR,
                              (none : Option Key), false)
                                = some (ks2, cs2, updA, fixA) := hr2
                          simp only [Option.some.injEq,
                            Prod.mk.injEq] at hr'
                          obtain ⟨h1, h2, -, h4⟩ := hr'
                          subst h1
                          subst h2
                          subst h4
                          have hlen := shiftRightLeafE_sizes les res les'
                            res' wk hsr
                          have hH0 : H = 0 := by
                            rw [← hLh]
                            rfl
                          refine ⟨?_, ?_, ?_, ?_, ?_⟩
                          · simp only [List.length_append,
                              List.length_cons, List.length_dropLast]
                            omega
                          · rw [csSum_append, csSum_append]
                            show csSum PC.dropLast
                                + (les'.length
                                  + (res'.length + csSum SCR))
                              = csSum PC + (res.length + csSum SCR)
                            have hLcs : (BNode.leaf les).childSize
                                = les.length := rfl
                            omega
                          · simp only [List.length_append,
                              List.length_cons, List.length_dropLast]
                            omega
                          · intro _
                            constructor
                            · refine shOKL_of_mem _ ?_
                              intro x hx
                              rcases List.mem_append.mp hx with hx' | hx'
                              · exact shOKL_mem _ hshPC x (hdlmem x hx')
                              · rcases List.mem_cons.mp hx' with rfl | hx''
                                · rfl
                                · rcases List.mem_cons.mp hx''
                                    with rfl | hx3
                                  · rfl
                                  · exact shOKL_mem _ hshSCR x hx3
                            · intro x hx
                              rcases List.mem_append.mp hx with hx' | hx'
                              · exact hhPC x (hdlmem x hx')
                              · rcases List.mem_cons.mp hx' with rfl | hx''
                                · rw [hH0]
                                  rfl
                                · rcases List.mem_cons.mp hx''
                                    with rfl | hx3
                                  · rw [hH0]
                                    rfl
                                  · exact hhSCR x hx3
                          · intro hcon
                            exact absurd hcon (by decide)
                  | inner rks rcs rs => exact Option.noConfusion hr
              | inner lks lcs ls =>
                  cases c' with
                  | leaf res => exact Option.noConfusion hr
                  | inner rks rcs rs =>
                      have hr2 : (match shiftRightInnerE lks lcs ls rks
                          rcs rs sepP with
                          | none => none
                          | some (L', C', newsep) =>
                              some ((P.dropLast ++ newsep :: SK
                                  : List Key),
                                PC.dropLast ++ L' :: C' :: SCR,
                                (none : Option Key), false))
                            = some (ks2, cs2, updA, fixA) := hr
                      cases hsr : shiftRightInnerE lks lcs ls rks rcs rs
                          sepP with
                      | none =>
                          rw [hsr] at hr2
                          exact Option.noConfusion hr2
                      | some t3 =>
                          obtain ⟨L', C'', newsep⟩ := t3
                          rw [hsr] at hr2
                          have hr' : some
                              ((P.dropLast ++ newsep :: SK : List Key),
                              PC.dropLast ++ L' :: C'' :: SCR,
                              (none : Option Key), false)
                                = some (ks2, cs2, updA, fixA) := hr2
                          simp only [Option.some.injEq,
                            Prod.mk.injEq] at hr'
                          obtain ⟨h1, h2, -, h4⟩ := hr'
                          subst h1
                          subst h2
                          subst h4
                          have hhh : (BNode.inner lks lcs ls).height
                              = (BNode.inner rks rcs rs).height := by
                            rw [hLh, hc'h]
                          obtain ⟨hL'sh, hC''sh, hL'h, hC''h, hsum⟩ :=
                            shiftRightInnerE_shape lks lcs ls rks rcs rs
                              sepP L' C'' newsep hLsh hc'sh hhh hsr
                          refine ⟨?_, ?_, ?_, ?_, ?_⟩
                          · simp only [List.length_append,
                              List.length_cons, List.length_dropLast]
                            omega
                          · rw [csSum_append, csSum_append]
                            show csSum PC.dropLast
                                + (L'.childSize
                                  + (C''.childSize + csSum SCR))
                              = csSum PC + (rs + csSum SCR)
                            have hLcs : (BNode.inner lks lcs ls).childSize
                                = ls := rfl
                            omega
                          · simp only [List.length_append,
                              List.length_cons, List.length_dropLast]
                            omega
                          · intro _
                            constructor
                            · refine shOKL_of_mem _ ?_
                              intro x hx
                              rcases List.mem_append.mp hx with hx' | hx'
                              · exact shOKL_mem _ hshPC x (hdlmem x hx')
                              · rcases List.mem_cons.mp hx' with rfl | hx''
                                · exact hL'sh
                                · rcases List.mem_cons.mp hx''
                                    with rfl | hx3
                                  · exact hC''sh
                                  · exact shOKL_mem _ hshSCR x hx3
                            · intro x hx
                              rcases List.mem_append.mp hx with hx' | hx'
                              · exact hhPC x (hdlmem x hx')
                              · rcases List.mem_cons.mp hx' with rfl | hx''
                                · rw [hL'h]
                                  exact hLh
                                · rcases List.mem_cons.mp hx''
                                    with rfl | hx3
                                  · rw [hC''h]
                                    exact hLh
                                  · exact hhSCR x hx3
                          · intro hcon
                            exact absurd hcon (by decide)

/-- The conclusion of one `erase_iter_descend` call on a node with
`childSize` `sz` and height `hgt`, when it returns `some`: a found-and-
erased node keeps the shape invariant and its height and shrinks by one
entry; a root replacement hands back a shape-correct node. -/
def EOutSh (sz hgt : Nat) : ERes → Prop
  | .notFound => True
  | .rootDone r => ∀ m, r = some m → m.shOK = true
  | .ok n' _ _ _ => n'.shOK = true ∧ n'.height = hgt ∧ n'.childSize + 1 = sz

/-- The tail of `erasePost`: the node's own underflow ladder. -/
theorem erasePost_final (ctx : ECtx) (s : Nat) (H : Nat) (ks3 : List Key)
    (cs3 : List BNode) (w1 w2 : Option Key) (res : ERes)
    (hsum : csSum cs3 + 1 = s)
    (hsh3 : shOKL cs3 = true)
    (hh3 : ∀ x ∈ cs3, x.height = H)
    (hlen3 : ks3.length + 1 = cs3.length)
    (hne3 : cs3 ≠ [])
    (hres : (if ks3.length < innerSlotMin ∧
          ¬(ctx.isRoot = true ∧ 1 ≤ ks3.length) then
        if ctx.left.isNone && ctx.right.isNone then
          match cs3.get? 0 with
          | none => none
          | some c0 => some (.rootDone (some c0))
        else some (.ok (.inner ks3 cs3 (s - 1)) w1 w2
            (chooseReb ctx.left.isSome ctx.right.isSome
              (slotuseO ctx.left) (slotuseO ctx.right) ctx.lSame
              ctx.rSame))
      else some (.ok (.inner ks3 cs3 (s - 1)) w1 w2 .none0)) = some res) :
    EOutSh s (H + 1) res := by
  have hnode1 : (BNode.inner ks3 cs3 (s - 1)).shOK = true := by
    refine shOK_inner_of_parts hne3 hlen3 (by omega)
      (heightsEq_of_mem _ H hh3) hsh3
  have hnode2 : (BNode.inner ks3 cs3 (s - 1)).height = H + 1 := by
    show heightL cs3 + 1 = H + 1
    rw [heightL_of_mem _ H hne3 hh3]
  have hnode3 : (BNode.inner ks3 cs3 (s - 1)).childSize + 1 = s := by
    show s - 1 + 1 = s
    omega
  split at hres
  · split at hres
    · split at hres
      · exact Option.noConfusion hres
      · rename_i c0 hget0
        obtain rfl := Option.some_inj.mp hres
        simp only [EOutSh]
        intro m hm
        obtain rfl := Option.some_inj.mp hm
        exact shOKL_mem _ hsh3 c0 (List.get?_mem hget0)
    · obtain rfl := Option.some_inj.mp hres
      exact ⟨hnode1, hnode2, hnode3⟩
  · obtain rfl := Option.some_inj.mp hres
    exact ⟨hnode1, hnode2, hnode3⟩

/-- The inner-branch post-processing of a found child keeps the shape
contract of the whole node. -/
theorem erasePost_shape (ctx : ECtx) (s : Nat) (P : List Key)
    (PC : List BNode) (SK : List Key) (SCR : List BNode) (c c' : BNode)
    (wp upd : Option Key) (act : RebAct) (res : ERes) (H : Nat)
    (hcnt : (P ++ SK).length + 1 = (PC ++ c :: SCR).length)
    (hs : s = csSum (PC ++ c :: SCR))
    (hshC : shOKL (PC ++ c :: SCR) = true)
    (hhts : ∀ x ∈ PC ++ c :: SCR, x.height = H)
    (hc'sh : c'.shOK = true) (hc'h : c'.height = c.height)
    (hc'cnt : c'.childSize + 1 = c.childSize)
    (hres : erasePost ctx s P PC SK SCR c' wp upd act = some res) :
    EOutSh s (H + 1) res := by
  simp only [erasePost] at hres
  split at hres
  · exact Option.noConfusion hres
  · rename_i q ks2 cs2 updA fixA har
    have hsh' : shOKL (PC ++ c' :: SCR) = true := by
      refine shOKL_of_mem _ ?_
      intro x hx
      rcases List.mem_append.mp hx with hx' | hx'
      · exact shOKL_mem _ hshC x (List.mem_append_left _ hx')
      · rcases List.mem_cons.mp hx' with rfl | hx''
        · exact hc'sh
        · exact shOKL_mem _ hshC x (List.mem_append_right _
            (List.mem_cons_of_mem _ hx''))
    have hhts' : ∀ x ∈ PC ++ c' :: SCR, x.height = H := by
      intro x hx
      rcases List.mem_append.mp hx with hx' | hx'
      · exact hhts x (List.mem_append_left _ hx')
      · rcases List.mem_cons.mp hx' with rfl | hx''
        · rw [hc'h]
          exact hhts c (List.mem_append_right _ (List.mem_cons_self _ _))
        · exact hhts x (List.mem_append_right _
            (List.mem_cons_of_mem _ hx''))
    obtain ⟨hks2len, hcs2sum, hcs2len, hfixF, hfixT⟩ :=
      applyReb_shape P PC _ SCR c' act H hsh' hhts' ks2 cs2 updA fixA har
    have hks2len' : ks2.length = P.length + SK.length := by
      rw [hks2len]
      congr 1
      cases wp <;> cases SK <;> rfl
    have hClen : (PC ++ c :: SCR).length = PC.length + SCR.length + 1 := by
      simp only [List.length_append, List.length_cons]
      omega
    have hcntPS : P.length + SK.length = PC.length + SCR.length := by
      rw [List.length_append] at hcnt
      omega
    have hcs' : csSum (PC ++ c' :: SCR) + 1 = csSum (PC ++ c :: SCR) := by
      rw [csSum_append, csSum_append]
      show csSum PC + (c'.childSize + csSum SCR) + 1
        = csSum PC + (c.childSize + csSum SCR)
      omega
    have hspos : 1 ≤ s := by
      rw [hs, csSum_append]
      show 1 ≤ csSum PC + (c.childSize + csSum SCR)
      omega
    split at hres
    · exact Option.noConfusion hres
    · rename_i q2 ks3 cs3 heq
      split at heq
      · rename_i hfix
        split at heq
        · exact Option.noConfusion heq
        · rename_i hslot0
          obtain ⟨hcs2ge2, hfixall⟩ := hfixT hfix
          obtain ⟨hslt, hcsE, hshE, hhE⟩ := hfixall _ rfl
          have hlenE : (cs2.eraseIdx (match cs2.get? PC.length with
              | some n => if n.slotuseN ≠ 0 then PC.length + 1
                  else PC.length
              | none => PC.length)).length = cs2.length - 1 :=
            List.length_eraseIdx_of_lt hslt
          have hneE : cs2.eraseIdx (match cs2.get? PC.length with
              | some n => if n.slotuseN ≠ 0 then PC.length + 1
                  else PC.length
              | none => PC.length) ≠ [] := by
            refine List.length_pos.mp ?_
            rw [hlenE]
            omega
          have hsumE : csSum (cs2.eraseIdx (match cs2.get? PC.length with
              | some n => if n.slotuseN ≠ 0 then PC.length + 1
                  else PC.length
              | none => PC.length)) + 1 = s := by
            rw [hcsE]
            omega
          have hkslen : (ks2.eraseIdx ((match cs2.get? PC.length with
              | some n => if n.slotuseN ≠ 0 then PC.length + 1
                  else PC.length
              | none => PC.length) - 1)).length = ks2.length - 1 :=
            List.length_eraseIdx_of_lt (by omega)
          split at heq
          · rename_i les hles
            split at heq
            · exact Option.noConfusion heq
            · rename_i e he
              split at heq
              · simp only [Option.some.injEq, Prod.mk.injEq] at heq
                obtain ⟨h1, h2⟩ := heq
                subst h1
                subst h2
                refine erasePost_final ctx s H _ _ _ _ res hsumE hshE hhE
                  ?_ hneE hres
                show ((ks2.eraseIdx ((match cs2.get? PC.length with
                    | some n => if n.slotuseN ≠ 0 then PC.length + 1
                        else PC.length
                    | none => PC.length) - 1)).set ((match cs2.get? PC.length with
                    | some n => if n.slotuseN ≠ 0 then PC.length + 1
                        else PC.length
                    | none => PC.length) - 1)
                    e.1).length + 1 = (cs2.eraseIdx (match cs2.get? PC.length with
                    | some n => if n.slotuseN ≠ 0 then PC.length + 1
                        else PC.length
                    | none => PC.length)).length
                rw [List.length_set, hkslen, hlenE]
                omega
              · simp only [Option.some.injEq, Prod.mk.injEq] at heq
                obtain ⟨h1, h2⟩ := heq
                subst h1
                subst h2
                refine erasePost_final ctx s H _ _ _ _ res hsumE hshE hhE
                  ?_ hneE hres
                show (ks2.eraseIdx ((match cs2.get? PC.length with
                    | some n => if n.slotuseN ≠ 0 then PC.length + 1
                        else PC.length
                    | none => PC.length) - 1)).length + 1
                  = (cs2.eraseIdx (match cs2.get? PC.length with
                    | some n => if n.slotuseN ≠ 0 then PC.length + 1
                        else PC.length
                    | none => PC.length)).length
                rw [hkslen, hlenE]
                omega
          · simp only [Option.some.injEq, Prod.mk.injEq] at heq
            obtain ⟨h1, h2⟩ := heq
            subst h1
            subst h2
            refine erasePost_final ctx s H _ _ _ _ res hsumE hshE hhE
              ?_ hneE hres
            show (ks2.eraseIdx ((match cs2.get? PC.length with
                    | some n => if n.slotuseN ≠ 0 then PC.length + 1
                        else PC.length
                    | none => PC.length) - 1)).length + 1
              = (cs2.eraseIdx (match cs2.get? PC.length with
                    | some n => if n.slotuseN ≠ 0 then PC.length + 1
                        else PC.length
                    | none => PC.length)).length
            rw [hkslen, hlenE]
            omega
      · rename_i hnfix
        simp only [Option.some.injEq, Prod.mk.injEq] at heq
        obtain ⟨h1, h2⟩ := heq
        subst h1
        subst h2
        have hfix0 : fixA = false := by
          cases fixA with
          | true => exact absurd rfl hnfix
          | false => rfl
        obtain ⟨hsh2, hh2⟩ := hfixF hfix0
        refine erasePost_final ctx s H _ _ _ _ res ?_ hsh2 hh2 ?_ ?_ hres
        · rw [hcs2sum]
          omega
        · omega
        · refine List.length_pos.mp ?_
          omega

/-- The leaf branch of `erase_iter_descend` keeps the shape contract. -/
theorem eraseLeaf_shape (it : EIter) (base : Nat) (es : List Entry)
    (ctx : ECtx) (res : ERes)
    (h : eraseLeaf it base es ctx = some res) :
    EOutSh es.length 0 res := by
  simp only [eraseLeaf] at h
  by_cases h1 : base ≠ it.leafIdx
  · rw [if_pos h1] at h
    obtain rfl := Option.some_inj.mp h
    trivial
  rw [if_neg h1] at h
  by_cases h2 : es.length ≤ it.slot
  · rw [if_pos h2] at h
    obtain rfl := Option.some_inj.mp h
    trivial
  rw [if_neg h2] at h
  have hlen' : (es.take it.slot ++ es.drop (it.slot + 1)).length + 1
      = es.length := by
    simp only [List.length_append, List.length_take, List.length_drop]
    omega
  split at h
  · exact Option.noConfusion h
  · split at h
    · split at h
      · obtain rfl := Option.some_inj.mp h
        simp only [EOutSh]
        intro m hm
        exact Option.noConfusion hm
      · obtain rfl := Option.some_inj.mp h
        exact ⟨rfl, rfl, hlen'⟩
    · obtain rfl := Option.some_inj.mp h
      exact ⟨rfl, rfl, hlen'⟩

/-- The neighbor context handed to the last child of an inner node
(btree.hpp:2880-2898). -/
def childCtxLast (ctx : ECtx) (pc : List BNode) : ECtx :=
  { left := match pc with
      | p :: _ => some p
      | [] => leftHandMe ctx.left,
    right := rightHandMe ctx.right,
    lSame := match pc with
      | _ :: _ => true
      | [] => false,
    rSame := false,
    pfix := false, isRoot := false }

/-- The neighbor context handed to a non-last child of an inner node. -/
def childCtxMid (ctx : ECtx) (pc cs : List BNode) : ECtx :=
  { left := match pc with
      | p :: _ => some p
      | [] => leftHandMe ctx.left,
    right := match cs with
      | r :: _ => some r
      | [] => rightHandMe ctx.right,
    lSame := match pc with
      | _ :: _ => true
      | [] => false,
    rSame := match cs with
      | _ :: _ => true
      | [] => false,
    pfix := true, isRoot := false }

theorem eraseD_leaf_eq (it : EIter) (base : Nat) (ctx : ECtx)
    (es : List Entry) :
    eraseD it base ctx (.leaf es) = eraseLeaf it base es ctx := by
  simp only [eraseD]

theorem eraseD_inner_eq (it : EIter) (base : Nat) (ctx : ECtx)
    (ks : List Key) (cs : List BNode) (s : Nat) :
    eraseD it base ctx (.inner ks cs s)
      = eraseGo it ctx s true base ks cs [] [] := by
  simp only [eraseD]

theorem eraseGo_last_eq (it : EIter) (ctx : ECtx) (s : Nat)
    (skipping : Bool) (baseAcc : Nat) (c : BNode) (pk : List Key)
    (pc : List BNode) :
    eraseGo it ctx s skipping baseAcc [] [c] pk pc
      = match eraseD it baseAcc (childCtxLast ctx pc) c with
        | none => none
        | some .notFound => some .notFound
        | some (.rootDone _) => none
        | some (.ok c' wp upd act) =>
            erasePost ctx s pk.reverse pc.reverse [] [] c' wp upd act := by
  first
  | (simp only [eraseGo]; rfl)
  | simp only [eraseGo]

theorem eraseGo_cons_eq (it : EIter) (ctx : ECtx) (s : Nat)
    (skipping : Bool) (baseAcc : Nat) (k : Key) (ks : List Key) (c : BNode)
    (cs : List BNode) (pk : List Key) (pc : List BNode) :
    eraseGo it ctx s skipping baseAcc (k :: ks) (c :: cs) pk pc
      = if skipping ∧ k < it.ikey then
          eraseGo it ctx s true (baseAcc + c.numLeaves) ks cs (k :: pk)
            (c :: pc)
        else
          match eraseD it baseAcc (childCtxMid ctx pc cs) c with
          | none => none
          | some .notFound =>
              if k < it.ikey then some .notFound
              else
                eraseGo it ctx s false (baseAcc + c.numLeaves) ks cs
                  (k :: pk) (c :: pc)
          | some (.rootDone _) => none
          | some (.ok c' wp upd act) =>
              erasePost ctx s pk.reverse pc.reverse (k :: ks) cs c' wp upd
                act := by
  first
  | (simp only [eraseGo]; rfl)
  | simp only [eraseGo]

/-- The fused `find_lower` / retry walk keeps the erase shape contract,
given it for every child. -/
theorem eraseGo_pre (it : EIter) (ctx : ECtx) (h : Nat)
    (IH : ∀ (base' : Nat) (ctx' : ECtx) (c : BNode), c.height ≤ h →
      c.shOK = true → ∀ res, eraseD it base' ctx' c = some res →
      EOutSh c.childSize c.height res) :
    ∀ (ks : List Key) (cs : List BNode) (pk : List Key) (pc : List BNode)
      (s : Nat) (skipping : Bool) (baseAcc : Nat) (res : ERes) (H : Nat),
    pk.length = pc.length →
    (BNode.inner (pk.reverse ++ ks) (pc.reverse ++ cs) s).shOK = true →
    (∀ x ∈ pc.reverse ++ cs, x.height = H) → H ≤ h →
    eraseGo it ctx s skipping baseAcc ks cs pk pc = some res →
    EOutSh s (H + 1) res := by
  intro ks
  induction ks with
  | nil =>
      intro cs pk pc s skipping baseAcc res H hlen hsh hhts hHh hgo
      obtain ⟨hne, hcnt, hcs, hhq, hwl⟩ := shOK_inner_parts hsh
      have hcs1 : cs.length = 1 := by
        simp only [List.length_append, List.length_reverse,
          List.length_nil] at hcnt
        omega
      cases cs with
      | nil => simp at hcs1
      | cons c cs' =>
          cases cs' with
          | cons c2 cs'' => simp at hcs1
          | nil =>
              rw [eraseGo_last_eq] at hgo
              have hcmem : c ∈ pc.reverse ++ [c] :=
                List.mem_append_right _ (List.mem_cons_self _ _)
              have hcsh : c.shOK = true := shOKL_mem _ hwl c hcmem
              have hch : c.height = H := hhts c hcmem
              cases hd : eraseD it baseAcc (childCtxLast ctx pc) c with
              | none =>
                  rw [hd] at hgo
                  exact Option.noConfusion hgo
              | some resc =>
                  rw [hd] at hgo
                  have hout := IH baseAcc _ c (by omega) hcsh resc hd
                  cases resc with
                  | notFound =>
                      obtain rfl := Option.some_inj.mp hgo
                      trivial
                  | rootDone r => exact Option.noConfusion hgo
                  | ok c' wp upd act =>
                      obtain ⟨hc'sh, hc'h, hc'cnt⟩ := hout
                      exact erasePost_shape ctx s pk.reverse pc.reverse
                        [] [] c c' wp upd act res H
                        (by simpa using hcnt) hcs hwl hhts hc'sh
                        (by rw [hc'h, hch]) hc'cnt hgo
  | cons k ks' IHks =>
      intro cs pk pc s skipping baseAcc res H hlen hsh hhts hHh hgo
      obtain ⟨hne, hcnt, hcs, hhq, hwl⟩ := shOK_inner_parts hsh
      have hcs2 : 2 ≤ cs.length := by
        simp only [List.length_append, List.length_reverse,
          List.length_cons] at hcnt
        omega
      cases cs with
      | nil => simp at hcs2
      | cons c cs' =>
          rw [eraseGo_cons_eq] at hgo
          have heqK : (k :: pk).reverse ++ ks' = pk.reverse ++ k :: ks'
            := by
            rw [List.reverse_cons, List.append_assoc]
            rfl
          have heqC : (c :: pc).reverse ++ cs' = pc.reverse ++ c :: cs'
            := by
            rw [List.reverse_cons, List.append_assoc]
            rfl
          have hsh' : (BNode.inner ((k :: pk).reverse ++ ks')
              ((c :: pc).reverse ++ cs') s).shOK = true := by
            rw [heqK, heqC]
            exact hsh
          have hhts' : ∀ x ∈ (c :: pc).reverse ++ cs', x.height = H := by
            rw [heqC]
            exact hhts
          by_cases hskip : skipping = true ∧ k < it.ikey
          · rw [if_pos hskip] at hgo
            exact IHks cs' (k :: pk) (c :: pc) s true
              (baseAcc + c.numLeaves) res H (by simp [hlen]) hsh' hhts' hHh hgo
          · rw [if_neg hskip] at hgo
            have hcmem : c ∈ pc.reverse ++ c :: cs' :=
              List.mem_append_right _ (List.mem_cons_self _ _)
            have hcsh : c.shOK = true := shOKL_mem _ hwl c hcmem
            have hch : c.height = H := hhts c hcmem
            cases hd : eraseD it baseAcc (childCtxMid ctx pc cs') c with
            | none =>
                rw [hd] at hgo
                exact Option.noConfusion hgo
            | some resc =>
                rw [hd] at hgo
                have hout := IH baseAcc _ c (by omega) hcsh resc hd
                cases resc with
                | notFound =>
                    by_cases hklt : k < it.ikey
                    · rw [if_pos hklt] at hgo
                      obtain rfl := Option.some_inj.mp hgo
                      trivial
                    · rw [if_neg hklt] at hgo
                      exact IHks cs' (k :: pk) (c :: pc) s false
                        (baseAcc + c.numLeaves) res H (by simp [hlen]) hsh' hhts' hHh hgo
                | rootDone r => exact Option.noConfusion hgo
                | ok c' wp upd act =>
                    obtain ⟨hc'sh, hc'h, hc'cnt⟩ := hout
                    exact erasePost_shape ctx s pk.reverse pc.reverse
                      (k :: ks') cs' c c' wp upd act res H
                      (by simpa using hcnt) hcs hwl hhts hc'sh
                      (by rw [hc'h, hch]) hc'cnt hgo

/-- `erase_iter_descend` keeps the shape contract on every shape-correct
node. -/
theorem eraseD_shape (it : EIter) :
    ∀ (h : Nat) (n : BNode) (base : Nat) (ctx : ECtx), n.height ≤ h →
      n.shOK = true → ∀ res, eraseD it base ctx n = some res →
      EOutSh n.childSize n.height res := by
  intro h
  induction h with
  | zero =>
      intro n base ctx hh hsh res hr
      cases n with
      | leaf es =>
          rw [eraseD_leaf_eq] at hr
          exact eraseLeaf_shape it base es ctx res hr
      | inner ks cs s =>
          exfalso
          have h0 : heightL cs + 1 ≤ 0 := hh
          omega
  | succ h IH =>
      intro n base ctx hh hsh res hr
      cases n with
      | leaf es =>
          rw [eraseD_leaf_eq] at hr
          exact eraseLeaf_shape it base es ctx res hr
      | inner ks cs s =>
          rw [eraseD_inner_eq] at hr
          obtain ⟨hne, -, -, hhq, hwl⟩ := shOK_inner_parts hsh
          have hH : ∀ x ∈ cs, x.height = heightL cs := heightsEq_mem _ hhq
          have hHh : heightL cs ≤ h := by
            have h1 : heightL cs + 1 ≤ h + 1 := hh
            omega
          exact eraseGo_pre it ctx h
            (fun base' ctx' cc hh1 hs1 res1 hr1 =>
              IH cc base' ctx' hh1 hs1 res1 hr1)
            ks cs [] [] s true base res (heightL cs) rfl hsh hH hHh hr

/-- `erase(iterator)` preserves the shape invariant of the tree whenever
it completes. -/
theorem eraseIt_shInv (t : BTree) (it : EIter) (t' : BTree)
    (h : t.shInv = true) (hr : t.eraseIt it = some t') :
    t'.shInv = true := by
  obtain ⟨root⟩ := t
  cases root with
  | none =>
      obtain rfl := Option.some_inj.mp hr
      rfl
  | some n =>
      have hn : n.shOK = true := h
      simp only [BTree.eraseIt] at hr
      cases hd : eraseD it 0
          { left := none, right := none, lSame := false, rSame := false,
            pfix := false, isRoot := true } n with
      | none =>
          rw [hd] at hr
          exact Option.noConfusion hr
      | some res =>
          rw [hd] at hr
          have hout := eraseD_shape it n.height n 0 _ (le_refl _) hn res
            hd
          cases res with
          | notFound =>
              obtain rfl := Option.some_inj.mp hr
              exact h
          | rootDone r =>
              obtain rfl := Option.some_inj.mp hr
              cases r with
              | none => rfl
              | some m =>
                  show m.shOK = true
                  exact hout m rfl
          | ok n' wp upd act =>
              cases act with
              | none0 =>
                  obtain rfl := Option.some_inj.mp hr
                  exact hout.1
              | mergeL => exact Option.noConfusion hr
              | mergeR => exact Option.noConfusion hr
              | shiftL => exact Option.noConfusion hr
              | shiftR => exact Option.noConfusion hr

/-! ### Rank-of-bound queries (`rankImpl`, btree.hpp:4205-4237)

The selection protocol compares tree keys against pivot values that may be
the sentinel `std::numeric_limits<Key>::max()` or `::min()`; these sentinels
are modelled as the top and bottom elements of `EKey`. -/

/-- The protocol's key type: a tree key or one of the two sentinels. -/
abbrev EKey := WithBot (WithTop Int)

/-- Embed a tree key into the protocol key type. -/
def ofK (k : Key) : EKey := ((k : WithTop Int) : EKey)

/-- `find_lower` (btree.hpp:1386-1391, linear-search form): the number of
leading keys strictly smaller than the search key. -/
def findLowerE : List Key → EKey → Nat
  | [], _ => 0
  | k :: ks, key => if ofK k < key then findLowerE ks key + 1 else 0

/-- `find_upper` (btree.hpp:1432-1437, linear-search form): the number of
leading keys less than or equal to the search key. -/
def findUpperE : List Key → EKey → Nat
  | [], _ => 0
  | k :: ks, key => if ofK k ≤ key then findUpperE ks key + 1 else 0

mutual

/-- `rankImpl<Query>` descent (btree.hpp:4205-4230) for
`Query ∈ {LOWER_BOUND, UPPER_BOUND}` (`q = true` means `UPPER_BOUND`).
At an inner node, locate the descent slot with `find_lower`/`find_upper`,
add the subtree sizes of the children strictly before it
(`sum_subtree_size(inner, 0, slot)`), and descend; at the leaf, return
`acc + slot` if `slot < slotuse`, else `none` (the `{size(), end()}`
result). -/
def BNode.rankImplGo : Bool → EKey → BNode → Nat → Option Nat
  | q, key, .leaf es, acc =>
      let slot := if q then findUpperE (es.map entryKey) key
                  else findLowerE (es.map entryKey) key
      if slot < es.length then some (acc + slot) else none
  | q, key, .inner ks cs _, acc => rankImplL q key ks cs acc

/-- The fused slot search and descent of `rankImpl`: walk separator keys and
children in parallel; skipping a key adds the corresponding child's
contribution to the accumulated rank, and stopping descends into the child
at the stop position.  Children exhausted before the key walk stops models
the out-of-bounds access of a malformed node. -/
def rankImplL : Bool → EKey → List Key → List BNode → Nat → Option Nat
  | _, _, _, [], _ => none
  | q, key, [], c :: _, acc => BNode.rankImplGo q key c acc
  | q, key, k :: ks, c :: cs, acc =>
      if (if q then ofK k ≤ key else ofK k < key)
      then rankImplL q key ks (cs) (acc + c.childSize)
      else BNode.rankImplGo q key c acc

end

/-- `rank_of_lower_bound` / `rank_of_upper_bound` (btree.hpp:4305-4321).
The C++ returns a (rank, iterator) pair; for a found slot the iterator sits
at in-order position `rank`, and for the not-found case the pair is
`{size(), end()}` whose iterator also sits at position `size()`, so a single
number represents both components. -/
def BTree.rankOfBound (t : BTree) (q : Bool) (key : EKey) : Nat :=
  match t.root with
  | none => 0
  | some n =>
      match BNode.rankImplGo q key n 0 with
      | some r => r
      | none => t.size

/-! ### The distributed selection protocols

`ams_select` (single pivot, reservoir/ams_select.hpp) and
`ams_select_multi` (d pivots, reservoir/ams_select_multi.hpp) are modelled
as lockstep computations over the list of all workers: every branch the C++
takes is decided by globally agreed values (`kmin`, `kmax`, `global_size`
and all-reduced data), so a single function computing every worker's result
is faithful to the SPMD execution.  Each collective operation (all-reduce,
scan) increments a counter that the results carry.  `tlx_die_*` checks abort
the program; an abort (and likewise undefined behaviour such as
dereferencing an `end()` iterator) is modelled as `none`. -/

/-- Per-worker state during selection: the (read-only) tree and the live
range `[min_idx, max_idx)`. -/
structure WSel where
  tree : BTree
  minIdx : Int
  maxIdx : Int

/-- Sequence a list of optional values (`none` models a worker hitting
undefined behaviour or a failed `tlx_die` check). -/
def optList {α : Type} : List (Option α) → Option (List α)
  | [] => some []
  | none :: _ => none
  | some a :: rest => (optList rest).map (a :: ·)

/-- `get_key(seq.find_rank(i))`: the key at in-order rank `i`; `none` models
the undefined dereference of `end()` (or a negative index). -/
def keyAtRank (t : BTree) (i : Int) : Option Key :=
  if i < 0 then none else (t.findRank i.toNat).map entryKey

/-- All-reduce with `std::plus` over 64-bit signed counts. -/
def sumZ (l : List Int) : Int := l.foldr (· + ·) 0

/-- All-reduce with `mpi::minimum<Key>` across workers. -/
def reduceMin (l : List EKey) : EKey := l.foldr min ⊤

/-- All-reduce with `mpi::maximum<Key>` across workers. -/
def reduceMax (l : List EKey) : EKey := l.foldr max ⊥

/-- `mpi::scan` with `std::plus`: inclusive prefix sums in rank order. -/
def scanInc : List Int → Int → List Int
  | [], _ => []
  | x :: xs, acc => (acc + x) :: scanInc xs (acc + x)

/-- The (ub_pos, lb_pos, ub_it, lb_it) tuple produced by
`_detail::get_bounds` (select_helpers.hpp:396-486): local offsets of the
upper/lower bound of the pivot inside the live range, plus the two bound
iterators (as in-order positions in the worker's tree). -/
structure Bounds where
  ubPos : Int
  lbPos : Int
  ubIt : Int
  lbIt : Int
deriving DecidableEq, Repr

/-- The per-worker computation of `_detail::get_bounds`
(select_helpers.hpp:396-486).  The sentinel branches (`pivot` equal to
`::min()` or `::max()`) use `min_it`/`max_it` (positions `min_idx` /
`max_idx`); the regular branch computes both rank-of-bound queries, shifts
them by `min_idx`, and applies the degenerate-case clamps. -/
def getBoundsLocal (w : WSel) (pivot : EKey) : Bounds :=
  let localSize := w.maxIdx - w.minIdx
  if pivot = ⊥ then
    if localSize = 0 then ⟨0, 0, w.minIdx, w.minIdx⟩
    else ⟨localSize, localSize, w.maxIdx, w.maxIdx⟩
  else if pivot = ⊤ then ⟨0, 0, w.minIdx, w.minIdx⟩
  else
    let up : Int := w.tree.rankOfBound true pivot
    let lp : Int := w.tree.rankOfBound false pivot
    let ub := up - w.minIdx
    let lb := lp - w.minIdx
    if ub < 0 then ⟨0, 0, w.minIdx, w.minIdx⟩
    else if w.maxIdx - w.minIdx < ub then
      ⟨localSize, localSize, w.maxIdx, w.maxIdx⟩
    else if lb < 0 then ⟨ub, 0, up, w.minIdx⟩
    else ⟨ub, lb, up, lp⟩

/-- The per-worker tail of `_detail::find_eq_pos`
(select_helpers.hpp:551-564), entered when the pivot's equal-key region is
split across workers.  `mine = ub_pos - lb_pos` local occurrences of the
pivot, `prefsum` their inclusive prefix sum across workers.  Note the last
branch: the source advances the local variable `lb_it` by `count` but
returns the *unadvanced* copy `it` together with the advanced rank
`min_idx + lb_pos + count`. -/
def findEqPosLocal (b : Bounds) (minIdx target prefsum : Int) : Int × Int :=
  let mine := b.ubPos - b.lbPos
  if prefsum < target then (b.ubIt, minIdx + b.ubPos)
  else if target < prefsum - mine then (b.lbIt, minIdx + b.lbPos)
  else (b.lbIt, minIdx + b.lbPos + (target - prefsum + mine))

/-- `_detail::find_eq_pos` (select_helpers.hpp:519-565) across all workers.
`target = kmin - global_lb`.  In the unique-pivot branch
(`global_lb + 1 >= global_ub`) the target must be 0 or 1 (a `tlx_die`
otherwise); in the duplicate branch a scan of the local occurrence counts is
performed and each worker resolves its share.  Returns the per-worker
(iterator, local rank) pairs and the number of collectives used (1 for the
scan, 0 otherwise). -/
def findEqPosAll (gub glb target : Int) (ws : List WSel) (bs : List Bounds) :
    Option (List (Int × Int) × Nat) :=
  if glb + 1 ≥ gub then
    if target = 0 then
      some ((ws.zip bs).map fun wb => (wb.2.lbIt, wb.1.minIdx + wb.2.lbPos), 0)
    else if target = 1 then
      some ((ws.zip bs).map fun wb => (wb.2.ubIt, wb.1.minIdx + wb.2.ubPos), 0)
    else none
  else
    if bs.all fun b => 0 ≤ b.ubPos - b.lbPos then
      let prefs := scanInc (bs.map fun b => b.ubPos - b.lbPos) 0
      some (((ws.zip bs).zip prefs).map fun wbp =>
        findEqPosLocal wbp.1.2 wbp.1.1.minIdx target wbp.2, 1)
    else none

/-- The `kmin == 1 || kmax == 1` fast path shared verbatim by
`ams_select::select` (ams_select.hpp:149-168) and
`ams_select_multi::select` (part_004:174-193): each worker proposes its
local live minimum (or the `max()` sentinel if its live range is empty), a
min-reduction agrees on the global minimum `pivot`, and each worker returns
the (iterator, rank) of `rank_of_upper_bound(pivot)` clamped from below to
`min_idx`. -/
def kminOnePath (ws : List WSel) (ncoll : Nat) :
    Option (List (Int × Int) × Nat) :=
  match optList (ws.map fun w =>
    if 0 < w.maxIdx - w.minIdx then (keyAtRank w.tree w.minIdx).map ofK
    else some (⊤ : EKey)) with
  | none => none
  | some cands =>
      let pivot := reduceMin cands
      some (ws.map fun w =>
        let up : Int := w.tree.rankOfBound true pivot
        let pos := if up < w.minIdx then w.minIdx else up
        (pos, pos), ncoll + 1)

/-- Outcome of the post-pivot part of a single-pivot round. -/
inductive StepRes where
  | dead
  | done (res : List (Int × Int)) (ncoll : Nat)
  | again (ws : List WSel) (kmin kmax gsize : Int) (ncoll : Nat)

/-- The part of `ams_select::select` after the pivot has been agreed on
(ams_select.hpp:220-260): compute local bounds (`get_bounds`, which in the
single-pivot variant performs one extra all-reduce if the pivot is a
sentinel), sum them globally (`global_bound`, one all-reduce, with its
range `tlx_die` checks), then either recurse right (`global_ub < kmin`),
recurse left (`global_lb > kmax`), or resolve ties via `find_eq_pos`. -/
def amsAfterPivot (ws : List WSel) (kmin kmax gsize : Int) (ncoll : Nat)
    (pivot : EKey) : StepRes :=
  let bs := ws.map fun w => getBoundsLocal w pivot
  let nc1 := ncoll + (if pivot = ⊥ ∨ pivot = ⊤ then 1 else 0)
  let gub := sumZ (bs.map Bounds.ubPos)
  let glb := sumZ (bs.map Bounds.lbPos)
  let nc2 := nc1 + 1
  if ¬ (0 ≤ glb ∧ glb ≤ gsize ∧ 0 ≤ gub ∧ gub ≤ gsize) then .dead
  else if gub < kmin then
    .again ((ws.zip bs).map fun wb =>
        ⟨wb.1.tree, wb.1.minIdx + wb.2.ubPos, wb.1.maxIdx⟩)
      (kmin - gub) (kmax - gub) (gsize - gub) nc2
  else if kmax < glb then
    .again ((ws.zip bs).map fun wb =>
        ⟨wb.1.tree, wb.1.minIdx, wb.1.minIdx + wb.2.lbPos⟩)
      kmin kmax glb nc2
  else
    match findEqPosAll gub glb (kmin - glb) ws bs with
    | none => .dead
    | some (res, nc) => .done res (nc2 + nc)

section ProtocolReal

open scoped Classical

/-- The Case-1 geometric parameter
`p = 1 - pow((kmin - 1.0) / kmax, 1.0 / (kmax - kmin + 1))`
(ams_select.hpp:172-173, part_004:197-198). -/
noncomputable def pCase1 (kmin kmax : Int) : ℝ :=
  1 - (((kmin : ℝ) - 1) / (kmax : ℝ)) ^ ((1 : ℝ) / ((kmax - kmin + 1 : Int) : ℝ))

/-- The Case-2 geometric parameter
`p = 1 - pow((gsize - kmax) / (gsize - kmin + 1.0), 1.0 / (kmax - kmin + 1))`
(ams_select.hpp:194-196, part_004:222-224). -/
noncomputable def pCase2 (kmin kmax gsize : Int) : ℝ :=
  1 - (((gsize : ℝ) - (kmax : ℝ)) / ((gsize : ℝ) - (kmin : ℝ) + 1)) ^
    ((1 : ℝ) / ((kmax - kmin + 1 : Int) : ℝ))

/-- Case-1 pivot candidates of one round (ams_select.hpp:178-189,
part_004:203-216): each worker draws a geometric variate `g` (the abstract
stream `g worker ctr p` models `pidx_dist(rng_)` with parameter `p`); if
`g < local_size` its candidate is the key at local live rank
`min_idx + g`, otherwise the `max()` sentinel (here `⊤`). -/
noncomputable def drawCandsCase1 (g : Nat → Nat → ℝ → Nat) (ws : List WSel)
    (ctr : Nat) (p : ℝ) : Option (List EKey) :=
  optList (ws.enum.map fun iw =>
    let gv : Int := (g iw.1 ctr p : Nat)
    let w := iw.2
    if gv < w.maxIdx - w.minIdx then
      (keyAtRank w.tree (w.minIdx + gv)).map ofK
    else some (⊤ : EKey))

/-- Case-2 pivot candidates of one round (ams_select.hpp:202-216,
part_004:230-243): the candidate is the key at local live rank
`max_idx - g - 1` when `g < local_size`, else the `min()` sentinel `⊥`. -/
noncomputable def drawCandsCase2 (g : Nat → Nat → ℝ → Nat) (ws : List WSel)
    (ctr : Nat) (p : ℝ) : Option (List EKey) :=
  optList (ws.enum.map fun iw =>
    let gv : Int := (g iw.1 ctr p : Nat)
    let w := iw.2
    if gv < w.maxIdx - w.minIdx then
      (keyAtRank w.tree (w.maxIdx - gv - 1)).map ofK
    else some (⊥ : EKey))

/-- `ams_select::select` (ams_select.hpp:129-261), fueled.  Arguments after
the fuel: the workers' live states, `kmin`, `kmax`, `global_size`, the
per-worker PRNG draw counter, and the collective counter.  Returns the
per-worker (iterator position, local rank) pairs together with the number
of collective operations performed, or `none` on a failed `tlx_die` check /
undefined behaviour / fuel exhaustion. -/
noncomputable def amsSelectGo (g : Nat → Nat → ℝ → Nat) :
    Nat → List WSel → Int → Int → Int → Nat → Nat →
      Option (List (Int × Int) × Nat)
  | 0, _, _, _, _, _, _ => none
  | fuel + 1, ws, kmin, kmax, gsize, ctr, ncoll =>
    if ¬ ws.all (fun w => decide (w.minIdx ≤ w.maxIdx)) then none
    else if ¬ (kmin ≤ kmax ∧ kmin ≤ gsize) then none
    else if kmin = 1 ∨ kmax = 1 then kminOnePath ws ncoll
    else if kmin < gsize - kmax then
      let p := pCase1 kmin kmax
      if 0 ≤ p ∧ p ≤ 1 then
        match drawCandsCase1 g ws ctr p with
        | none => none
        | some cands =>
            match amsAfterPivot ws kmin kmax gsize (ncoll + 1)
                (reduceMin cands) with
            | .dead => none
            | .done res nc => some (res, nc)
            | .again ws' kmin' kmax' gsize' nc =>
                amsSelectGo g fuel ws' kmin' kmax' gsize' (ctr + 1) nc
      else none
    else
      let p := pCase2 kmin kmax gsize
      if 0 ≤ p ∧ p ≤ 1 then
        match drawCandsCase2 g ws ctr p with
        | none => none
        | some cands =>
            match amsAfterPivot ws kmin kmax gsize (ncoll + 1)
                (reduceMax cands) with
            | .dead => none
            | .done res nc => some (res, nc)
            | .again ws' kmin' kmax' gsize' nc =>
                amsSelectGo g fuel ws' kmin' kmax' gsize' (ctr + 1) nc
      else none

/-- `ams_select::operator()` (ams_select.hpp:66-122): the early return for
`kmin > kmax || kmax == 0` yields `(seq.begin(), 0)` on every worker before
any collective operation; otherwise one all-reduce computes the global size,
`kmin <= size` is die-checked, and `select` runs on the full live ranges. -/
noncomputable def amsSelectProto (g : Nat → Nat → ℝ → Nat) (fuel : Nat)
    (ws : List BTree) (kmin kmax : Nat) : Option (List (Int × Int) × Nat) :=
  if kmax < kmin ∨ kmax = 0 then
    some (ws.map fun _ => ((0 : Int), (0 : Int)), 0)
  else
    let gsize : Nat := (ws.map BTree.size).foldr (· + ·) 0
    if ¬ kmin ≤ gsize then none
    else
      amsSelectGo g fuel (ws.map fun t => ⟨t, 0, (t.size : Int)⟩)
        (kmin : Int) (kmax : Int) (gsize : Int) 0 1

/-- The component-wise reduced pivot vector of one `ams_select_multi` round:
pivot `i` is the min-reduction (Case 1) of the workers' `i`-th candidates,
drawn with the `(ctr + i)`-th PRNG output of each worker
(part_004:203-219). -/
noncomputable def multiPivots1 (g : Nat → Nat → ℝ → Nat) (ws : List WSel)
    (ctr : Nat) (p : ℝ) (d : Nat) : Option (List EKey) :=
  optList ((List.range d).map fun i =>
    (drawCandsCase1 g ws (ctr + i) p).map reduceMin)

/-- Case-2 pivot vector, with a max-reduction (part_004:230-248). -/
noncomputable def multiPivots2 (g : Nat → Nat → ℝ → Nat) (ws : List WSel)
    (ctr : Nat) (p : ℝ) (d : Nat) : Option (List EKey) :=
  optList ((List.range d).map fun i =>
    (drawCandsCase2 g ws (ctr + i) p).map reduceMax)

/-- Result of the multi-pivot hit-test loop (part_004:269-311). -/
inductive MultiScanRes where
  | hit (i : Nat)
  | nohit (bestU : Option (Nat × Int)) (bestL : Option (Nat × Int))

/-- The hit-test loop of `ams_select_multi::select` (part_004:269-311) over
the global (ub, lb) pairs: return the first pivot index with
`global_ub >= kmin && global_lb <= kmax`; otherwise track the pivot with
the smallest `kmin - global_ub` among those with `global_ub < kmin` and the
one with the smallest `global_lb - kmax` among those with
`global_lb > kmax` (first index wins ties, matching the `<` update). -/
def multiScanGo (kmin kmax : Int) :
    List (Int × Int) → Nat → Option (Nat × Int) → Option (Nat × Int) →
      MultiScanRes
  | [], _, bu, bl => .nohit bu bl
  | gb :: rest, i, bu, bl =>
      if kmin ≤ gb.1 ∧ gb.2 ≤ kmax then .hit i
      else
        let bu' := if gb.1 < kmin then
            match bu with
            | none => some (i, kmin - gb.1)
            | some jd => if kmin - gb.1 < jd.2 then some (i, kmin - gb.1)
                         else some jd
          else bu
        let bl' := if kmax < gb.2 then
            match bl with
            | none => some (i, gb.2 - kmax)
            | some jd => if gb.2 - kmax < jd.2 then some (i, gb.2 - kmax)
                         else some jd
          else bl
        multiScanGo kmin kmax rest (i + 1) bu' bl'

/-- The part of `ams_select_multi::select` after the pivot vector has been
agreed on (part_004:251-346): compute the per-pivot local bounds with
`get_bounds<false>`, one all-reduce sums all `2d` of them, then the
hit-test loop either returns — taking the full upper bound of the hit pivot
when `global_lb < kmin` (part_004:275-281), else resolving ties via
`find_eq_pos` — or the live range is refined using the best upper and lower
pivots (the best-index bookkeeping stores `(index, diff)` so that
`global_ub = kmin - diff` and `global_lb = kmax + diff` are recovered
exactly), with the `tlx_die` check `0 < new_global_size <= global_size`. -/
def amsMultiAfterPivots (ws : List WSel) (kmin kmax gsize : Int)
    (ncoll : Nat) (pivots : List EKey) : StepRes :=
  let bss := pivots.map fun pv => ws.map fun w => getBoundsLocal w pv
  let gbs := bss.map fun bs =>
    (sumZ (bs.map Bounds.ubPos), sumZ (bs.map Bounds.lbPos))
  let nc2 := ncoll + 1
  match multiScanGo kmin kmax gbs 0 none none with
  | .hit i =>
      match bss.get? i, gbs.get? i with
      | some bs, some gb =>
          if gb.2 < kmin then
            .done ((ws.zip bs).map fun wb =>
              (wb.2.ubIt, wb.1.minIdx + wb.2.ubPos)) nc2
          else
            match findEqPosAll gb.1 gb.2 (kmin - gb.2) ws bs with
            | none => .dead
            | some (res, nc) => .done res (nc2 + nc)
      | _, _ => .dead
  | .nohit bu bl =>
      let refineU : Option (List WSel) :=
        match bu with
        | none => some ws
        | some iu =>
            match bss.get? iu.1 with
            | none => none
            | some bs => some ((ws.zip bs).map fun wb =>
                ⟨wb.1.tree, wb.1.minIdx + wb.2.ubPos, wb.1.maxIdx⟩)
      match refineU with
      | none => .dead
      | some wsU =>
          let refineB : Option (List WSel) :=
            match bl with
            | none => some wsU
            | some il =>
                match bss.get? il.1 with
                | none => none
                | some bs => some (((ws.zip wsU).zip bs).map fun wwb =>
                    ⟨wwb.1.2.tree, wwb.1.2.minIdx,
                      wwb.1.1.minIdx + wwb.2.lbPos⟩)
          match refineB with
          | none => .dead
          | some ws' =>
              let gubU : Int := match bu with
                | none => 0
                | some iu => kmin - iu.2
              let gsz1 := gsize - gubU
              let gsz2 := match bl with
                | none => gsz1
                | some il => gsz1 - (gsize - (kmax + il.2))
              if 0 < gsz2 ∧ gsz2 ≤ gsize then
                .again ws' (kmin - gubU) (kmax - gubU) gsz2 nc2
              else .dead

/-- `ams_select_multi::select` (part_004:154-347), fueled, for `d` pivots
per round: after the entry die-checks and the shared `kmin == 1` fast path,
`d` candidates per worker are drawn with the round's geometric parameter
(die-checked to lie in `[0, 1]`) and reduced component-wise, and
`amsMultiAfterPivots` finishes the round; a refinement outcome recurses
with the per-worker draw counter advanced by `d`. -/
noncomputable def amsMultiGo (g : Nat → Nat → ℝ → Nat) (d : Nat) :
    Nat → List WSel → Int → Int → Int → Nat → Nat →
      Option (List (Int × Int) × Nat)
  | 0, _, _, _, _, _, _ => none
  | fuel + 1, ws, kmin, kmax, gsize, ctr, ncoll =>
    if ¬ ws.all (fun w => decide (w.minIdx ≤ w.maxIdx)) then none
    else if ¬ (kmin ≤ kmax ∧ kmin ≤ gsize) then none
    else if kmin = 1 ∨ kmax = 1 then kminOnePath ws ncoll
    else
      let pv? :=
        if kmin < gsize - kmax then
          if 0 ≤ pCase1 kmin kmax ∧ pCase1 kmin kmax ≤ 1 then
            multiPivots1 g ws ctr (pCase1 kmin kmax) d
          else none
        else
          if 0 ≤ pCase2 kmin kmax gsize ∧ pCase2 kmin kmax gsize ≤ 1 then
            multiPivots2 g ws ctr (pCase2 kmin kmax gsize) d
          else none
      match pv? with
      | none => none
      | some pivots =>
          match amsMultiAfterPivots ws kmin kmax gsize (ncoll + 1) pivots with
          | .dead => none
          | .done res nc => some (res, nc)
          | .again ws' kmin' kmax' gsize' nc =>
              amsMultiGo g d fuel ws' kmin' kmax' gsize' (ctr + d) nc

/-- `ams_select_multi::operator()` (part_004:85-147): same wrapper shape as
the single-pivot variant (early return before any collective on
`kmin > kmax || kmax == 0`, then the global-size all-reduce and size
die-check). -/
noncomputable def amsMultiProto (g : Nat → Nat → ℝ → Nat) (d fuel : Nat)
    (ws : List BTree) (kmin kmax : Nat) : Option (List (Int × Int) × Nat) :=
  if kmax < kmin ∨ kmax = 0 then
    some (ws.map fun _ => ((0 : Int), (0 : Int)), 0)
  else
    let gsize : Nat := (ws.map BTree.size).foldr (· + ·) 0
    if ¬ kmin ≤ gsize then none
    else
      amsMultiGo g d fuel (ws.map fun t => ⟨t, 0, (t.size : Int)⟩)
        (kmin : Int) (kmax : Int) (gsize : Int) 0 1

end ProtocolReal

section ProtocolClaims

open scoped Classical

/-- A conditional unfolding of one Case-2 round of `ams_select::select`:
when the entry die-checks pass, neither bound of the target range is 1, the
Case-2 branch is selected, and the geometric parameter lies in `[0, 1]`,
the round draws Case-2 candidates, max-reduces them, and continues with
`amsAfterPivot`. -/
theorem amsSelectGo_case2_round (g : Nat → Nat → ℝ → Nat) (fuel : Nat)
    (ws : List WSel) (kmin kmax gsize : Int) (ctr ncoll : Nat)
    (h1 : ws.all (fun w => decide (w.minIdx ≤ w.maxIdx)) = true)
    (h2 : kmin ≤ kmax ∧ kmin ≤ gsize)
    (h3 : ¬(kmin = 1 ∨ kmax = 1))
    (h4 : ¬ kmin < gsize - kmax)
    (hp : 0 ≤ pCase2 kmin kmax gsize ∧ pCase2 kmin kmax gsize ≤ 1) :
    amsSelectGo g (fuel + 1) ws kmin kmax gsize ctr ncoll =
      match drawCandsCase2 g ws ctr (pCase2 kmin kmax gsize) with
      | none => none
      | some cands =>
          match amsAfterPivot ws kmin kmax gsize (ncoll + 1)
              (reduceMax cands) with
          | .dead => none
          | .done res nc => some (res, nc)
          | .again ws' kmin' kmax' gsize' nc =>
              amsSelectGo g fuel ws' kmin' kmax' gsize' (ctr + 1) nc := by
  simp only [amsSelectGo]
  rw [if_neg (by simp [h1]), if_neg (by simp [h2]), if_neg h3, if_neg h4,
    if_pos hp]

/-- The matching Case-1 unfolding: candidates are drawn with parameter
`pCase1 kmin kmax` and min-reduced. -/
theorem amsSelectGo_case1_round (g : Nat → Nat → ℝ → Nat) (fuel : Nat)
    (ws : List WSel) (kmin kmax gsize : Int) (ctr ncoll : Nat)
    (h1 : ws.all (fun w => decide (w.minIdx ≤ w.maxIdx)) = true)
    (h2 : kmin ≤ kmax ∧ kmin ≤ gsize)
    (h3 : ¬(kmin = 1 ∨ kmax = 1))
    (h4 : kmin < gsize - kmax)
    (hp : 0 ≤ pCase1 kmin kmax ∧ pCase1 kmin kmax ≤ 1) :
    amsSelectGo g (fuel + 1) ws kmin kmax gsize ctr ncoll =
      match drawCandsCase1 g ws ctr (pCase1 kmin kmax) with
      | none => none
      | some cands =>
          match amsAfterPivot ws kmin kmax gsize (ncoll + 1)
              (reduceMin cands) with
          | .dead => none
          | .done res nc => some (res, nc)
          | .again ws' kmin' kmax' gsize' nc =>
              amsSelectGo g fuel ws' kmin' kmax' gsize' (ctr + 1) nc := by
  simp only [amsSelectGo]
  rw [if_neg (by simp [h1]), if_neg (by simp [h2]), if_neg h3, if_pos h4,
    if_pos hp]

/-- Sequencing a mapped list of everywhere-defined optional values yields
the mapped list, pointwise. -/
theorem optList_map_forall_some {α β : Type} (l : List α) (f : α → Option β)
    (h : ∀ x ∈ l, ∃ y, f x = some y) :
    ∃ res, optList (l.map f) = some res ∧ res.length = l.length ∧
      ∀ (i : Nat) (x : α), l.get? i = some x → res.get? i = f x := by
  induction l with
  | nil => exact ⟨[], rfl, rfl, fun i x hx => by simp at hx⟩
  | cons x xs ih =>
      obtain ⟨y, hy⟩ := h x (List.mem_cons_self x xs)
      obtain ⟨res, hres, hlen, hpt⟩ := ih fun z hz => h z (List.mem_cons_of_mem x hz)
      refine ⟨y :: res, ?_, by simp [hlen], ?_⟩
      · simp only [List.map_cons, hy, optList, hres, Option.map_some']
      · intro i z hz
        cases i with
        | zero =>
            simp only [List.get?] at hz
            cases hz
            simpa using hy.symm
        | succ j =>
            simp only [List.get?] at hz ⊢
            exact hpt j z hz

/-- `enumFrom` indexing. -/
theorem enumFrom_get? {α : Type} :
    ∀ (l : List α) (j i : Nat),
      (List.enumFrom j l).get? i = (l.get? i).map fun a => (j + i, a)
  | [], _, _ => by simp [List.enumFrom]
  | x :: xs, j, 0 => by simp [List.enumFrom]
  | x :: xs, j, i + 1 => by
      simp only [List.enumFrom, List.get?]
      rw [enumFrom_get? xs (j + 1) i]
      have : j + 1 + i = j + (i + 1) := by omega
      rw [this]

/-- For a well-formed tree and an in-range index, `get_key(find_rank(i))`
is the key at index `i` of the sorted key sequence. -/
theorem keyAtRank_sorted (t : BTree) (i : Int) (hwf : t.wf = true)
    (h0 : 0 ≤ i) (hi : i < (t.size : Int)) :
    keyAtRank t i = (t.toList.map entryKey).get? i.toNat ∧
      ((t.toList.map entryKey).get? i.toNat).isSome = true := by
  have hsz := BTree.wf_sizeInv t hwf
  have hlen := BTree.size_toList t hsz
  have hlt : i.toNat < t.toList.length := by omega
  constructor
  · rw [keyAtRank, if_neg (by omega), BTree.findRank_toList t hsz]
    rw [List.get?_map]
  · rw [List.get?_map]
    rw [List.get?_eq_get (by simpa using hlt)]
    rfl

section C7Support

open scoped Classical

/-- The Case-1 geometric parameter lies in `[0, 1]` whenever
`2 ≤ kmin ≤ kmax` (so the round's `tlx_die_unless(0 <= p && p <= 1)`
passes). -/
theorem pCase1_unit (kmin kmax : Int) (h2 : 2 ≤ kmin) (hle : kmin ≤ kmax) :
    0 ≤ pCase1 kmin kmax ∧ pCase1 kmin kmax ≤ 1 := by
  have hb0 : (0 : ℝ) ≤ ((kmin : ℝ) - 1) / (kmax : ℝ) := by
    apply div_nonneg
    · have : (2 : ℝ) ≤ (kmin : ℝ) := by exact_mod_cast h2
      linarith
    · have : (2 : ℝ) ≤ (kmax : ℝ) := by exact_mod_cast le_trans h2 hle
      linarith
  have hb1 : ((kmin : ℝ) - 1) / (kmax : ℝ) ≤ 1 := by
    rw [div_le_one (by
      have : (2 : ℝ) ≤ (kmax : ℝ) := by exact_mod_cast le_trans h2 hle
      linarith)]
    have : (kmin : ℝ) ≤ (kmax : ℝ) := by exact_mod_cast hle
    linarith
  have he0 : (0 : ℝ) ≤ (1 : ℝ) / ((kmax - kmin + 1 : Int) : ℝ) := by
    apply div_nonneg zero_le_one
    have : (0 : ℝ) < ((kmax - kmin + 1 : Int) : ℝ) := by
      exact_mod_cast (by omega : (0 : Int) < kmax - kmin + 1)
    linarith
  have hpow0 : (0 : ℝ) ≤ (((kmin : ℝ) - 1) / (kmax : ℝ)) ^
      ((1 : ℝ) / ((kmax - kmin + 1 : Int) : ℝ)) :=
    Real.rpow_nonneg hb0 _
  have hpow1 : (((kmin : ℝ) - 1) / (kmax : ℝ)) ^
      ((1 : ℝ) / ((kmax - kmin + 1 : Int) : ℝ)) ≤ 1 :=
    Real.rpow_le_one hb0 hb1 he0
  constructor
  · rw [pCase1]; linarith
  · rw [pCase1]; linarith

/-- The Case-2 geometric parameter lies in `[0, 1]` whenever
`1 ≤ kmin ≤ kmax ≤ gsize`. -/
theorem pCase2_unit (kmin kmax gsize : Int) (h1 : 1 ≤ kmin)
    (hle : kmin ≤ kmax) (hgs : kmax ≤ gsize) :
    0 ≤ pCase2 kmin kmax gsize ∧ pCase2 kmin kmax gsize ≤ 1 := by
  have hden : (0 : ℝ) < (gsize : ℝ) - (kmin : ℝ) + 1 := by
    have : (kmin : ℝ) ≤ (gsize : ℝ) := by exact_mod_cast le_trans hle hgs
    linarith
  have hb0 : (0 : ℝ) ≤ ((gsize : ℝ) - (kmax : ℝ)) / ((gsize : ℝ) - (kmin : ℝ) + 1) := by
    apply div_nonneg _ (le_of_lt hden)
    have : (kmax : ℝ) ≤ (gsize : ℝ) := by exact_mod_cast hgs
    linarith
  have hb1 : ((gsize : ℝ) - (kmax : ℝ)) / ((gsize : ℝ) - (kmin : ℝ) + 1) ≤ 1 := by
    rw [div_le_one hden]
    have : (kmin : ℝ) ≤ (kmax : ℝ) := by exact_mod_cast hle
    linarith
  have he0 : (0 : ℝ) ≤ (1 : ℝ) / ((kmax - kmin + 1 : Int) : ℝ) := by
    apply div_nonneg zero_le_one
    have : (0 : ℝ) < ((kmax - kmin + 1 : Int) : ℝ) := by
      exact_mod_cast (by omega : (0 : Int) < kmax - kmin + 1)
    linarith
  have hpow0 := Real.rpow_nonneg hb0
    ((1 : ℝ) / ((kmax - kmin + 1 : Int) : ℝ))
  have hpow1 := Real.rpow_le_one hb0 hb1 he0
  constructor
  · rw [pCase2]; linarith
  · rw [pCase2]; linarith

/-- Every Case-1 candidate of every worker is defined, and equals the key
at sorted position `min_idx + g` of the worker's tree when the draw is
inside the live range, else the `max()` sentinel `⊤`. -/
theorem drawCandsCase1_spec (g : Nat → Nat → ℝ → Nat) (ws : List WSel)
    (ctr : Nat) (p : ℝ)
    (hwf : ∀ w ∈ ws, w.tree.wf = true ∧ 0 ≤ w.minIdx ∧
      w.maxIdx ≤ (w.tree.size : Int)) :
    ∃ cands, drawCandsCase1 g ws ctr p = some cands ∧
      cands.length = ws.length ∧
      ∀ (i : Nat) (w : WSel), ws.get? i = some w →
        cands.get? i = some (
          if ((g i ctr p : Nat) : Int) < w.maxIdx - w.minIdx then
            ofK (((w.tree.toList.map entryKey).get?
              (w.minIdx + ((g i ctr p : Nat) : Int)).toNat).getD 0)
          else ⊤) := by
  have hbody : ∀ iw ∈ ws.enum,
      ∃ y, (fun iw : Nat × WSel =>
        let gv : Int := (g iw.1 ctr p : Nat)
        let w := iw.2
        if gv < w.maxIdx - w.minIdx then
          (keyAtRank w.tree (w.minIdx + gv)).map ofK
        else some (⊤ : EKey)) iw = some y := by
    intro iw hiw
    have hw : iw.2 ∈ ws := List.get?_mem (List.mem_enum_iff_get?.mp hiw)
    obtain ⟨hwfw, h0, hsz⟩ := hwf iw.2 hw
    by_cases hlt : ((g iw.1 ctr p : Nat) : Int) < iw.2.maxIdx - iw.2.minIdx
    · have hidx0 : 0 ≤ iw.2.minIdx + ((g iw.1 ctr p : Nat) : Int) := by
        have : (0 : Int) ≤ ((g iw.1 ctr p : Nat) : Int) := Int.ofNat_nonneg _
        omega
      have hidx1 : iw.2.minIdx + ((g iw.1 ctr p : Nat) : Int) <
          (iw.2.tree.size : Int) := by omega
      obtain ⟨hkey, hsome⟩ := keyAtRank_sorted iw.2.tree _ hwfw hidx0 hidx1
      rcases Option.isSome_iff_exists.mp (by rw [← hkey] at hsome; exact hsome)
        with ⟨k, hk⟩
      exact ⟨ofK k, by simp only [hlt, if_pos, hk, Option.map_some']⟩
    · exact ⟨⊤, by simp only [hlt, if_neg, if_false]⟩
  obtain ⟨res, hres, hlen, hpt⟩ := optList_map_forall_some ws.enum _ hbody
  refine ⟨res, hres, by simpa [List.enum_length] using hlen, ?_⟩
  intro i w hi
  have henum : ws.enum.get? i = some (i, w) := by
    rw [List.enum, enumFrom_get? ws 0 i, hi]
    simp
  rw [hpt i (i, w) henum]
  obtain ⟨hwfw, h0, hsz⟩ := hwf w (List.get?_mem hi)
  by_cases hlt : ((g i ctr p : Nat) : Int) < w.maxIdx - w.minIdx
  · rw [if_pos hlt]
    simp only [hlt, if_pos]
    have hidx0 : 0 ≤ w.minIdx + ((g i ctr p : Nat) : Int) := by
      have : (0 : Int) ≤ ((g i ctr p : Nat) : Int) := Int.ofNat_nonneg _
      omega
    have hidx1 : w.minIdx + ((g i ctr p : Nat) : Int) < (w.tree.size : Int) := by
      omega
    obtain ⟨hkey, hsome⟩ := keyAtRank_sorted w.tree _ hwfw hidx0 hidx1
    rw [hkey]
    rcases Option.isSome_iff_exists.mp hsome with ⟨k, hk⟩
    rw [hk]
    rfl
  · rw [if_neg hlt]
    simp only [hlt, if_neg, if_false]

/-- Every Case-2 candidate of every worker is defined, and equals the key
at sorted position `max_idx - g - 1` of the worker's tree when the draw is
inside the live range, else the `min()` sentinel `⊥`. -/
theorem drawCandsCase2_spec (g : Nat → Nat → ℝ → Nat) (ws : List WSel)
    (ctr : Nat) (p : ℝ)
    (hwf : ∀ w ∈ ws, w.tree.wf = true ∧ 0 ≤ w.minIdx ∧
      w.maxIdx ≤ (w.tree.size : Int)) :
    ∃ cands, drawCandsCase2 g ws ctr p = some cands ∧
      cands.length = ws.length ∧
      ∀ (i : Nat) (w : WSel), ws.get? i = some w →
        cands.get? i = some (
          if ((g i ctr p : Nat) : Int) < w.maxIdx - w.minIdx then
            ofK (((w.tree.toList.map entryKey).get?
              (w.maxIdx - ((g i ctr p : Nat) : Int) - 1).toNat).getD 0)
          else ⊥) := by
  have hbody : ∀ iw ∈ ws.enum,
      ∃ y, (fun iw : Nat × WSel =>
        let gv : Int := (g iw.1 ctr p : Nat)
        let w := iw.2
        if gv < w.maxIdx - w.minIdx then
          (keyAtRank w.tree (w.maxIdx - gv - 1)).map ofK
        else some (⊥ : EKey)) iw = some y := by
    intro iw hiw
    have hw : iw.2 ∈ ws := List.get?_mem (List.mem_enum_iff_get?.mp hiw)
    obtain ⟨hwfw, h0, hsz⟩ := hwf iw.2 hw
    by_cases hlt : ((g iw.1 ctr p : Nat) : Int) < iw.2.maxIdx - iw.2.minIdx
    · have hidx0 : 0 ≤ iw.2.maxIdx - ((g iw.1 ctr p : Nat) : Int) - 1 := by
        omega
      have hidx1 : iw.2.maxIdx - ((g iw.1 ctr p : Nat) : Int) - 1 <
          (iw.2.tree.size : Int) := by
        have : (0 : Int) ≤ ((g iw.1 ctr p : Nat) : Int) := Int.ofNat_nonneg _
        omega
      obtain ⟨hkey, hsome⟩ := keyAtRank_sorted iw.2.tree _ hwfw hidx0 hidx1
      rcases Option.isSome_iff_exists.mp (by rw [← hkey] at hsome; exact hsome)
        with ⟨k, hk⟩
      exact ⟨ofK k, by simp only [hlt, if_pos, hk, Option.map_some']⟩
    · exact ⟨⊥, by simp only [hlt, if_neg, if_false]⟩
  obtain ⟨res, hres, hlen, hpt⟩ := optList_map_forall_some ws.enum _ hbody
  refine ⟨res, hres, by simpa [List.enum_length] using hlen, ?_⟩
  intro i w hi
  have henum : ws.enum.get? i = some (i, w) := by
    rw [List.enum, enumFrom_get? ws 0 i, hi]
    simp
  rw [hpt i (i, w) henum]
  obtain ⟨hwfw, h0, hsz⟩ := hwf w (List.get?_mem hi)
  by_cases hlt : ((g i ctr p : Nat) : Int) < w.maxIdx - w.minIdx
  · rw [if_pos hlt]
    simp only [hlt, if_pos]
    have hidx0 : 0 ≤ w.maxIdx - ((g i ctr p : Nat) : Int) - 1 := by omega
    have hidx1 : w.maxIdx - ((g i ctr p : Nat) : Int) - 1 <
        (w.tree.size : Int) := by
      have : (0 : Int) ≤ ((g i ctr p : Nat) : Int) := Int.ofNat_nonneg _
      omega
    obtain ⟨hkey, hsome⟩ := keyAtRank_sorted w.tree _ hwfw hidx0 hidx1
    rw [hkey]
    rcases Option.isSome_iff_exists.mp hsome with ⟨k, hk⟩
    rw [hk]
    rfl
  · rw [if_neg hlt]
    simp only [hlt, if_neg, if_false]

/-- The multi-pivot vector is defined whenever the per-round candidates
are, and its `i`-th pivot is the min-reduction of the candidates drawn with
the `(ctr + i)`-th PRNG outputs. -/
theorem multiPivots1_spec (g : Nat → Nat → ℝ → Nat) (ws : List WSel)
    (ctr : Nat) (p : ℝ) (d : Nat)
    (h : ∀ i < d, ∃ cands, drawCandsCase1 g ws (ctr + i) p = some cands) :
    ∃ pivots, multiPivots1 g ws ctr p d = some pivots ∧
      pivots.length = d ∧
      ∀ i < d, ∃ cands, drawCandsCase1 g ws (ctr + i) p = some cands ∧
        pivots.get? i = some (reduceMin cands) := by
  have hbody : ∀ i ∈ List.range d,
      ∃ y, (drawCandsCase1 g ws (ctr + i) p).map reduceMin = some y := by
    intro i hi
    obtain ⟨cands, hc⟩ := h i (List.mem_range.mp hi)
    exact ⟨reduceMin cands, by rw [hc]; rfl⟩
  obtain ⟨res, hres, hlen, hpt⟩ := optList_map_forall_some (List.range d) _ hbody
  refine ⟨res, hres, by simpa using hlen, ?_⟩
  intro i hi
  obtain ⟨cands, hc⟩ := h i hi
  refine ⟨cands, hc, ?_⟩
  rw [hpt i i (by simpa using List.get?_range hi), hc]
  rfl

/-- Case-2 analogue of `multiPivots1_spec` with the max-reduction. -/
theorem multiPivots2_spec (g : Nat → Nat → ℝ → Nat) (ws : List WSel)
    (ctr : Nat) (p : ℝ) (d : Nat)
    (h : ∀ i < d, ∃ cands, drawCandsCase2 g ws (ctr + i) p = some cands) :
    ∃ pivots, multiPivots2 g ws ctr p d = some pivots ∧
      pivots.length = d ∧
      ∀ i < d, ∃ cands, drawCandsCase2 g ws (ctr + i) p = some cands ∧
        pivots.get? i = some (reduceMax cands) := by
  have hbody : ∀ i ∈ List.range d,
      ∃ y, (drawCandsCase2 g ws (ctr + i) p).map reduceMax = some y := by
    intro i hi
    obtain ⟨cands, hc⟩ := h i (List.mem_range.mp hi)
    exact ⟨reduceMax cands, by rw [hc]; rfl⟩
  obtain ⟨res, hres, hlen, hpt⟩ := optList_map_forall_some (List.range d) _ hbody
  refine ⟨res, hres, by simpa using hlen, ?_⟩
  intro i hi
  obtain ⟨cands, hc⟩ := h i hi
  refine ⟨cands, hc, ?_⟩
  rw [hpt i i (by simpa using List.get?_range hi), hc]
  rfl

/-- Conditional unfolding of one Case-1 round of `ams_select_multi::select`. -/
theorem amsMultiGo_case1_round (g : Nat → Nat → ℝ → Nat) (d fuel : Nat)
    (ws : List WSel) (kmin kmax gsize : Int) (ctr ncoll : Nat)
    (h1 : ws.all (fun w => decide (w.minIdx ≤ w.maxIdx)) = true)
    (h2 : kmin ≤ kmax ∧ kmin ≤ gsize)
    (h3 : ¬(kmin = 1 ∨ kmax = 1))
    (h4 : kmin < gsize - kmax)
    (hp : 0 ≤ pCase1 kmin kmax ∧ pCase1 kmin kmax ≤ 1) :
    amsMultiGo g d (fuel + 1) ws kmin kmax gsize ctr ncoll =
      match multiPivots1 g ws ctr (pCase1 kmin kmax) d with
      | none => none
      | some pivots =>
          match amsMultiAfterPivots ws kmin kmax gsize (ncoll + 1) pivots with
          | .dead => none
          | .done res nc => some (res, nc)
          | .again ws' kmin' kmax' gsize' nc =>
              amsMultiGo g d fuel ws' kmin' kmax' gsize' (ctr + d) nc := by
  simp only [amsMultiGo]
  rw [if_neg (by simp [h1]), if_neg (by simp [h2]), if_neg h3, if_pos h4,
    if_pos hp]

/-- Conditional unfolding of one Case-2 round of `ams_select_multi::select`. -/
theorem amsMultiGo_case2_round (g : Nat → Nat → ℝ → Nat) (d fuel : Nat)
    (ws : List WSel) (kmin kmax gsize : Int) (ctr ncoll : Nat)
    (h1 : ws.all (fun w => decide (w.minIdx ≤ w.maxIdx)) = true)
    (h2 : kmin ≤ kmax ∧ kmin ≤ gsize)
    (h3 : ¬(kmin = 1 ∨ kmax = 1))
    (h4 : ¬ kmin < gsize - kmax)
    (hp : 0 ≤ pCase2 kmin kmax gsize ∧ pCase2 kmin kmax gsize ≤ 1) :
    amsMultiGo g d (fuel + 1) ws kmin kmax gsize ctr ncoll =
      match multiPivots2 g ws ctr (pCase2 kmin kmax gsize) d with
      | none => none
      | some pivots =>
          match amsMultiAfterPivots ws kmin kmax gsize (ncoll + 1) pivots with
          | .dead => none
          | .done res nc => some (res, nc)
          | .again ws' kmin' kmax' gsize' nc =>
              amsMultiGo g d fuel ws' kmin' kmax' gsize' (ctr + d) nc := by
  simp only [amsMultiGo]
  rw [if_neg (by simp [h1]), if_neg (by simp [h2]), if_neg h3, if_neg h4,
    if_pos hp]

/-- C7: in each probing round with neither target bound equal to 1, in
Case 1 (`k_min < global_size - k_max`) every pivot is drawn by sampling a
geometric variate with parameter
`p = 1 - ((k_min-1)/k_max)^(1/(k_max-k_min+1))` (`pCase1`; it lies in
`[0,1]`, so the round's die-check passes): a worker whose draw `g` is below
its live size proposes the key at local rank `min_idx + g` of its sorted
contents, otherwise `+∞` (the top sentinel), and the `d` per-round
candidate vectors are combined component-wise by a min-reduction — both in
the single-pivot round (`amsSelectGo`, d = 1) and in the multi-pivot round
(`amsMultiGo`).  Symmetrically in Case 2 with parameter `pCase2`, position
`max_idx - g - 1`, `-∞` (the bottom sentinel) and a max-reduction. -/
theorem C7_pivot_drawing (g : Nat → Nat → ℝ → Nat) (d fuel : Nat)
    (ws : List WSel) (kmin kmax gsize : Int) (ctr ncoll : Nat)
    (hwf : ∀ w ∈ ws, w.tree.wf = true ∧ 0 ≤ w.minIdx ∧
      w.maxIdx ≤ (w.tree.size : Int))
    (h1 : ws.all (fun w => decide (w.minIdx ≤ w.maxIdx)) = true)
    (hk : 1 ≤ kmin) (h2 : kmin ≤ kmax ∧ kmin ≤ gsize) (hkx : kmax ≤ gsize)
    (h3 : ¬(kmin = 1 ∨ kmax = 1)) :
    (kmin < gsize - kmax →
      (0 ≤ pCase1 kmin kmax ∧ pCase1 kmin kmax ≤ 1) ∧
      (∀ c2 : Nat, ∃ cands,
        drawCandsCase1 g ws c2 (pCase1 kmin kmax) = some cands ∧
        cands.length = ws.length ∧
        ∀ (i : Nat) (w : WSel), ws.get? i = some w →
          cands.get? i = some (
            if ((g i c2 (pCase1 kmin kmax) : Nat) : Int) < w.maxIdx - w.minIdx
            then ofK (((w.tree.toList.map entryKey).get?
              (w.minIdx +
                ((g i c2 (pCase1 kmin kmax) : Nat) : Int)).toNat).getD 0)
            else ⊤)) ∧
      (amsSelectGo g (fuel + 1) ws kmin kmax gsize ctr ncoll =
        match drawCandsCase1 g ws ctr (pCase1 kmin kmax) with
        | none => none
        | some cands =>
            match amsAfterPivot ws kmin kmax gsize (ncoll + 1)
                (reduceMin cands) with
            | .dead => none
            | .done res nc => some (res, nc)
            | .again ws' kmin' kmax' gsize' nc =>
                amsSelectGo g fuel ws' kmin' kmax' gsize' (ctr + 1) nc) ∧
      (amsMultiGo g d (fuel + 1) ws kmin kmax gsize ctr ncoll =
        match multiPivots1 g ws ctr (pCase1 kmin kmax) d with
        | none => none
        | some pivots =>
            match amsMultiAfterPivots ws kmin kmax gsize (ncoll + 1)
                pivots with
            | .dead => none
            | .done res nc => some (res, nc)
            | .again ws' kmin' kmax' gsize' nc =>
                amsMultiGo g d fuel ws' kmin' kmax' gsize' (ctr + d) nc) ∧
      (∃ pivots, multiPivots1 g ws ctr (pCase1 kmin kmax) d = some pivots ∧
        pivots.length = d ∧
        ∀ i < d, ∃ cands,
          drawCandsCase1 g ws (ctr + i) (pCase1 kmin kmax) = some cands ∧
          pivots.get? i = some (reduceMin cands))) ∧
    (¬ kmin < gsize - kmax →
      (0 ≤ pCase2 kmin kmax gsize ∧ pCase2 kmin kmax gsize ≤ 1) ∧
      (∀ c2 : Nat, ∃ cands,
        drawCandsCase2 g ws c2 (pCase2 kmin kmax gsize) = some cands ∧
        cands.length = ws.length ∧
        ∀ (i : Nat) (w : WSel), ws.get? i = some w →
          cands.get? i = some (
            if ((g i c2 (pCase2 kmin kmax gsize) : Nat) : Int)
                < w.maxIdx - w.minIdx
            then ofK (((w.tree.toList.map entryKey).get?
              (w.maxIdx -
                ((g i c2 (pCase2 kmin kmax gsize) : Nat) : Int) - 1).toNat).getD 0)
            else ⊥)) ∧
      (amsSelectGo g (fuel + 1) ws kmin kmax gsize ctr ncoll =
        match drawCandsCase2 g ws ctr (pCase2 kmin kmax gsize) with
        | none => none
        | some cands =>
            match amsAfterPivot ws kmin kmax gsize (ncoll + 1)
                (reduceMax cands) with
            | .dead => none
            | .done res nc => some (res, nc)
            | .again ws' kmin' kmax' gsize' nc =>
                amsSelectGo g fuel ws' kmin' kmax' gsize' (ctr + 1) nc) ∧
      (amsMultiGo g d (fuel + 1) ws kmin kmax gsize ctr ncoll =
        match multiPivots2 g ws ctr (pCase2 kmin kmax gsize) d with
        | none => none
        | some pivots =>
            match amsMultiAfterPivots ws kmin kmax gsize (ncoll + 1)
                pivots with
            | .dead => none
            | .done res nc => some (res, nc)
            | .again ws' kmin' kmax' gsize' nc =>
                amsMultiGo g d fuel ws' kmin' kmax' gsize' (ctr + d) nc) ∧
      (∃ pivots, multiPivots2 g ws ctr (pCase2 kmin kmax gsize) d
          = some pivots ∧
        pivots.length = d ∧
        ∀ i < d, ∃ cands,
          drawCandsCase2 g ws (ctr + i) (pCase2 kmin kmax gsize) = some cands ∧
          pivots.get? i = some (reduceMax cands))) := by
  constructor
  · intro h4
    have hk2 : 2 ≤ kmin := by omega
    have hp := pCase1_unit kmin kmax hk2 h2.1
    refine ⟨hp, fun c2 => drawCandsCase1_spec g ws c2 _ hwf, ?_, ?_, ?_⟩
    · exact amsSelectGo_case1_round g fuel ws kmin kmax gsize ctr ncoll
        h1 h2 h3 h4 hp
    · exact amsMultiGo_case1_round g d fuel ws kmin kmax gsize ctr ncoll
        h1 h2 h3 h4 hp
    · exact multiPivots1_spec g ws ctr _ d fun i _ => by
        obtain ⟨cands, hc, -, -⟩ := drawCandsCase1_spec g ws (ctr + i) _ hwf
        exact ⟨cands, hc⟩
  · intro h4
    have hp := pCase2_unit kmin kmax gsize hk h2.1 hkx
    refine ⟨hp, fun c2 => drawCandsCase2_spec g ws c2 _ hwf, ?_, ?_, ?_⟩
    · exact amsSelectGo_case2_round g fuel ws kmin kmax gsize ctr ncoll
        h1 h2 h3 h4 hp
    · exact amsMultiGo_case2_round g d fuel ws kmin kmax gsize ctr ncoll
        h1 h2 h3 h4 hp
    · exact multiPivots2_spec g ws ctr _ d fun i _ => by
        obtain ⟨cands, hc, -, -⟩ := drawCandsCase2_spec g ws (ctr + i) _ hwf
        exact ⟨cands, hc⟩

end C7Support

/-- A worker tree holding the single entry (key 1, payload 0). -/
def tOne : BTree := ⟨some (BNode.leaf [(1, 0)])⟩

/-- A worker tree holding two entries with the duplicate key 1. -/
def tTwo : BTree := ⟨some (BNode.leaf [(1, 0), (1, 1)])⟩

/-- A concrete PRNG stream: every geometric draw is 0. -/
noncomputable def gZero : Nat → Nat → ℝ → Nat := fun _ _ _ => 0

/-- C1 (code bug): with two workers each holding the well-formed one-element
tree with key 1 (so `global_size = 2`) and the admissible target range
`k_min = k_max = 1`, both selection variants take the `kmin == 1` fast path:
the agreed pivot is the duplicated global minimum 1 and every worker returns
`rank_of_upper_bound(1) = 1`, so the protocol returns local rank 1 on both
workers and `Σ local_rank = 2 ∉ [k_min, k_max] = [1, 1]` — the union of the
returned prefixes holds both entries instead of exactly `k = 1`.  This
contradicts the claimed contract (and the protocols' own disabled
`check`-mode assertion `kmin <= result_size && kmax >= result_size`). -/
theorem C1_sum_of_ranks_violated :
    tOne.wf = true ∧
    (1 : Nat) ≤ ([tOne, tOne].map BTree.size).foldr (· + ·) 0 ∧
    amsSelectProto gZero 2 [tOne, tOne] 1 1 = some ([(1, 1), (1, 1)], 2) ∧
    amsMultiProto gZero 16 2 [tOne, tOne] 1 1 = some ([(1, 1), (1, 1)], 2) ∧
    sumZ (([((1 : Int), (1 : Int)), (1, 1)]).map Prod.snd) = 2 ∧
    ¬ ((2 : Int) ≤ 1) := by
  refine ⟨by decide, by decide, by decide, by decide, by decide, by decide⟩

/-- C2 (code bug): two workers, each holding the well-formed two-element
tree with both keys 1, target `k = 3`.  Worker 1 lands in the "take some"
branch of `find_eq_pos` with `want − (prefsum − mine) = 3 − (4 − 2) = 1`:
the claim (and the spec) require the returned iterator to be the lower
bound advanced by that one slot (position 1), matching its local rank 1.
The source advances the dead local variable `lb_it` and returns the
*unadvanced* copy, so the protocol yields (iterator position 0, local rank
1): the iterator's prefix holds 0 ≠ 1 elements. -/
theorem C2_unadvanced_iterator :
    tTwo.wf = true ∧
    amsSelectProto gZero 2 [tTwo, tTwo] 3 3 = some ([(2, 2), (0, 1)], 4) ∧
    findEqPosLocal ⟨2, 0, 2, 0⟩ 0 3 4 = (0, 1) ∧
    ((tTwo.toList.take ((0 : Int)).toNat).length : Int) ≠ 1 := by
  have hstart : amsSelectProto gZero 2 [tTwo, tTwo] 3 3
      = amsSelectGo gZero 2 [⟨tTwo, 0, 2⟩, ⟨tTwo, 0, 2⟩] 3 3 4 0 1 := rfl
  have hp : pCase2 3 3 4 = 1 / 2 := by
    unfold pCase2
    norm_num
  refine ⟨by decide, ?_, by decide, by decide⟩
  rw [hstart, amsSelectGo_case2_round gZero 1 _ 3 3 4 0 1 (by decide)
    (by decide) (by decide) (by decide) (by rw [hp]; norm_num)]
  decide

/-- Witness for C7 at a concrete Case-1 configuration: one worker holding
`tTwo` with live range `[0, 2)`, target `kmin = kmax = 2`, global size 10
(so `kmin < gsize - kmax`). -/
theorem C7_pivot_drawing_witness :
    (∀ w ∈ [(⟨tTwo, 0, 2⟩ : WSel)], w.tree.wf = true ∧ 0 ≤ w.minIdx ∧
      w.maxIdx ≤ (w.tree.size : Int)) ∧
    ((2 : Int) < 10 - 2) ∧
    (0 ≤ pCase1 2 2 ∧ pCase1 2 2 ≤ 1) :=
  have h := C7_pivot_drawing gZero 2 1 [⟨tTwo, 0, 2⟩] 2 2 10 0 0
    (by decide) (by decide) (by decide) (by decide) (by decide) (by decide)
  ⟨by decide, by decide, (h.1 (by decide)).1⟩

/-- The seed the engine passes to its selection protocol
(reservoir.hpp:328-331 — the `reservoir` constructor initialiser
`select_(comm, seed + static_cast<size_t>(comm.size() + comm.rank()))`);
`size_t` arithmetic is modulo `2^64`. -/
def reservoirSelectSeed (seed commSize rank : Nat) : Nat :=
  (seed + (commSize + rank)) % 2 ^ 64

/-- The seed of the engine's own admission PRNG
(`rng_(seed + static_cast<size_t>(comm.rank()))`, reservoir.hpp:330). -/
def reservoirEngineSeed (seed rank : Nat) : Nat :=
  (seed + rank) % 2 ^ 64

/-- C8 (code bug): the engine's admission PRNG is indeed seeded per worker
as `user_seed + worker_rank`, but the single-pivot SelectionProtocol is
constructed with `seed + comm.size() + comm.rank()`, which differs across
the workers of the same communicator — e.g. seeds 2 and 3 on the two ranks
of a size-2 communicator with user seed 0 — contradicting the claim and the
`ams_select` constructor's own documentation ("The seed needs to be
identical on every PE", ams_select.hpp:56-57). -/
theorem C8_selector_seed_differs_across_workers :
    reservoirEngineSeed 0 0 = 0 ∧ reservoirEngineSeed 0 1 = 1 ∧
    reservoirSelectSeed 0 2 0 = 2 ∧ reservoirSelectSeed 0 2 1 = 3 ∧
    reservoirSelectSeed 0 2 0 ≠ reservoirSelectSeed 0 2 1 := by
  refine ⟨by decide, by decide, by decide, by decide, by decide⟩

/-- C9: the selection protocols are deterministic.  Both variants are pure
functions of the per-worker trees, the target range and the PRNG draw
streams (which the seed determines): two runs with equal seeds (hence equal
draw streams) and equal inputs produce identical per-worker (iterator,
local rank) splitters. -/
theorem C9_protocol_deterministic (g1 g2 : Nat → Nat → ℝ → Nat)
    (d fuel : Nat) (ws1 ws2 : List BTree) (kmin1 kmin2 kmax1 kmax2 : Nat)
    (hg : g1 = g2) (hw : ws1 = ws2) (hmin : kmin1 = kmin2)
    (hmax : kmax1 = kmax2) :
    amsSelectProto g1 fuel ws1 kmin1 kmax1
        = amsSelectProto g2 fuel ws2 kmin2 kmax2 ∧
      amsMultiProto g1 d fuel ws1 kmin1 kmax1
        = amsMultiProto g2 d fuel ws2 kmin2 kmax2 := by
  subst hg hw hmin hmax
  exact ⟨rfl, rfl⟩

/-- Witness for C9 at concrete equal inputs. -/
theorem C9_protocol_deterministic_witness :
    amsSelectProto gZero 2 [tOne] 1 1 = amsSelectProto gZero 2 [tOne] 1 1 ∧
      amsMultiProto gZero 16 2 [tOne] 1 1
        = amsMultiProto gZero 16 2 [tOne] 1 1 :=
  C9_protocol_deterministic gZero gZero 16 2 [tOne] [tOne] 1 1 1 1
    rfl rfl rfl rfl

/-- C10: for every tree collection and every call violating the stated
precondition (`kmin > kmax` or `kmax = 0`), both selector variants return
the pair (begin iterator, local rank 0) on every worker immediately
(ams_select.hpp:71-74, part_004:90-93): the early return precedes every
collective operation (the collective counter of the result is 0), and the
trees — which the protocols only ever access through a const reference —
are untouched. -/
theorem C10_early_return_on_invalid_range (g : Nat → Nat → ℝ → Nat)
    (d fuel : Nat) (ws : List BTree) (kmin kmax : Nat)
    (h : kmax < kmin ∨ kmax = 0) :
    amsSelectProto g fuel ws kmin kmax
        = some (ws.map fun _ => ((0 : Int), (0 : Int)), 0) ∧
      amsMultiProto g d fuel ws kmin kmax
        = some (ws.map fun _ => ((0 : Int), (0 : Int)), 0) := by
  constructor
  · rw [amsSelectProto, if_pos h]
  · rw [amsMultiProto, if_pos h]

/-- Witness for C10 with `kmin = 2 > 1 = kmax` on a nonempty tree list. -/
theorem C10_early_return_witness :
    ((1 : Nat) < 2 ∨ (1 : Nat) = 0) ∧
      amsSelectProto gZero 3 [tOne, tTwo] 2 1
        = some ([((0 : Int), (0 : Int)), (0, 0)], 0) ∧
      amsMultiProto gZero 16 3 [tOne, tTwo] 2 1
        = some ([((0 : Int), (0 : Int)), (0, 0)], 0) := by
  refine ⟨Or.inl (by decide), ?_⟩
  have h := C10_early_return_on_invalid_range gZero 16 3 [tOne, tTwo] 2 1
    (Or.inl (by decide))
  exact ⟨h.1, h.2⟩

end ProtocolClaims


/-- C6: after every completed tree operation (insert, erase by iterator,
split at a key, join, bulk load), every inner node's `subtree_size` equals
the sum over its children of the child's `slotuse` if the child is a leaf
and the child's `subtree_size` otherwise (`sizeInv`), and the tree's
`size()` — the root's `slotuse` for a leaf root, its `subtree_size`
otherwise — equals the number of stored entries. -/
theorem C6_subtree_size_invariant :
    (∀ (t : BTree) (e : Entry) (t' : BTree), t.wf = true → t.cap = true →
      t.insertE e = some t' →
      t'.sizeInv = true ∧ t'.size = t'.toList.length) ∧
    (∀ (t : BTree) (it : EIter) (t' : BTree), t.shInv = true →
      t.eraseIt it = some t' →
      t'.sizeInv = true ∧ t'.size = t'.toList.length) ∧
    (∀ (t : BTree) (key : Key) (L R : BTree), t.wf = true → t.cap = true →
      t.splitKey key = some (L, R) →
      (L.sizeInv = true ∧ L.size = L.toList.length) ∧
      (R.sizeInv = true ∧ R.size = R.toList.length)) ∧
    (∀ (t other J : BTree), t.shInv = true → other.shInv = true →
      t.join other = some J →
      J.sizeInv = true ∧ J.size = J.toList.length) ∧
    (∀ (items : List Entry) (t : BTree), BTree.bulkLoad items = some t →
      t.sizeInv = true ∧ t.size = t.toList.length) := by
  refine ⟨?_, ?_, ?_, ?_, ?_⟩
  · intro t e t' hwf hcap hr
    obtain ⟨t'', heq, hwf', hcap', htl, hsz⟩ := insertE_spec t e hwf hcap
    rw [heq] at hr
    obtain rfl := Option.some_inj.mp hr
    have hsI : t''.sizeInv = true :=
      BTree.shInv_sizeInv _ (BTree.wf_shInv _ hwf')
    exact ⟨hsI, BTree.size_toList _ hsI⟩
  · intro t it t' hsh hr
    have h1 := eraseIt_shInv t it t' hsh hr
    have hsI := BTree.shInv_sizeInv _ h1
    exact ⟨hsI, BTree.size_toList _ hsI⟩
  · intro t key L R hwf hcap hr
    obtain ⟨root⟩ := t
    cases root with
    | none =>
        have hr' : some ((⟨none⟩ : BTree), (⟨none⟩ : BTree))
            = some (L, R) := hr
        simp only [Option.some.injEq, Prod.mk.injEq] at hr'
        obtain ⟨h1, h2⟩ := hr'
        subst h1
        subst h2
        exact ⟨⟨rfl, rfl⟩, ⟨rfl, rfl⟩⟩
    | some n =>
        have hr' : splitRecursive key n = some (L, R) := hr
        obtain ⟨L0, R0, heq, hLT, hRT, hLS, hRS, -, -⟩ :=
          splitRec_spec key n hwf hcap
        rw [heq] at hr'
        simp only [Option.some.injEq, Prod.mk.injEq] at hr'
        obtain ⟨h1, h2⟩ := hr'
        subst h1
        subst h2
        have hLsI := BTree.shInv_sizeInv _ hLS
        have hRsI := BTree.shInv_sizeInv _ hRS
        exact ⟨⟨hLsI, BTree.size_toList _ hLsI⟩,
          ⟨hRsI, BTree.size_toList _ hRsI⟩⟩
  · intro t other J ht ho hr
    simp only [BTree.join] at hr
    by_cases hte : t.empty = true
    · rw [if_pos hte] at hr
      obtain rfl := Option.some_inj.mp hr
      have hsI := BTree.shInv_sizeInv _ ho
      exact ⟨hsI, BTree.size_toList _ hsI⟩
    rw [if_neg hte] at hr
    by_cases hoe : other.empty = true
    · rw [if_pos hoe] at hr
      obtain rfl := Option.some_inj.mp hr
      have hsI := BTree.shInv_sizeInv _ ht
      exact ⟨hsI, BTree.size_toList _ hsI⟩
    rw [if_neg hoe] at hr
    cases hlast : (t.toList.map entryKey).getLast? with
    | none =>
        rw [hlast] at hr
        exact Option.noConfusion hr
    | some lastk =>
        rw [hlast] at hr
        cases htr : t.root with
        | none =>
            rw [htr] at hr
            cases hor : other.root with
            | none =>
                rw [hor] at hr
                exact Option.noConfusion hr
            | some ro =>
                rw [hor] at hr
                exact Option.noConfusion hr
        | some rt =>
            rw [htr] at hr
            cases hor : other.root with
            | none =>
                rw [hor] at hr
                exact Option.noConfusion hr
            | some ro =>
                rw [hor] at hr
                have hr2 : (if ro.height ≤ rt.height then
                    joinGreaterT t lastk other
                  else joinLessT other lastk t) = some J := hr
                by_cases hh : ro.height ≤ rt.height
                · rw [if_pos hh] at hr2
                  obtain ⟨J0, heq, hJS, -, -, -, -⟩ :=
                    jgT_spec t lastk other ht ho (by
                      intro rt' ot' h1 h2
                      rw [htr] at h1
                      rw [hor] at h2
                      obtain rfl := Option.some_inj.mp h1
                      obtain rfl := Option.some_inj.mp h2
                      exact hh)
                  rw [heq] at hr2
                  obtain rfl := Option.some_inj.mp hr2
                  have hsI := BTree.shInv_sizeInv _ hJS
                  exact ⟨hsI, BTree.size_toList _ hsI⟩
                · rw [if_neg hh] at hr2
                  obtain ⟨J0, heq, hJS, -, -, -, -⟩ :=
                    jlT_spec other lastk t ho ht (by
                      intro rt' ot' h1 h2
                      rw [hor] at h1
                      rw [htr] at h2
                      obtain rfl := Option.some_inj.mp h1
                      obtain rfl := Option.some_inj.mp h2
                      exact le_of_lt (Nat.lt_of_not_le hh))
                  rw [heq] at hr2
                  obtain rfl := Option.some_inj.mp hr2
                  have hsI := BTree.shInv_sizeInv _ hJS
                  exact ⟨hsI, BTree.size_toList _ hsI⟩
  · intro items t hr
    obtain ⟨t0, heq, hsI, htl, hsz⟩ := bulkLoad_spec items
    rw [heq] at hr
    obtain rfl := Option.some_inj.mp hr
    refine ⟨hsI, ?_⟩
    rw [hsz, htl]

theorem C6_subtree_size_invariant_witness :
    ∃ t' : BTree,
      (⟨some (.leaf [((1 : Int), (10 : Int)), (2, 20)])⟩ : BTree).insertE
        (3, 30) = some t' ∧
      t'.sizeInv = true ∧ t'.size = t'.toList.length := by
  have h := C6_subtree_size_invariant.1
    ⟨some (.leaf [((1 : Int), (10 : Int)), (2, 20)])⟩ (3, 30)
    ⟨some (.leaf [(1, 10), (2, 20), (3, 30)])⟩
    (by decide) (by decide) (by rfl)
  exact ⟨⟨some (.leaf [(1, 10), (2, 20), (3, 30)])⟩, by rfl, h⟩

end Spec2Proof
